import Mathlib

/-! # The group-by execution plan of the BQL engine

A shallow embedding of `bql/execution/groupby_execution_plan.go`: the window
buffers, the emit gate, the cross-product evaluation with filter, projection
and grouping, and the differential emitter, followed by the properties the
specification states about them.

Conventions of the embedding
* Go values have value semantics here: a slice is a `List`, a Go map is an
  association list with unique keys (`AMap`), a pointer to a tuple is the tuple.
* `int64` values are `Int`; arithmetic on them is wrapped with `wrapInt64`.
* `time.Time` is the number of nanoseconds since the epoch, `float64` values
  are counted in units of `2^-1074` (see `F64`).
* A Go `error` is a `Failure.error`, a run-time panic a `Failure.panic`.
* The order in which Go ranges over `ep.buffers` is unspecified; the functions
  that range over it take the order of this call as an argument.
-/

set_option autoImplicit false
set_option exponentiation.threshold 5000

namespace GroupbyPlan

/-! ## Association lists standing for Go maps -/

/-- A Go map with string keys: an association list, read by first match. -/
abbrev AMap (β : Type) := List (String × β)

/-- The map lookup `m[k]` with the comma-ok result. -/
def AMap.get {β : Type} : AMap β → String → Option β
  | [], _ => none
  | (k, v) :: rest, key => if k = key then some v else AMap.get rest key

/-- The map assignment `m[k] = v`: an existing binding is replaced in place,
a new one is added at the end. -/
def AMap.set {β : Type} : AMap β → String → β → AMap β
  | [], key, val => [(key, val)]
  | (k, v) :: rest, key, val =>
    if k = key then (k, val) :: rest else (k, v) :: AMap.set rest key val

/-- The builtin `delete(m, k)`. -/
def AMap.erase {β : Type} : AMap β → String → AMap β
  | [], _ => []
  | (k, v) :: rest, key =>
    if k = key then AMap.erase rest key else (k, v) :: AMap.erase rest key

/-- The keys of a map. -/
def AMap.keys {β : Type} (m : AMap β) : List String := m.map Prod.fst

/-! ## Values, tuples and evaluation results -/

/-- A point in time (`time.Time`), in nanoseconds since the epoch. -/
abbrev Time := Int

/-- The dynamic values of package `data` (`data.Value`). `nil` is the zero
value of the interface, which a lookup of a missing key yields. A float is
kept as its bit pattern, a blob as its bytes. -/
inductive Value where
  | nil
  | null
  | bool (b : Bool)
  | int (i : Int)
  | float (bits : Nat)
  | string (s : String)
  | blob (bytes : List Nat)
  | timestamp (t : Time)
  | array (xs : List Value)
  | map (kvs : List (String × Value))

/-- The type `data.Map`. -/
abbrev Map := AMap Value

/-- The indexing `m[k]` of a `data.Map` without the comma-ok result. -/
def Map.index (m : Map) (k : String) : Value := (AMap.get m k).getD Value.nil

/-- The tuples of package `core` (`core.Tuple`). -/
structure Tuple where
  Data : Map
  InputName : String
  Timestamp : Time
  ProcTimestamp : Time
  BatchID : Int
  Trace : List String

/-- The errors the plan creates itself, and those passed on from evaluators
and helpers of other files. -/
inductive Err where
  | unknownInputName (name : String) (known : List String)
  | unknownWindowType
  | emitterNotImplemented
  | timeBasedEmitter
  | external (msg : String)
  deriving DecidableEq

/-- The run-time panics the plan can reach. -/
inductive Panic where
  | sliceBounds
  | divideByZero
  | nilDereference
  | makeslice
  deriving DecidableEq

/-- What ends a call early: a returned `error` or a panic. -/
inductive Failure where
  | error (e : Err)
  | panic (p : Panic)
  deriving DecidableEq

/-! ## Machine arithmetic -/

/-- The value of an `int64` computation: reduction to `[-2^63, 2^63)`. -/
def wrapInt64 (x : Int) : Int := (x + 2 ^ 63) % 2 ^ 64 - 2 ^ 63

/-- The largest `time.Duration`. -/
def maxDuration : Int := 2 ^ 63 - 1

/-- The smallest `time.Duration`. -/
def minDuration : Int := -(2 ^ 63)

/-- The method `Time.Sub` on times without monotonic clock reading: the
difference in nanoseconds, saturated to the range of `time.Duration`. -/
def timeSub (t u : Int) : Int :=
  if t - u > maxDuration then maxDuration
  else if t - u < minDuration then minDuration
  else t - u

/-- A finite `float64`, as the integer number of units of `2^-1074` it is
worth: every finite binary64 number is such a multiple. -/
abbrev F64 := Int

/-- The number of units in `1.0`. -/
def F64.one : Nat := 2 ^ 1074

/-- Rounding of the non-negative rational `a / d` to the nearest integer, ties
to even. -/
def F64.roundHalfEven (a d : Nat) : Nat :=
  let n := a / d
  let r := a % d
  if 2 * r < d then n else if d < 2 * r then n + 1 else n + n % 2

/-- The shifts `2^j, ..., 2, 1` by which `F64.log2` halves its search. -/
def F64.log2Steps : Nat → List Nat
  | 0 => [1]
  | j + 1 => 2 ^ (j + 1) :: F64.log2Steps j

/-- One step of `F64.log2` on the pair of the remaining number and the
exponent found so far. -/
def F64.log2Step (acc : Nat × Nat) (k : Nat) : Nat × Nat :=
  if 2 ^ k ≤ acc.1 then (acc.1 / 2 ^ k, acc.2 + k) else acc

/-- The binary exponent of `q < 2^4096`: the `e` with `2^e <= q < 2^(e+1)`,
and 0 for `q = 0`. -/
def F64.log2 (q : Nat) : Nat :=
  ((F64.log2Steps 11).foldl F64.log2Step (q, 0)).2

/-- Rounding of the non-negative rational `a / den` (in units) to the nearest
binary64 magnitude, ties to even: the spacing is `2^e` units, where `e` leaves
53 significant bits (and is 0 for subnormal numbers). -/
def F64.roundMag (a den : Nat) : Nat :=
  let e := F64.log2 (a / den) - 52
  F64.roundHalfEven a (den * 2 ^ e) * 2 ^ e

/-- A magnitude that binary64 can hold, but for its size: at most 53
significant bits. -/
def F64.isMag (r : Nat) : Prop := ∃ m k, m < 2 ^ 53 ∧ r = m * 2 ^ k

/-- Rounding of the rational `num / den` (in units) to the nearest binary64
number, ties to even (no overflow to infinity is modelled). -/
def F64.round (num : Int) (den : Nat) : F64 :=
  if num < 0 then -((F64.roundMag num.natAbs den : Nat) : Int)
  else ((F64.roundMag num.natAbs den : Nat) : Int)

/-- The conversion `float64(i)` of an integer. -/
def F64.ofInt (i : Int) : F64 := F64.round (i * F64.one) 1

/-- The sum `x + y` of two floats. -/
def F64.add (x y : F64) : F64 := F64.round (x + y) 1

/-- The quotient `x / y` of two floats, for `y > 0`. -/
def F64.div (x y : F64) : F64 := F64.round (x * F64.one) y.natAbs

/-- The method `Duration.Seconds`:
`sec := d / Second; nsec := d % Second; return float64(sec) + float64(nsec)/1e9`. -/
def durationSeconds (d : Int) : F64 :=
  let sec := Int.tdiv d 1000000000
  let nsec := Int.tmod d 1000000000
  F64.add (F64.ofInt sec) (F64.div (F64.ofInt nsec) (F64.ofInt 1000000000))

/-! ## The descriptors delivered by the parser and the analyzer -/

/-- The units of a window or of an emit interval (`parser.IntervalUnit`). -/
inductive IntervalUnit where
  | UnspecifiedIntervalUnit
  | Tuples
  | Seconds
  deriving DecidableEq

/-- The emitter types (`parser.Emitter`). -/
inductive Emitter where
  | UnspecifiedEmitter
  | Istream
  | Dstream
  | Rstream
  deriving DecidableEq

/-- The kinds of relation in a FROM clause (`parser.StreamType`). -/
inductive StreamType where
  | ActualStream
  | UDSFStream
  deriving DecidableEq

/-- An interval `n TUPLES` or `n SECONDS` (`parser.IntervalAST`). -/
structure IntervalAST where
  Value : Int
  Unit : IntervalUnit
  deriving DecidableEq

/-- One emit rule `n TUPLES IN name`, the name being `*` without `IN`. -/
structure StreamEmitIntervalAST where
  IntervalAST : IntervalAST
  Name : String
  deriving DecidableEq

/-- One relation of the FROM clause with its window and its alias
(`parser.AliasedStreamWindowAST`). -/
structure AliasedStreamWindowAST where
  /-- The field `Type`. -/
  Kind : StreamType
  Name : String
  Value : Int
  Unit : IntervalUnit
  Alias : String
  deriving DecidableEq

/-- An expression tree of the statement; the plan never looks into it. -/
structure Expression where
  text : String
  deriving DecidableEq

/-- The function registry (`udf.FunctionRegistry`); the plan only passes it on. -/
structure FunctionRegistry where
  names : List String

/-- The analyzed statement (`LogicalPlan`). -/
structure LogicalPlan where
  GroupingStmt : Bool
  EmitterType : Emitter
  EmitIntervals : List StreamEmitIntervalAST
  Projections : List Expression
  Relations : List AliasedStreamWindowAST
  Filter : Option Expression
  GroupList : List Expression
  Having : Option Expression

/-! ## Evaluators and the plan -/

/-- The interface `Evaluator`: `Eval(input) (data.Value, error)`. -/
structure Evaluator where
  Eval : Map → Except Err Value

/-- One aggregate call of a projection: the evaluator of its argument and the
name of the aggregate function. -/
structure aggrInfo where
  aggrEval : Evaluator
  aggrFun : String

/-- A prepared projection: output path, evaluator, and the aggregate calls it
contains, keyed by their synthetic column names. -/
structure aliasedEvaluator where
  /-- The field `alias`. -/
  outAlias : String
  evaluator : Evaluator
  hasAggregate : Bool
  aggrEvals : AMap aggrInfo

/-- The functions of other files and packages that the plan calls, and the
allocation limit of the runtime. -/
structure Lib where
  /-- The function `prepareProjections`. -/
  prepareProjections : List Expression → FunctionRegistry → Except Err (List aliasedEvaluator)
  /-- The function `prepareFilter`; the result is `nil` without WHERE clause. -/
  prepareFilter : Option Expression → FunctionRegistry → Except Err (Option Evaluator)
  /-- The function `prepareGroupList`. -/
  prepareGroupList : List Expression → FunctionRegistry → Except Err (List Evaluator)
  /-- The function `data.ToBool`. -/
  toBool : Value → Except Err Bool
  /-- The function `assignOutputValue`, returning the map it has written to. -/
  assignOutputValue : Map → String → Value → Except Err Map
  /-- The comparison `Equal(binOp{}).(*compBinOp).cmpOp`. -/
  cmpEq : Value → Value → Except Err Bool
  /-- The function `reflect.DeepEqual` on result rows. -/
  deepEqual : Map → Map → Bool
  /-- The reserved key under which `setMetadata` files the metadata of the
  tuple standing for an alias. -/
  metaKey : String → String
  /-- The metadata of a tuple that `setMetadata` files. -/
  metaValue : Tuple → Value
  /-- The largest capacity `n` for which the builtin `make([]*core.Tuple, 0, n)`
  returns a slice: `make` panics with `cap out of range` when `n` pointers
  take more than the allocation limit of the runtime (`2^48` bytes, that is
  `2^45` pointers, with 48 address bits), and the runtime cannot make a slice
  for which the memory is not there. -/
  maxCap : Int

/-- The window buffer of one relation (`inputBuffer`). -/
structure inputBuffer where
  tuples : List Tuple
  windowSize : Int
  windowType : IntervalUnit

/-- The rows of one group during an evaluation (`tmpGroupData`). -/
structure tmpGroupData where
  group : List Value
  aggData : AMap (List Value)
  nonAggData : Map

/-- The plan (`groupbyExecutionPlan`, with the embedded `commonExecutionPlan`). -/
structure groupbyExecutionPlan where
  projections : List aliasedEvaluator
  groupList : List Evaluator
  filter : Option Evaluator
  groupMode : Bool
  emitterType : Emitter
  emitterRules : AMap IntervalAST
  emitCounters : AMap Int
  relations : List AliasedStreamWindowAST
  buffers : AMap inputBuffer
  curResults : List Map
  prevResults : List Map

/-- The orders in which the two loops of one `Process` call range over
`ep.buffers`: the eviction loop and the collection of `allStreams`. -/
structure IterOrder where
  evict : List String
  eval : List String

/-- The function `CanBuildGroupbyExecutionPlan`. -/
def CanBuildGroupbyExecutionPlan (lp : LogicalPlan) (_reg : FunctionRegistry) : Bool :=
  lp.Having.isNone

/-- The buffer initialisation loop of `NewGroupbyExecutionPlan`. For a tuple
window the slice is made with capacity `rangeValue+1`, computed in `int64`;
`make` panics when that is negative or more than the runtime allocates. -/
def initBuffers (L : Lib) : List AliasedStreamWindowAST → AMap inputBuffer →
    Except Failure (AMap inputBuffer)
  | [], buffers => .ok buffers
  | rel :: rest, buffers =>
    if rel.Unit = IntervalUnit.Tuples
        ∧ (wrapInt64 (rel.Value + 1) < 0 ∨ L.maxCap < wrapInt64 (rel.Value + 1)) then
      .error (Failure.panic Panic.makeslice)
    else
      initBuffers L rest (AMap.set buffers rel.Alias ⟨[], rel.Value, rel.Unit⟩)

/-- The emit rule loop of `NewGroupbyExecutionPlan`. -/
def initEmitRules : List StreamEmitIntervalAST → AMap IntervalAST × AMap Int →
    Except Failure (AMap IntervalAST × AMap Int)
  | [], tables => .ok tables
  | emitRule :: rest, (emitterRules, emitCounters) =>
    if emitRule.IntervalAST.Unit = IntervalUnit.Seconds then
      .error (Failure.error Err.timeBasedEmitter)
    else
      initEmitRules rest
        (AMap.set emitterRules emitRule.Name emitRule.IntervalAST, AMap.set emitCounters "*" 0)

/-- The constructor `NewGroupbyExecutionPlan`. -/
def NewGroupbyExecutionPlan (L : Lib) (lp : LogicalPlan) (reg : FunctionRegistry) :
    Except Failure groupbyExecutionPlan :=
  match L.prepareProjections lp.Projections reg with
  | .error e => .error (Failure.error e)
  | .ok projs =>
  match L.prepareFilter lp.Filter reg with
  | .error e => .error (Failure.error e)
  | .ok filter =>
  match L.prepareGroupList lp.GroupList reg with
  | .error e => .error (Failure.error e)
  | .ok groupList =>
  match initBuffers L lp.Relations [] with
  | .error f => .error f
  | .ok buffers =>
  let defaults : AMap IntervalAST × AMap Int :=
    if lp.EmitIntervals.length = 0 then
      ([("*", ⟨1, IntervalUnit.Tuples⟩)], [("*", 0)])
    else ([], [])
  match initEmitRules lp.EmitIntervals defaults with
  | .error f => .error f
  | .ok (emitterRules, emitCounters) =>
    .ok {
      projections := projs
      groupList := groupList
      filter := filter
      groupMode := lp.GroupingStmt
      emitterType := lp.EmitterType
      emitterRules := emitterRules
      emitCounters := emitCounters
      relations := lp.Relations
      buffers := buffers
      curResults := []
      prevResults := [] }

/-! ## Stream to relation: the window buffers -/

/-- The method `relationKey`. -/
def relationKey (rel : AliasedStreamWindowAST) : String :=
  if rel.Kind = StreamType.ActualStream then rel.Name else rel.Name ++ "/" ++ rel.Alias

/-- The second loop of `addTupleToBuffer`, run on the buffers and on the tuple
of the caller, for a tuple object that no buffer holds (`appendLoopAt` is the
loop for an object that is in the buffers already): with one append the tuple
of the caller is edited and stored, with several a copy is edited and stored
each time. A missing buffer makes `bufferPtr.tuples` dereference nil. -/
def appendLoop (numAppends : Nat) : List AliasedStreamWindowAST → AMap inputBuffer → Tuple →
    (AMap inputBuffer × Tuple) × Option Failure
  | [], buffers, t => ((buffers, t), none)
  | rel :: rest, buffers, t =>
    if t.InputName = relationKey rel then
      let editTuple : Tuple := { t with Data := [(rel.Alias, Value.map t.Data)] }
      let t1 : Tuple := if numAppends > 1 then t else editTuple
      match AMap.get buffers rel.Alias with
      | none => ((buffers, t1), some (Failure.panic Panic.nilDereference))
      | some bufferPtr =>
        appendLoop numAppends rest
          (AMap.set buffers rel.Alias { bufferPtr with tuples := bufferPtr.tuples ++ [editTuple] }) t1
    else appendLoop numAppends rest buffers t

/-- The method `addTupleToBuffer` for a tuple object that no buffer holds
(`addTupleToBufferAt` is the method for an object that is in the buffers
already); the result holds the plan, the tuple of the caller as the call
leaves it, and the error or panic if there is one. -/
def addTupleToBuffer (ep : groupbyExecutionPlan) (t : Tuple) :
    (groupbyExecutionPlan × Tuple) × Option Failure :=
  let numAppends := ep.relations.countP (fun rel => decide (t.InputName = relationKey rel))
  if numAppends = 0 then
    ((ep, t), some (Failure.error
      (Err.unknownInputName t.InputName (ep.relations.map (fun rel => rel.Name)))))
  else
    match appendLoop numAppends ep.relations ep.buffers t with
    | ((buffers, t1), r) => (({ ep with buffers := buffers }, t1), r)

/-- The test `dur.Seconds() <= float64(buffer.windowSize)` of a tuple with
timestamp `ts` against the time `curTupTime` of the current tuple. -/
def inTimeWindow (curTupTime : Time) (windowSize : Int) (ts : Time) : Bool :=
  decide (durationSeconds (timeSub curTupTime ts) ≤ F64.ofInt windowSize)

/-- The body of the loop of `removeOutdatedTuplesFromBuffer` for one buffer.
The slice expression `buffer.tuples[curBufSize-windowSize : curBufSize]` panics
unless `0 <= curBufSize-windowSize <= curBufSize`; the subtraction is in range
of `int64` whenever that holds and out of these bounds with or without
overflow otherwise, so it is not wrapped. -/
def evictBuffer (buffer : inputBuffer) (curTupTime : Time) : Except Failure inputBuffer :=
  let curBufSize : Int := buffer.tuples.length
  if buffer.windowType = IntervalUnit.Tuples then
    if curBufSize > buffer.windowSize then
      let low := curBufSize - buffer.windowSize
      if 0 ≤ low ∧ low ≤ curBufSize then
        .ok { buffer with tuples := buffer.tuples.drop low.toNat }
      else .error (Failure.panic Panic.sliceBounds)
    else .ok buffer
  else if buffer.windowType = IntervalUnit.Seconds then
    .ok { buffer with
      tuples := buffer.tuples.filter
        (fun tup => inTimeWindow curTupTime buffer.windowSize tup.Timestamp) }
  else .error (Failure.error Err.unknownWindowType)

/-- The loop of `removeOutdatedTuplesFromBuffer` over the keys of `ep.buffers`
in the order of this call. -/
def evictLoop (curTupTime : Time) : List String → AMap inputBuffer →
    AMap inputBuffer × Option Failure
  | [], buffers => (buffers, none)
  | key :: rest, buffers =>
    match AMap.get buffers key with
    | none => evictLoop curTupTime rest buffers
    | some buffer =>
      match evictBuffer buffer curTupTime with
      | .error f => (buffers, some f)
      | .ok buffer1 => evictLoop curTupTime rest (AMap.set buffers key buffer1)

/-- The method `removeOutdatedTuplesFromBuffer`. -/
def removeOutdatedTuplesFromBuffer (ep : groupbyExecutionPlan) (order : List String)
    (curTupTime : Time) : groupbyExecutionPlan × Option Failure :=
  match evictLoop curTupTime order ep.buffers with
  | (buffers, r) => ({ ep with buffers := buffers }, r)

/-! ## The emit gate -/

/-- The counting that `shouldEmitNow` does for the rule found under `key`
(the source has the same lines once for the key `*` and once for the input
name). A zero interval makes `%` panic. -/
def countAndCheck (ep : groupbyExecutionPlan) (key : String) (interval : IntervalAST) :
    groupbyExecutionPlan × Except Failure Bool :=
  let counter := (AMap.get ep.emitCounters key).getD 0
  let nextCounter := wrapInt64 (counter + 1)
  if interval.Value = 0 then (ep, .error (Failure.panic Panic.divideByZero))
  else if Int.tmod nextCounter interval.Value = 0 then
    ({ ep with emitCounters := AMap.set ep.emitCounters key 0 }, .ok true)
  else
    ({ ep with emitCounters := AMap.set ep.emitCounters key nextCounter }, .ok false)

/-- The method `shouldEmitNow`. -/
def shouldEmitNow (ep : groupbyExecutionPlan) (t : Tuple) :
    groupbyExecutionPlan × Except Failure Bool :=
  match AMap.get ep.emitterRules "*" with
  | some interval => countAndCheck ep "*" interval
  | none =>
    match AMap.get ep.emitterRules t.InputName with
    | some interval => countAndCheck ep t.InputName interval
    | none => (ep, .ok false)

/-! ## Relation to relation: the query on the buffers -/

/-- Modelled from the spec: `setMetadata` is not under src/. The spec has the
metadata of the tuple (timestamp, processing timestamp, trace) attached under a
reserved key that belongs to the alias. -/
def setMetadata (L : Lib) (holder : Map) (myKey : String) (t : Tuple) : Map :=
  AMap.set holder (L.metaKey myKey) (L.metaValue t)

/-- What an evaluation builds up: the local variables `groups` and `output`
of `performQueryOnBuffer`. -/
structure evalAcc where
  groups : List tmpGroupData
  output : List Map

/-- The loop `for _, t := range myBuffer` of `procCartProd`, left at the first
error. The data holder is one map shared by all iterations. -/
def forTuples {σ : Type} (body : Tuple → Map → σ → (Map × σ) × Option Failure) :
    List Tuple → Map → σ → (Map × σ) × Option Failure
  | [], dataHolder, s => ((dataHolder, s), none)
  | t :: rest, dataHolder, s =>
    match body t dataHolder s with
    | ((dataHolder1, s1), none) => forTuples body rest dataHolder1 s1
    | ((dataHolder1, s1), some f) => ((dataHolder1, s1), some f)

/-- The closure `procCartProd`: the recursion over the remaining keys, calling
`processItem` on the data holder for every element of the product. -/
def procCartProd {σ : Type} (L : Lib) (buffers : AMap inputBuffer)
    (processItem : Map → σ → Except Failure σ) :
    List String → Map → σ → (Map × σ) × Option Failure
  | [], dataHolder, s =>
    match processItem dataHolder s with
    | .ok s1 => ((dataHolder, s1), none)
    | .error f => ((dataHolder, s), some f)
  | myKey :: rest, dataHolder, s =>
    match AMap.get buffers myKey with
    | none => ((dataHolder, s), some (Failure.panic Panic.nilDereference))
    | some myBuffer =>
      forTuples
        (fun t h s1 =>
          procCartProd L buffers processItem rest
            (setMetadata L (AMap.set h myKey (Map.index t.Data myKey)) myKey t) s1)
        myBuffer.tuples dataHolder s

/-- The filter step of `evalItem`: true without filter, else the filter value
converted by `data.ToBool`. -/
def filterPasses (L : Lib) (filter : Option Evaluator) (d : Map) : Except Err Bool :=
  match filter with
  | none => .ok true
  | some f =>
    match f.Eval d with
    | .error e => .error e
    | .ok filterResult => L.toBool filterResult

/-- The loop of `evalItem` that computes the GROUP BY expressions. -/
def evalGroupValues (d : Map) : List Evaluator → Except Err (List Value)
  | [] => .ok []
  | eval :: rest =>
    match eval.Eval d with
    | .error e => .error e
    | .ok value =>
      match evalGroupValues d rest with
      | .error e => .error e
      | .ok values => .ok (value :: values)

/-- The search loop of `findOrCreateGroup`, counting the index from `i`. -/
def findGroup (L : Lib) (groupValues : List Value) : List tmpGroupData → Nat →
    Except Err (Option Nat)
  | [], _ => .ok none
  | groupData :: rest, i =>
    match L.cmpEq (Value.array groupData.group) (Value.array groupValues) with
    | .error e => .error e
    | .ok true => .ok (some i)
    | .ok false => findGroup L groupValues rest (i + 1)

/-- The initialisation of `aggData` in `findOrCreateGroup`: an empty slice for
every aggregate key of every projection. -/
def initAggData (projections : List aliasedEvaluator) : AMap (List Value) :=
  projections.foldl
    (fun aggData proj => proj.aggrEvals.foldl (fun m kv => AMap.set m kv.1 []) aggData) []

/-- The closure `findOrCreateGroup`; the pointer it returns is the index of
the group in the new list of groups. -/
def findOrCreateGroup (L : Lib) (projections : List aliasedEvaluator)
    (groups : List tmpGroupData) (groupValues : List Value) (d : Map) :
    Except Err (Nat × List tmpGroupData) :=
  match findGroup L groupValues groups 0 with
  | .error e => .error e
  | .ok (some groupIdx) => .ok (groupIdx, groups)
  | .ok none =>
    .ok (groups.length, groups ++ [⟨groupValues, initAggData projections, d⟩])

/-- The loop of `evalItem` over the aggregate calls of one projection (ranged
over in list order). -/
def appendAggInputs (d : Map) : AMap aggrInfo → AMap (List Value) →
    Except Err (AMap (List Value))
  | [], aggData => .ok aggData
  | (key, agg) :: rest, aggData =>
    match agg.aggrEval.Eval d with
    | .error e => .error e
    | .ok value =>
      appendAggInputs d rest
        (AMap.set aggData key (((AMap.get aggData key).getD []) ++ [value]))

/-- The loop of `evalItem` over the projections in grouping mode. -/
def collectAggData (d : Map) : List aliasedEvaluator → AMap (List Value) →
    Except Err (AMap (List Value))
  | [], aggData => .ok aggData
  | proj :: rest, aggData =>
    if proj.hasAggregate then
      match appendAggInputs d proj.aggrEvals aggData with
      | .error e => .error e
      | .ok aggData1 => collectAggData d rest aggData1
    else collectAggData d rest aggData

/-- The loop of `evalItem` over the projections in non-grouping mode, writing
into `result`. -/
def projectRow (L : Lib) (d : Map) : List aliasedEvaluator → Map → Except Err Map
  | [], result => .ok result
  | proj :: rest, result =>
    match proj.evaluator.Eval d with
    | .error e => .error e
    | .ok value =>
      match L.assignOutputValue result proj.outAlias value with
      | .error e => .error e
      | .ok result1 => projectRow L d rest result1

/-- Replacement of the entry at an index of a list. -/
def modifyAt {α : Type} (f : α → α) : Nat → List α → List α
  | _, [] => []
  | 0, x :: xs => f x :: xs
  | n + 1, x :: xs => x :: modifyAt f n xs

/-- The grouping branch of `evalItem`. -/
def evalItemGrouping (L : Lib) (ep : groupbyExecutionPlan) (d : Map) (acc : evalAcc) :
    Except Err evalAcc :=
  match evalGroupValues d ep.groupList with
  | .error e => .error e
  | .ok itemGroupValues =>
    match findOrCreateGroup L ep.projections acc.groups itemGroupValues d with
    | .error e => .error e
    | .ok (groupIdx, groups1) =>
      match groups1[groupIdx]? with
      | none => .ok { acc with groups := groups1 }
      | some itemGroup =>
        match collectAggData d ep.projections itemGroup.aggData with
        | .error e => .error e
        | .ok aggData1 =>
          .ok { acc with
            groups := modifyAt (fun g => { g with aggData := aggData1 }) groupIdx groups1 }

/-- The closure `evalItem`. -/
def evalItem (L : Lib) (ep : groupbyExecutionPlan) (d : Map) (acc : evalAcc) :
    Except Failure evalAcc :=
  match filterPasses L ep.filter d with
  | .error e => .error (Failure.error e)
  | .ok false => .ok acc
  | .ok true =>
    if ep.groupMode then
      match evalItemGrouping L ep d acc with
      | .error e => .error (Failure.error e)
      | .ok acc1 => .ok acc1
    else
      match projectRow L d ep.projections [] with
      | .error e => .error (Failure.error e)
      | .ok result => .ok { acc with output := acc.output ++ [result] }

/-- The aggregate loop of `evalGroup` for one projection: the count of the
inputs is written into the representative row and the inputs are deleted. -/
def countAggregates : AMap aggrInfo → tmpGroupData → tmpGroupData
  | [], group => group
  | (key, _agg) :: rest, group =>
    let aggregateInputs := (AMap.get group.aggData key).getD []
    countAggregates rest
      { group with
        nonAggData := AMap.set group.nonAggData key (Value.int aggregateInputs.length)
        aggData := AMap.erase group.aggData key }

/-- The loop of `evalGroup` over the projections. -/
def evalGroupLoop (L : Lib) : List aliasedEvaluator → tmpGroupData → Map → Except Err Map
  | [], _, result => .ok result
  | proj :: rest, group, result =>
    let group1 := if proj.hasAggregate then countAggregates proj.aggrEvals group else group
    match proj.evaluator.Eval group1.nonAggData with
    | .error e => .error e
    | .ok value =>
      match L.assignOutputValue result proj.outAlias value with
      | .error e => .error e
      | .ok result1 => evalGroupLoop L rest group1 result1

/-- The closure `evalGroup`, returning the row it appends to `output`. -/
def evalGroup (L : Lib) (ep : groupbyExecutionPlan) (group : tmpGroupData) : Except Err Map :=
  evalGroupLoop L ep.projections group []

/-- The loop `for _, group := range groups` of `performQueryOnBuffer`; at an
error the output built so far is returned with it. -/
def evalGroups (L : Lib) (ep : groupbyExecutionPlan) : List tmpGroupData → List Map →
    List Map × Option Failure
  | [], output => (output, none)
  | group :: rest, output =>
    match evalGroup L ep group with
    | .error e => (output, some (Failure.error e))
    | .ok result => evalGroups L ep rest (output ++ [result])

/-- The method `performQueryOnBuffer`, `allStreams` being the keys of
`ep.buffers` in the order of this call. `output` starts as the empty slice on
the storage of the old `prevResults`; `rollback` sets `prevResults` to it. -/
def performQueryOnBuffer (L : Lib) (ep : groupbyExecutionPlan) (allStreams : List String) :
    groupbyExecutionPlan × Option Failure :=
  let ep1 : groupbyExecutionPlan := { ep with prevResults := ep.curResults }
  match procCartProd L ep1.buffers (evalItem L ep1) allStreams [] ⟨[], []⟩ with
  | ((_, acc), some f) => ({ ep1 with prevResults := acc.output }, some f)
  | ((_, acc), none) =>
    if ep1.groupMode then
      match evalGroups L ep1 acc.groups acc.output with
      | (output, some f) => ({ ep1 with prevResults := output }, some f)
      | (output, none) => ({ ep1 with curResults := output }, none)
    else ({ ep1 with curResults := acc.output }, none)

/-! ## Relation to stream: the differential emitter -/

/-- The inner loop of the insert-stream branch: is `res` deep-equal to a row
of the previous results. -/
def foundInPrev (L : Lib) (res : Map) : List Map → Bool
  | [] => false
  | prevRes :: rest => if L.deepEqual res prevRes then true else foundInPrev L res rest

/-- The inner loop of the delete-stream branch: is a row of the current
results deep-equal to `prevRes`. -/
def foundInCur (L : Lib) (prevRes : Map) : List Map → Bool
  | [] => false
  | res :: rest => if L.deepEqual res prevRes then true else foundInCur L prevRes rest

/-- The outer loops of `computeResultTuples`: a row for which `found` holds is
skipped, every other row is appended to `output`. -/
def emitLoop (found : Map → Bool) : List Map → List Map → List Map
  | [], output => output
  | res :: rest, output =>
    if found res then emitLoop found rest output
    else emitLoop found rest (output ++ [res])

/-- The method `computeResultTuples`. -/
def computeResultTuples (L : Lib) (ep : groupbyExecutionPlan) : Except Failure (List Map) :=
  if ep.emitterType = Emitter.Rstream then
    .ok (emitLoop (fun _ => false) ep.curResults [])
  else if ep.emitterType = Emitter.Istream then
    .ok (emitLoop (fun res => foundInPrev L res ep.prevResults) ep.curResults [])
  else if ep.emitterType = Emitter.Dstream then
    .ok (emitLoop (fun prevRes => foundInCur L prevRes ep.curResults) ep.prevResults [])
  else .error (Failure.error Err.emitterNotImplemented)

/-! ## Process -/

/-- The method `Process` for a tuple object that no buffer holds (`ProcessAt`
is the method for an object that is in the buffers already): the plan after
the call and what the call returns (the rows, which are none when the gate
does not fire, or the failure). -/
def Process (L : Lib) (ep : groupbyExecutionPlan) (o : IterOrder) (input : Tuple) :
    groupbyExecutionPlan × Except Failure (List Map) :=
  match addTupleToBuffer ep input with
  | ((ep1, _), some f) => (ep1, .error f)
  | ((ep1, input1), none) =>
    match removeOutdatedTuplesFromBuffer ep1 o.evict input1.Timestamp with
    | (ep2, some f) => (ep2, .error f)
    | (ep2, none) =>
      match shouldEmitNow ep2 input1 with
      | (ep3, .error f) => (ep3, .error f)
      | (ep3, .ok false) => (ep3, .ok [])
      | (ep3, .ok true) =>
        match performQueryOnBuffer L ep3 o.eval with
        | (ep4, some f) => (ep4, .error f)
        | (ep4, none) => (ep4, computeResultTuples L ep4)

/-! ## Runs of calls -/

/-- The plan after a sequence of `shouldEmitNow` calls. -/
def gateAfter (ep : groupbyExecutionPlan) (ts : List Tuple) : groupbyExecutionPlan :=
  ts.foldl (fun e t => (shouldEmitNow e t).1) ep

/-- The results of a sequence of `shouldEmitNow` calls. -/
def gateResults : groupbyExecutionPlan → List Tuple → List (Except Failure Bool)
  | _, [] => []
  | ep, t :: ts => (shouldEmitNow ep t).2 :: gateResults (shouldEmitNow ep t).1 ts

/-- The plan after a sequence of `Process` calls, each with its orders. -/
def processAfter (L : Lib) (ep : groupbyExecutionPlan) (calls : List (IterOrder × Tuple)) :
    groupbyExecutionPlan :=
  calls.foldl (fun e c => (Process L e c.1 c.2).1) ep

/-- The results of a sequence of `Process` calls. -/
def processResults (L : Lib) : groupbyExecutionPlan → List (IterOrder × Tuple) →
    List (Except Failure (List Map))
  | _, [] => []
  | ep, c :: cs => (Process L ep c.1 c.2).2 :: processResults L (Process L ep c.1 c.2).1 cs

/-- The value of the counter `ep.emitCounters[key]`. -/
def counterOf (ep : groupbyExecutionPlan) (key : String) : Int :=
  (AMap.get ep.emitCounters key).getD 0

/-! ## Concrete values used in the examples -/

mutual
/-- Structural equality of values. -/
def Value.beq : Value → Value → Bool
  | .nil, .nil => true
  | .null, .null => true
  | .bool a, .bool b => a == b
  | .int a, .int b => a == b
  | .float a, .float b => a == b
  | .string a, .string b => a == b
  | .blob a, .blob b => a == b
  | .timestamp a, .timestamp b => a == b
  | .array xs, .array ys => Value.beqList xs ys
  | .map a, .map b => Value.beqKvs a b
  | _, _ => false
/-- Structural equality of arrays. -/
def Value.beqList : List Value → List Value → Bool
  | [], [] => true
  | x :: xs, y :: ys => Value.beq x y && Value.beqList xs ys
  | _, _ => false
/-- Structural equality of maps written in the same key order. -/
def Value.beqKvs : List (String × Value) → List (String × Value) → Bool
  | [], [] => true
  | (k, x) :: xs, (l, y) :: ys => k == l && Value.beq x y && Value.beqKvs xs ys
  | _, _ => false
end

/-- A library for the examples: flat output keys, structural comparisons, the
timestamp as metadata. -/
def exLib : Lib where
  prepareProjections := fun _ _ => .ok []
  prepareFilter := fun _ _ => .ok none
  prepareGroupList := fun _ _ => .ok []
  toBool := fun v =>
    match v with
    | .bool b => .ok b
    | .null => .ok false
    | _ => .error (Err.external "ToBool")
  assignOutputValue := fun m k v => .ok (AMap.set m k v)
  cmpEq := fun a b => .ok (Value.beq a b)
  deepEqual := fun a b => Value.beq (.map a) (.map b)
  metaKey := fun a => a ++ ":meta:TS"
  metaValue := fun t => .timestamp t.Timestamp
  maxCap := 2 ^ 45

/-- The evaluator of the column reference `al:col`. -/
def colEval (al col : String) : Evaluator where
  Eval := fun d =>
    match Map.index d al with
    | .map m =>
      match AMap.get m col with
      | some v => .ok v
      | none => .error (Err.external "no such column")
    | _ => .error (Err.external "no such stream")

/-- A tuple with one integer column `int`, received at second `sec`. -/
def exTuple (inputName : String) (n : Int) (sec : Int) : Tuple where
  Data := [("int", .int n)]
  InputName := inputName
  Timestamp := sec * 1000000000
  ProcTimestamp := 0
  BatchID := 7
  Trace := []

/-- The row with the single column `int`. -/
def exRow (n : Int) : Map := [("int", .int n)]

/-- A plan over the stream `src` with one projection `src:int`, without filter
and grouping, in a given state of its tables, buffers and results. -/
def exPlan (emitterType : Emitter) (rules : AMap IntervalAST) (buffers : AMap inputBuffer)
    (cur prev : List Map) : groupbyExecutionPlan where
  projections := [⟨"int", colEval "src" "int", false, []⟩]
  groupList := []
  filter := none
  groupMode := false
  emitterType := emitterType
  emitterRules := rules
  emitCounters := [("*", 0)]
  relations := [⟨StreamType.ActualStream, "src", 2, IntervalUnit.Tuples, "src"⟩]
  buffers := buffers
  curResults := cur
  prevResults := prev

/-- The function registry of the examples. -/
def exReg : FunctionRegistry where
  names := []

/-- The library of the join examples, with the projections `x:a AS l` and
`y:b AS r`. -/
def exJoinLib : Lib :=
  { exLib with
    prepareProjections := fun _ _ =>
      .ok [⟨"l", colEval "x" "a", false, []⟩, ⟨"r", colEval "y" "b", false, []⟩] }

/-- The analyzed statement
`SELECT RSTREAM [EVERY ...] x:a AS l, y:b AS r
 FROM src1 [RANGE 3 TUPLES] AS x, src2 [RANGE 2 TUPLES] AS y`
for given emit rules. -/
def exJoinLp (emitIntervals : List StreamEmitIntervalAST) : LogicalPlan where
  GroupingStmt := false
  EmitterType := Emitter.Rstream
  EmitIntervals := emitIntervals
  Projections := [⟨"x:a AS l"⟩, ⟨"y:b AS r"⟩]
  Relations := [⟨StreamType.ActualStream, "src1", 3, IntervalUnit.Tuples, "x"⟩,
    ⟨StreamType.ActualStream, "src2", 2, IntervalUnit.Tuples, "y"⟩]
  Filter := none
  GroupList := []
  Having := none

/-- The emit rules `EVERY 2 TUPLES IN src1, 3 TUPLES IN src2`. -/
def exRules23 : List StreamEmitIntervalAST :=
  [⟨⟨2, IntervalUnit.Tuples⟩, "src1"⟩, ⟨⟨3, IntervalUnit.Tuples⟩, "src2"⟩]

/-- The emit rules `EVERY 3 TUPLES IN src2`. -/
def exRules3 : List StreamEmitIntervalAST :=
  [⟨⟨3, IntervalUnit.Tuples⟩, "src2"⟩]

/-- The plan that `NewGroupbyExecutionPlan` builds for `exJoinLp`. -/
def exJoinPlan (rules : AMap IntervalAST) : groupbyExecutionPlan where
  projections := [⟨"l", colEval "x" "a", false, []⟩, ⟨"r", colEval "y" "b", false, []⟩]
  groupList := []
  filter := none
  groupMode := false
  emitterType := Emitter.Rstream
  emitterRules := rules
  emitCounters := [("*", 0)]
  relations := [⟨StreamType.ActualStream, "src1", 3, IntervalUnit.Tuples, "x"⟩,
    ⟨StreamType.ActualStream, "src2", 2, IntervalUnit.Tuples, "y"⟩]
  buffers := [("x", ⟨[], 3, IntervalUnit.Tuples⟩), ("y", ⟨[], 2, IntervalUnit.Tuples⟩)]
  curResults := []
  prevResults := []

/-- The tuple number `i` of the join examples: from `src1` with column `a` for
even `i`, from `src2` with column `b` for odd `i`, one second apart. -/
def exJoinTuple (i : Nat) : Tuple where
  Data :=
    if i % 2 = 0 then [("int", .int (i + 1)), ("a", .int (i / 2 + 1))]
    else [("int", .int (i + 1)), ("b", .int (i / 2 + 1))]
  InputName := if i % 2 = 0 then "src1" else "src2"
  Timestamp := 1000000000 * i
  ProcTimestamp := 0
  BatchID := 7
  Trace := []

/-- Twelve tuples alternating between `src1` and `src2`. -/
def exTwelve : List Tuple := (List.range 12).map exJoinTuple

/-! ## The Cartesian product of the buffers -/

/-- Every combination of `rest` with each tuple of `tuples` put in front, the
tuples in their order and the combinations in theirs. -/
def prependEach : List Tuple → List (List Tuple) → List (List Tuple)
  | [], _ => []
  | t :: ts, rest => rest.map (fun c => t :: c) ++ prependEach ts rest

/-- The Cartesian product of the buffers under `keys`: one tuple per key, the
last key varying fastest. A key without buffer has no tuples. -/
def cartProd (buffers : AMap inputBuffer) : List String → List (List Tuple)
  | [] => [[]]
  | k :: rest =>
    prependEach (((AMap.get buffers k).map (fun b => b.tuples)).getD []) (cartProd buffers rest)

/-- What `procCartProd` writes into the data holder for the tuple `t` of the
buffer `myKey`: the data under the key and the metadata. -/
def writeTuple (L : Lib) (holder : Map) (myKey : String) (t : Tuple) : Map :=
  setMetadata L (AMap.set holder myKey (Map.index t.Data myKey)) myKey t

/-- The data holder after the tuples of a combination have been written into
it, each under its key. -/
def writes (L : Lib) : List String → List Tuple → Map → Map
  | k :: ks, t :: ts, holder => writes L ks ts (writeTuple L holder k t)
  | _, _, holder => holder

/-- The composite row of an element of the product: the empty map with the
tuples of the element written into it. -/
def compositeRow (L : Lib) (keys : List String) (combo : List Tuple) : Map :=
  writes L keys combo []

/-- Calls of `processItem` on a list of rows, one after the other, left at the
first error. -/
def runItems {σ : Type} (processItem : Map → σ → Except Failure σ) : List Map → σ →
    σ × Option Failure
  | [], s => (s, none)
  | d :: ds, s =>
    match processItem d s with
    | .ok s1 => runItems processItem ds s1
    | .error f => (s, some f)

/-- A list of assignments made to a map one after the other. -/
def assignAll (ws : List (String × Value)) (m : Map) : Map :=
  ws.foldl (fun acc kv => AMap.set acc kv.1 kv.2) m

/-- The assignments that `writes` makes. -/
def assignmentsOf (L : Lib) : List String → List Tuple → List (String × Value)
  | k :: ks, t :: ts =>
    (k, Map.index t.Data k) :: (L.metaKey k, L.metaValue t) :: assignmentsOf L ks ts
  | _, _ => []

/-- The projected row of a composite row in non-grouping mode, if the row
passes the filter and the projections do not fail. -/
def projectedRow (L : Lib) (ep : groupbyExecutionPlan) (d : Map) : Option Map :=
  match filterPasses L ep.filter d with
  | .ok true => (projectRow L d ep.projections []).toOption
  | _ => none

/-! ## Conditions on plans and orders -/

/-- Every relation of the plan has a buffer under its alias, as in every plan
made by `NewGroupbyExecutionPlan`. -/
def hasBuffers (ep : groupbyExecutionPlan) : Prop :=
  ∀ rel ∈ ep.relations, ∃ b, AMap.get ep.buffers rel.Alias = some b

/-- The buffers of a plan whose eviction neither fails nor panics: every
window is a tuple window of non-negative size or a time window. -/
def validWindows (buffers : AMap inputBuffer) : Prop :=
  ∀ k b, AMap.get buffers k = some b →
    (b.windowType = IntervalUnit.Tuples ∧ 0 ≤ b.windowSize) ∨ b.windowType = IntervalUnit.Seconds

/-- An order in which Go can range over the keys of a map: every key once. -/
def keyOrder {β : Type} (order : List String) (m : AMap β) : Prop :=
  order.Nodup ∧ ∀ k, k ∈ order ↔ (AMap.get m k).isSome

/-- The buffers `m1` are the buffers `m` with the same windows and with tuples
appended. -/
def grows (m m1 : AMap inputBuffer) : Prop :=
  ∀ k, (AMap.get m k = none ∧ AMap.get m1 k = none)
    ∨ ∃ b b1, AMap.get m k = some b ∧ AMap.get m1 k = some b1
        ∧ b1.windowSize = b.windowSize ∧ b1.windowType = b.windowType
        ∧ b.tuples <+: b1.tuples

/-- The tuple that `addTupleToBuffer` stores for a relation: the data nested
under the alias. -/
def nestUnder (aliasName : String) (t : Tuple) : Tuple :=
  { t with Data := [(aliasName, Value.map t.Data)] }

/-- A tuple-window buffer of size 2 that holds three tuples. -/
def exFullBuffer : inputBuffer :=
  ⟨[exTuple "src" 1 0, exTuple "src" 2 1, exTuple "src" 3 2], 2, IntervalUnit.Tuples⟩

/-- A plan over `src` whose buffer holds one tuple more than its window. -/
def exFullPlan : groupbyExecutionPlan :=
  exPlan Emitter.Rstream [("*", ⟨1, IntervalUnit.Tuples⟩)] [("src", exFullBuffer)] [] []

/-- The interval `2 TUPLES`. -/
def exEvery2 : IntervalAST := ⟨2, IntervalUnit.Tuples⟩

/-- The interval `3 TUPLES`. -/
def exEvery3 : IntervalAST := ⟨3, IntervalUnit.Tuples⟩

/-- The order `x, y` for both loops over the buffers of the join examples. -/
def exOrderXY : IterOrder := ⟨["x", "y"], ["x", "y"]⟩

/-- The evaluator of the comparison `al:col = n` for an integer column. -/
def intEqEval (al col : String) (n : Int) : Evaluator where
  Eval := fun d =>
    match (colEval al col).Eval d with
    | .ok (.int i) => .ok (.bool (i == n))
    | .ok _ => .ok .null
    | .error e => .error e

/-- The join plan with the filter `x:a = 1`, two tuples in the buffer of `x`
and one in the buffer of `y`. -/
def exFilledJoinPlan : groupbyExecutionPlan :=
  { exJoinPlan [("*", ⟨1, IntervalUnit.Tuples⟩)] with
    filter := some (intEqEval "x" "a" 1)
    buffers :=
      [("x", ⟨[nestUnder "x" (exJoinTuple 0), nestUnder "x" (exJoinTuple 2)], 3,
          IntervalUnit.Tuples⟩),
        ("y", ⟨[nestUnder "y" (exJoinTuple 1)], 2, IntervalUnit.Tuples⟩)] }

/-- The window and its unit are the same under every key of `m` and `m1`. -/
def sameWindows (m m1 : AMap inputBuffer) : Prop :=
  ∀ k, (AMap.get m1 k).map (fun b => (b.windowSize, b.windowType))
    = (AMap.get m k).map (fun b => (b.windowSize, b.windowType))

/-- Every time window is one of `0 <= w < 2^24` seconds (194 days). -/
def shortTimeWindows (buffers : AMap inputBuffer) : Prop :=
  ∀ k b, AMap.get buffers k = some b → b.windowType = IntervalUnit.Seconds →
    0 ≤ b.windowSize ∧ b.windowSize < 2 ^ 24

/-- The window invariant of the buffers with respect to the time `ts` of the
triggering tuple: a tuple window holds at most `windowSize` tuples, a time
window only tuples at most `windowSize` seconds older than `ts`. -/
def windowInvariant (ep : groupbyExecutionPlan) (ts : Time) : Prop :=
  ∀ k b, AMap.get ep.buffers k = some b →
    (b.windowType = IntervalUnit.Tuples → (b.tuples.length : Int) ≤ b.windowSize)
    ∧ (b.windowType = IntervalUnit.Seconds →
        ∀ x ∈ b.tuples, ts - x.Timestamp ≤ b.windowSize * 1000000000)

/-- The analyzed statement `SELECT RSTREAM int FROM src [RANGE 16777216 SECONDS]`. -/
def exLongWindowLp : LogicalPlan where
  GroupingStmt := false
  EmitterType := Emitter.Rstream
  EmitIntervals := []
  Projections := [⟨"int"⟩]
  Relations := [⟨StreamType.ActualStream, "src", 16777216, IntervalUnit.Seconds, "src"⟩]
  Filter := none
  GroupList := []
  Having := none

/-- The library of the examples over `src`, with the projection `src:int`. -/
def exSrcLib : Lib :=
  { exLib with
    prepareProjections := fun _ _ => .ok [⟨"int", colEval "src" "int", false, []⟩] }

/-- The plan that `NewGroupbyExecutionPlan` builds for `exLongWindowLp`. -/
def exLongWindowPlan : groupbyExecutionPlan where
  projections := [⟨"int", colEval "src" "int", false, []⟩]
  groupList := []
  filter := none
  groupMode := false
  emitterType := Emitter.Rstream
  emitterRules := [("*", ⟨1, IntervalUnit.Tuples⟩)]
  emitCounters := [("*", 0)]
  relations := [⟨StreamType.ActualStream, "src", 16777216, IntervalUnit.Seconds, "src"⟩]
  buffers := [("src", ⟨[], 16777216, IntervalUnit.Seconds⟩)]
  curResults := []
  prevResults := []

/-- A tuple of `src` with the timestamp `ns` in nanoseconds. -/
def exTupleAt (n : Int) (ns : Int) : Tuple where
  Data := [("int", .int n)]
  InputName := "src"
  Timestamp := ns
  ProcTimestamp := 0
  BatchID := 7
  Trace := []

/-- The order for the loops over the buffers of a plan over `src`. -/
def exOrderSrc : IterOrder := ⟨["src"], ["src"]⟩

/-- The plan of `SELECT RSTREAM x:a AS l, y:b AS r
FROM src1 [RANGE 1 TUPLES] AS x, src2 [RANGE 5 SECONDS] AS y` with given
contents of the buffer of `y`. -/
def exMixedPlan (tuplesY : List Tuple) : groupbyExecutionPlan where
  projections := [⟨"l", colEval "x" "a", false, []⟩, ⟨"r", colEval "y" "b", false, []⟩]
  groupList := []
  filter := none
  groupMode := false
  emitterType := Emitter.Rstream
  emitterRules := [("*", ⟨1, IntervalUnit.Tuples⟩)]
  emitCounters := [("*", 0)]
  relations := [⟨StreamType.ActualStream, "src1", 1, IntervalUnit.Tuples, "x"⟩,
    ⟨StreamType.ActualStream, "src2", 5, IntervalUnit.Seconds, "y"⟩]
  buffers := [("x", ⟨[], 1, IntervalUnit.Tuples⟩), ("y", ⟨tuplesY, 5, IntervalUnit.Seconds⟩)]
  curResults := []
  prevResults := []

/-- The buffer of `y` with the tuples of the seconds 1, 3 and 9. -/
def exBufferY : inputBuffer :=
  ⟨[nestUnder "y" (exJoinTuple 1), nestUnder "y" (exJoinTuple 3), nestUnder "y" (exJoinTuple 9)],
    5, IntervalUnit.Seconds⟩

/-- The stream-to-relation steps of `Process`, the insertion and the eviction:
the plan and the tuple with which `Process` goes on to the emit gate, or the
failure with which it returns. -/
def streamToRelation (ep : groupbyExecutionPlan) (o : IterOrder) (input : Tuple) :
    Except Failure (groupbyExecutionPlan × Tuple) :=
  match addTupleToBuffer ep input with
  | (_, some f) => .error f
  | ((ep1, input1), none) =>
    match removeOutdatedTuplesFromBuffer ep1 o.evict input1.Timestamp with
    | (_, some f) => .error f
    | (ep2, none) => .ok (ep2, input1)

/-- The number of calls of `t.Copy()` in the second loop of `addTupleToBuffer`
when the loop runs to its end: one for every matching relation if
`numAppends > 1`, none otherwise. -/
def appendLoopCopies (numAppends : Nat) : List AliasedStreamWindowAST → Tuple → Nat
  | [], _ => 0
  | rel :: rest, t =>
    if t.InputName = relationKey rel then
      (if numAppends > 1 then 1 else 0) + appendLoopCopies numAppends rest t
    else appendLoopCopies numAppends rest t

/-- The number of copies of the tuple that a call of `addTupleToBuffer` makes
on a plan with a buffer for every relation. -/
def copiesMade (ep : groupbyExecutionPlan) (t : Tuple) : Nat :=
  let numAppends := ep.relations.countP (fun rel => decide (t.InputName = relationKey rel))
  if numAppends = 0 then 0 else appendLoopCopies numAppends ep.relations t

/-- The plan of the self-join
`FROM src [RANGE 2 TUPLES] AS x, src [RANGE 2 TUPLES] AS y`, with empty
buffers. -/
def exSelfJoinPlan : groupbyExecutionPlan :=
  { exJoinPlan [("*", ⟨1, IntervalUnit.Tuples⟩)] with
    relations := [⟨StreamType.ActualStream, "src", 2, IntervalUnit.Tuples, "x"⟩,
      ⟨StreamType.ActualStream, "src", 2, IntervalUnit.Tuples, "y"⟩]
    buffers := [("x", ⟨[], 2, IntervalUnit.Tuples⟩), ("y", ⟨[], 2, IntervalUnit.Tuples⟩)] }

/-- The local variable `output` of `performQueryOnBuffer` when the method
returns, with the failure if it returns one: the rows appended by `evalItem`
and, in grouping mode, by `evalGroup`, up to the first failure. -/
def queryOutput (L : Lib) (ep : groupbyExecutionPlan) (allStreams : List String) :
    List Map × Option Failure :=
  match procCartProd L ep.buffers (evalItem L ep) allStreams [] ⟨[], []⟩ with
  | ((_, acc), some f) => (acc.output, some f)
  | ((_, acc), none) =>
    if ep.groupMode then evalGroups L ep acc.groups acc.output else (acc.output, none)

/-- The library of the examples over `src` with the projection `int AS a`. -/
def exALib : Lib :=
  { exLib with
    prepareProjections := fun _ _ => .ok [⟨"a", colEval "src" "int", false, []⟩] }

/-- The analyzed statement
`SELECT DSTREAM [EVERY 2 TUPLES] int AS a FROM src [RANGE 2 TUPLES]`. -/
def exDstreamLp : LogicalPlan where
  GroupingStmt := false
  EmitterType := Emitter.Dstream
  EmitIntervals := [⟨⟨2, IntervalUnit.Tuples⟩, "*"⟩]
  Projections := [⟨"int AS a"⟩]
  Relations := [⟨StreamType.ActualStream, "src", 2, IntervalUnit.Tuples, "src"⟩]
  Filter := none
  GroupList := []
  Having := none

/-- The plan that `NewGroupbyExecutionPlan` builds for `exDstreamLp`. -/
def exDstreamPlan : groupbyExecutionPlan where
  projections := [⟨"a", colEval "src" "int", false, []⟩]
  groupList := []
  filter := none
  groupMode := false
  emitterType := Emitter.Dstream
  emitterRules := [("*", ⟨2, IntervalUnit.Tuples⟩)]
  emitCounters := [("*", 0)]
  relations := [⟨StreamType.ActualStream, "src", 2, IntervalUnit.Tuples, "src"⟩]
  buffers := [("src", ⟨[], 2, IntervalUnit.Tuples⟩)]
  curResults := []
  prevResults := []

/-- Eight calls with the tuples `int = 1, ..., 8` of `src`, one second apart. -/
def exEight : List (IterOrder × Tuple) :=
  (List.range 8).map (fun i => (exOrderSrc, exTuple "src" (i + 1) i))

/-- The row with the single column `a`. -/
def exRowA (n : Int) : Map := [("a", .int n)]

/-- The plan after the first three of the eight calls on `exDstreamPlan`. -/
def exDstreamThird : groupbyExecutionPlan :=
  processAfter exALib exDstreamPlan (exEight.take 3)

/-- The plan with which the fourth of the eight calls reaches the gate: the
buffer holds the tuples 3 and 4. -/
def exDstreamWindow : groupbyExecutionPlan :=
  { exDstreamThird with
    buffers := [("src", ⟨[nestUnder "src" (exTuple "src" 3 2), nestUnder "src" (exTuple "src" 4 3)],
      2, IntervalUnit.Tuples⟩)] }

/-- The plan with which the fourth of the eight calls evaluates. -/
def exDstreamFourth : groupbyExecutionPlan :=
  { exDstreamWindow with emitCounters := [("*", 0)] }

/-- A tuple of `src` without the column `int`. -/
def exBadTuple : Tuple where
  Data := [("other", .int 1)]
  InputName := "src"
  Timestamp := 1000000000
  ProcTimestamp := 0
  BatchID := 7
  Trace := []

/-- The analyzed statement `SELECT RSTREAM int FROM src [RANGE 2 TUPLES]`. -/
def exRstreamLp : LogicalPlan where
  GroupingStmt := false
  EmitterType := Emitter.Rstream
  EmitIntervals := []
  Projections := [⟨"int"⟩]
  Relations := [⟨StreamType.ActualStream, "src", 2, IntervalUnit.Tuples, "src"⟩]
  Filter := none
  GroupList := []
  Having := none

/-- The plan that `NewGroupbyExecutionPlan` builds for `exRstreamLp`. -/
def exRstreamPlan : groupbyExecutionPlan :=
  exPlan Emitter.Rstream [("*", ⟨1, IntervalUnit.Tuples⟩)]
    [("src", ⟨[], 2, IntervalUnit.Tuples⟩)] [] []

/-- The plan `exRstreamPlan` after the calls with the tuples `int = 1` and
`int = 2`. -/
def exRstreamSecond : groupbyExecutionPlan :=
  processAfter exSrcLib exRstreamPlan
    [(exOrderSrc, exTuple "src" 1 0), (exOrderSrc, exTuple "src" 2 1)]

/-- The plan with which a third call with `exBadTuple` reaches the gate and,
the counter staying 0, the evaluation: the buffer holds the tuple 2 and the
tuple without the column. -/
def exRstreamWindow : groupbyExecutionPlan :=
  { exRstreamSecond with
    buffers := [("src", ⟨[nestUnder "src" (exTuple "src" 2 1), nestUnder "src" exBadTuple],
      2, IntervalUnit.Tuples⟩)] }

/-- The plan in which the tuple of a call has been buffered and counted but
its evaluation skipped: the plan that `Process` has reached when the gate has
returned. -/
def skippedEvaluation (ep : groupbyExecutionPlan) (o : IterOrder) (input : Tuple) :
    groupbyExecutionPlan :=
  match streamToRelation ep o input with
  | .ok (ep2, input1) => (shouldEmitNow ep2 input1).1
  | .error _ => ep

/-- Six calls with the tuples `int = 1, ..., 6` of `src`, one second apart,
the second tuple lacking the column `int`. -/
def exSixBroken : List (IterOrder × Tuple) :=
  [(exOrderSrc, exTuple "src" 1 0), (exOrderSrc, exBadTuple), (exOrderSrc, exTuple "src" 3 2),
    (exOrderSrc, exTuple "src" 4 3), (exOrderSrc, exTuple "src" 5 4),
    (exOrderSrc, exTuple "src" 6 5)]

/-- The plan of `SELECT DSTREAM int FROM src [RANGE 2 TUPLES]`. -/
def exDstreamIntPlan : groupbyExecutionPlan :=
  exPlan Emitter.Dstream [("*", ⟨1, IntervalUnit.Tuples⟩)]
    [("src", ⟨[], 2, IntervalUnit.Tuples⟩)] [] []

/-- The join plan at the evaluation of its first call: one tuple in the buffer
of `x`, none in the buffer of `y`. -/
def exJoinFirst : groupbyExecutionPlan :=
  { exJoinPlan [("*", ⟨1, IntervalUnit.Tuples⟩)] with
    buffers := [("x", ⟨[nestUnder "x" (exJoinTuple 0)], 3, IntervalUnit.Tuples⟩),
      ("y", ⟨[], 2, IntervalUnit.Tuples⟩)] }

/-- An evaluator that fails on every row. -/
def failingEval : Evaluator where
  Eval := fun _ => .error (Err.external "called")

/-- The evaluator of the literal `NULL`. -/
def nullEval : Evaluator where
  Eval := fun _ => .ok .null

/-- The plan of `SELECT ISTREAM int FROM src [RANGE 2 SECONDS] WHERE null`. -/
def exNullFilterPlan : groupbyExecutionPlan :=
  { exPlan Emitter.Istream [("*", ⟨1, IntervalUnit.Tuples⟩)]
      [("src", ⟨[], 2, IntervalUnit.Seconds⟩)] [] [] with
    filter := some nullEval
    relations := [⟨StreamType.ActualStream, "src", 2, IntervalUnit.Seconds, "src"⟩] }

/-- Four calls with the tuples `int = 1, ..., 4` of `src`, one second apart. -/
def exFour : List (IterOrder × Tuple) :=
  (List.range 4).map (fun i => (exOrderSrc, exTuple "src" (i + 1) i))

/-- The last `n` entries of a list, all of them if there are fewer. -/
def lastN {α : Type} (n : Nat) (xs : List α) : List α := xs.drop (xs.length - n)

/-- The composite row of the one-element combination of a tuple of the relation
with the alias `a`, as the tuple is stored in the buffer. -/
def tupleRow (L : Lib) (a : String) (t : Tuple) : Map := compositeRow L [a] [nestUnder a t]

/-- A new plan over one relation `rel` with a window of `n >= 1` tuples,
without filter and grouping, with the default emit rule. -/
def singleTupleWindow (ep : groupbyExecutionPlan) (rel : AliasedStreamWindowAST) (n : Nat) :
    Prop :=
  ep.relations = [rel] ∧ rel.Unit = IntervalUnit.Tuples ∧ rel.Value = n ∧ 1 ≤ n
    ∧ ep.filter = none ∧ ep.groupMode = false
    ∧ ep.emitterRules = [("*", ⟨1, IntervalUnit.Tuples⟩)] ∧ ep.emitCounters = [("*", 0)]
    ∧ ep.buffers = [(rel.Alias, ⟨[], n, IntervalUnit.Tuples⟩)]
    ∧ ep.curResults = [] ∧ ep.prevResults = []

/-- The calls of `Process` with the tuples of a list on a plan whose only
buffer is the one under `a`. -/
def singleCalls (a : String) (ts : List Tuple) : List (IterOrder × Tuple) :=
  ts.map (fun t => (⟨[a], [a]⟩, t))

/-- The plan `ep0` with the window of `n` tuples over the received tuples in
its only buffer, and with given results. -/
def windowState (ep0 : groupbyExecutionPlan) (a : String) (n : Nat) (received : List Tuple)
    (cur prev : List Map) : groupbyExecutionPlan :=
  { ep0 with
    buffers := [(a, ⟨(lastN n received).map (nestUnder a), n, IntervalUnit.Tuples⟩)]
    curResults := cur
    prevResults := prev }

/-- The row with the column `int` of a tuple, empty if the tuple has none. -/
def exIntRow (t : Tuple) : Map :=
  match AMap.get t.Data "int" with
  | some v => [("int", v)]
  | none => []

/-- The relation `src [RANGE 2 TUPLES]` of the examples. -/
def exSrcRel : AliasedStreamWindowAST :=
  ⟨StreamType.ActualStream, "src", 2, IntervalUnit.Tuples, "src"⟩

/-- The evaluator of a literal. -/
def constEval (v : Value) : Evaluator where
  Eval := fun _ => .ok v

/-- The row of the projections `2, null`. -/
def exConstRow : Map := [("col_1", .int 2), ("col_2", .null)]

/-- The library of the examples with the projections `2, null`. -/
def exConstLib : Lib :=
  { exLib with
    prepareProjections := fun _ _ =>
      .ok [⟨"col_1", constEval (.int 2), false, []⟩, ⟨"col_2", constEval .null, false, []⟩] }

/-- The analyzed statement
`SELECT ISTREAM [EVERY 2 TUPLES] 2, null FROM src [RANGE 2 TUPLES]`. -/
def exConstLp : LogicalPlan where
  GroupingStmt := false
  EmitterType := Emitter.Istream
  EmitIntervals := [⟨⟨2, IntervalUnit.Tuples⟩, "*"⟩]
  Projections := [⟨"2"⟩, ⟨"null"⟩]
  Relations := [⟨StreamType.ActualStream, "src", 2, IntervalUnit.Tuples, "src"⟩]
  Filter := none
  GroupList := []
  Having := none

/-- The plan that `NewGroupbyExecutionPlan` builds for `exConstLp`. -/
def exConstEvery2Plan : groupbyExecutionPlan where
  projections := [⟨"col_1", constEval (.int 2), false, []⟩, ⟨"col_2", constEval .null, false, []⟩]
  groupList := []
  filter := none
  groupMode := false
  emitterType := Emitter.Istream
  emitterRules := [("*", ⟨2, IntervalUnit.Tuples⟩)]
  emitCounters := [("*", 0)]
  relations := [⟨StreamType.ActualStream, "src", 2, IntervalUnit.Tuples, "src"⟩]
  buffers := [("src", ⟨[], 2, IntervalUnit.Tuples⟩)]
  curResults := []
  prevResults := []

/-- The relation `src [RANGE 2 SECONDS]` of the examples. -/
def exSrcSecondsRel : AliasedStreamWindowAST :=
  ⟨StreamType.ActualStream, "src", 2, IntervalUnit.Seconds, "src"⟩

/-- The plan of `SELECT ISTREAM 2, null FROM src [RANGE 2 SECONDS]`. -/
def exConstSecondsPlan : groupbyExecutionPlan :=
  { exConstEvery2Plan with
    emitterRules := [("*", ⟨1, IntervalUnit.Tuples⟩)]
    relations := [exSrcSecondsRel]
    buffers := [("src", ⟨[], 2, IntervalUnit.Seconds⟩)] }

/-- A new plan over one relation `rel` whose window holds the newest tuple
(`n >= 1` tuples or `w >= 0` seconds), without filter and grouping, with the
default emit rule. -/
def singleWindowPlan (ep : groupbyExecutionPlan) (rel : AliasedStreamWindowAST) : Prop :=
  ep.relations = [rel]
    ∧ ((rel.Unit = IntervalUnit.Tuples ∧ 1 ≤ rel.Value)
      ∨ (rel.Unit = IntervalUnit.Seconds ∧ 0 ≤ rel.Value))
    ∧ ep.filter = none ∧ ep.groupMode = false
    ∧ ep.emitterRules = [("*", ⟨1, IntervalUnit.Tuples⟩)] ∧ ep.emitCounters = [("*", 0)]
    ∧ ep.buffers = [(rel.Alias, ⟨[], rel.Value, rel.Unit⟩)]
    ∧ ep.curResults = [] ∧ ep.prevResults = []

/-- The plan `ep0` with the buffer `b` as its only buffer, under `a`, and with
given results. -/
def bufferState (ep0 : groupbyExecutionPlan) (a : String) (b : inputBuffer)
    (cur prev : List Map) : groupbyExecutionPlan :=
  { ep0 with buffers := [(a, b)], curResults := cur, prevResults := prev }


/-- The buffers of a self-join over the aliases `a1` and `a2`: both hold the
tuples `originals` in the same order, each buffer with the data nested under
its own alias, in windows of the same size and unit. -/
def selfJoinBuffers (a1 a2 : String) (w : Int) (u : IntervalUnit) (originals : List Tuple) :
    AMap inputBuffer :=
  [(a1, ⟨originals.map (nestUnder a1), w, u⟩), (a2, ⟨originals.map (nestUnder a2), w, u⟩)]

/-- The evaluator of the condition `al1:col + 1 = al2:col` on integers, the
sum in `int64`. -/
def succEqEval (al1 al2 col : String) : Evaluator where
  Eval := fun d =>
    match (colEval al1 col).Eval d, (colEval al2 col).Eval d with
    | .ok (.int i), .ok (.int j) => .ok (.bool (wrapInt64 (i + 1) == j))
    | .ok _, .ok _ => .ok .null
    | .error e, _ => .error e
    | _, .error e => .error e

/-- The values of the column `x` of the self-join example. -/
def exXNames : List String := ["x0", "x1", "x2", "x3", "x4", "x5", "x6", "x7"]

/-- The tuple number `i` of the self-join example: from `src`, with
`int = i + 1` and `x` the name number `i`, one second apart. -/
def exSelfTuple (i : Nat) : Tuple where
  Data := [("int", .int (i + 1)), ("x", .string (exXNames.getD i ""))]
  InputName := "src"
  Timestamp := 1000000000 * i
  ProcTimestamp := 0
  BatchID := 7
  Trace := []

/-- The library of the self-join example. -/
def exSelfCondLib : Lib :=
  { exLib with
    prepareProjections := fun _ _ =>
      .ok [⟨"l", colEval "src1" "x", false, []⟩, ⟨"r", colEval "src2" "x", false, []⟩]
    prepareFilter := fun _ _ => .ok (some (succEqEval "src1" "src2" "int")) }

/-- The analyzed statement
`SELECT ISTREAM src1:x AS l, src2:x AS r
 FROM src [RANGE 2 TUPLES] AS src1, src [RANGE 2 TUPLES] AS src2
 WHERE src1:int + 1 = src2:int`. -/
def exSelfCondLp : LogicalPlan where
  GroupingStmt := false
  EmitterType := Emitter.Istream
  EmitIntervals := []
  Projections := [⟨"src1:x AS l"⟩, ⟨"src2:x AS r"⟩]
  Relations := [⟨StreamType.ActualStream, "src", 2, IntervalUnit.Tuples, "src1"⟩,
    ⟨StreamType.ActualStream, "src", 2, IntervalUnit.Tuples, "src2"⟩]
  Filter := some ⟨"src1:int + 1 = src2:int"⟩
  GroupList := []
  Having := none

/-- The plan that `NewGroupbyExecutionPlan` builds for `exSelfCondLp`. -/
def exSelfCondPlan : groupbyExecutionPlan where
  projections := [⟨"l", colEval "src1" "x", false, []⟩, ⟨"r", colEval "src2" "x", false, []⟩]
  groupList := []
  filter := some (succEqEval "src1" "src2" "int")
  groupMode := false
  emitterType := Emitter.Istream
  emitterRules := [("*", ⟨1, IntervalUnit.Tuples⟩)]
  emitCounters := [("*", 0)]
  relations := [⟨StreamType.ActualStream, "src", 2, IntervalUnit.Tuples, "src1"⟩,
    ⟨StreamType.ActualStream, "src", 2, IntervalUnit.Tuples, "src2"⟩]
  buffers := [("src1", ⟨[], 2, IntervalUnit.Tuples⟩), ("src2", ⟨[], 2, IntervalUnit.Tuples⟩)]
  curResults := []
  prevResults := []

/-- Eight calls with the tuples of the self-join example, every call with the
orders `o`. -/
def exSelfCalls (o : IterOrder) : List (IterOrder × Tuple) :=
  (List.range 8).map (fun i => (o, exSelfTuple i))

/-- The results of the self-join example: nothing at the first call, then the
one row that joins the tuple before the last with the last. -/
def exSelfResults : List (Except Failure (List Map)) :=
  (List.range 8).map (fun i =>
    if i = 0 then .ok []
    else .ok [[("l", .string (exXNames.getD (i - 1) "")), ("r", .string (exXNames.getD i ""))]])

/-! ## Grouping -/

/-- The comparator of `findOrCreateGroup` reports the keys `a` and `b` equal:
`eq(a, b)` returns true and no error. -/
def sameKey (L : Lib) (a b : List Value) : Bool :=
  match L.cmpEq (Value.array a) (Value.array b) with
  | .ok true => true
  | _ => false

/-- The row `d` passes the filter and its group key is reported equal to
`key`. -/
def inGroup (L : Lib) (ep : groupbyExecutionPlan) (key : List Value) (d : Map) : Bool :=
  match filterPasses L ep.filter d with
  | .ok true =>
    match evalGroupValues d ep.groupList with
    | .ok k => sameKey L key k
    | .error _ => false
  | _ => false

/-- The group key of a row that passes the filter. -/
def passingKey (L : Lib) (ep : groupbyExecutionPlan) (d : Map) : Option (List Value) :=
  match filterPasses L ep.filter d with
  | .ok true => (evalGroupValues d ep.groupList).toOption
  | _ => none

/-- The keys of a list in the order of their first appearance, after the keys
`seen`: a key is left out if a key before it is reported equal to it. -/
def firstAppearances (L : Lib) : List (List Value) → List (List Value) → List (List Value)
  | seen, [] => seen
  | seen, k :: ks =>
    if seen.any (fun s => sameKey L s k) then firstAppearances L seen ks
    else firstAppearances L (seen ++ [k]) ks

/-- The synthetic aggregate keys of the projections with aggregates, in the
order of the projections. -/
def aggregateKeys : List aliasedEvaluator → List String
  | [] => []
  | proj :: rest =>
    (if proj.hasAggregate then AMap.keys proj.aggrEvals else []) ++ aggregateKeys rest

/-- The rows `group.nonAggData` with which the loop of `evalGroup` calls the
evaluators of the projections, one row for every projection. -/
def evalGroupInputs : List aliasedEvaluator → tmpGroupData → List Map
  | [], _ => []
  | proj :: rest, group =>
    let group1 := if proj.hasAggregate then countAggregates proj.aggrEvals group else group
    group1.nonAggData :: evalGroupInputs rest group1

/-- The rows of the product of the buffers under `allStreams`, in the order
in which `procCartProd` passes them to `evalItem`. -/
def productRows (L : Lib) (ep : groupbyExecutionPlan) (allStreams : List String) : List Map :=
  (cartProd ep.buffers allStreams).map (compositeRow L allStreams)

/-- The local variable `groups` of `performQueryOnBuffer` when `procCartProd`
has returned. -/
def stagedGroups (L : Lib) (ep : groupbyExecutionPlan) (allStreams : List String) :
    List tmpGroupData :=
  (procCartProd L ep.buffers (evalItem L ep) allStreams [] ⟨[], []⟩).1.2.groups

/-- The state of the groups after the rows `done` of an evaluation: no key of
a group is reported equal to the key of a later group, the key of every row
that has passed the filter is reported equal to by the key of a group, and
under every aggregate key a group holds one input for every occurrence of the
key in the projections and every row of the group. -/
def groupInv (L : Lib) (ep : groupbyExecutionPlan) (done : List Map)
    (groups : List tmpGroupData) : Prop :=
  List.Pairwise (fun a b => sameKey L a b = false) (groups.map (fun g => g.group))
    ∧ (∀ d ∈ done, ∀ k, passingKey L ep d = some k →
        ∃ s ∈ groups.map (fun g => g.group), sameKey L s k = true)
    ∧ ∀ g ∈ groups, ∀ k, ((AMap.get g.aggData k).getD []).length
        = (aggregateKeys ep.projections).count k * done.countP (inGroup L ep g.group)

/-- The loop of `evalGroup` over the projections, run on given input rows, one
for every projection. -/
def evalWith (L : Lib) : List aliasedEvaluator → List Map → Map → Except Err Map
  | proj :: rest, input :: inputs, result =>
    match proj.evaluator.Eval input with
    | .error e => .error e
    | .ok value =>
      match L.assignOutputValue result proj.outAlias value with
      | .error e => .error e
      | .ok result1 => evalWith L rest inputs result1
  | _, _, result => .ok result

/-- The evaluator of `al:col + n` on integers, the sum in `int64`. -/
def intPlusEval (al col : String) (n : Int) : Evaluator where
  Eval := fun d =>
    match (colEval al col).Eval d with
    | .ok (.int i) => .ok (.int (wrapInt64 (i + n)))
    | .ok _ => .error (Err.external "not an integer")
    | .error e => .error e

/-- The evaluator of `agg + n` for the result of an aggregate call, read
under the synthetic key `key`. -/
def aggPlusEval (key : String) (n : Int) : Evaluator where
  Eval := fun d =>
    match Map.index d key with
    | .int i => .ok (.int (wrapInt64 (i + n)))
    | _ => .error (Err.external "not an integer")

/-- The tuple number `i` of the grouping examples, with `int = i + 1` and the
column `foo`. -/
def exFooTuple (i : Nat) (foo : Int) : Tuple where
  Data := [("int", .int (i + 1)), ("foo", .int foo)]
  InputName := "src"
  Timestamp := 1000000000 * i
  ProcTimestamp := 0
  BatchID := 7
  Trace := []

/-- The tuple number `i` of the grouping examples, with `int = i + 1` and the
columns `foo` and `bar`. -/
def exFooBarTuple (i : Nat) (foo bar : Int) : Tuple where
  Data := [("int", .int (i + 1)), ("foo", .int foo), ("bar", .int bar)]
  InputName := "src"
  Timestamp := 1000000000 * i
  ProcTimestamp := 0
  BatchID := 7
  Trace := []

/-- The plan of
`SELECT RSTREAM foo, f(int + 1) + 2 FROM src [RANGE 3 TUPLES] GROUP BY foo`
for an aggregate function named `aggrFun`, the aggregate call staged under the
synthetic key `agg_1`. -/
def exGroupFooPlan (aggrFun : String) : groupbyExecutionPlan where
  projections := [⟨"foo", colEval "src" "foo", false, []⟩,
    ⟨"col_2", aggPlusEval "agg_1" 2, true, [("agg_1", ⟨intPlusEval "src" "int" 1, aggrFun⟩)]⟩]
  groupList := [colEval "src" "foo"]
  filter := none
  groupMode := true
  emitterType := Emitter.Rstream
  emitterRules := [("*", ⟨1, IntervalUnit.Tuples⟩)]
  emitCounters := [("*", 0)]
  relations := [⟨StreamType.ActualStream, "src", 3, IntervalUnit.Tuples, "src"⟩]
  buffers := [("src", ⟨[], 3, IntervalUnit.Tuples⟩)]
  curResults := []
  prevResults := []

/-- The library of the grouping example over `foo`. -/
def exGroupFooLib : Lib :=
  { exLib with
    prepareProjections := fun _ _ =>
      .ok [⟨"foo", colEval "src" "foo", false, []⟩,
        ⟨"col_2", aggPlusEval "agg_1" 2, true,
          [("agg_1", ⟨intPlusEval "src" "int" 1, "count"⟩)]⟩]
    prepareGroupList := fun _ _ => .ok [colEval "src" "foo"] }

/-- The analyzed statement
`SELECT RSTREAM foo, count(int + 1) + 2 FROM src [RANGE 3 TUPLES] GROUP BY foo`. -/
def exGroupFooLp : LogicalPlan where
  GroupingStmt := true
  EmitterType := Emitter.Rstream
  EmitIntervals := []
  Projections := [⟨"foo"⟩, ⟨"count(int + 1) + 2"⟩]
  Relations := [⟨StreamType.ActualStream, "src", 3, IntervalUnit.Tuples, "src"⟩]
  Filter := none
  GroupList := [⟨"foo"⟩]
  Having := none

/-- The plan of
`SELECT RSTREAM foo, count(int) + 2 AS x FROM src [RANGE 3 TUPLES]
 GROUP BY foo, bar`. -/
def exGroupFooBarPlan : groupbyExecutionPlan :=
  { exGroupFooPlan "count" with
    projections := [⟨"foo", colEval "src" "foo", false, []⟩,
      ⟨"x", aggPlusEval "agg_1" 2, true, [("agg_1", ⟨colEval "src" "int", "count"⟩)]⟩]
    groupList := [colEval "src" "foo", colEval "src" "bar"] }

/-- Four calls with `foo = 1, 1, 2, 2`. -/
def exFooCalls : List (IterOrder × Tuple) :=
  [(exOrderSrc, exFooTuple 0 1), (exOrderSrc, exFooTuple 1 1), (exOrderSrc, exFooTuple 2 2),
    (exOrderSrc, exFooTuple 3 2)]

/-- Four calls with `(foo, bar) = (1, 1), (1, 1), (2, 1), (2, 2)`. -/
def exFooBarCalls : List (IterOrder × Tuple) :=
  [(exOrderSrc, exFooBarTuple 0 1 1), (exOrderSrc, exFooBarTuple 1 1 1),
    (exOrderSrc, exFooBarTuple 2 2 1), (exOrderSrc, exFooBarTuple 3 2 2)]

/-- A result row of the grouping example over `foo`. -/
def exFooRow (foo c : Int) : Map := [("foo", .int foo), ("col_2", .int c)]

/-- A result row of the grouping example over `foo, bar`. -/
def exXRow (foo c : Int) : Map := [("foo", .int foo), ("x", .int c)]

/-- The plan `exGroupFooPlan` with the first three tuples of `exFooCalls` in
its buffer. -/
def exGroupFooFilled (aggrFun : String) : groupbyExecutionPlan :=
  { exGroupFooPlan aggrFun with
    buffers := [("src", ⟨[nestUnder "src" (exFooTuple 0 1), nestUnder "src" (exFooTuple 1 1),
      nestUnder "src" (exFooTuple 2 2)], 3, IntervalUnit.Tuples⟩)] }

/-- The plan `exGroupFooBarPlan` with the last three tuples of `exFooBarCalls`
in its buffer. -/
def exGroupFooBarFilled : groupbyExecutionPlan :=
  { exGroupFooBarPlan with
    buffers := [("src", ⟨[nestUnder "src" (exFooBarTuple 1 1 1),
      nestUnder "src" (exFooBarTuple 2 2 1), nestUnder "src" (exFooBarTuple 3 2 2)], 3,
      IntervalUnit.Tuples⟩)] }

/-- The plan `exGroupFooPlan` with given tuples in its buffer and given
results. -/
def exGroupFooState (aggrFun : String) (tuples : List Tuple) (cur prev : List Map) :
    groupbyExecutionPlan :=
  { exGroupFooPlan aggrFun with
    buffers := [("src", ⟨tuples.map (nestUnder "src"), 3, IntervalUnit.Tuples⟩)]
    curResults := cur
    prevResults := prev }

/-- The plan `exGroupFooBarPlan` with given tuples in its buffer and given
results. -/
def exGroupFooBarState (tuples : List Tuple) (cur prev : List Map) : groupbyExecutionPlan :=
  { exGroupFooBarPlan with
    buffers := [("src", ⟨tuples.map (nestUnder "src"), 3, IntervalUnit.Tuples⟩)]
    curResults := cur
    prevResults := prev }

/-- The plan of `SELECT RSTREAM 2 AS a FROM src [RANGE 2 TUPLES]`. -/
def exConstAPlan : groupbyExecutionPlan :=
  { exRstreamPlan with projections := [⟨"a", constEval (.int 2), false, []⟩] }

/-- An analyzed statement with a HAVING clause. -/
def exHavingLp : LogicalPlan :=
  { exConstLp with Having := some ⟨"count(int) > 1"⟩ }

/-- The plan of `SELECT RSTREAM int FROM src [RANGE 2 SECONDS]`. -/
def exSecondsRstreamPlan : groupbyExecutionPlan :=
  { exRstreamPlan with
    relations := [exSrcSecondsRel]
    buffers := [("src", ⟨[], 2, IntervalUnit.Seconds⟩)] }

/-- The analyzed statement `SELECT ISTREAM 2, null FROM src [RANGE -2 TUPLES]`,
without emit rule. -/
def exNegRangeLp : LogicalPlan :=
  { exConstLp with
    EmitIntervals := []
    Relations := [⟨StreamType.ActualStream, "src", -2, IntervalUnit.Tuples, "src"⟩] }

/-- The analyzed statement
`SELECT ISTREAM 2, null FROM src [RANGE 4611686018427387904 TUPLES]`, a window
of `2^62` tuples, without emit rule. -/
def exHugeRangeLp : LogicalPlan :=
  { exConstLp with
    EmitIntervals := []
    Relations := [⟨StreamType.ActualStream, "src", 2 ^ 62, IntervalUnit.Tuples, "src"⟩] }

/-- The analyzed statement
`SELECT ISTREAM [EVERY 2 SECONDS] 2, null FROM src [RANGE 2 TUPLES]`. -/
def exSecondsRuleLp : LogicalPlan :=
  { exConstLp with EmitIntervals := [⟨⟨2, IntervalUnit.Seconds⟩, "*"⟩] }

/-- The emit counters of a plan are in range: the counter of every key with a
rule is at least 0 and below the interval of the rule. -/
def counterInv (ep : groupbyExecutionPlan) : Prop :=
  ∀ key interval, AMap.get ep.emitterRules key = some interval →
    0 ≤ counterOf ep key ∧ counterOf ep key < interval.Value

/-- The failure is not the panic of a slice expression out of bounds or of an
integer division by zero. -/
def noPrimitivePanic (f : Failure) : Prop :=
  f ≠ Failure.panic Panic.sliceBounds ∧ f ≠ Failure.panic Panic.divideByZero

/-- Every buffer has a window of non-negative size. -/
def nonnegWindows (buffers : AMap inputBuffer) : Prop :=
  ∀ k b, AMap.get buffers k = some b → 0 ≤ b.windowSize

/-- No emit rule has the interval 0. -/
def nonzeroRules (rules : AMap IntervalAST) : Prop :=
  ∀ k interval, AMap.get rules k = some interval → interval.Value ≠ 0

/-- The number of aggregate inputs that a group holds under a synthetic key;
`evalGroup` stores it under the key as the result of the aggregate. -/
def stagedInputs (g : tmpGroupData) (key : String) : Nat :=
  ((AMap.get g.aggData key).getD []).length

/-- The row passes the filter: there is no filter, or the filter value
converts to true. -/
def passesFilter (L : Lib) (ep : groupbyExecutionPlan) (d : Map) : Bool :=
  match filterPasses L ep.filter d with
  | .ok true => true
  | _ => false

/-- The representative row of a group with the counts of the aggregate inputs
written under the synthetic keys of the projections up to number `i`. -/
def countsUpTo (projs : List aliasedEvaluator) (g : tmpGroupData) (i : Nat) : Map :=
  (aggregateKeys (projs.take (i + 1))).foldl
    (fun m key => AMap.set m key (Value.int (stagedInputs g key))) g.nonAggData

/-- The representative rows of the groups after the rows `done` of an
evaluation: the representative of a group is a row that has passed the filter
with the key of the group, and no row before it is in the group. -/
def repInv (L : Lib) (ep : groupbyExecutionPlan) (done : List Map)
    (groups : List tmpGroupData) : Prop :=
  ∀ g ∈ groups, ∃ pre d post, done = pre ++ d :: post ∧ passingKey L ep d = some g.group
    ∧ g.nonAggData = d ∧ ∀ d1 ∈ pre, inGroup L ep g.group d1 = false

/-- The evaluator of `agg + al:col` for the result of an aggregate call, read
under the synthetic key `key`, the sum in `int64`. -/
def aggPlusColEval (key al col : String) : Evaluator where
  Eval := fun d =>
    match Map.index d key, (colEval al col).Eval d with
    | .int i, .ok (.int v) => .ok (.int (wrapInt64 (i + v)))
    | _, .error e => .error e
    | _, _ => .error (Err.external "not an integer")

/-- The plan of
`SELECT RSTREAM foo AS y, count(int + 1) + foo FROM src [RANGE 3 TUPLES]
 GROUP BY foo`, with given tuples in its buffer and given results. -/
def exGroupBackrefState (tuples : List Tuple) (cur prev : List Map) : groupbyExecutionPlan :=
  { exGroupFooPlan "count" with
    projections := [⟨"y", colEval "src" "foo", false, []⟩,
      ⟨"col_2", aggPlusColEval "agg_1" "src" "foo", true,
        [("agg_1", ⟨intPlusEval "src" "int" 1, "count"⟩)]⟩]
    buffers := [("src", ⟨tuples.map (nestUnder "src"), 3, IntervalUnit.Tuples⟩)]
    curResults := cur
    prevResults := prev }

/-- A result row of the grouping example with a reference to the grouping
column. -/
def exYRow (y c : Int) : Map := [("y", .int y), ("col_2", .int c)]

/-! ## The tuple of the caller as an object -/

/-- The entries of the buffers at the positions `same` (key of a buffer and
index in it) replaced by the tuple `u`: what an assignment to a field of a
tuple object shows in the buffers that hold the object at these positions. -/
def overwriteAt (same : List (String × Nat)) (u : Tuple) (buffers : AMap inputBuffer) :
    AMap inputBuffer :=
  same.foldl
    (fun bufs pos =>
      match AMap.get bufs pos.1 with
      | none => bufs
      | some b => AMap.set bufs pos.1 { b with tuples := b.tuples.set pos.2 u })
    buffers

/-- The second loop of `addTupleToBuffer` for a tuple object that the buffers
hold already, at the positions `same`: with one append the object itself is
edited (`editTuple := t`), so that every entry that is this object has the new
data, and the object is stored once more; with several appends copies are
edited and stored and the object stays as it is. Without such positions this
is `appendLoop`. -/
def appendLoopAt (numAppends : Nat) (same : List (String × Nat)) :
    List AliasedStreamWindowAST → AMap inputBuffer → Tuple →
    (AMap inputBuffer × Tuple) × Option Failure
  | [], buffers, t => ((buffers, t), none)
  | rel :: rest, buffers, t =>
    if t.InputName = relationKey rel then
      let editTuple : Tuple := { t with Data := [(rel.Alias, Value.map t.Data)] }
      let t1 : Tuple := if numAppends > 1 then t else editTuple
      let buffers1 : AMap inputBuffer :=
        if numAppends > 1 then buffers else overwriteAt same editTuple buffers
      match AMap.get buffers1 rel.Alias with
      | none => ((buffers1, t1), some (Failure.panic Panic.nilDereference))
      | some bufferPtr =>
        appendLoopAt numAppends same rest
          (AMap.set buffers1 rel.Alias
            { bufferPtr with tuples := bufferPtr.tuples ++ [editTuple] }) t1
    else appendLoopAt numAppends same rest buffers t

/-- The method `addTupleToBuffer` for a tuple object that the buffers hold at
the positions `same`. -/
def addTupleToBufferAt (ep : groupbyExecutionPlan) (t : Tuple) (same : List (String × Nat)) :
    (groupbyExecutionPlan × Tuple) × Option Failure :=
  let numAppends := ep.relations.countP (fun rel => decide (t.InputName = relationKey rel))
  if numAppends = 0 then
    ((ep, t), some (Failure.error
      (Err.unknownInputName t.InputName (ep.relations.map (fun rel => rel.Name)))))
  else
    match appendLoopAt numAppends same ep.relations ep.buffers t with
    | ((buffers, t1), r) => (({ ep with buffers := buffers }, t1), r)

/-- The method `Process` for a tuple object that the buffers hold at the
positions `same`. -/
def ProcessAt (L : Lib) (ep : groupbyExecutionPlan) (o : IterOrder) (input : Tuple)
    (same : List (String × Nat)) : groupbyExecutionPlan × Except Failure (List Map) :=
  match addTupleToBufferAt ep input same with
  | ((ep1, _), some f) => (ep1, .error f)
  | ((ep1, input1), none) =>
    match removeOutdatedTuplesFromBuffer ep1 o.evict input1.Timestamp with
    | (ep2, some f) => (ep2, .error f)
    | (ep2, none) =>
      match shouldEmitNow ep2 input1 with
      | (ep3, .error f) => (ep3, .error f)
      | (ep3, .ok false) => (ep3, .ok [])
      | (ep3, .ok true) =>
        match performQueryOnBuffer L ep3 o.eval with
        | (ep4, some f) => (ep4, .error f)
        | (ep4, none) => (ep4, computeResultTuples L ep4)

/-- Two rows hold the same value under every key: as Go maps they are the
same map, whatever the order in which their keys were written. -/
def rowEq (d d1 : Map) : Prop := ∀ k, AMap.get d k = AMap.get d1 k

theorem AMap.get_set_self {β : Type} (m : AMap β) (k : String) (v : β) :
    AMap.get (AMap.set m k v) k = some v := by
  induction m with
  | nil => simp [AMap.set, AMap.get]
  | cons p rest ih =>
    obtain ⟨k1, v1⟩ := p
    by_cases h : k1 = k
    · simp [AMap.set, AMap.get, h]
    · simp [AMap.set, AMap.get, h, ih]

theorem AMap.get_set_ne {β : Type} (m : AMap β) (k k2 : String) (v : β) (hne : k ≠ k2) :
    AMap.get (AMap.set m k v) k2 = AMap.get m k2 := by
  induction m with
  | nil => simp [AMap.set, AMap.get, hne]
  | cons p rest ih =>
    obtain ⟨k1, v1⟩ := p
    by_cases h : k1 = k
    · subst h
      simp [AMap.set, AMap.get, hne]
    · by_cases h2 : k1 = k2
      · subst h2
        simp [AMap.set, AMap.get, h]
      · simp [AMap.set, AMap.get, h, h2, ih]

/-! ## The differential emitter -/

theorem emitLoop_eq (found : Map → Bool) (rows output : List Map) :
    emitLoop found rows output = output ++ rows.filter (fun res => !found res) := by
  induction rows generalizing output with
  | nil => simp [emitLoop]
  | cons res rest ih =>
    by_cases h : found res = true
    · simp [emitLoop, h, ih]
    · simp [emitLoop, h, ih]

theorem foundInPrev_eq_false_iff (L : Lib) (res : Map) (prev : List Map) :
    foundInPrev L res prev = false ↔ ∀ prevRes ∈ prev, L.deepEqual res prevRes = false := by
  induction prev with
  | nil => simp [foundInPrev]
  | cons p rest ih =>
    by_cases h : L.deepEqual res p = true
    · simp [foundInPrev, h]
    · simp [foundInPrev, h, ih]

theorem foundInCur_eq_false_iff (L : Lib) (prevRes : Map) (cur : List Map) :
    foundInCur L prevRes cur = false ↔ ∀ res ∈ cur, L.deepEqual res prevRes = false := by
  induction cur with
  | nil => simp [foundInCur]
  | cons p rest ih =>
    by_cases h : L.deepEqual p prevRes = true
    · simp [foundInCur, h]
    · simp [foundInCur, h, ih]

theorem performQueryOnBuffer_prevResults_of_ok (L : Lib) (ep : groupbyExecutionPlan)
    (allStreams : List String) (h : (performQueryOnBuffer L ep allStreams).2 = none) :
    (performQueryOnBuffer L ep allStreams).1.prevResults = ep.curResults := by
  unfold performQueryOnBuffer at h ⊢
  simp only at h ⊢
  split
  · rename_i heq
    rw [heq] at h
    simp at h
  · rename_i heq
    rw [heq] at h
    split
    · split
      · rename_i heq2
        simp only [heq2] at h
        split at h <;> simp_all
      · rfl
    · rfl

/-- C2: in insert-stream mode `computeResultTuples` returns the rows of
`curResults`, in their order and with their repetitions, that are deep-equal to
no row of `prevResults`; a row deep-equal to a previous row is not emitted,
however often it occurs in `curResults`. -/
theorem computeResultTuples_istream (L : Lib) (ep : groupbyExecutionPlan)
    (h : ep.emitterType = Emitter.Istream) :
    computeResultTuples L ep
        = .ok (ep.curResults.filter
            (fun res => decide (∀ prevRes ∈ ep.prevResults, L.deepEqual res prevRes = false)))
      ∧ ∀ out, computeResultTuples L ep = .ok out →
          ∀ res prevRes, prevRes ∈ ep.prevResults → L.deepEqual res prevRes = true →
            res ∉ out := by
  have hmain : computeResultTuples L ep
      = .ok (ep.curResults.filter
          (fun res => decide (∀ prevRes ∈ ep.prevResults, L.deepEqual res prevRes = false))) := by
    unfold computeResultTuples
    rw [h]
    simp only [reduceCtorEq, if_false, if_true, emitLoop_eq, List.nil_append]
    congr 1
    apply List.filter_congr
    intro res _
    by_cases hf : foundInPrev L res ep.prevResults = false
    · have hall := (foundInPrev_eq_false_iff L res ep.prevResults).1 hf
      simp only [hf, Bool.not_false]
      exact (decide_eq_true hall).symm
    · have hn : ¬ ∀ prevRes ∈ ep.prevResults, L.deepEqual res prevRes = false :=
        fun hall => hf ((foundInPrev_eq_false_iff L res ep.prevResults).2 hall)
      simp only [Bool.not_eq_false] at hf
      simp [hf, hn]
  refine ⟨hmain, ?_⟩
  intro out hout res prevRes hmem heq hin
  rw [hmain] at hout
  injection hout with hout
  subst hout
  have := (List.mem_filter.1 hin).2
  simp only [decide_eq_true_eq] at this
  have := this prevRes hmem
  simp [heq] at this

/-- C2, at three copies of a row in the new results and one in the old. -/
theorem computeResultTuples_istream_witness :
    (exPlan Emitter.Istream [] [] [exRow 1, exRow 1, exRow 2, exRow 1] [exRow 1]).emitterType
        = Emitter.Istream
      ∧ (computeResultTuples exLib
            (exPlan Emitter.Istream [] [] [exRow 1, exRow 1, exRow 2, exRow 1] [exRow 1])
          = .ok ((exPlan Emitter.Istream [] [] [exRow 1, exRow 1, exRow 2, exRow 1]
                [exRow 1]).curResults.filter
              (fun res => decide (∀ prevRes ∈
                (exPlan Emitter.Istream [] [] [exRow 1, exRow 1, exRow 2, exRow 1]
                  [exRow 1]).prevResults, exLib.deepEqual res prevRes = false)))
        ∧ ∀ out, computeResultTuples exLib
              (exPlan Emitter.Istream [] [] [exRow 1, exRow 1, exRow 2, exRow 1] [exRow 1])
            = .ok out →
            ∀ res prevRes,
              prevRes ∈ (exPlan Emitter.Istream [] [] [exRow 1, exRow 1, exRow 2, exRow 1]
                [exRow 1]).prevResults →
              exLib.deepEqual res prevRes = true → res ∉ out) :=
  ⟨rfl, computeResultTuples_istream exLib
    (exPlan Emitter.Istream [] [] [exRow 1, exRow 1, exRow 2, exRow 1] [exRow 1]) rfl⟩

theorem performQueryOnBuffer_frame (L : Lib) (ep : groupbyExecutionPlan)
    (allStreams : List String) :
    ∃ cur prev, (performQueryOnBuffer L ep allStreams).1
      = { ep with curResults := cur, prevResults := prev } := by
  unfold performQueryOnBuffer
  simp only
  split
  · exact ⟨_, _, rfl⟩
  · split
    · split
      · exact ⟨_, _, rfl⟩
      · exact ⟨_, _, rfl⟩
    · exact ⟨_, _, rfl⟩

/-- C3: in delete-stream mode `computeResultTuples` returns the rows of
`prevResults`, in their order and with their repetitions, that are deep-equal
to no row of `curResults`; with empty `prevResults` it returns no rows, as in
the first evaluation of a plan whose `curResults` are still empty. -/
theorem computeResultTuples_dstream (L : Lib) (ep : groupbyExecutionPlan)
    (h : ep.emitterType = Emitter.Dstream) :
    computeResultTuples L ep
        = .ok (ep.prevResults.filter
            (fun prevRes => decide (∀ res ∈ ep.curResults, L.deepEqual res prevRes = false)))
      ∧ (ep.prevResults = [] → computeResultTuples L ep = .ok [])
      ∧ ∀ allStreams, ep.curResults = [] →
          (performQueryOnBuffer L ep allStreams).2 = none →
          computeResultTuples L (performQueryOnBuffer L ep allStreams).1 = .ok [] := by
  have hmain : ∀ ep1 : groupbyExecutionPlan, ep1.emitterType = Emitter.Dstream →
      computeResultTuples L ep1
        = .ok (ep1.prevResults.filter
            (fun prevRes => decide (∀ res ∈ ep1.curResults, L.deepEqual res prevRes = false))) := by
    intro ep1 h1
    unfold computeResultTuples
    rw [h1]
    simp only [reduceCtorEq, if_false, if_true, emitLoop_eq, List.nil_append]
    congr 1
    apply List.filter_congr
    intro prevRes _
    by_cases hf : foundInCur L prevRes ep1.curResults = false
    · have hall := (foundInCur_eq_false_iff L prevRes ep1.curResults).1 hf
      simp only [hf, Bool.not_false]
      exact (decide_eq_true hall).symm
    · have hn : ¬ ∀ res ∈ ep1.curResults, L.deepEqual res prevRes = false :=
        fun hall => hf ((foundInCur_eq_false_iff L prevRes ep1.curResults).2 hall)
      simp only [Bool.not_eq_false] at hf
      simp [hf, hn]
  refine ⟨hmain ep h, ?_, ?_⟩
  · intro hprev
    rw [hmain ep h, hprev]
    rfl
  · intro allStreams hcur hok
    have hprev := performQueryOnBuffer_prevResults_of_ok L ep allStreams hok
    obtain ⟨cur, prev, hfr⟩ := performQueryOnBuffer_frame L ep allStreams
    have htype : (performQueryOnBuffer L ep allStreams).1.emitterType = Emitter.Dstream := by
      rw [hfr]
      exact h
    rw [hmain _ htype, hprev, hcur]
    rfl

/-- C3, at a plan whose window has lost the row with 1. -/
theorem computeResultTuples_dstream_witness :
    (exPlan Emitter.Dstream [] [] [exRow 2, exRow 3] [exRow 1, exRow 2]).emitterType
        = Emitter.Dstream
      ∧ (computeResultTuples exLib
            (exPlan Emitter.Dstream [] [] [exRow 2, exRow 3] [exRow 1, exRow 2])
          = .ok ((exPlan Emitter.Dstream [] [] [exRow 2, exRow 3]
                [exRow 1, exRow 2]).prevResults.filter
              (fun prevRes => decide (∀ res ∈
                (exPlan Emitter.Dstream [] [] [exRow 2, exRow 3] [exRow 1, exRow 2]).curResults,
                  exLib.deepEqual res prevRes = false)))
        ∧ ((exPlan Emitter.Dstream [] [] [exRow 2, exRow 3] [exRow 1, exRow 2]).prevResults = [] →
            computeResultTuples exLib
              (exPlan Emitter.Dstream [] [] [exRow 2, exRow 3] [exRow 1, exRow 2]) = .ok [])
        ∧ ∀ allStreams,
            (exPlan Emitter.Dstream [] [] [exRow 2, exRow 3] [exRow 1, exRow 2]).curResults = [] →
            (performQueryOnBuffer exLib
              (exPlan Emitter.Dstream [] [] [exRow 2, exRow 3] [exRow 1, exRow 2])
              allStreams).2 = none →
            computeResultTuples exLib (performQueryOnBuffer exLib
              (exPlan Emitter.Dstream [] [] [exRow 2, exRow 3] [exRow 1, exRow 2])
              allStreams).1 = .ok []) :=
  ⟨rfl, computeResultTuples_dstream exLib
    (exPlan Emitter.Dstream [] [] [exRow 2, exRow 3] [exRow 1, exRow 2]) rfl⟩

/-- C4: in all-stream mode `computeResultTuples` returns `curResults` as it is,
whatever `prevResults` holds; for an emitter type that is none of RSTREAM,
ISTREAM and DSTREAM it returns an error. -/
theorem computeResultTuples_rstream (L : Lib) (ep : groupbyExecutionPlan) :
    (ep.emitterType = Emitter.Rstream →
        ∀ prev, computeResultTuples L { ep with prevResults := prev } = .ok ep.curResults)
      ∧ (ep.emitterType ≠ Emitter.Rstream → ep.emitterType ≠ Emitter.Istream →
          ep.emitterType ≠ Emitter.Dstream →
          computeResultTuples L ep = .error (Failure.error Err.emitterNotImplemented)) := by
  constructor
  · intro h prev
    unfold computeResultTuples
    simp [h, emitLoop_eq]
  · intro h1 h2 h3
    unfold computeResultTuples
    simp [h1, h2, h3]

/-! ## The emit gate -/

theorem wrapInt64_of_inRange (x : Int) (h1 : -(2 ^ 63) ≤ x) (h2 : x < 2 ^ 63) :
    wrapInt64 x = x := by
  unfold wrapInt64
  omega

theorem tmod_succ_eq_zero_iff (c n : Int) (hc : 0 ≤ c) (hn : c < n) :
    Int.tmod (c + 1) n = 0 ↔ c + 1 = n := by
  rw [Int.tmod_eq_emod (by omega) (by omega)]
  constructor
  · intro h
    by_contra hne
    have hlt : c + 1 < n := by omega
    rw [Int.emod_eq_of_lt (by omega) hlt] at h
    omega
  · intro h
    rw [h]
    exact Int.emod_self

/-- What `countAndCheck` does on a counter in `[0, n)` for an interval `n` of
type `int64`: the counter becomes `c + 1` without firing, or 0 with firing
when `c + 1` reaches `n`. -/
theorem countAndCheck_of_lt (ep : groupbyExecutionPlan) (key : String) (interval : IntervalAST)
    (hint : interval.Value < 2 ^ 63) (hc : 0 ≤ counterOf ep key)
    (hlt : counterOf ep key < interval.Value) :
    countAndCheck ep key interval
      = ({ ep with
            emitCounters := AMap.set ep.emitCounters key
              (if counterOf ep key + 1 = interval.Value then 0 else counterOf ep key + 1) },
          .ok (decide (counterOf ep key + 1 = interval.Value))) := by
  unfold countAndCheck
  unfold counterOf at hc hlt ⊢
  simp only
  rw [wrapInt64_of_inRange _ (by omega) (by omega)]
  have hne : interval.Value ≠ 0 := by omega
  by_cases hfire : ((AMap.get ep.emitCounters key).getD 0) + 1 = interval.Value
  · have := (tmod_succ_eq_zero_iff _ _ hc hlt).2 hfire
    simp [hne, this, hfire]
  · have : ¬ Int.tmod (((AMap.get ep.emitCounters key).getD 0) + 1) interval.Value = 0 :=
      fun h => hfire ((tmod_succ_eq_zero_iff _ _ hc hlt).1 h)
    simp [hne, this, hfire]

theorem counterOf_set_self (ep : groupbyExecutionPlan) (key : String) (v : Int) :
    counterOf { ep with emitCounters := AMap.set ep.emitCounters key v } key = v := by
  simp [counterOf, AMap.get_set_self]

theorem counterOf_set_ne (ep : groupbyExecutionPlan) (key key2 : String) (v : Int)
    (hne : key ≠ key2) :
    counterOf { ep with emitCounters := AMap.set ep.emitCounters key v } key2
      = counterOf ep key2 := by
  simp [counterOf, AMap.get_set_ne _ _ _ _ hne]

theorem succ_emod_of_lt (c n : Int) (hc : 0 ≤ c) (hn : c < n) :
    (c + 1) % n = if c + 1 = n then 0 else c + 1 := by
  by_cases h : c + 1 = n
  · simp [h]
  · simp only [h, if_false]
    exact Int.emod_eq_of_lt (by omega) (by omega)

/-- With a rule under `*`, `shouldEmitNow` counts under `*` whatever the tuple. -/
theorem shouldEmitNow_star (ep : groupbyExecutionPlan) (t : Tuple) (interval : IntervalAST)
    (hrule : AMap.get ep.emitterRules "*" = some interval) :
    shouldEmitNow ep t = countAndCheck ep "*" interval := by
  unfold shouldEmitNow
  rw [hrule]

theorem shouldEmitNow_emitterRules (ep : groupbyExecutionPlan) (t : Tuple) :
    (shouldEmitNow ep t).1.emitterRules = ep.emitterRules := by
  unfold shouldEmitNow countAndCheck
  split
  · simp only
    split
    · rfl
    · split <;> rfl
  · split
    · simp only
      split
      · rfl
      · split <;> rfl
    · rfl

theorem gateAfter_append (ep : groupbyExecutionPlan) (pre : List Tuple) (t : Tuple) :
    gateAfter ep (pre ++ [t]) = (shouldEmitNow (gateAfter ep pre) t).1 := by
  simp [gateAfter, List.foldl_append]

theorem gateAfter_emitterRules (ep : groupbyExecutionPlan) (pre : List Tuple) :
    (gateAfter ep pre).emitterRules = ep.emitterRules := by
  induction pre using List.reverseRecOn with
  | nil => rfl
  | append_singleton pre t ih => rw [gateAfter_append, shouldEmitNow_emitterRules, ih]

/-- The counter under `*` after a run of gate calls from counter 0. -/
theorem gateAfter_star_counter (ep : groupbyExecutionPlan) (interval : IntervalAST)
    (hrule : AMap.get ep.emitterRules "*" = some interval)
    (hpos : 1 ≤ interval.Value) (hint : interval.Value < 2 ^ 63)
    (hzero : counterOf ep "*" = 0) (pre : List Tuple) :
    counterOf (gateAfter ep pre) "*" = (pre.length : Int) % interval.Value := by
  induction pre using List.reverseRecOn with
  | nil => simp [gateAfter, hzero]
  | append_singleton pre t ih =>
    have hr : AMap.get (gateAfter ep pre).emitterRules "*" = some interval := by
      rw [gateAfter_emitterRules]
      exact hrule
    have hc0 : 0 ≤ counterOf (gateAfter ep pre) "*" := by
      rw [ih]
      exact Int.emod_nonneg _ (by omega)
    have hc1 : counterOf (gateAfter ep pre) "*" < interval.Value := by
      rw [ih]
      exact Int.emod_lt_of_pos _ (by omega)
    rw [gateAfter_append, shouldEmitNow_star _ _ _ hr, countAndCheck_of_lt _ _ _ hint hc0 hc1]
    simp only [counterOf_set_self]
    rw [← succ_emod_of_lt _ _ hc0 hc1, ih]
    simp only [List.length_append, List.length_singleton, Nat.cast_add, Nat.cast_one]
    rw [Int.emod_add_cancel_right]
    exact Int.emod_emod_of_dvd _ (dvd_refl _)

theorem initEmitRules_counters (rules : List StreamEmitIntervalAST)
    (tables res : AMap IntervalAST × AMap Int)
    (h : initEmitRules rules tables = .ok res)
    (hzero : ∀ key, (AMap.get tables.2 key).getD 0 = 0) :
    ∀ key, (AMap.get res.2 key).getD 0 = 0 := by
  induction rules generalizing tables with
  | nil =>
    simp only [initEmitRules] at h
    injection h with h
    subst h
    exact hzero
  | cons emitRule rest ih =>
    obtain ⟨emitterRules, emitCounters⟩ := tables
    simp only [initEmitRules] at h
    split at h
    · simp at h
    · apply ih _ h
      intro key
      by_cases hk : "*" = key
      · subst hk
        simp [AMap.get_set_self]
      · simp only [AMap.get_set_ne _ _ _ _ hk]
        exact hzero key

/-- A new plan has all its emit counters at 0. -/
theorem NewGroupbyExecutionPlan_counters (L : Lib) (lp : LogicalPlan) (reg : FunctionRegistry)
    (ep : groupbyExecutionPlan) (hnew : NewGroupbyExecutionPlan L lp reg = .ok ep) (key : String) :
    counterOf ep key = 0 := by
  unfold NewGroupbyExecutionPlan at hnew
  split at hnew
  · simp at hnew
  split at hnew
  · simp at hnew
  split at hnew
  · simp at hnew
  split at hnew
  · simp at hnew
  simp only at hnew
  split at hnew
  · simp at hnew
  rename_i emitterRules emitCounters hinit
  injection hnew with hnew
  subst hnew
  have := initEmitRules_counters _ _ _ hinit (by
    intro key
    split
    · by_cases hk : "*" = key
      · subst hk
        simp [AMap.get]
      · simp [AMap.get, hk]
    · simp [AMap.get]) key
  exact this

/-- C8: on a new plan with a rule under `*` of interval `n >= 1`, the call of
`shouldEmitNow` that follows `k - 1` earlier calls returns true exactly when
`n` divides `k`, whatever the tuples are; it sets the counter under `*` to 0
when it fires and to one more than before when it does not. -/
theorem shouldEmitNow_star_rule (L : Lib) (lp : LogicalPlan) (reg : FunctionRegistry)
    (ep : groupbyExecutionPlan) (interval : IntervalAST)
    (hnew : NewGroupbyExecutionPlan L lp reg = .ok ep)
    (hrule : AMap.get ep.emitterRules "*" = some interval)
    (hpos : 1 ≤ interval.Value) (hint : interval.Value < 2 ^ 63)
    (pre : List Tuple) (t : Tuple) :
    (shouldEmitNow (gateAfter ep pre) t).2
        = .ok (decide (interval.Value ∣ (pre.length : Int) + 1))
      ∧ counterOf (shouldEmitNow (gateAfter ep pre) t).1 "*"
        = if interval.Value ∣ (pre.length : Int) + 1 then 0
          else counterOf (gateAfter ep pre) "*" + 1 := by
  have hzero := NewGroupbyExecutionPlan_counters L lp reg ep hnew "*"
  have hcnt := gateAfter_star_counter ep interval hrule hpos hint hzero pre
  have hr : AMap.get (gateAfter ep pre).emitterRules "*" = some interval := by
    rw [gateAfter_emitterRules]
    exact hrule
  have hc0 : 0 ≤ counterOf (gateAfter ep pre) "*" := by
    rw [hcnt]
    exact Int.emod_nonneg _ (by omega)
  have hc1 : counterOf (gateAfter ep pre) "*" < interval.Value := by
    rw [hcnt]
    exact Int.emod_lt_of_pos _ (by omega)
  have hiff : interval.Value ∣ (pre.length : Int) + 1
      ↔ counterOf (gateAfter ep pre) "*" + 1 = interval.Value := by
    rw [Int.dvd_iff_emod_eq_zero]
    have h1 : ((pre.length : Int) + 1) % interval.Value
        = (counterOf (gateAfter ep pre) "*" + 1) % interval.Value := by
      rw [hcnt, Int.emod_add_cancel_right]
      exact (Int.emod_emod_of_dvd _ (dvd_refl _)).symm
    rw [h1, succ_emod_of_lt _ _ hc0 hc1]
    constructor
    · intro h
      by_contra hne
      rw [if_neg hne] at h
      omega
    · intro h
      rw [if_pos h]
  rw [shouldEmitNow_star _ _ _ hr, countAndCheck_of_lt _ _ _ hint hc0 hc1]
  refine ⟨?_, ?_⟩
  · simp only
    rw [decide_eq_decide.2 hiff]
  · simp only [counterOf_set_self]
    by_cases hd : interval.Value ∣ (pre.length : Int) + 1
    · rw [if_pos hd, if_pos (hiff.1 hd)]
    · rw [if_neg hd, if_neg (fun h => hd (hiff.2 h))]

/-! ## Eviction -/

/-- Eviction of a tuple window with non-negative size: the buffer keeps its
trailing `windowSize` entries. -/
theorem evictBuffer_tuples (buffer : inputBuffer) (curTupTime : Time)
    (htype : buffer.windowType = IntervalUnit.Tuples) (hsize : 0 ≤ buffer.windowSize) :
    evictBuffer buffer curTupTime
      = .ok { buffer with
          tuples := buffer.tuples.drop (buffer.tuples.length - buffer.windowSize.toNat) } := by
  obtain ⟨tuples, windowSize, windowType⟩ := buffer
  simp only at htype hsize
  subst htype
  unfold evictBuffer
  simp only [if_true]
  by_cases hgt : (tuples.length : Int) > windowSize
  · have hb : 0 ≤ (tuples.length : Int) - windowSize
        ∧ (tuples.length : Int) - windowSize ≤ tuples.length := by omega
    have hnat : ((tuples.length : Int) - windowSize).toNat
        = tuples.length - windowSize.toNat := by omega
    simp only [hgt, hb, if_true, and_self, hnat]
  · have hz : tuples.length - windowSize.toNat = 0 := by omega
    simp only [hgt, if_false, hz, List.drop_zero]

/-- Eviction of a time window: the buffer keeps the tuples that pass the test
of the loop. -/
theorem evictBuffer_seconds (buffer : inputBuffer) (curTupTime : Time)
    (htype : buffer.windowType = IntervalUnit.Seconds) :
    evictBuffer buffer curTupTime
      = .ok { buffer with
          tuples := buffer.tuples.filter
            (fun tup => inTimeWindow curTupTime buffer.windowSize tup.Timestamp) } := by
  unfold evictBuffer
  simp [htype]

theorem evictBuffer_ok_of_valid (b : inputBuffer) (curTupTime : Time)
    (h : (b.windowType = IntervalUnit.Tuples ∧ 0 ≤ b.windowSize)
      ∨ b.windowType = IntervalUnit.Seconds) :
    ∃ b1, evictBuffer b curTupTime = .ok b1 ∧ b1.windowSize = b.windowSize
      ∧ b1.windowType = b.windowType := by
  rcases h with ⟨ht, hs⟩ | ht
  · exact ⟨_, evictBuffer_tuples b curTupTime ht hs, rfl, rfl⟩
  · exact ⟨_, evictBuffer_seconds b curTupTime ht, rfl, rfl⟩

/-- The eviction loop over distinct keys of valid buffers ends without
failure, and has replaced the buffer under every key of the order by its
evicted buffer. -/
theorem evictLoop_spec (curTupTime : Time) (order : List String) (buffers : AMap inputBuffer)
    (hnodup : order.Nodup) (hvalid : validWindows buffers) :
    (evictLoop curTupTime order buffers).2 = none
      ∧ ∀ k, AMap.get (evictLoop curTupTime order buffers).1 k
          = if k ∈ order then
              (AMap.get buffers k).bind (fun b => (evictBuffer b curTupTime).toOption)
            else AMap.get buffers k := by
  induction order generalizing buffers with
  | nil => simp [evictLoop]
  | cons key rest ih =>
    have hnd := List.nodup_cons.1 hnodup
    cases hget : AMap.get buffers key with
    | none =>
      simp only [evictLoop, hget]
      obtain ⟨h1, h2⟩ := ih buffers hnd.2 hvalid
      refine ⟨h1, ?_⟩
      intro k
      rw [h2 k]
      by_cases hk : k = key
      · subst hk
        simp [hnd.1, hget]
      · simp [hk]
    | some buffer =>
      obtain ⟨b1, hb1, hsz, hty⟩ := evictBuffer_ok_of_valid buffer curTupTime (hvalid key buffer hget)
      simp only [evictLoop, hget, hb1]
      have hvalid1 : validWindows (AMap.set buffers key b1) := by
        intro k b hk
        by_cases hkk : key = k
        · subst hkk
          rw [AMap.get_set_self] at hk
          injection hk with hk
          subst hk
          rw [hsz, hty]
          exact hvalid key buffer hget
        · rw [AMap.get_set_ne _ _ _ _ hkk] at hk
          exact hvalid k b hk
      obtain ⟨h1, h2⟩ := ih (AMap.set buffers key b1) hnd.2 hvalid1
      refine ⟨h1, ?_⟩
      intro k
      rw [h2 k]
      by_cases hk : key = k
      · subst hk
        simp [hnd.1, AMap.get_set_self, hget, hb1, Except.toOption]
      · have hk2 : ¬ k = key := fun h => hk h.symm
        simp [hk2, AMap.get_set_ne _ _ _ _ hk]

/-- C5: `removeOutdatedTuplesFromBuffer`, ranging over distinct keys of
buffers with valid windows, ends without failure; a tuple-window buffer with
at most `windowSize` entries is left as it is, a longer one is replaced by its
trailing `windowSize` entries in their order, a suffix of length `windowSize`. -/
theorem removeOutdatedTuplesFromBuffer_tuples (ep : groupbyExecutionPlan) (order : List String)
    (curTupTime : Time) (hnodup : order.Nodup) (hvalid : validWindows ep.buffers)
    (key : String) (b : inputBuffer) (hkey : key ∈ order)
    (hget : AMap.get ep.buffers key = some b) (htype : b.windowType = IntervalUnit.Tuples) :
    (removeOutdatedTuplesFromBuffer ep order curTupTime).2 = none
      ∧ ∃ b1, AMap.get (removeOutdatedTuplesFromBuffer ep order curTupTime).1.buffers key = some b1
        ∧ b1.windowSize = b.windowSize ∧ b1.windowType = b.windowType
        ∧ ((b.tuples.length : Int) ≤ b.windowSize → b1.tuples = b.tuples)
        ∧ (b.windowSize < (b.tuples.length : Int) →
            b1.tuples = b.tuples.drop (b.tuples.length - b.windowSize.toNat)
            ∧ (b1.tuples.length : Int) = b.windowSize
            ∧ b1.tuples <:+ b.tuples) := by
  obtain ⟨h1, h2⟩ := evictLoop_spec curTupTime order ep.buffers hnodup hvalid
  have hsize : 0 ≤ b.windowSize := by
    rcases hvalid key b hget with ⟨_, hs⟩ | hs
    · exact hs
    · rw [htype] at hs
      cases hs
  unfold removeOutdatedTuplesFromBuffer
  refine ⟨h1, ⟨{ b with tuples := b.tuples.drop (b.tuples.length - b.windowSize.toNat) },
    ?_, rfl, rfl, ?_, ?_⟩⟩
  · simp only
    rw [h2 key]
    simp only [hkey, if_true, hget, Option.some_bind, evictBuffer_tuples b curTupTime htype hsize,
      Except.toOption]
  · intro hle
    have hz : b.tuples.length - b.windowSize.toNat = 0 := by omega
    simp only [hz, List.drop_zero]
  · intro hlt
    refine ⟨rfl, ?_, List.drop_suffix _ _⟩
    simp only [List.length_drop]
    omega

/-! ## The emit gate with rules per input name -/

/-- Without a rule under `*`, `shouldEmitNow` goes by the input name. -/
theorem shouldEmitNow_source (ep : groupbyExecutionPlan) (t : Tuple) (interval : IntervalAST)
    (hstar : AMap.get ep.emitterRules "*" = none)
    (hrule : AMap.get ep.emitterRules t.InputName = some interval) :
    shouldEmitNow ep t = countAndCheck ep t.InputName interval := by
  unfold shouldEmitNow
  rw [hstar, hrule]

/-- Without a rule under `*` and under the input name, `shouldEmitNow` returns
false and changes nothing. -/
theorem shouldEmitNow_no_rule (ep : groupbyExecutionPlan) (t : Tuple)
    (hstar : AMap.get ep.emitterRules "*" = none)
    (hrule : AMap.get ep.emitterRules t.InputName = none) :
    shouldEmitNow ep t = (ep, .ok false) := by
  unfold shouldEmitNow
  rw [hstar, hrule]

theorem countAndCheck_counterOf_ne (ep : groupbyExecutionPlan) (key key2 : String)
    (interval : IntervalAST) (hne : key ≠ key2) :
    counterOf (countAndCheck ep key interval).1 key2 = counterOf ep key2 := by
  unfold countAndCheck
  simp only
  split
  · rfl
  · split
    · exact counterOf_set_ne ep key key2 _ hne
    · exact counterOf_set_ne ep key key2 _ hne

/-- Without a rule under `*`, a tuple of another input name leaves the counter
of `s` as it is. -/
theorem shouldEmitNow_counterOf_other (ep : groupbyExecutionPlan) (t : Tuple) (s : String)
    (hstar : AMap.get ep.emitterRules "*" = none) (hne : t.InputName ≠ s) :
    counterOf (shouldEmitNow ep t).1 s = counterOf ep s := by
  cases hrule : AMap.get ep.emitterRules t.InputName with
  | none => rw [shouldEmitNow_no_rule ep t hstar hrule]
  | some interval =>
    rw [shouldEmitNow_source ep t interval hstar hrule]
    exact countAndCheck_counterOf_ne ep _ _ interval hne

/-- The counter of `s` after a run of gate calls from counter 0, without rule
under `*`: the number of tuples of `s` so far, modulo the interval. -/
theorem gateAfter_source_counter (ep : groupbyExecutionPlan) (s : String) (interval : IntervalAST)
    (hstar : AMap.get ep.emitterRules "*" = none)
    (hrule : AMap.get ep.emitterRules s = some interval)
    (hpos : 1 ≤ interval.Value) (hint : interval.Value < 2 ^ 63)
    (hzero : counterOf ep s = 0) (pre : List Tuple) :
    counterOf (gateAfter ep pre) s
      = ((pre.filter (fun u => decide (u.InputName = s))).length : Int) % interval.Value := by
  induction pre using List.reverseRecOn with
  | nil => simp [gateAfter, hzero]
  | append_singleton pre t ih =>
    have hs : AMap.get (gateAfter ep pre).emitterRules "*" = none := by
      rw [gateAfter_emitterRules]
      exact hstar
    rw [gateAfter_append]
    by_cases ht : t.InputName = s
    · have hr : AMap.get (gateAfter ep pre).emitterRules t.InputName = some interval := by
        rw [gateAfter_emitterRules, ht]
        exact hrule
      have hc0 : 0 ≤ counterOf (gateAfter ep pre) s := by
        rw [ih]
        exact Int.emod_nonneg _ (by omega)
      have hc1 : counterOf (gateAfter ep pre) s < interval.Value := by
        rw [ih]
        exact Int.emod_lt_of_pos _ (by omega)
      rw [shouldEmitNow_source _ _ _ hs hr, ht, countAndCheck_of_lt _ _ _ hint hc0 hc1]
      simp only [counterOf_set_self]
      rw [← succ_emod_of_lt _ _ hc0 hc1, ih]
      simp only [List.filter_append, List.length_append, ht, decide_True, List.filter_cons_of_pos,
        List.filter_nil, List.length_singleton, Nat.cast_add, Nat.cast_one]
      rw [Int.emod_add_cancel_right]
      exact Int.emod_emod_of_dvd _ (dvd_refl _)
    · rw [shouldEmitNow_counterOf_other _ _ _ hs ht, ih]
      simp [List.filter_append, ht]

/-- C9: on a new plan without rule under `*` and with a rule of interval
`n >= 1` for the input name `s`, a tuple of `s` fires exactly when `n` divides
its number among the tuples of `s` received so far, however many tuples of
other input names lie in between; with `2 TUPLES IN src1, 3 TUPLES IN src2`
and twelve alternating tuples the gate fires at the indices 2, 5, 6, 10, 11. -/
theorem shouldEmitNow_source_rule (L : Lib) (lp : LogicalPlan) (reg : FunctionRegistry)
    (ep : groupbyExecutionPlan) (s : String) (interval : IntervalAST)
    (hnew : NewGroupbyExecutionPlan L lp reg = .ok ep)
    (hstar : AMap.get ep.emitterRules "*" = none)
    (hrule : AMap.get ep.emitterRules s = some interval)
    (hpos : 1 ≤ interval.Value) (hint : interval.Value < 2 ^ 63)
    (pre : List Tuple) (t : Tuple) (ht : t.InputName = s) :
    (shouldEmitNow (gateAfter ep pre) t).2
        = .ok (decide (interval.Value ∣
            ((pre.filter (fun u => decide (u.InputName = s))).length : Int) + 1))
      ∧ (NewGroupbyExecutionPlan exJoinLib (exJoinLp exRules23) exReg
            = .ok (exJoinPlan [("src1", ⟨2, IntervalUnit.Tuples⟩), ("src2", ⟨3, IntervalUnit.Tuples⟩)])
          ∧ gateResults
              (exJoinPlan [("src1", ⟨2, IntervalUnit.Tuples⟩), ("src2", ⟨3, IntervalUnit.Tuples⟩)])
              exTwelve
            = [.ok false, .ok false, .ok true, .ok false, .ok false, .ok true,
               .ok true, .ok false, .ok false, .ok false, .ok true, .ok true]) := by
  refine ⟨?_, rfl, rfl⟩
  have hzero := NewGroupbyExecutionPlan_counters L lp reg ep hnew s
  have hcnt := gateAfter_source_counter ep s interval hstar hrule hpos hint hzero pre
  have hs : AMap.get (gateAfter ep pre).emitterRules "*" = none := by
    rw [gateAfter_emitterRules]
    exact hstar
  have hr : AMap.get (gateAfter ep pre).emitterRules t.InputName = some interval := by
    rw [gateAfter_emitterRules, ht]
    exact hrule
  have hc0 : 0 ≤ counterOf (gateAfter ep pre) s := by
    rw [hcnt]
    exact Int.emod_nonneg _ (by omega)
  have hc1 : counterOf (gateAfter ep pre) s < interval.Value := by
    rw [hcnt]
    exact Int.emod_lt_of_pos _ (by omega)
  have hiff : interval.Value ∣
        ((pre.filter (fun u => decide (u.InputName = s))).length : Int) + 1
      ↔ counterOf (gateAfter ep pre) s + 1 = interval.Value := by
    rw [Int.dvd_iff_emod_eq_zero]
    have h1 : (((pre.filter (fun u => decide (u.InputName = s))).length : Int) + 1)
          % interval.Value
        = (counterOf (gateAfter ep pre) s + 1) % interval.Value := by
      rw [hcnt, Int.emod_add_cancel_right]
      exact (Int.emod_emod_of_dvd _ (dvd_refl _)).symm
    rw [h1, succ_emod_of_lt _ _ hc0 hc1]
    constructor
    · intro h
      by_contra hne
      rw [if_neg hne] at h
      omega
    · intro h
      rw [if_pos h]
  rw [shouldEmitNow_source _ _ _ hs hr, ht, countAndCheck_of_lt _ _ _ hint hc0 hc1]
  simp only
  rw [decide_eq_decide.2 hiff]

/-! ## Appending to the buffers -/

theorem grows_refl (m : AMap inputBuffer) : grows m m := by
  intro k
  cases h : AMap.get m k with
  | none => exact Or.inl ⟨rfl, rfl⟩
  | some b => exact Or.inr ⟨b, b, rfl, rfl, rfl, rfl, List.prefix_refl _⟩

theorem grows_trans (m m1 m2 : AMap inputBuffer) (h1 : grows m m1) (h2 : grows m1 m2) :
    grows m m2 := by
  intro k
  rcases h1 k with ⟨ha, hb⟩ | ⟨b, b1, ha, hb, hs, ht, hp⟩
  · rcases h2 k with ⟨hc, hd⟩ | ⟨c, c1, hc, hd, _, _, _⟩
    · exact Or.inl ⟨ha, hd⟩
    · rw [hb] at hc
      cases hc
  · rcases h2 k with ⟨hc, hd⟩ | ⟨c, c1, hc, hd, hs2, ht2, hp2⟩
    · rw [hb] at hc
      cases hc
    · rw [hb] at hc
      injection hc with hc
      subst hc
      exact Or.inr ⟨b, c1, ha, hd, hs2.trans hs, ht2.trans ht, hp.trans hp2⟩

theorem grows_set (m : AMap inputBuffer) (key : String) (b : inputBuffer) (extra : List Tuple)
    (hget : AMap.get m key = some b) :
    grows m (AMap.set m key { b with tuples := b.tuples ++ extra }) := by
  intro k
  by_cases hk : key = k
  · subst hk
    exact Or.inr ⟨b, _, hget, AMap.get_set_self _ _ _, rfl, rfl, List.prefix_append _ _⟩
  · rw [AMap.get_set_ne _ _ _ _ hk]
    exact grows_refl m k

theorem grows_validWindows (m m1 : AMap inputBuffer) (h : grows m m1) (hv : validWindows m) :
    validWindows m1 := by
  intro k b1 hk
  rcases h k with ⟨_, hb⟩ | ⟨b, c1, ha, hb, hs, ht, _⟩
  · rw [hb] at hk
    cases hk
  · rw [hb] at hk
    injection hk with hk
    subst hk
    rw [hs, ht]
    exact hv k b ha

/-- The append loop of `addTupleToBuffer` on a plan with a buffer for every
relation ends without failure and only appends to the buffers. -/
theorem appendLoop_grows (numAppends : Nat) (rels : List AliasedStreamWindowAST)
    (buffers : AMap inputBuffer) (t : Tuple)
    (hbuf : ∀ rel ∈ rels, ∃ b, AMap.get buffers rel.Alias = some b) :
    (appendLoop numAppends rels buffers t).2 = none
      ∧ grows buffers (appendLoop numAppends rels buffers t).1.1 := by
  induction rels generalizing buffers t with
  | nil => exact ⟨rfl, grows_refl _⟩
  | cons rel rest ih =>
    simp only [appendLoop]
    split
    · obtain ⟨b, hb⟩ := hbuf rel (List.mem_cons_self _ _)
      simp only [hb]
      have hg := grows_set buffers rel.Alias b
        [{ t with Data := [(rel.Alias, Value.map t.Data)] }] hb
      have hbuf1 : ∀ r ∈ rest, ∃ b1, AMap.get
          (AMap.set buffers rel.Alias
            { b with tuples := b.tuples ++ [{ t with Data := [(rel.Alias, Value.map t.Data)] }] })
          r.Alias = some b1 := by
        intro r hr
        obtain ⟨b0, hb0⟩ := hbuf r (List.mem_cons_of_mem _ hr)
        rcases hg r.Alias with ⟨hn, _⟩ | ⟨_, c1, _, hc1, _⟩
        · rw [hb0] at hn
          cases hn
        · exact ⟨c1, hc1⟩
      obtain ⟨h1, h2⟩ := ih _ (if numAppends > 1 then t
        else { t with Data := [(rel.Alias, Value.map t.Data)] }) hbuf1
      exact ⟨h1, grows_trans _ _ _ hg h2⟩
    · exact ih buffers t (fun r hr => hbuf r (List.mem_cons_of_mem _ hr))

/-- On a plan with a buffer for every relation, `addTupleToBuffer` of a tuple
with a known input name ends without failure, changes the buffers only, and
only appends to them. -/
theorem addTupleToBuffer_known (ep : groupbyExecutionPlan) (t : Tuple)
    (hknown : ∃ rel ∈ ep.relations, t.InputName = relationKey rel) (hbuf : hasBuffers ep) :
    (addTupleToBuffer ep t).2 = none
      ∧ (addTupleToBuffer ep t).1.1
          = { ep with buffers := (addTupleToBuffer ep t).1.1.buffers }
      ∧ grows ep.buffers (addTupleToBuffer ep t).1.1.buffers
      ∧ (addTupleToBuffer ep t).1.2.Timestamp = t.Timestamp
      ∧ (addTupleToBuffer ep t).1.2.InputName = t.InputName := by
  have hcount : ep.relations.countP (fun rel => decide (t.InputName = relationKey rel)) ≠ 0 := by
    obtain ⟨rel, hrel, hkey⟩ := hknown
    have := (List.countP_pos_iff (p := fun rel => decide (t.InputName = relationKey rel))).2
      ⟨rel, hrel, decide_eq_true hkey⟩
    omega
  obtain ⟨h1, h2⟩ := appendLoop_grows
    (ep.relations.countP (fun rel => decide (t.InputName = relationKey rel)))
    ep.relations ep.buffers t hbuf
  have hts : ∀ (n : Nat) (rels : List AliasedStreamWindowAST) (buffers : AMap inputBuffer)
      (u : Tuple), (appendLoop n rels buffers u).1.2.Timestamp = u.Timestamp
        ∧ (appendLoop n rels buffers u).1.2.InputName = u.InputName := by
    intro n rels
    induction rels with
    | nil => intro buffers u; exact ⟨rfl, rfl⟩
    | cons rel rest ih =>
      intro buffers u
      simp only [appendLoop]
      split
      · split
        · split <;> exact ⟨rfl, rfl⟩
        · obtain ⟨i1, i2⟩ := ih
            (AMap.set buffers rel.Alias _)
            (if n > 1 then u else { u with Data := [(rel.Alias, Value.map u.Data)] })
          rw [i1, i2]
          split <;> exact ⟨rfl, rfl⟩
      · exact ih buffers u
  have hadd : addTupleToBuffer ep t
      = (({ ep with
            buffers := (appendLoop
              (ep.relations.countP (fun rel => decide (t.InputName = relationKey rel)))
              ep.relations ep.buffers t).1.1 },
          (appendLoop
            (ep.relations.countP (fun rel => decide (t.InputName = relationKey rel)))
            ep.relations ep.buffers t).1.2),
        (appendLoop
          (ep.relations.countP (fun rel => decide (t.InputName = relationKey rel)))
          ep.relations ep.buffers t).2) := by
    unfold addTupleToBuffer
    simp only [hcount, if_false]
  rw [hadd]
  exact ⟨h1, rfl, h2, hts _ _ _ _⟩

theorem initEmitRules_get_none (rules : List StreamEmitIntervalAST)
    (tables res : AMap IntervalAST × AMap Int) (key : String)
    (h : initEmitRules rules tables = .ok res)
    (hnone : AMap.get tables.1 key = none) (hno : ∀ r ∈ rules, r.Name ≠ key) :
    AMap.get res.1 key = none := by
  induction rules generalizing tables with
  | nil =>
    simp only [initEmitRules] at h
    injection h with h
    subst h
    exact hnone
  | cons emitRule rest ih =>
    obtain ⟨emitterRules, emitCounters⟩ := tables
    simp only [initEmitRules] at h
    split at h
    · simp at h
    · apply ih _ h
      · simp only
        rw [AMap.get_set_ne _ _ _ _ (hno emitRule (List.mem_cons_self _ _))]
        exact hnone
      · exact fun r hr => hno r (List.mem_cons_of_mem _ hr)

/-- A new plan has no rule under a key that no emit rule of the statement
names, unless the key is `*` and the statement has no emit rule at all. -/
theorem NewGroupbyExecutionPlan_no_rule (L : Lib) (lp : LogicalPlan) (reg : FunctionRegistry)
    (ep : groupbyExecutionPlan) (hnew : NewGroupbyExecutionPlan L lp reg = .ok ep) (key : String)
    (hno : ∀ r ∈ lp.EmitIntervals, r.Name ≠ key)
    (hdef : lp.EmitIntervals ≠ [] ∨ key ≠ "*") :
    AMap.get ep.emitterRules key = none := by
  unfold NewGroupbyExecutionPlan at hnew
  split at hnew
  · simp at hnew
  split at hnew
  · simp at hnew
  split at hnew
  · simp at hnew
  split at hnew
  · simp at hnew
  simp only at hnew
  split at hnew
  · simp at hnew
  rename_i emitterRules emitCounters hinit
  injection hnew with hnew
  subst hnew
  refine initEmitRules_get_none _ _ _ key hinit ?_ hno
  split
  · rename_i hlen
    rcases hdef with hd | hd
    · exact absurd (List.length_eq_zero.1 hlen) hd
    · simp [AMap.get, Ne.symm hd]
  · rfl

theorem appendLoop_mem (numAppends : Nat) (rels : List AliasedStreamWindowAST)
    (buffers : AMap inputBuffer) (t : Tuple)
    (hbuf : ∀ rel ∈ rels, ∃ b, AMap.get buffers rel.Alias = some b)
    (hn : 1 < numAppends
      ∨ rels.countP (fun rel => decide (t.InputName = relationKey rel)) ≤ 1) :
    ∀ rel ∈ rels, t.InputName = relationKey rel →
      ∃ b1, AMap.get (appendLoop numAppends rels buffers t).1.1 rel.Alias = some b1
        ∧ nestUnder rel.Alias t ∈ b1.tuples := by
  induction rels generalizing buffers with
  | nil => intro rel hrel; cases hrel
  | cons rel0 rest ih =>
    intro rel hrel hmatch
    by_cases h0 : t.InputName = relationKey rel0
    · obtain ⟨b, hb⟩ := hbuf rel0 (List.mem_cons_self _ _)
      have hg := grows_set buffers rel0.Alias b
        [{ t with Data := [(rel0.Alias, Value.map t.Data)] }] hb
      have hbuf1 : ∀ r ∈ rest, ∃ b1, AMap.get
          (AMap.set buffers rel0.Alias
            { b with tuples := b.tuples ++ [{ t with Data := [(rel0.Alias, Value.map t.Data)] }] })
          r.Alias = some b1 := by
        intro r hr
        obtain ⟨b0, hb0⟩ := hbuf r (List.mem_cons_of_mem _ hr)
        rcases hg r.Alias with ⟨hn0, _⟩ | ⟨_, c1, _, hc1, _⟩
        · rw [hb0] at hn0
          cases hn0
        · exact ⟨c1, hc1⟩
      simp only [appendLoop, if_pos h0, hb]
      rcases List.mem_cons.1 hrel with heq | hin
      · subst heq
        obtain ⟨_, hgr⟩ := appendLoop_grows numAppends rest _
          (if numAppends > 1 then t else { t with Data := [(rel.Alias, Value.map t.Data)] }) hbuf1
        rcases hgr rel.Alias with ⟨hnone, _⟩ | ⟨c, c1, hc, hc1, _, _, hpre⟩
        · rw [AMap.get_set_self] at hnone
          cases hnone
        · rw [AMap.get_set_self] at hc
          injection hc with hc
          refine ⟨c1, hc1, ?_⟩
          apply hpre.subset
          rw [← hc]
          simp [nestUnder]
      · rcases hn with hbig | hsmall
        · simp only [hbig, if_true]
          exact ih _ hbuf1 (Or.inl hbig) rel hin hmatch
        · exfalso
          have hpos := (List.countP_pos_iff
            (p := fun rel => decide (t.InputName = relationKey rel))).2
            ⟨rel, hin, decide_eq_true hmatch⟩
          have hc := List.countP_cons_of_pos
            (p := fun rel => decide (t.InputName = relationKey rel)) rest
            (a := rel0) (decide_eq_true h0)
          rw [hc] at hsmall
          omega
    · have hrest : rel ∈ rest := by
        rcases List.mem_cons.1 hrel with heq | hin
        · subst heq
          exact absurd hmatch h0
        · exact hin
      simp only [appendLoop, if_neg h0]
      apply ih buffers (fun r hr => hbuf r (List.mem_cons_of_mem _ hr)) _ rel hrest hmatch
      rcases hn with hbig | hsmall
      · exact Or.inl hbig
      · right
        have hc := List.countP_cons_of_neg
          (p := fun rel => decide (t.InputName = relationKey rel)) rest
          (a := rel0) (by simpa using h0)
        rw [hc] at hsmall
        exact hsmall

/-- After `addTupleToBuffer`, the buffer of every relation that the tuple
belongs to holds the tuple with its data nested under the alias. -/
theorem addTupleToBuffer_mem (ep : groupbyExecutionPlan) (t : Tuple)
    (hbuf : hasBuffers ep) (rel : AliasedStreamWindowAST) (hrel : rel ∈ ep.relations)
    (hmatch : t.InputName = relationKey rel) :
    ∃ b1, AMap.get (addTupleToBuffer ep t).1.1.buffers rel.Alias = some b1
      ∧ nestUnder rel.Alias t ∈ b1.tuples := by
  have hcount : ep.relations.countP (fun rel => decide (t.InputName = relationKey rel)) ≠ 0 := by
    have := (List.countP_pos_iff (p := fun rel => decide (t.InputName = relationKey rel))).2
      ⟨rel, hrel, decide_eq_true hmatch⟩
    omega
  have hmem := appendLoop_mem
    (ep.relations.countP (fun rel => decide (t.InputName = relationKey rel)))
    ep.relations ep.buffers t hbuf (by omega) rel hrel hmatch
  unfold addTupleToBuffer
  simp only [hcount, if_false]
  exact hmem

theorem removeOutdatedTuplesFromBuffer_valid (ep : groupbyExecutionPlan) (order : List String)
    (curTupTime : Time) (hnodup : order.Nodup) (hvalid : validWindows ep.buffers) :
    (removeOutdatedTuplesFromBuffer ep order curTupTime).2 = none
      ∧ (removeOutdatedTuplesFromBuffer ep order curTupTime).1
          = { ep with buffers := (evictLoop curTupTime order ep.buffers).1 } := by
  obtain ⟨h1, _⟩ := evictLoop_spec curTupTime order ep.buffers hnodup hvalid
  unfold removeOutdatedTuplesFromBuffer
  exact ⟨h1, rfl⟩

/-- What `Process` does up to the gate on a plan with a buffer for every
relation and valid windows, for a tuple with a known input name: the tuple is
appended and the buffers are evicted without failure. -/
theorem Process_known (L : Lib) (ep : groupbyExecutionPlan) (o : IterOrder) (t : Tuple)
    (hknown : ∃ rel ∈ ep.relations, t.InputName = relationKey rel) (hbuf : hasBuffers ep)
    (hvalid : validWindows ep.buffers) (hord : o.evict.Nodup) :
    ∃ t1 : Tuple, t1.Timestamp = t.Timestamp ∧ t1.InputName = t.InputName
      ∧ Process L ep o t =
        match shouldEmitNow
          { ep with
            buffers := (evictLoop t.Timestamp o.evict (addTupleToBuffer ep t).1.1.buffers).1 }
          t1 with
        | (ep3, .error f) => (ep3, .error f)
        | (ep3, .ok false) => (ep3, .ok [])
        | (ep3, .ok true) =>
          match performQueryOnBuffer L ep3 o.eval with
          | (ep4, some f) => (ep4, .error f)
          | (ep4, none) => (ep4, computeResultTuples L ep4) := by
  obtain ⟨h1, h2, h3, h4, h5⟩ := addTupleToBuffer_known ep t hknown hbuf
  have hv1 := grows_validWindows _ _ h3 hvalid
  rcases hadd : addTupleToBuffer ep t with ⟨⟨ep1, t1⟩, r⟩
  rw [hadd] at h1 h2 h3 h4 h5 hv1
  simp only at h1 h2 h3 h4 h5 hv1
  subst h1
  obtain ⟨e1, e2⟩ := removeOutdatedTuplesFromBuffer_valid ep1 o.evict t1.Timestamp hord hv1
  rcases hrem : removeOutdatedTuplesFromBuffer ep1 o.evict t1.Timestamp with ⟨ep2, r2⟩
  rw [hrem] at e1 e2
  simp only at e1 e2
  subst e1
  refine ⟨t1, h4, h5, ?_⟩
  unfold Process
  simp only [hadd, hrem]
  rw [e2, h4, h2]

/-- C10: on a plan built with emit rules for some input names only (none
under `*`), in any state with the rule table of the new plan, a tuple whose
input name has no rule does not fire: `shouldEmitNow` returns false and leaves
the plan as it is, and `Process` returns no rows and no error, changing the
buffers only, where the tuple has been appended to the buffer of every relation
it belongs to before the eviction. -/
theorem Process_input_without_rule (L : Lib) (lp : LogicalPlan) (reg : FunctionRegistry)
    (ep0 : groupbyExecutionPlan) (hnew : NewGroupbyExecutionPlan L lp reg = .ok ep0)
    (hsome : lp.EmitIntervals ≠ []) (hstar : ∀ r ∈ lp.EmitIntervals, r.Name ≠ "*")
    (ep : groupbyExecutionPlan) (hrules : ep.emitterRules = ep0.emitterRules)
    (t : Tuple) (hno : ∀ r ∈ lp.EmitIntervals, r.Name ≠ t.InputName)
    (hknown : ∃ rel ∈ ep.relations, t.InputName = relationKey rel) (hbuf : hasBuffers ep)
    (hvalid : validWindows ep.buffers) (o : IterOrder) (hord : o.evict.Nodup) :
    shouldEmitNow ep t = (ep, .ok false)
      ∧ (Process L ep o t).2 = .ok []
      ∧ (Process L ep o t).1
          = { ep with
              buffers := (removeOutdatedTuplesFromBuffer (addTupleToBuffer ep t).1.1 o.evict
                t.Timestamp).1.buffers }
      ∧ ∀ rel ∈ ep.relations, t.InputName = relationKey rel →
          ∃ b1, AMap.get (addTupleToBuffer ep t).1.1.buffers rel.Alias = some b1
            ∧ nestUnder rel.Alias t ∈ b1.tuples := by
  have hs0 := NewGroupbyExecutionPlan_no_rule L lp reg ep0 hnew "*" hstar (Or.inl hsome)
  have hn0 := NewGroupbyExecutionPlan_no_rule L lp reg ep0 hnew t.InputName hno (Or.inl hsome)
  rw [← hrules] at hs0 hn0
  obtain ⟨t1, ht1, hn1, hproc⟩ := Process_known L ep o t hknown hbuf hvalid hord
  have hgate : shouldEmitNow
      { ep with
        buffers := (evictLoop t.Timestamp o.evict (addTupleToBuffer ep t).1.1.buffers).1 } t1
      = ({ ep with
          buffers := (evictLoop t.Timestamp o.evict (addTupleToBuffer ep t).1.1.buffers).1 },
        .ok false) := by
    apply shouldEmitNow_no_rule
    · exact hs0
    · rw [hn1]
      exact hn0
  rw [hproc, hgate]
  refine ⟨shouldEmitNow_no_rule ep t hs0 hn0, rfl, ?_, ?_⟩
  · simp only [removeOutdatedTuplesFromBuffer]
  · intro rel hrel hmatch
    exact addTupleToBuffer_mem ep t hbuf rel hrel hmatch

/-! ## The conditions on concrete plans -/

theorem validWindows_of_forall (m : AMap inputBuffer)
    (h : ∀ kb ∈ m, (kb.2.windowType = IntervalUnit.Tuples ∧ 0 ≤ kb.2.windowSize)
      ∨ kb.2.windowType = IntervalUnit.Seconds) :
    validWindows m := by
  intro k b hget
  induction m with
  | nil => simp [AMap.get] at hget
  | cons p rest ih =>
    obtain ⟨k1, b1⟩ := p
    simp only [AMap.get] at hget
    split at hget
    · injection hget with hget
      subst hget
      exact h (k1, b1) (List.mem_cons_self _ _)
    · exact ih (fun kb hkb => h kb (List.mem_cons_of_mem _ hkb)) hget

theorem hasBuffers_of_isSome (ep : groupbyExecutionPlan)
    (h : ∀ rel ∈ ep.relations, (AMap.get ep.buffers rel.Alias).isSome = true) :
    hasBuffers ep := by
  intro rel hrel
  exact Option.isSome_iff_exists.1 (h rel hrel)

/-- C5, at a buffer of three tuples with a window of two. -/
theorem removeOutdatedTuplesFromBuffer_tuples_witness :
    ["src"].Nodup ∧ validWindows exFullPlan.buffers ∧ "src" ∈ ["src"]
      ∧ AMap.get exFullPlan.buffers "src" = some exFullBuffer
      ∧ exFullBuffer.windowType = IntervalUnit.Tuples
      ∧ ((removeOutdatedTuplesFromBuffer exFullPlan ["src"] 2000000000).2 = none
        ∧ ∃ b1, AMap.get (removeOutdatedTuplesFromBuffer exFullPlan ["src"] 2000000000).1.buffers
              "src" = some b1
          ∧ b1.windowSize = exFullBuffer.windowSize ∧ b1.windowType = exFullBuffer.windowType
          ∧ ((exFullBuffer.tuples.length : Int) ≤ exFullBuffer.windowSize →
              b1.tuples = exFullBuffer.tuples)
          ∧ (exFullBuffer.windowSize < (exFullBuffer.tuples.length : Int) →
              b1.tuples = exFullBuffer.tuples.drop
                (exFullBuffer.tuples.length - exFullBuffer.windowSize.toNat)
              ∧ (b1.tuples.length : Int) = exFullBuffer.windowSize
              ∧ b1.tuples <:+ exFullBuffer.tuples)) :=
  ⟨by decide, validWindows_of_forall _ (by decide), by decide, rfl, rfl,
    removeOutdatedTuplesFromBuffer_tuples exFullPlan ["src"] 2000000000 (by decide)
      (validWindows_of_forall _ (by decide)) "src" exFullBuffer (by decide) rfl rfl⟩

/-- C8, at the second call on the plan of `EVERY 2 TUPLES`. -/
theorem shouldEmitNow_star_rule_witness :
    NewGroupbyExecutionPlan exJoinLib (exJoinLp [⟨exEvery2, "*"⟩]) exReg
        = .ok (exJoinPlan [("*", exEvery2)])
      ∧ AMap.get (exJoinPlan [("*", exEvery2)]).emitterRules "*" = some exEvery2
      ∧ 1 ≤ exEvery2.Value ∧ exEvery2.Value < 2 ^ 63
      ∧ ((shouldEmitNow (gateAfter (exJoinPlan [("*", exEvery2)]) [exJoinTuple 0])
            (exJoinTuple 1)).2
          = .ok (decide (exEvery2.Value ∣ (([exJoinTuple 0] : List Tuple).length : Int) + 1))
        ∧ counterOf (shouldEmitNow (gateAfter (exJoinPlan [("*", exEvery2)]) [exJoinTuple 0])
            (exJoinTuple 1)).1 "*"
          = if exEvery2.Value ∣ (([exJoinTuple 0] : List Tuple).length : Int) + 1 then 0
            else counterOf (gateAfter (exJoinPlan [("*", exEvery2)]) [exJoinTuple 0]) "*" + 1) :=
  ⟨rfl, rfl, by decide, by decide,
    shouldEmitNow_star_rule exJoinLib (exJoinLp [⟨exEvery2, "*"⟩]) exReg
      (exJoinPlan [("*", exEvery2)]) exEvery2 rfl rfl (by decide) (by decide)
      [exJoinTuple 0] (exJoinTuple 1)⟩

/-- C9, at the third tuple of `src2` among twelve alternating tuples. -/
theorem shouldEmitNow_source_rule_witness :
    NewGroupbyExecutionPlan exJoinLib (exJoinLp exRules23) exReg
        = .ok (exJoinPlan [("src1", exEvery2), ("src2", exEvery3)])
      ∧ AMap.get (exJoinPlan [("src1", exEvery2), ("src2", exEvery3)]).emitterRules "*" = none
      ∧ AMap.get (exJoinPlan [("src1", exEvery2), ("src2", exEvery3)]).emitterRules "src2"
          = some exEvery3
      ∧ 1 ≤ exEvery3.Value ∧ exEvery3.Value < 2 ^ 63
      ∧ (exJoinTuple 5).InputName = "src2"
      ∧ ((shouldEmitNow
            (gateAfter (exJoinPlan [("src1", exEvery2), ("src2", exEvery3)]) (exTwelve.take 5))
            (exJoinTuple 5)).2
          = .ok (decide (exEvery3.Value ∣
              (((exTwelve.take 5).filter (fun u => decide (u.InputName = "src2"))).length : Int)
                + 1))
        ∧ (NewGroupbyExecutionPlan exJoinLib (exJoinLp exRules23) exReg
            = .ok (exJoinPlan
                [("src1", ⟨2, IntervalUnit.Tuples⟩), ("src2", ⟨3, IntervalUnit.Tuples⟩)])
          ∧ gateResults
              (exJoinPlan [("src1", ⟨2, IntervalUnit.Tuples⟩), ("src2", ⟨3, IntervalUnit.Tuples⟩)])
              exTwelve
            = [.ok false, .ok false, .ok true, .ok false, .ok false, .ok true,
               .ok true, .ok false, .ok false, .ok false, .ok true, .ok true])) :=
  ⟨rfl, rfl, rfl, by decide, by decide, rfl,
    shouldEmitNow_source_rule exJoinLib (exJoinLp exRules23) exReg
      (exJoinPlan [("src1", exEvery2), ("src2", exEvery3)]) "src2" exEvery3 rfl rfl rfl
      (by decide) (by decide) (exTwelve.take 5) (exJoinTuple 5) rfl⟩

/-- C10, at a tuple of `src1` on the plan of `EVERY 3 TUPLES IN src2`. -/
theorem Process_input_without_rule_witness :
    NewGroupbyExecutionPlan exJoinLib (exJoinLp exRules3) exReg
        = .ok (exJoinPlan [("src2", exEvery3)])
      ∧ (exJoinLp exRules3).EmitIntervals ≠ []
      ∧ (∀ r ∈ (exJoinLp exRules3).EmitIntervals, r.Name ≠ "*")
      ∧ (exJoinPlan [("src2", exEvery3)]).emitterRules
          = (exJoinPlan [("src2", exEvery3)]).emitterRules
      ∧ (∀ r ∈ (exJoinLp exRules3).EmitIntervals, r.Name ≠ (exJoinTuple 0).InputName)
      ∧ (∃ rel ∈ (exJoinPlan [("src2", exEvery3)]).relations,
          (exJoinTuple 0).InputName = relationKey rel)
      ∧ hasBuffers (exJoinPlan [("src2", exEvery3)])
      ∧ validWindows (exJoinPlan [("src2", exEvery3)]).buffers
      ∧ exOrderXY.evict.Nodup
      ∧ (shouldEmitNow (exJoinPlan [("src2", exEvery3)]) (exJoinTuple 0)
          = (exJoinPlan [("src2", exEvery3)], .ok false)
        ∧ (Process exJoinLib (exJoinPlan [("src2", exEvery3)]) exOrderXY (exJoinTuple 0)).2 = .ok []
        ∧ (Process exJoinLib (exJoinPlan [("src2", exEvery3)]) exOrderXY (exJoinTuple 0)).1
            = { exJoinPlan [("src2", exEvery3)] with
                buffers := (removeOutdatedTuplesFromBuffer
                  (addTupleToBuffer (exJoinPlan [("src2", exEvery3)]) (exJoinTuple 0)).1.1
                  exOrderXY.evict (exJoinTuple 0).Timestamp).1.buffers }
        ∧ ∀ rel ∈ (exJoinPlan [("src2", exEvery3)]).relations,
            (exJoinTuple 0).InputName = relationKey rel →
            ∃ b1, AMap.get
                (addTupleToBuffer (exJoinPlan [("src2", exEvery3)]) (exJoinTuple 0)).1.1.buffers
                rel.Alias = some b1
              ∧ nestUnder rel.Alias (exJoinTuple 0) ∈ b1.tuples) :=
  ⟨rfl, by decide, by decide, rfl, by decide,
    ⟨⟨StreamType.ActualStream, "src1", 3, IntervalUnit.Tuples, "x"⟩, by decide, by decide⟩,
    hasBuffers_of_isSome _ (by decide), validWindows_of_forall _ (by decide), by decide,
    Process_input_without_rule exJoinLib (exJoinLp exRules3) exReg
      (exJoinPlan [("src2", exEvery3)]) rfl (by decide) (by decide)
      (exJoinPlan [("src2", exEvery3)]) rfl (exJoinTuple 0) (by decide)
      ⟨⟨StreamType.ActualStream, "src1", 3, IntervalUnit.Tuples, "x"⟩, by decide, by decide⟩
      (hasBuffers_of_isSome _ (by decide)) (validWindows_of_forall _ (by decide))
      exOrderXY (by decide)⟩

/-! ## Maps written by assignment -/

theorem AMap.get_set {β : Type} (m : AMap β) (k k2 : String) (v : β) :
    AMap.get (AMap.set m k v) k2 = if k = k2 then some v else AMap.get m k2 := by
  by_cases h : k = k2
  · subst h
    simp [AMap.get_set_self]
  · simp [h, AMap.get_set_ne _ _ _ _ h]

theorem AMap.keys_set {β : Type} (m : AMap β) (k : String) (v : β) :
    AMap.keys (AMap.set m k v) = if k ∈ AMap.keys m then AMap.keys m else AMap.keys m ++ [k] := by
  induction m with
  | nil => simp [AMap.set, AMap.keys]
  | cons p rest ih =>
    obtain ⟨k1, v1⟩ := p
    by_cases h : k1 = k
    · subst h
      simp [AMap.set, AMap.keys]
    · have h2 : ¬ k = k1 := fun e => h e.symm
      simp only [AMap.keys] at ih
      simp only [AMap.set, h, if_false, AMap.keys, List.map_cons, List.mem_cons, h2, false_or, ih]
      split <;> simp

theorem AMap.get_eq_none_of_not_mem {β : Type} (m : AMap β) (k : String)
    (h : k ∉ AMap.keys m) : AMap.get m k = none := by
  induction m with
  | nil => rfl
  | cons p rest ih =>
    obtain ⟨k1, v1⟩ := p
    simp only [AMap.keys, List.map_cons, List.mem_cons, not_or] at h
    have h1 : ¬ k1 = k := fun e => h.1 e.symm
    simp only [AMap.get, h1, if_false]
    exact ih h.2

/-- Two maps with the same keys in the same order, each once, and the same
values are equal. -/
theorem AMap.ext_of_nodup {β : Type} (m1 m2 : AMap β) (hkeys : AMap.keys m1 = AMap.keys m2)
    (hnodup : (AMap.keys m1).Nodup) (hget : ∀ k, AMap.get m1 k = AMap.get m2 k) : m1 = m2 := by
  induction m1 generalizing m2 with
  | nil =>
    cases m2 with
    | nil => rfl
    | cons p rest => simp [AMap.keys] at hkeys
  | cons p1 r1 ih =>
    cases m2 with
    | nil => simp [AMap.keys] at hkeys
    | cons p2 r2 =>
      obtain ⟨k1, v1⟩ := p1
      obtain ⟨k2, v2⟩ := p2
      simp only [AMap.keys, List.map_cons, List.cons.injEq] at hkeys
      obtain ⟨hk, hrest⟩ := hkeys
      subst hk
      simp only [AMap.keys, List.map_cons, List.nodup_cons] at hnodup
      have hv := hget k1
      simp only [AMap.get, if_true, Option.some.injEq] at hv
      subst hv
      have hr : r1 = r2 := by
        apply ih r2 hrest hnodup.2
        intro k
        by_cases hkk : k1 = k
        · subst hkk
          rw [AMap.get_eq_none_of_not_mem r1 k1 hnodup.1,
            AMap.get_eq_none_of_not_mem r2 k1 (by rw [AMap.keys, ← hrest]; exact hnodup.1)]
        · have := hget k
          simpa only [AMap.get, hkk, if_false] using this
      rw [hr]

theorem AMap.nodup_keys_set {β : Type} (m : AMap β) (k : String) (v : β)
    (h : (AMap.keys m).Nodup) : (AMap.keys (AMap.set m k v)).Nodup := by
  rw [AMap.keys_set]
  split
  · exact h
  · rename_i hk
    rw [List.nodup_append]
    refine ⟨h, List.nodup_singleton _, ?_⟩
    intro a ha hb
    simp only [List.mem_singleton] at hb
    subst hb
    exact hk ha

theorem assignAll_cons (kv : String × Value) (ws : List (String × Value)) (m : Map) :
    assignAll (kv :: ws) m = assignAll ws (AMap.set m kv.1 kv.2) := rfl

/-- The value under a key after a list of assignments: the last assignment to
the key, or the value before. -/
theorem get_assignAll (ws : List (String × Value)) (m : Map) (k : String) :
    AMap.get (assignAll ws m) k
      = ws.foldl (fun acc kv => if kv.1 = k then some kv.2 else acc) (AMap.get m k) := by
  induction ws generalizing m with
  | nil => rfl
  | cons kv rest ih =>
    rw [assignAll_cons, ih, AMap.get_set]
    rfl

/-- The keys after a list of assignments depend on the keys before and the
keys assigned to. -/
theorem keys_assignAll (ws : List (String × Value)) (m : Map) :
    AMap.keys (assignAll ws m)
      = (ws.map Prod.fst).foldl (fun l k => if k ∈ l then l else l ++ [k]) (AMap.keys m) := by
  induction ws generalizing m with
  | nil => rfl
  | cons kv rest ih =>
    rw [assignAll_cons, ih, AMap.keys_set]
    rfl

theorem nodup_keys_assignAll (ws : List (String × Value)) (m : Map)
    (h : (AMap.keys m).Nodup) : (AMap.keys (assignAll ws m)).Nodup := by
  induction ws generalizing m with
  | nil => exact h
  | cons kv rest ih =>
    rw [assignAll_cons]
    exact ih _ (AMap.nodup_keys_set m kv.1 kv.2 h)

theorem addKeys_of_subset (K l : List String) (h : ∀ k ∈ K, k ∈ l) :
    K.foldl (fun l k => if k ∈ l then l else l ++ [k]) l = l := by
  induction K with
  | nil => rfl
  | cons k rest ih =>
    simp only [List.foldl_cons, h k (List.mem_cons_self _ _), if_true]
    exact ih (fun x hx => h x (List.mem_cons_of_mem _ hx))

theorem mem_addKeys_of_mem (K l : List String) (x : String) (h : x ∈ l) :
    x ∈ K.foldl (fun l k => if k ∈ l then l else l ++ [k]) l := by
  induction K generalizing l with
  | nil => exact h
  | cons k rest ih =>
    simp only [List.foldl_cons]
    apply ih
    split
    · exact h
    · exact List.mem_append_left _ h

theorem mem_addKeys_self (K l : List String) (x : String) (h : x ∈ K) :
    x ∈ K.foldl (fun l k => if k ∈ l then l else l ++ [k]) l := by
  induction K generalizing l with
  | nil => cases h
  | cons k rest ih =>
    simp only [List.foldl_cons]
    rcases List.mem_cons.1 h with heq | hin
    · subst heq
      apply mem_addKeys_of_mem
      split
      · assumption
      · simp
    · exact ih _ hin

theorem lastAssigned_of_not_mem (ws : List (String × Value)) (k : String) (x : Option Value)
    (h : k ∉ ws.map Prod.fst) :
    ws.foldl (fun acc kv => if kv.1 = k then some kv.2 else acc) x = x := by
  induction ws generalizing x with
  | nil => rfl
  | cons kv rest ih =>
    simp only [List.map_cons, List.mem_cons, not_or] at h
    have h1 : ¬ kv.1 = k := fun e => h.1 e.symm
    simp only [List.foldl_cons, h1, if_false]
    exact ih x h.2

theorem lastAssigned_of_mem (ws : List (String × Value)) (k : String) (x y : Option Value)
    (h : k ∈ ws.map Prod.fst) :
    ws.foldl (fun acc kv => if kv.1 = k then some kv.2 else acc) x
      = ws.foldl (fun acc kv => if kv.1 = k then some kv.2 else acc) y := by
  induction ws generalizing x y with
  | nil => cases h
  | cons kv rest ih =>
    simp only [List.foldl_cons]
    by_cases h1 : kv.1 = k
    · simp only [h1, if_true]
    · simp only [h1, if_false]
      apply ih
      simp only [List.map_cons, List.mem_cons] at h
      rcases h with heq | hin
      · exact absurd heq.symm h1
      · exact hin

/-- Assignments to the keys of an earlier list of assignments make the earlier
ones forgotten. -/
theorem assignAll_absorb (ws ws0 : List (String × Value)) (m : Map)
    (hkeys : ws.map Prod.fst = ws0.map Prod.fst) (hnodup : (AMap.keys m).Nodup) :
    assignAll ws (assignAll ws0 m) = assignAll ws m := by
  apply AMap.ext_of_nodup
  · rw [keys_assignAll, keys_assignAll, keys_assignAll, ← hkeys]
    apply addKeys_of_subset
    intro k hk
    exact mem_addKeys_self _ _ k hk
  · exact nodup_keys_assignAll _ _ (nodup_keys_assignAll _ _ hnodup)
  · intro k
    rw [get_assignAll, get_assignAll, get_assignAll]
    by_cases hk : k ∈ ws.map Prod.fst
    · exact lastAssigned_of_mem ws k _ _ hk
    · rw [lastAssigned_of_not_mem ws0 k _ (by rw [← hkeys]; exact hk)]

theorem writes_eq_assignAll (L : Lib) (keys : List String) (combo : List Tuple) (holder : Map) :
    writes L keys combo holder = assignAll (assignmentsOf L keys combo) holder := by
  induction keys generalizing combo holder with
  | nil => cases combo <;> rfl
  | cons k ks ih =>
    cases combo with
    | nil => rfl
    | cons t ts =>
      simp only [writes, assignmentsOf, assignAll_cons]
      rw [ih]
      rfl

theorem assignmentsOf_keys (L : Lib) (keys : List String) (c c0 : List Tuple)
    (hlen : c.length = c0.length) :
    (assignmentsOf L keys c).map Prod.fst = (assignmentsOf L keys c0).map Prod.fst := by
  induction keys generalizing c c0 with
  | nil => cases c <;> cases c0 <;> rfl
  | cons k ks ih =>
    cases c with
    | nil =>
      cases c0 with
      | nil => rfl
      | cons t0 ts0 => simp at hlen
    | cons t ts =>
      cases c0 with
      | nil => simp at hlen
      | cons t0 ts0 =>
        simp only [assignmentsOf, List.map_cons, List.cons.injEq, true_and]
        exact ih ts ts0 (by simpa using hlen)

/-- Writing a combination into the data holder makes a combination written
before forgotten. -/
theorem writes_absorb (L : Lib) (keys : List String) (c c0 : List Tuple) (holder : Map)
    (hlen : c.length = c0.length) (hnodup : (AMap.keys holder).Nodup) :
    writes L keys c (writes L keys c0 holder) = writes L keys c holder := by
  rw [writes_eq_assignAll, writes_eq_assignAll, writes_eq_assignAll]
  exact assignAll_absorb _ _ _ (assignmentsOf_keys L keys c c0 hlen) hnodup

theorem nodup_keys_writeTuple (L : Lib) (holder : Map) (k : String) (t : Tuple)
    (h : (AMap.keys holder).Nodup) : (AMap.keys (writeTuple L holder k t)).Nodup := by
  unfold writeTuple setMetadata
  exact AMap.nodup_keys_set _ _ _ (AMap.nodup_keys_set _ _ _ h)

/-! ## The cross product driver -/

theorem mem_prependEach (ts : List Tuple) (prod : List (List Tuple)) (c : List Tuple)
    (h : c ∈ prependEach ts prod) : ∃ t c1, c = t :: c1 ∧ t ∈ ts ∧ c1 ∈ prod := by
  induction ts with
  | nil => simp [prependEach] at h
  | cons t rest ih =>
    simp only [prependEach, List.mem_append, List.mem_map] at h
    rcases h with ⟨c1, hc1, heq⟩ | hin
    · exact ⟨t, c1, heq.symm, List.mem_cons_self _ _, hc1⟩
    · obtain ⟨t1, c1, h1, h2, h3⟩ := ih hin
      exact ⟨t1, c1, h1, List.mem_cons_of_mem _ h2, h3⟩

theorem length_of_mem_cartProd (buffers : AMap inputBuffer) (keys : List String)
    (c : List Tuple) (h : c ∈ cartProd buffers keys) : c.length = keys.length := by
  induction keys generalizing c with
  | nil =>
    simp only [cartProd, List.mem_singleton] at h
    subst h
    rfl
  | cons k rest ih =>
    simp only [cartProd] at h
    obtain ⟨t, c1, h1, _, h3⟩ := mem_prependEach _ _ c h
    subst h1
    simp [ih c1 h3]

theorem prependEach_eq_nil (ts : List Tuple) (prod : List (List Tuple))
    (h : prependEach ts prod = []) : ts = [] ∨ prod = [] := by
  cases ts with
  | nil => exact Or.inl rfl
  | cons t rest =>
    right
    simp only [prependEach, List.append_eq_nil, List.map_eq_nil_iff] at h
    exact h.1

theorem runItems_append {σ : Type} (processItem : Map → σ → Except Failure σ)
    (l1 l2 : List Map) (s : σ) :
    runItems processItem (l1 ++ l2) s
      = match runItems processItem l1 s with
        | (s1, none) => runItems processItem l2 s1
        | (s1, some f) => (s1, some f) := by
  induction l1 generalizing s with
  | nil => rfl
  | cons d ds ih =>
    simp only [List.cons_append, runItems]
    cases processItem d s with
    | ok s1 => exact ih s1
    | error f => rfl

theorem procCartProd_cons {σ : Type} (L : Lib) (buffers : AMap inputBuffer)
    (processItem : Map → σ → Except Failure σ) (k : String) (rest : List String)
    (holder : Map) (s : σ) (b : inputBuffer) (hb : AMap.get buffers k = some b) :
    procCartProd L buffers processItem (k :: rest) holder s
      = forTuples (fun t h s1 => procCartProd L buffers processItem rest (writeTuple L h k t) s1)
          b.tuples holder s := by
  simp only [procCartProd, hb]
  rfl

/-- With an empty product no item is processed. -/
theorem procCartProd_empty {σ : Type} (L : Lib) (buffers : AMap inputBuffer)
    (processItem : Map → σ → Except Failure σ) (keys : List String)
    (hpres : ∀ k ∈ keys, (AMap.get buffers k).isSome = true)
    (hempty : cartProd buffers keys = []) (holder : Map) (s : σ) :
    ∃ holder1, procCartProd L buffers processItem keys holder s = ((holder1, s), none) := by
  induction keys generalizing holder s with
  | nil => simp [cartProd] at hempty
  | cons k rest ih =>
    obtain ⟨b, hb⟩ := Option.isSome_iff_exists.1 (hpres k (List.mem_cons_self _ _))
    rw [procCartProd_cons L buffers processItem k rest holder s b hb]
    simp only [cartProd, hb, Option.map_some', Option.getD_some] at hempty
    rcases prependEach_eq_nil _ _ hempty with hts | hprod
    · rw [hts]
      exact ⟨holder, rfl⟩
    · have hrest := ih (fun x hx => hpres x (List.mem_cons_of_mem _ hx)) hprod
      generalize b.tuples = ts
      induction ts generalizing holder with
      | nil => exact ⟨holder, rfl⟩
      | cons t ts1 iht =>
        obtain ⟨h1, hh1⟩ := hrest (writeTuple L holder k t) s
        simp only [forTuples, hh1]
        exact iht h1

theorem nodup_keys_writes (L : Lib) (keys : List String) (c : List Tuple) (holder : Map)
    (h : (AMap.keys holder).Nodup) : (AMap.keys (writes L keys c holder)).Nodup := by
  rw [writes_eq_assignAll]
  exact nodup_keys_assignAll _ _ h

/-- The loop of `procCartProd` over the tuples of one buffer, given what the
recursion does for the remaining keys: the items are processed on the rows of
the product in order, whatever combination the data holder still holds. -/
theorem forTuples_rows {σ : Type} (L : Lib) (processItem : Map → σ → Except Failure σ)
    (body : Tuple → Map → σ → (Map × σ) × Option Failure)
    (k : String) (rest : List String) (prod : List (List Tuple)) (holder : Map)
    (hnodup : (AMap.keys holder).Nodup)
    (hlen : ∀ c ∈ prod, c.length = rest.length)
    (hbody : ∀ (t : Tuple) (h1 : Map) (s1 : σ), (AMap.keys h1).Nodup →
      ((body t h1 s1).1.2, (body t h1 s1).2)
          = runItems processItem (prod.map (fun c => writes L rest c (writeTuple L h1 k t))) s1
        ∧ ((body t h1 s1).2 = none →
            ∃ c, c.length = rest.length
              ∧ (body t h1 s1).1.1 = writes L rest c (writeTuple L h1 k t)))
    (ts : List Tuple) (h1 : Map) (s : σ)
    (hinv : h1 = holder ∨ ∃ c0, c0.length = rest.length + 1
      ∧ h1 = writes L (k :: rest) c0 holder) :
    ((forTuples body ts h1 s).1.2, (forTuples body ts h1 s).2)
        = runItems processItem
            ((prependEach ts prod).map (fun c => writes L (k :: rest) c holder)) s
      ∧ ((forTuples body ts h1 s).2 = none →
          (ts = [] ∧ (forTuples body ts h1 s).1.1 = h1)
          ∨ ∃ c0, c0.length = rest.length + 1
              ∧ (forTuples body ts h1 s).1.1 = writes L (k :: rest) c0 holder) := by
  induction ts generalizing h1 s with
  | nil => exact ⟨rfl, fun _ => Or.inl ⟨rfl, rfl⟩⟩
  | cons t ts1 ih =>
    have hnd1 : (AMap.keys h1).Nodup := by
      rcases hinv with heq | ⟨c0, _, heq⟩
      · rw [heq]
        exact hnodup
      · rw [heq]
        exact nodup_keys_writes L _ _ _ hnodup
    have hrows : prod.map (fun c => writes L rest c (writeTuple L h1 k t))
        = (prod.map (fun c => t :: c)).map (fun c => writes L (k :: rest) c holder) := by
      rw [List.map_map]
      apply List.map_congr_left
      intro c hc
      show writes L (k :: rest) (t :: c) h1 = writes L (k :: rest) (t :: c) holder
      rcases hinv with heq | ⟨c0, hc0, heq⟩
      · rw [heq]
      · rw [heq]
        exact writes_absorb L (k :: rest) (t :: c) c0 holder
          (by simp [hlen c hc, hc0]) hnodup
    obtain ⟨hb1, hb2⟩ := hbody t h1 s hnd1
    rw [hrows] at hb1
    simp only [prependEach, List.map_append]
    rw [runItems_append, ← hb1]
    rcases hres : body t h1 s with ⟨⟨h2, s2⟩, r⟩
    rw [hres] at hb2
    cases r with
    | some f =>
      simp [forTuples, hres]
    | none =>
      obtain ⟨c1, hc1, hh2⟩ := hb2 rfl
      simp only at hh2
      have hinv2 : h2 = holder ∨ ∃ c0, c0.length = rest.length + 1
          ∧ h2 = writes L (k :: rest) c0 holder := by
        right
        refine ⟨t :: c1, by simp [hc1], ?_⟩
        rw [hh2]
        show writes L (k :: rest) (t :: c1) h1 = writes L (k :: rest) (t :: c1) holder
        rcases hinv with heq | ⟨c0, hc0, heq⟩
        · rw [heq]
        · rw [heq]
          exact writes_absorb L (k :: rest) (t :: c1) c0 holder (by simp [hc1, hc0]) hnodup
      obtain ⟨i1, i2⟩ := ih h2 s2 hinv2
      simp only [forTuples, hres]
      refine ⟨i1, ?_⟩
      intro hnone
      rcases i2 hnone with ⟨_, hh⟩ | hex
      · right
        rcases hinv2 with heq | hex2
        · refine ⟨t :: c1, by simp [hc1], ?_⟩
          rw [hh, hh2]
          show writes L (k :: rest) (t :: c1) h1 = writes L (k :: rest) (t :: c1) holder
          rcases hinv with heq1 | ⟨c0, hc0, heq1⟩
          · rw [heq1]
          · rw [heq1]
            exact writes_absorb L (k :: rest) (t :: c1) c0 holder (by simp [hc1, hc0]) hnodup
        · obtain ⟨c0, hc0, hc0eq⟩ := hex2
          exact ⟨c0, hc0, by rw [hh, hc0eq]⟩
      · exact Or.inr hex

/-- With a non-empty product, `procCartProd` processes the items on the rows
of the product in order: the row of a combination is the data holder of the
call with the combination written into it. -/
theorem procCartProd_rows {σ : Type} (L : Lib) (buffers : AMap inputBuffer)
    (processItem : Map → σ → Except Failure σ) (keys : List String)
    (hpres : ∀ k ∈ keys, (AMap.get buffers k).isSome = true)
    (hne : cartProd buffers keys ≠ []) (holder : Map) (s : σ)
    (hnodup : (AMap.keys holder).Nodup) :
    ((procCartProd L buffers processItem keys holder s).1.2,
        (procCartProd L buffers processItem keys holder s).2)
        = runItems processItem
            ((cartProd buffers keys).map (fun c => writes L keys c holder)) s
      ∧ ((procCartProd L buffers processItem keys holder s).2 = none →
          ∃ c, c.length = keys.length
            ∧ (procCartProd L buffers processItem keys holder s).1.1
                = writes L keys c holder) := by
  induction keys generalizing holder s with
  | nil =>
    simp only [procCartProd, cartProd, List.map_cons, List.map_nil, runItems, writes]
    cases processItem holder s with
    | ok s1 => exact ⟨rfl, fun _ => ⟨[], rfl, rfl⟩⟩
    | error f => exact ⟨rfl, fun h => by cases h⟩
  | cons k rest ih =>
    obtain ⟨b, hb⟩ := Option.isSome_iff_exists.1 (hpres k (List.mem_cons_self _ _))
    rw [procCartProd_cons L buffers processItem k rest holder s b hb]
    have hcp : cartProd buffers (k :: rest) = prependEach b.tuples (cartProd buffers rest) := by
      simp only [cartProd, hb, Option.map_some', Option.getD_some]
    rw [hcp] at hne ⊢
    have hrestne : cartProd buffers rest ≠ [] := by
      intro hnil
      apply hne
      rw [hnil]
      generalize b.tuples = ts
      induction ts with
      | nil => rfl
      | cons t ts1 iht => simp [prependEach, iht]
    have htsne : b.tuples ≠ [] := by
      intro hnil
      apply hne
      rw [hnil]
      rfl
    have hmain := forTuples_rows L processItem
      (fun t h s1 => procCartProd L buffers processItem rest (writeTuple L h k t) s1)
      k rest (cartProd buffers rest) holder hnodup
      (fun c hc => length_of_mem_cartProd buffers rest c hc)
      (fun t h1 s1 hnd1 => ih (fun x hx => hpres x (List.mem_cons_of_mem _ hx)) hrestne
        (writeTuple L h1 k t) s1 (nodup_keys_writeTuple L h1 k t hnd1))
      b.tuples holder s (Or.inl rfl)
    refine ⟨hmain.1, ?_⟩
    intro hnone
    rcases hmain.2 hnone with ⟨hnil, _⟩ | ⟨c0, hc0, hh⟩
    · exact absurd hnil htsne
    · exact ⟨c0, by simp [hc0], hh⟩

/-! ## The evaluation in non-grouping mode -/

/-- In non-grouping mode `evalItem`, run on rows on which filter and
projections do not fail, appends the projected row of every row that passes
the filter. -/
theorem runItems_evalItem_nongrouping (L : Lib) (ep : groupbyExecutionPlan)
    (hmode : ep.groupMode = false) (rows : List Map)
    (hok : ∀ d ∈ rows, ∃ b, filterPasses L ep.filter d = .ok b
      ∧ (b = true → ∃ row, projectRow L d ep.projections [] = .ok row))
    (acc : evalAcc) :
    runItems (evalItem L ep) rows acc
      = ({ acc with output := acc.output ++ rows.filterMap (projectedRow L ep) }, none) := by
  induction rows generalizing acc with
  | nil => simp [runItems]
  | cons d ds ih =>
    obtain ⟨b, hb, hrow⟩ := hok d (List.mem_cons_self _ _)
    have ih1 := fun a => ih (fun x hx => hok x (List.mem_cons_of_mem _ hx)) a
    cases b with
    | false =>
      have hp : projectedRow L ep d = none := by simp [projectedRow, hb]
      simp only [runItems, evalItem, hb, ih1, List.filterMap_cons, hp]
    | true =>
      obtain ⟨row, hr⟩ := hrow rfl
      have hp : projectedRow L ep d = some row := by
        simp [projectedRow, hb, hr, Except.toOption]
      simp only [runItems, evalItem, hb, hmode, hr, ih1, List.filterMap_cons, hp,
        Bool.false_eq_true, if_false, List.append_assoc, List.singleton_append]

theorem performQueryOnBuffer_of_procCartProd (L : Lib) (ep : groupbyExecutionPlan)
    (allStreams : List String) (hmode : ep.groupMode = false) (h2 : Map) (acc : evalAcc)
    (hres : procCartProd L ep.buffers (evalItem L { ep with prevResults := ep.curResults })
      allStreams [] (⟨[], []⟩ : evalAcc) = ((h2, acc), none)) :
    performQueryOnBuffer L ep allStreams
      = ({ ep with prevResults := ep.curResults, curResults := acc.output }, none) := by
  unfold performQueryOnBuffer
  simp only [hres]
  simp [hmode]

/-- C1: in non-grouping mode, when filter and projections fail on no element
of the Cartesian product of the buffers, `performQueryOnBuffer` moves
`curResults` to `prevResults` and sets `curResults` to the projected rows of
the elements of the product that pass the filter, one row per element, in the
order of the product; so a row is in `curResults` exactly when it is the
projected row of an element that passes the filter. -/
theorem performQueryOnBuffer_nongrouping (L : Lib) (ep : groupbyExecutionPlan)
    (allStreams : List String) (hkeys : keyOrder allStreams ep.buffers)
    (hmode : ep.groupMode = false)
    (hok : ∀ combo ∈ cartProd ep.buffers allStreams,
      ∃ b, filterPasses L ep.filter (compositeRow L allStreams combo) = .ok b
        ∧ (b = true →
            ∃ row, projectRow L (compositeRow L allStreams combo) ep.projections [] = .ok row)) :
    performQueryOnBuffer L ep allStreams
        = ({ ep with
              prevResults := ep.curResults
              curResults := (cartProd ep.buffers allStreams).filterMap
                (fun combo => projectedRow L ep (compositeRow L allStreams combo)) },
            none)
      ∧ ∀ row, row ∈ (performQueryOnBuffer L ep allStreams).1.curResults ↔
          ∃ combo ∈ cartProd ep.buffers allStreams,
            filterPasses L ep.filter (compositeRow L allStreams combo) = .ok true
              ∧ projectRow L (compositeRow L allStreams combo) ep.projections [] = .ok row := by
  have hpres : ∀ k ∈ allStreams, (AMap.get ep.buffers k).isSome = true :=
    fun k hk => (hkeys.2 k).1 hk
  have hmain : performQueryOnBuffer L ep allStreams
      = ({ ep with
            prevResults := ep.curResults
            curResults := (cartProd ep.buffers allStreams).filterMap
              (fun combo => projectedRow L ep (compositeRow L allStreams combo)) },
          none) := by
    by_cases hempty : cartProd ep.buffers allStreams = []
    · obtain ⟨h1, hh1⟩ := procCartProd_empty L ep.buffers
        (evalItem L { ep with prevResults := ep.curResults }) allStreams hpres hempty []
        (⟨[], []⟩ : evalAcc)
      rw [performQueryOnBuffer_of_procCartProd L ep allStreams hmode h1 _ hh1, hempty]
      rfl
    · obtain ⟨hr1, _⟩ := procCartProd_rows L ep.buffers
        (evalItem L { ep with prevResults := ep.curResults }) allStreams hpres hempty []
        (⟨[], []⟩ : evalAcc) (by simp [AMap.keys])
      have hrun := runItems_evalItem_nongrouping L { ep with prevResults := ep.curResults } hmode
        ((cartProd ep.buffers allStreams).map (fun c => writes L allStreams c []))
        (by
          intro d hd
          obtain ⟨c, hc, hcd⟩ := List.mem_map.1 hd
          subst hcd
          exact hok c hc)
        (⟨[], []⟩ : evalAcc)
      rw [hrun] at hr1
      rcases hres : procCartProd L ep.buffers
        (evalItem L { ep with prevResults := ep.curResults }) allStreams []
        (⟨[], []⟩ : evalAcc) with ⟨⟨h2, acc2⟩, r⟩
      rw [hres] at hr1
      simp only [Prod.mk.injEq] at hr1
      obtain ⟨hacc, hr⟩ := hr1
      subst hr
      subst hacc
      rw [performQueryOnBuffer_of_procCartProd L ep allStreams hmode h2 _ hres]
      simp only [List.nil_append, List.filterMap_map]
      rfl
  refine ⟨hmain, ?_⟩
  intro row
  rw [hmain]
  simp only [List.mem_filterMap]
  constructor
  · rintro ⟨combo, hc, hp⟩
    refine ⟨combo, hc, ?_⟩
    unfold projectedRow at hp
    split at hp
    · rename_i hf
      refine ⟨hf, ?_⟩
      cases hpr : projectRow L (compositeRow L allStreams combo) ep.projections [] with
      | error e => simp [hpr, Except.toOption] at hp
      | ok r =>
        simp only [hpr, Except.toOption, Option.some.injEq] at hp
        rw [hp]
    · cases hp
  · rintro ⟨combo, hc, hf, hpr⟩
    exact ⟨combo, hc, by simp [projectedRow, hf, hpr, Except.toOption]⟩

theorem AMap.isSome_get_iff_mem_keys {β : Type} (m : AMap β) (k : String) :
    (AMap.get m k).isSome = true ↔ k ∈ AMap.keys m := by
  induction m with
  | nil => simp [AMap.get, AMap.keys]
  | cons p rest ih =>
    obtain ⟨k1, v1⟩ := p
    by_cases h : k1 = k
    · subst h
      simp [AMap.get, AMap.keys]
    · have h2 : ¬ k = k1 := fun e => h e.symm
      simp only [AMap.keys] at ih
      simp [AMap.get, AMap.keys, h, h2, ih]

/-- The keys of a map in the order of the list are an order to range in. -/
theorem keyOrder_keys {β : Type} (m : AMap β) (h : (AMap.keys m).Nodup) :
    keyOrder (AMap.keys m) m :=
  ⟨h, fun k => (AMap.isSome_get_iff_mem_keys m k).symm⟩

theorem evaluation_ok_of_isSome (L : Lib) (ep : groupbyExecutionPlan) (rows : List Map)
    (h : ∀ d ∈ rows, (filterPasses L ep.filter d).toOption.isSome = true
      ∧ (projectRow L d ep.projections []).toOption.isSome = true) :
    ∀ d ∈ rows, ∃ b, filterPasses L ep.filter d = .ok b
      ∧ (b = true → ∃ row, projectRow L d ep.projections [] = .ok row) := by
  intro d hd
  obtain ⟨h1, h2⟩ := h d hd
  cases hf : filterPasses L ep.filter d with
  | error e => simp [hf, Except.toOption] at h1
  | ok b =>
    refine ⟨b, rfl, fun _ => ?_⟩
    cases hp : projectRow L d ep.projections [] with
    | error e => simp [hp, Except.toOption] at h2
    | ok row => exact ⟨row, rfl⟩

/-- C1, at the join plan with filter `x:a = 1` over two tuples of `x` and one
of `y`: of the two elements of the product one passes. -/
theorem performQueryOnBuffer_nongrouping_witness :
    keyOrder ["x", "y"] exFilledJoinPlan.buffers
      ∧ exFilledJoinPlan.groupMode = false
      ∧ (∀ combo ∈ cartProd exFilledJoinPlan.buffers ["x", "y"],
          ∃ b, filterPasses exJoinLib exFilledJoinPlan.filter
                (compositeRow exJoinLib ["x", "y"] combo) = .ok b
            ∧ (b = true →
                ∃ row, projectRow exJoinLib (compositeRow exJoinLib ["x", "y"] combo)
                  exFilledJoinPlan.projections [] = .ok row))
      ∧ (performQueryOnBuffer exJoinLib exFilledJoinPlan ["x", "y"]
            = ({ exFilledJoinPlan with
                  prevResults := exFilledJoinPlan.curResults
                  curResults := (cartProd exFilledJoinPlan.buffers ["x", "y"]).filterMap
                    (fun combo => projectedRow exJoinLib exFilledJoinPlan
                      (compositeRow exJoinLib ["x", "y"] combo)) },
                none)
          ∧ ∀ row, row ∈ (performQueryOnBuffer exJoinLib exFilledJoinPlan ["x", "y"]).1.curResults ↔
              ∃ combo ∈ cartProd exFilledJoinPlan.buffers ["x", "y"],
                filterPasses exJoinLib exFilledJoinPlan.filter
                    (compositeRow exJoinLib ["x", "y"] combo) = .ok true
                  ∧ projectRow exJoinLib (compositeRow exJoinLib ["x", "y"] combo)
                      exFilledJoinPlan.projections [] = .ok row)
      ∧ (performQueryOnBuffer exJoinLib exFilledJoinPlan ["x", "y"]).1.curResults
          = [[("l", Value.int 1), ("r", Value.int 1)]] :=
  ⟨keyOrder_keys exFilledJoinPlan.buffers (by decide), rfl,
    fun combo hc =>
      (evaluation_ok_of_isSome exJoinLib exFilledJoinPlan
        ((cartProd exFilledJoinPlan.buffers ["x", "y"]).map (compositeRow exJoinLib ["x", "y"]))
        (by decide)) (compositeRow exJoinLib ["x", "y"] combo) (List.mem_map_of_mem _ hc),
    performQueryOnBuffer_nongrouping exJoinLib exFilledJoinPlan ["x", "y"]
      (keyOrder_keys exFilledJoinPlan.buffers (by decide)) rfl
      (fun combo hc =>
        (evaluation_ok_of_isSome exJoinLib exFilledJoinPlan
          ((cartProd exFilledJoinPlan.buffers ["x", "y"]).map (compositeRow exJoinLib ["x", "y"]))
          (by decide)) (compositeRow exJoinLib ["x", "y"] combo) (List.mem_map_of_mem _ hc)),
    rfl⟩

/-! ## Rounding to binary64 and the test of the time window -/

theorem log2Step_inv (acc : Nat × Nat) (k q : Nat) (h1 : acc.1 * 2 ^ acc.2 ≤ q)
    (h2 : q < (acc.1 + 1) * 2 ^ acc.2) (h3 : 1 ≤ acc.1) :
    (F64.log2Step acc k).1 * 2 ^ (F64.log2Step acc k).2 ≤ q
      ∧ q < ((F64.log2Step acc k).1 + 1) * 2 ^ (F64.log2Step acc k).2
      ∧ 1 ≤ (F64.log2Step acc k).1 := by
  unfold F64.log2Step
  split
  · rename_i hle
    have hpos : 0 < 2 ^ k := by positivity
    refine ⟨?_, ?_, ?_⟩
    · simp only
      calc acc.1 / 2 ^ k * 2 ^ (acc.2 + k) = (acc.1 / 2 ^ k * 2 ^ k) * 2 ^ acc.2 := by
            rw [pow_add]; ring
        _ ≤ acc.1 * 2 ^ acc.2 := Nat.mul_le_mul_right _ (Nat.div_mul_le_self _ _)
        _ ≤ q := h1
    · simp only
      have hlt : acc.1 + 1 ≤ (acc.1 / 2 ^ k + 1) * 2 ^ k := by
        have := Nat.lt_succ_iff.2 (le_refl (acc.1 / 2 ^ k))
        have h := (Nat.div_lt_iff_lt_mul hpos).1 this
        exact h
      calc q < (acc.1 + 1) * 2 ^ acc.2 := h2
        _ ≤ ((acc.1 / 2 ^ k + 1) * 2 ^ k) * 2 ^ acc.2 := Nat.mul_le_mul_right _ hlt
        _ = (acc.1 / 2 ^ k + 1) * 2 ^ (acc.2 + k) := by rw [pow_add]; ring
    · simp only
      exact (Nat.one_le_div_iff hpos).2 hle
  · exact ⟨h1, h2, h3⟩

theorem log2_foldl_inv (steps : List Nat) (acc : Nat × Nat) (q : Nat)
    (h1 : acc.1 * 2 ^ acc.2 ≤ q) (h2 : q < (acc.1 + 1) * 2 ^ acc.2) (h3 : 1 ≤ acc.1) :
    (steps.foldl F64.log2Step acc).1 * 2 ^ (steps.foldl F64.log2Step acc).2 ≤ q
      ∧ q < ((steps.foldl F64.log2Step acc).1 + 1) * 2 ^ (steps.foldl F64.log2Step acc).2
      ∧ 1 ≤ (steps.foldl F64.log2Step acc).1 := by
  induction steps generalizing acc with
  | nil => exact ⟨h1, h2, h3⟩
  | cons k rest ih =>
    obtain ⟨i1, i2, i3⟩ := log2Step_inv acc k q h1 h2 h3
    exact ih _ i1 i2 i3

theorem log2_foldl_bound (j : Nat) (acc : Nat × Nat) (h : acc.1 < 2 ^ 2 ^ (j + 1)) :
    ((F64.log2Steps j).foldl F64.log2Step acc).1 < 2 := by
  induction j generalizing acc with
  | zero =>
    simp only [F64.log2Steps, List.foldl_cons, List.foldl_nil, F64.log2Step]
    norm_num at h
    split
    · simp only
      omega
    · omega
  | succ j ih =>
    simp only [F64.log2Steps, List.foldl_cons]
    apply ih
    unfold F64.log2Step
    have hpos : 0 < 2 ^ 2 ^ (j + 1) := by positivity
    have hsq : 2 ^ 2 ^ (j + 1 + 1) = 2 ^ 2 ^ (j + 1) * 2 ^ 2 ^ (j + 1) := by
      rw [← pow_add]
      congr 1
      rw [pow_succ]
      ring
    split
    · simp only
      rw [Nat.div_lt_iff_lt_mul hpos, ← hsq]
      exact h
    · omega

theorem F64.log2_zero : F64.log2 0 = 0 := by decide

/-- The exponent found is not too large. -/
theorem F64.log2_self_le (q : Nat) (hq : q ≠ 0) : 2 ^ F64.log2 q ≤ q := by
  obtain ⟨i1, _, i3⟩ := log2_foldl_inv (F64.log2Steps 11) (q, 0) q (by simp) (by simp)
    (by simp only; omega)
  unfold F64.log2
  calc 2 ^ ((F64.log2Steps 11).foldl F64.log2Step (q, 0)).2
      ≤ ((F64.log2Steps 11).foldl F64.log2Step (q, 0)).1
          * 2 ^ ((F64.log2Steps 11).foldl F64.log2Step (q, 0)).2 :=
        Nat.le_mul_of_pos_left _ i3
    _ ≤ q := i1

/-- Below `2^4096` the exponent found is the binary logarithm. -/
theorem F64.log2_eq_log2 (q : Nat) (hq : q < 2 ^ 4096) : F64.log2 q = Nat.log2 q := by
  by_cases h0 : q = 0
  · subst h0
    rw [F64.log2_zero]
    simp [Nat.log2]
  · obtain ⟨_, i2, i3⟩ := log2_foldl_inv (F64.log2Steps 11) (q, 0) q (by simp) (by simp)
      (by simp only; omega)
    have hb := log2_foldl_bound 11 (q, 0) (by simpa using hq)
    have hlow := F64.log2_self_le q h0
    have hone : ((F64.log2Steps 11).foldl F64.log2Step (q, 0)).1 = 1 := by omega
    rw [hone] at i2
    have hup : q < 2 ^ (F64.log2 q + 1) := by
      unfold F64.log2
      rw [pow_succ]
      omega
    apply le_antisymm
    · by_contra hlt
      have := (Nat.log2_lt h0).1 (Nat.lt_of_not_le hlt)
      omega
    · exact Nat.lt_succ_iff.1 ((Nat.log2_lt h0).2 hup)

theorem nearest_of_quotient (a d M n r : Nat) (h1 : d * n + r = a) (h2 : r < d) :
    |(((if 2 * r < d then n else if d < 2 * r then n + 1 else n + n % 2 : Nat) : Nat) : Int) * d
        - a| ≤ |(M : Int) * d - a| := by
  have h1' : (d : Int) * n + r = a := by exact_mod_cast h1
  have h2' : (r : Int) < d := by exact_mod_cast h2
  have hcomm : (d : Int) * n = n * d := mul_comm _ _
  have hM : (M : Int) * d ≤ n * d ∨ (n : Int) * d + d ≤ M * d := by
    rcases le_or_lt M n with h | h
    · left
      exact_mod_cast Nat.mul_le_mul_right d h
    · right
      have : (n + 1) * d ≤ M * d := Nat.mul_le_mul_right d h
      have h' : ((n + 1 : Nat) : Int) * d ≤ M * d := by exact_mod_cast this
      push_cast at h'
      linarith
  have hc : (((n + 1 : Nat) : Nat) : Int) * d = n * d + d := by
    push_cast
    ring
  split
  · rcases abs_cases ((n : Int) * d - a) with ⟨hx, _⟩ | ⟨hx, _⟩ <;>
    rcases abs_cases ((M : Int) * d - a) with ⟨hy, _⟩ | ⟨hy, _⟩ <;>
    rw [hx, hy] <;> rcases hM with hM | hM <;> omega
  · split
    · rw [hc]
      rcases abs_cases ((n : Int) * d + d - a) with ⟨hx, _⟩ | ⟨hx, _⟩ <;>
      rcases abs_cases ((M : Int) * d - a) with ⟨hy, _⟩ | ⟨hy, _⟩ <;>
      rw [hx, hy] <;> rcases hM with hM | hM <;> omega
    · rcases Nat.mod_two_eq_zero_or_one n with h0 | h0
      · rw [h0, Nat.add_zero]
        rcases abs_cases ((n : Int) * d - a) with ⟨hx, _⟩ | ⟨hx, _⟩ <;>
        rcases abs_cases ((M : Int) * d - a) with ⟨hy, _⟩ | ⟨hy, _⟩ <;>
        rw [hx, hy] <;> rcases hM with hM | hM <;> omega
      · rw [h0, hc]
        rcases abs_cases ((n : Int) * d + d - a) with ⟨hx, _⟩ | ⟨hx, _⟩ <;>
        rcases abs_cases ((M : Int) * d - a) with ⟨hy, _⟩ | ⟨hy, _⟩ <;>
        rw [hx, hy] <;> rcases hM with hM | hM <;> omega

theorem roundHalfEven_nearest (a d M : Nat) (hd : 0 < d) :
    |((F64.roundHalfEven a d : Nat) : Int) * d - a| ≤ |(M : Int) * d - a| :=
  nearest_of_quotient a d M (a / d) (a % d) (Nat.div_add_mod a d) (Nat.mod_lt a hd)

/-- The rounded magnitude is a nearest one among the magnitudes with at most
53 significant bits. -/
theorem roundMag_nearest (a den r : Nat) (hden : 0 < den) (hr : F64.isMag r) :
    |((F64.roundMag a den : Nat) : Int) * den - a| ≤ |(r : Int) * den - a| := by
  obtain ⟨m, k, hm, hrk⟩ := hr
  have hgpos : 0 < den * 2 ^ (F64.log2 (a / den) - 52) := by positivity
  have hlhs : ((F64.roundMag a den : Nat) : Int) * den
      = ((F64.roundHalfEven a (den * 2 ^ (F64.log2 (a / den) - 52)) : Nat) : Int)
          * ((den * 2 ^ (F64.log2 (a / den) - 52) : Nat) : Int) := by
    unfold F64.roundMag
    push_cast
    ring
  rw [hlhs]
  by_cases hk : F64.log2 (a / den) - 52 ≤ k
  · have hrhs : (r : Int) * den
        = ((m * 2 ^ (k - (F64.log2 (a / den) - 52)) : Nat) : Int)
            * ((den * 2 ^ (F64.log2 (a / den) - 52) : Nat) : Int) := by
      have hpow : 2 ^ k = 2 ^ (k - (F64.log2 (a / den) - 52)) * 2 ^ (F64.log2 (a / den) - 52) := by
        rw [← pow_add, Nat.sub_add_cancel hk]
      rw [hrk, hpow]
      push_cast
      ring
    rw [hrhs]
    exact roundHalfEven_nearest a _ _ hgpos
  · have hk' : k < F64.log2 (a / den) - 52 := Nat.lt_of_not_le hk
    have hq0 : a / den ≠ 0 := by
      intro h0
      rw [h0, F64.log2_zero] at hk'
      omega
    have hlog : 2 ^ F64.log2 (a / den) ≤ a / den := F64.log2_self_le _ hq0
    have hqa : a / den * den ≤ a := Nat.div_mul_le_self a den
    have he : F64.log2 (a / den) = (F64.log2 (a / den) - 52) + 52 := by omega
    -- the magnitude `2^(e+52)` lies between `r` and the rational
    have h52 : 2 ^ 52 * (den * 2 ^ (F64.log2 (a / den) - 52)) ≤ a := by
      calc 2 ^ 52 * (den * 2 ^ (F64.log2 (a / den) - 52))
          = 2 ^ F64.log2 (a / den) * den := by
            conv_rhs => rw [he, pow_add]
            ring
        _ ≤ a / den * den := Nat.mul_le_mul_right den hlog
        _ ≤ a := hqa
    have hrlt : r * den ≤ 2 ^ 52 * (den * 2 ^ (F64.log2 (a / den) - 52)) := by
      have h1 : r ≤ 2 ^ 52 * 2 ^ (F64.log2 (a / den) - 52) := by
        rw [hrk]
        calc m * 2 ^ k ≤ 2 ^ 53 * 2 ^ k := Nat.mul_le_mul_right _ (le_of_lt hm)
          _ = 2 ^ 52 * 2 ^ (k + 1) := by rw [pow_succ]; ring
          _ ≤ 2 ^ 52 * 2 ^ (F64.log2 (a / den) - 52) :=
            Nat.mul_le_mul_left _ (Nat.pow_le_pow_right (by norm_num) hk')
      calc r * den ≤ 2 ^ 52 * 2 ^ (F64.log2 (a / den) - 52) * den := Nat.mul_le_mul_right den h1
        _ = 2 ^ 52 * (den * 2 ^ (F64.log2 (a / den) - 52)) := by ring
    have hnear := roundHalfEven_nearest a (den * 2 ^ (F64.log2 (a / den) - 52)) (2 ^ 52) hgpos
    have h52' : ((2 ^ 52 : Nat) : Int) * ((den * 2 ^ (F64.log2 (a / den) - 52) : Nat) : Int) ≤ a := by
      exact_mod_cast h52
    have hrlt' : (r : Int) * den
        ≤ ((2 ^ 52 : Nat) : Int) * ((den * 2 ^ (F64.log2 (a / den) - 52) : Nat) : Int) := by
      exact_mod_cast hrlt
    rw [abs_of_nonpos (by linarith : ((2 ^ 52 : Nat) : Int)
      * ((den * 2 ^ (F64.log2 (a / den) - 52) : Nat) : Int) - a ≤ 0)] at hnear
    rw [abs_of_nonpos (by linarith : (r : Int) * den - a ≤ 0)]
    linarith

theorem F64.one_eq : F64.one = 2 ^ 1074 := by
  unfold F64.one
  exact Eq.refl _

theorem roundMag_le (a den r : Nat) (hden : 0 < den) (hr : F64.isMag r) (h : a ≤ r * den) :
    F64.roundMag a den ≤ r := by
  by_contra hlt
  have hlt' : r + 1 ≤ F64.roundMag a den := by omega
  have h1 : (r + 1) * den ≤ F64.roundMag a den * den := Nat.mul_le_mul_right den hlt'
  have h1' : ((r : Int) + 1) * den ≤ (F64.roundMag a den : Nat) * den := by exact_mod_cast h1
  have h' : (a : Int) ≤ r * den := by exact_mod_cast h
  have hd : (0 : Int) < den := by exact_mod_cast hden
  have hn := roundMag_nearest a den r hden hr
  rw [abs_of_nonneg (by nlinarith), abs_of_nonneg (by linarith)] at hn
  nlinarith

theorem le_roundMag (a den r : Nat) (hden : 0 < den) (hr : F64.isMag r) (h : r * den ≤ a) :
    r ≤ F64.roundMag a den := by
  by_contra hlt
  have hlt' : F64.roundMag a den + 1 ≤ r := by omega
  have h1 : (F64.roundMag a den + 1) * den ≤ r * den := Nat.mul_le_mul_right den hlt'
  have h1' : (((F64.roundMag a den : Nat) : Int) + 1) * den ≤ r * den := by exact_mod_cast h1
  have h' : (r : Int) * den ≤ a := by exact_mod_cast h
  have hd : (0 : Int) < den := by exact_mod_cast hden
  have hn := roundMag_nearest a den r hden hr
  rw [abs_of_nonpos (by nlinarith), abs_of_nonpos (by linarith)] at hn
  nlinarith

theorem roundMag_exact (r den : Nat) (hden : 0 < den) (hr : F64.isMag r) :
    F64.roundMag (r * den) den = r :=
  le_antisymm (roundMag_le _ den r hden hr (le_refl _)) (le_roundMag _ den r hden hr (le_refl _))

theorem roundMag_zero (den : Nat) : F64.roundMag 0 den = 0 := by
  simp [F64.roundMag, F64.roundHalfEven, F64.log2_zero]

theorem round_nonpos (num : Int) (den : Nat) (h : num ≤ 0) : F64.round num den ≤ 0 := by
  unfold F64.round
  split
  · have : (0 : Int) ≤ (F64.roundMag num.natAbs den : Nat) := Int.natCast_nonneg _
    exact neg_nonpos.2 this
  · have h0 : num = 0 := by omega
    subst h0
    simp [roundMag_zero]

theorem round_of_nonneg (num : Int) (den : Nat) (h : 0 ≤ num) :
    F64.round num den = (F64.roundMag num.toNat den : Nat) := by
  unfold F64.round
  have : ¬ num < 0 := by omega
  simp only [this, if_false]
  congr 2
  omega

theorem isMag_mul_one (n : Nat) (h : n < 2 ^ 53) : F64.isMag (n * F64.one) :=
  ⟨n, 1074, h, by rw [F64.one_eq]⟩

/-- The conversion of an integer below `2^53` is exact. -/
theorem ofInt_exact (i : Int) (h0 : 0 ≤ i) (h : i < 2 ^ 53) : F64.ofInt i = i * F64.one := by
  unfold F64.ofInt
  have hnn : (0 : Int) ≤ i * F64.one := Int.mul_nonneg h0 (Int.natCast_nonneg _)
  rw [round_of_nonneg _ _ hnn]
  have hto : (i * (F64.one : Int)).toNat = i.toNat * F64.one * 1 := by
    have : i = (i.toNat : Int) := by omega
    rw [Nat.mul_one]
    conv_lhs => rw [this]
    exact_mod_cast Int.toNat_natCast _
  rw [hto, roundMag_exact _ 1 (by norm_num) (isMag_mul_one _ (by omega))]
  push_cast
  have : (i.toNat : Int) = i := by omega
  rw [this]

theorem tdiv_tmod_nonpos (d : Int) (h : d ≤ 0) :
    d.tdiv 1000000000 ≤ 0 ∧ d.tmod 1000000000 ≤ 0 := by
  have h1 := Int.tdiv_add_tmod d 1000000000
  have h2 := Int.tdiv_add_tmod (-d) 1000000000
  rw [Int.neg_tdiv] at h2
  have h3 : 0 ≤ (-d).tdiv 1000000000 := Int.tdiv_nonneg (by omega) (by omega)
  have h4 : 0 ≤ (-d).tmod 1000000000 := Int.tmod_nonneg _ (by omega)
  rw [Int.neg_tdiv] at h3
  constructor <;> omega

/-- The seconds of a duration that is not positive are not positive. -/
theorem durationSeconds_nonpos (d : Int) (h : d ≤ 0) : durationSeconds d ≤ 0 := by
  obtain ⟨hs, hn⟩ := tdiv_tmod_nonpos d h
  unfold durationSeconds
  simp only
  have h1 : F64.ofInt (d.tdiv 1000000000) ≤ 0 :=
    round_nonpos _ _ (Int.mul_nonpos_of_nonpos_of_nonneg hs (Int.natCast_nonneg _))
  have h2 : F64.ofInt (d.tmod 1000000000) ≤ 0 :=
    round_nonpos _ _ (Int.mul_nonpos_of_nonpos_of_nonneg hn (Int.natCast_nonneg _))
  have h3 : F64.div (F64.ofInt (d.tmod 1000000000)) (F64.ofInt 1000000000) ≤ 0 :=
    round_nonpos _ _ (Int.mul_nonpos_of_nonpos_of_nonneg h2 (Int.natCast_nonneg _))
  exact round_nonpos _ _ (by
    have := add_nonpos h1 h3
    exact this)

theorem F64.one_pos : 0 < F64.one := by
  rw [F64.one_eq]
  positivity

theorem F64.one_split : F64.one = 1099511627776 * 2 ^ 1034 := by
  rw [F64.one_eq, show (1099511627776 : Nat) = 2 ^ 40 by norm_num, ← pow_add]

/-- The fraction of a second that `Duration.Seconds` adds, in units: for
`1 <= ns < 10^9` it lies between `1025 * 2^-40` and 1. -/
theorem fraction_bounds (ns : Nat) (h1 : 1 ≤ ns) (h2 : ns < 1000000000) :
    1025 * 2 ^ 1034 ≤ F64.roundMag (ns * F64.one * F64.one) (1000000000 * F64.one)
      ∧ F64.roundMag (ns * F64.one * F64.one) (1000000000 * F64.one) ≤ F64.one := by
  have hU := F64.one_pos
  have hden : 0 < 1000000000 * F64.one := Nat.mul_pos (by norm_num) hU
  constructor
  · apply le_roundMag _ _ _ hden ⟨1025, 1034, by norm_num, rfl⟩
    have : 1025 * 2 ^ 1034 * 1000000000 ≤ ns * F64.one := by
      rw [F64.one_split]
      have : 1025 * 1000000000 ≤ ns * 1099511627776 := by omega
      calc 1025 * 2 ^ 1034 * 1000000000 = (1025 * 1000000000) * 2 ^ 1034 := by ring
        _ ≤ (ns * 1099511627776) * 2 ^ 1034 := Nat.mul_le_mul_right _ this
        _ = ns * (1099511627776 * 2 ^ 1034) := by ring
    calc 1025 * 2 ^ 1034 * (1000000000 * F64.one)
        = (1025 * 2 ^ 1034 * 1000000000) * F64.one := by ring
      _ ≤ (ns * F64.one) * F64.one := Nat.mul_le_mul_right _ this
  · apply roundMag_le _ _ _ hden ⟨1, 1074, by norm_num, by rw [F64.one_eq, Nat.one_mul]⟩
    have : ns * F64.one ≤ 1000000000 * F64.one := Nat.mul_le_mul_right _ (by omega)
    calc ns * F64.one * F64.one ≤ 1000000000 * F64.one * F64.one := Nat.mul_le_mul_right _ this
      _ = F64.one * (1000000000 * F64.one) := by ring

theorem round_natCast (a den : Nat) : F64.round (a : Int) den = (F64.roundMag a den : Nat) := by
  rw [round_of_nonneg _ _ (Int.natCast_nonneg _), Int.toNat_natCast]

theorem ofInt_natCast (n : Nat) (h : n < 2 ^ 53) : F64.ofInt (n : Int) = ((n * F64.one : Nat) : Int) := by
  rw [ofInt_exact _ (Int.natCast_nonneg _) (by exact_mod_cast h)]
  push_cast
  rfl

/-- The seconds of a positive duration of `S` seconds and `ns` nanoseconds:
the rounded sum of `S` and the rounded fraction. -/
theorem durationSeconds_of_parts (S ns : Nat) (hS : S < 2 ^ 53) (hns : ns < 1000000000) :
    durationSeconds ((S : Int) * 1000000000 + ns)
      = ((F64.roundMag
          (S * F64.one + F64.roundMag (ns * F64.one * F64.one) (1000000000 * F64.one)) 1 : Nat)
          : Int) := by
  have hnn : (0 : Int) ≤ (S : Int) * 1000000000 + ns := by positivity
  have hdiv : ((S : Int) * 1000000000 + ns).tdiv 1000000000 = S := by
    rw [Int.tdiv_eq_ediv hnn (by norm_num)]
    omega
  have hmod : ((S : Int) * 1000000000 + ns).tmod 1000000000 = ns := by
    rw [Int.tmod_eq_emod hnn (by norm_num)]
    omega
  unfold durationSeconds
  simp only [hdiv, hmod]
  rw [ofInt_natCast S hS, ofInt_natCast ns (by omega)]
  have h9 : F64.ofInt 1000000000 = ((1000000000 * F64.one : Nat) : Int) :=
    ofInt_natCast 1000000000 (by norm_num)
  rw [h9]
  unfold F64.div F64.add
  rw [Int.natAbs_ofNat]
  have hx : ((ns * F64.one : Nat) : Int) * (F64.one : Int) = ((ns * F64.one * F64.one : Nat) : Int) := by
    push_cast
    rfl
  rw [hx, round_natCast]
  have hsum : ((S * F64.one : Nat) : Int)
        + ((F64.roundMag (ns * F64.one * F64.one) (1000000000 * F64.one) : Nat) : Int)
      = ((S * F64.one + F64.roundMag (ns * F64.one * F64.one) (1000000000 * F64.one) : Nat) : Int) := by
    push_cast
    rfl
  rw [hsum, round_natCast]

theorem roundMag_den_one_le (q r : Nat) (hr : F64.isMag r) (h : q ≤ r) : F64.roundMag q 1 ≤ r :=
  roundMag_le q 1 r (by norm_num) hr (by omega)

theorem le_roundMag_den_one (q r : Nat) (hr : F64.isMag r) (h : r ≤ q) : r ≤ F64.roundMag q 1 :=
  le_roundMag q 1 r (by norm_num) hr (by omega)

/-- A sum of `W < 2^24` seconds and a fraction above `2^-30` is rounded to
more than `W`. -/
theorem roundMag_sum_gt (W x : Nat) (hW : W < 2 ^ 24) (hx : 1025 * 2 ^ 1034 ≤ x) :
    W * F64.one < F64.roundMag (W * F64.one + x) 1 := by
  have hmag : F64.isMag (W * F64.one + 2048 * 2 ^ 1034) := by
    refine ⟨W * 2 ^ 29 + 1, 1045, ?_, ?_⟩
    · have : W * 2 ^ 29 < 2 ^ 24 * 2 ^ 29 := Nat.mul_lt_mul_of_pos_right hW (by norm_num)
      norm_num at this ⊢
      omega
    · rw [F64.one_eq, show (2048 : Nat) = 2 ^ 11 by norm_num, ← pow_add, add_mul, Nat.one_mul,
        mul_assoc, ← pow_add]
  have hP : 0 < 2 ^ 1034 := by positivity
  generalize (2 : Nat) ^ 1034 = P at hx hmag hP
  by_cases hbig : 2048 * P ≤ x
  · have := le_roundMag_den_one (W * F64.one + x) _ hmag (by omega)
    omega
  · have hn := roundMag_nearest (W * F64.one + x) 1 _ (by norm_num) hmag
    by_contra hle
    have hle' : F64.roundMag (W * F64.one + x) 1 ≤ W * F64.one := by omega
    have h1 : ((F64.roundMag (W * F64.one + x) 1 : Nat) : Int) ≤ ((W * F64.one : Nat) : Int) := by
      exact_mod_cast hle'
    push_cast at hn h1
    rw [abs_of_nonpos (by omega), abs_of_nonneg (by omega)] at hn
    omega

/-- For a window of `0 <= w < 2^24` seconds the floating-point test of the
eviction loop is the exact comparison of the duration with `w` seconds. -/
theorem durationSeconds_le_iff (d w : Int) (hw0 : 0 ≤ w) (hw : w < 2 ^ 24)
    (hd : d < 2 ^ 63) :
    durationSeconds d ≤ F64.ofInt w ↔ d ≤ w * 1000000000 := by
  obtain ⟨W, rfl⟩ : ∃ W : Nat, w = W := ⟨w.toNat, by omega⟩
  have hW : W < 2 ^ 24 := by exact_mod_cast hw
  have hU := F64.one_pos
  rw [ofInt_natCast W (by omega)]
  by_cases hpos : d ≤ 0
  · have h1 := durationSeconds_nonpos d hpos
    have h2 : (0 : Int) ≤ ((W * F64.one : Nat) : Int) := Int.natCast_nonneg _
    constructor
    · intro _
      omega
    · intro _
      exact le_trans h1 h2
  · obtain ⟨S, ns, hdS, hns⟩ : ∃ S ns : Nat, d = (S : Int) * 1000000000 + ns ∧ ns < 1000000000 :=
      ⟨(d / 1000000000).toNat, (d % 1000000000).toNat, by omega, by omega⟩
    have hS : S < 2 ^ 53 := by omega
    rw [hdS, durationSeconds_of_parts S ns hS hns]
    have hx0 : ns = 0 → F64.roundMag (ns * F64.one * F64.one) (1000000000 * F64.one) = 0 := by
      intro h0
      rw [h0, Nat.zero_mul, Nat.zero_mul, roundMag_zero]
    have hx1 := fraction_bounds ns
    generalize F64.roundMag (ns * F64.one * F64.one) (1000000000 * F64.one) = x at hx0 hx1
    have hcast : (((F64.roundMag (S * F64.one + x) 1 : Nat) : Int) ≤ ((W * F64.one : Nat) : Int))
        ↔ F64.roundMag (S * F64.one + x) 1 ≤ W * F64.one := by
      exact_mod_cast Iff.rfl
    rw [hcast]
    have hxU : x ≤ F64.one := by
      rcases Nat.eq_zero_or_pos ns with h0 | h1
      · rw [hx0 h0]
        exact Nat.zero_le _
      · exact (hx1 h1 hns).2
    rcases Nat.lt_trichotomy S W with hlt | heq | hgt
    · have hle : S * F64.one + x ≤ W * F64.one := by
        have : (S + 1) * F64.one ≤ W * F64.one := Nat.mul_le_mul_right _ hlt
        rw [add_mul, Nat.one_mul] at this
        omega
      constructor
      · intro _
        have : ((S : Int) + 1) ≤ W := by exact_mod_cast hlt
        omega
      · intro _
        exact roundMag_den_one_le _ _ (isMag_mul_one W (by omega)) hle
    · subst heq
      rcases Nat.eq_zero_or_pos ns with h0 | h1
      · have hx : x = 0 := hx0 h0
        subst hx
        subst h0
        constructor
        · intro _
          simp
        · intro _
          rw [Nat.add_zero]
          exact roundMag_den_one_le _ _ (isMag_mul_one S (by omega)) (le_refl _)
      · have hgt := roundMag_sum_gt S x hW (hx1 h1 hns).1
        constructor
        · intro h
          omega
        · intro h
          have : (ns : Int) ≤ 0 := by omega
          omega
    · have hge : (W + 1) * F64.one ≤ S * F64.one + x := by
        have : (W + 1) * F64.one ≤ S * F64.one := Nat.mul_le_mul_right _ hgt
        omega
      have hmag : F64.isMag ((W + 1) * F64.one) := isMag_mul_one (W + 1) (by omega)
      have h1 := le_roundMag_den_one _ _ hmag hge
      rw [add_mul, Nat.one_mul] at h1
      constructor
      · intro h
        omega
      · intro h
        have : ((W : Int) + 1) ≤ S := by exact_mod_cast hgt
        omega

/-- For a window of `0 <= w < 2^24` seconds the test of the eviction loop is
the exact comparison of the time difference with `w` seconds. -/
theorem inTimeWindow_iff (curTupTime ts w : Int) (hw0 : 0 ≤ w) (hw : w < 2 ^ 24) :
    inTimeWindow curTupTime w ts = true ↔ curTupTime - ts ≤ w * 1000000000 := by
  unfold inTimeWindow
  rw [decide_eq_true_iff]
  have hd : timeSub curTupTime ts < 2 ^ 63 := by
    unfold timeSub maxDuration minDuration
    split
    · omega
    · split <;> omega
  rw [durationSeconds_le_iff _ w hw0 hw hd]
  clear hd
  unfold timeSub maxDuration minDuration
  split
  · constructor <;> intro h <;> omega
  · split
    · constructor <;> intro h <;> omega
    · exact Iff.rfl

/-! ## The time window -/

/-- C6 fails for a window of `2^24` seconds: a tuple that is one nanosecond
more than `2^24` seconds older than the triggering tuple is kept, because the
sum of `16777216` and `1e-9` is rounded to `16777216`. -/
theorem removeOutdatedTuplesFromBuffer_seconds_counterexample :
    (AMap.get
        (removeOutdatedTuplesFromBuffer
          { exLongWindowPlan with
            buffers := [("src", ⟨[exTupleAt 1 0], 16777216, IntervalUnit.Seconds⟩)] }
          ["src"] 16777216000000001).1.buffers "src").map
        (fun b => b.tuples.map (fun t => t.Timestamp))
      = some [0]
    ∧ ¬ ((16777216000000001 : Int) - 0 ≤ 16777216 * 1000000000) := by
  decide!

/-- C6 below `2^24` seconds: `removeOutdatedTuplesFromBuffer`, ranging over distinct keys
of buffers with valid windows, ends without failure and leaves in every
time-window buffer with a window of `0 <= w < 2^24` seconds, whatever relation
it belongs to, the tuples `t` with `curTupTime - t.Timestamp <= w` seconds, in
their order. -/
theorem removeOutdatedTuplesFromBuffer_seconds (ep : groupbyExecutionPlan) (order : List String)
    (curTupTime : Time) (hnodup : order.Nodup) (hvalid : validWindows ep.buffers)
    (key : String) (b : inputBuffer) (hkey : key ∈ order)
    (hget : AMap.get ep.buffers key = some b) (htype : b.windowType = IntervalUnit.Seconds)
    (hw0 : 0 ≤ b.windowSize) (hw : b.windowSize < 2 ^ 24) :
    (removeOutdatedTuplesFromBuffer ep order curTupTime).2 = none
      ∧ AMap.get (removeOutdatedTuplesFromBuffer ep order curTupTime).1.buffers key
        = some { b with
            tuples := b.tuples.filter
              (fun t => decide (curTupTime - t.Timestamp ≤ b.windowSize * 1000000000)) } := by
  obtain ⟨h1, h2⟩ := evictLoop_spec curTupTime order ep.buffers hnodup hvalid
  unfold removeOutdatedTuplesFromBuffer
  refine ⟨h1, ?_⟩
  simp only
  rw [h2 key]
  simp only [hkey, if_true, hget, Option.some_bind, evictBuffer_seconds b curTupTime htype,
    Except.toOption, Option.some.injEq]
  congr 1
  apply List.filter_congr
  intro t _
  by_cases hin : curTupTime - t.Timestamp ≤ b.windowSize * 1000000000
  · rw [(inTimeWindow_iff curTupTime t.Timestamp b.windowSize hw0 hw).2 hin]
    exact (decide_eq_true hin).symm
  · have hf : inTimeWindow curTupTime b.windowSize t.Timestamp = false := by
      cases hc : inTimeWindow curTupTime b.windowSize t.Timestamp with
      | false => rfl
      | true => exact absurd ((inTimeWindow_iff curTupTime t.Timestamp b.windowSize hw0 hw).1 hc) hin
    rw [hf]
    exact (decide_eq_false hin).symm

/-! ## The window invariant -/

theorem sameWindows_refl (m : AMap inputBuffer) : sameWindows m m := fun _ => rfl

theorem sameWindows_trans (m m1 m2 : AMap inputBuffer) (h1 : sameWindows m m1)
    (h2 : sameWindows m1 m2) : sameWindows m m2 := fun k => (h2 k).trans (h1 k)

theorem sameWindows_of_grows (m m1 : AMap inputBuffer) (h : grows m m1) : sameWindows m m1 := by
  intro k
  rcases h k with ⟨ha, hb⟩ | ⟨b, b1, ha, hb, hs, ht, _⟩
  · rw [ha, hb]
  · rw [ha, hb]
    simp [hs, ht]

theorem sameWindows_set (m : AMap inputBuffer) (key : String) (b b1 : inputBuffer)
    (hget : AMap.get m key = some b) (hs : b1.windowSize = b.windowSize)
    (ht : b1.windowType = b.windowType) : sameWindows m (AMap.set m key b1) := by
  intro k
  by_cases hk : key = k
  · subst hk
    rw [AMap.get_set_self, hget]
    simp [hs, ht]
  · rw [AMap.get_set_ne _ _ _ _ hk]

theorem sameWindows_get (m m1 : AMap inputBuffer) (h : sameWindows m m1) (k : String)
    (b1 : inputBuffer) (hget : AMap.get m1 k = some b1) :
    ∃ b, AMap.get m k = some b ∧ b1.windowSize = b.windowSize ∧ b1.windowType = b.windowType := by
  have hk := h k
  rw [hget] at hk
  cases hb : AMap.get m k with
  | none => simp [hb] at hk
  | some b =>
    rw [hb] at hk
    simp only [Option.map_some', Option.some.injEq, Prod.mk.injEq] at hk
    exact ⟨b, rfl, hk.1, hk.2⟩

theorem sameWindows_isSome (m m1 : AMap inputBuffer) (h : sameWindows m m1) (k : String) :
    (AMap.get m1 k).isSome = (AMap.get m k).isSome := by
  have hk := h k
  cases h1 : AMap.get m1 k <;> cases h0 : AMap.get m k <;> simp [h1, h0] at hk ⊢

theorem sameWindows_validWindows (m m1 : AMap inputBuffer) (h : sameWindows m m1)
    (hv : validWindows m) : validWindows m1 := by
  intro k b1 hget
  obtain ⟨b, hb, hs, ht⟩ := sameWindows_get m m1 h k b1 hget
  rw [hs, ht]
  exact hv k b hb

theorem sameWindows_shortTimeWindows (m m1 : AMap inputBuffer) (h : sameWindows m m1)
    (hv : shortTimeWindows m) : shortTimeWindows m1 := by
  intro k b1 hget htype
  obtain ⟨b, hb, hs, ht⟩ := sameWindows_get m m1 h k b1 hget
  rw [hs]
  exact hv k b hb (by rw [← ht]; exact htype)

/-- Eviction of buffers with valid windows, in any order of keys, ends
without failure and leaves the windows as they are. -/
theorem evictLoop_valid (curTupTime : Time) (order : List String) (buffers : AMap inputBuffer)
    (hvalid : validWindows buffers) :
    (evictLoop curTupTime order buffers).2 = none
      ∧ sameWindows buffers (evictLoop curTupTime order buffers).1 := by
  induction order generalizing buffers with
  | nil => exact ⟨rfl, sameWindows_refl _⟩
  | cons key rest ih =>
    cases hget : AMap.get buffers key with
    | none =>
      simp only [evictLoop, hget]
      exact ih buffers hvalid
    | some buffer =>
      obtain ⟨b1, hb1, hsz, hty⟩ :=
        evictBuffer_ok_of_valid buffer curTupTime (hvalid key buffer hget)
      simp only [evictLoop, hget, hb1]
      have hsw := sameWindows_set buffers key buffer b1 hget hsz hty
      obtain ⟨h1, h2⟩ := ih (AMap.set buffers key b1) (sameWindows_validWindows _ _ hsw hvalid)
      exact ⟨h1, sameWindows_trans _ _ _ hsw h2⟩

theorem shouldEmitNow_frame (ep : groupbyExecutionPlan) (t : Tuple) :
    ∃ counters, (shouldEmitNow ep t).1 = { ep with emitCounters := counters } := by
  unfold shouldEmitNow countAndCheck
  split
  · simp only
    split
    · exact ⟨_, rfl⟩
    · split <;> exact ⟨_, rfl⟩
  · split
    · simp only
      split
      · exact ⟨_, rfl⟩
      · split <;> exact ⟨_, rfl⟩
    · exact ⟨_, rfl⟩

/-- The gate and the evaluation leave relations and buffers as they are. -/
theorem gate_and_query_frame (L : Lib) (ep : groupbyExecutionPlan) (t : Tuple)
    (allStreams : List String) :
    (match shouldEmitNow ep t with
      | (ep3, .error f) => (ep3, (.error f : Except Failure (List Map)))
      | (ep3, .ok false) => (ep3, .ok [])
      | (ep3, .ok true) =>
        match performQueryOnBuffer L ep3 allStreams with
        | (ep4, some f) => (ep4, .error f)
        | (ep4, none) => (ep4, computeResultTuples L ep4)).1.buffers = ep.buffers
    ∧ (match shouldEmitNow ep t with
      | (ep3, .error f) => (ep3, (.error f : Except Failure (List Map)))
      | (ep3, .ok false) => (ep3, .ok [])
      | (ep3, .ok true) =>
        match performQueryOnBuffer L ep3 allStreams with
        | (ep4, some f) => (ep4, .error f)
        | (ep4, none) => (ep4, computeResultTuples L ep4)).1.relations = ep.relations := by
  obtain ⟨counters, hc⟩ := shouldEmitNow_frame ep t
  rcases hgate : shouldEmitNow ep t with ⟨ep3, r⟩
  rw [hgate] at hc
  simp only at hc
  subst hc
  cases r with
  | error f => exact ⟨rfl, rfl⟩
  | ok fire =>
    cases fire with
    | false => exact ⟨rfl, rfl⟩
    | true =>
      simp only
      obtain ⟨cur, prev, hq⟩ :=
        performQueryOnBuffer_frame L { ep with emitCounters := counters } allStreams
      rcases hperf : performQueryOnBuffer L { ep with emitCounters := counters } allStreams
        with ⟨ep4, r4⟩
      rw [hperf] at hq
      simp only at hq
      subst hq
      cases r4 <;> exact ⟨rfl, rfl⟩

/-- After `Process` of a tuple with a known input name the buffers are the
evicted buffers of `addTupleToBuffer`, whatever the call returns. -/
theorem Process_buffers (L : Lib) (ep : groupbyExecutionPlan) (o : IterOrder) (t : Tuple)
    (hknown : ∃ rel ∈ ep.relations, t.InputName = relationKey rel) (hbuf : hasBuffers ep)
    (hvalid : validWindows ep.buffers) :
    (Process L ep o t).1.buffers
        = (evictLoop t.Timestamp o.evict (addTupleToBuffer ep t).1.1.buffers).1
      ∧ (Process L ep o t).1.relations = ep.relations := by
  obtain ⟨h1, h2, h3, h4, h5⟩ := addTupleToBuffer_known ep t hknown hbuf
  have hv1 := grows_validWindows _ _ h3 hvalid
  rcases hadd : addTupleToBuffer ep t with ⟨⟨ep1, t1⟩, r⟩
  rw [hadd] at h1 h2 h3 h4 h5 hv1
  simp only at h1 h2 h3 h4 h5 hv1
  subst h1
  obtain ⟨e1, _⟩ := evictLoop_valid t1.Timestamp o.evict ep1.buffers hv1
  have hrem : removeOutdatedTuplesFromBuffer ep1 o.evict t1.Timestamp
      = ({ ep1 with buffers := (evictLoop t1.Timestamp o.evict ep1.buffers).1 }, none) := by
    unfold removeOutdatedTuplesFromBuffer
    rw [← e1]
  unfold Process
  simp only [hadd, hrem]
  obtain ⟨g1, g2⟩ := gate_and_query_frame L
    { ep1 with buffers := (evictLoop t1.Timestamp o.evict ep1.buffers).1 } t1 o.eval
  rw [g1, g2, h4]
  refine ⟨rfl, ?_⟩
  rw [h2]

/-- `Process` leaves relations and windows as they are, whatever the tuple
and whatever it returns. -/
theorem Process_shape (L : Lib) (ep : groupbyExecutionPlan) (o : IterOrder) (t : Tuple)
    (hbuf : hasBuffers ep) (hvalid : validWindows ep.buffers) :
    sameWindows ep.buffers (Process L ep o t).1.buffers
      ∧ (Process L ep o t).1.relations = ep.relations := by
  by_cases hknown : ∃ rel ∈ ep.relations, t.InputName = relationKey rel
  · obtain ⟨h1, h2⟩ := Process_buffers L ep o t hknown hbuf hvalid
    obtain ⟨_, _, h3, _, _⟩ := addTupleToBuffer_known ep t hknown hbuf
    have hv1 := grows_validWindows _ _ h3 hvalid
    obtain ⟨_, e2⟩ := evictLoop_valid t.Timestamp o.evict _ hv1
    rw [h1]
    exact ⟨sameWindows_trans _ _ _ (sameWindows_of_grows _ _ h3) e2, h2⟩
  · have hcount : ep.relations.countP (fun rel => decide (t.InputName = relationKey rel)) = 0 := by
      rw [List.countP_eq_zero]
      intro rel hrel hdec
      exact hknown ⟨rel, hrel, of_decide_eq_true hdec⟩
    have hadd : addTupleToBuffer ep t
        = ((ep, t), some (Failure.error
            (Err.unknownInputName t.InputName (ep.relations.map (fun rel => rel.Name))))) := by
      unfold addTupleToBuffer
      simp only [hcount, if_true]
    have hproc : Process L ep o t
        = (ep, .error (Failure.error
            (Err.unknownInputName t.InputName (ep.relations.map (fun rel => rel.Name))))) := by
      unfold Process
      simp only [hadd]
    rw [hproc]
    exact ⟨sameWindows_refl _, rfl⟩

theorem hasBuffers_of_shape (ep ep1 : groupbyExecutionPlan) (hbuf : hasBuffers ep)
    (hs : sameWindows ep.buffers ep1.buffers) (hr : ep1.relations = ep.relations) :
    hasBuffers ep1 := by
  intro rel hrel
  rw [hr] at hrel
  obtain ⟨b, hb⟩ := hbuf rel hrel
  apply Option.isSome_iff_exists.1
  rw [sameWindows_isSome _ _ hs, hb]
  rfl

theorem processAfter_append (L : Lib) (ep : groupbyExecutionPlan)
    (pre : List (IterOrder × Tuple)) (c : IterOrder × Tuple) :
    processAfter L ep (pre ++ [c]) = (Process L (processAfter L ep pre) c.1 c.2).1 := by
  simp [processAfter, List.foldl_append]

/-- A run of `Process` calls leaves relations and windows as they are. -/
theorem processAfter_shape (L : Lib) (ep : groupbyExecutionPlan)
    (pre : List (IterOrder × Tuple)) (hbuf : hasBuffers ep) (hvalid : validWindows ep.buffers) :
    sameWindows ep.buffers (processAfter L ep pre).buffers
      ∧ (processAfter L ep pre).relations = ep.relations := by
  induction pre using List.reverseRecOn with
  | nil => exact ⟨sameWindows_refl _, rfl⟩
  | append_singleton pre c ih =>
    obtain ⟨i1, i2⟩ := ih
    rw [processAfter_append]
    obtain ⟨p1, p2⟩ := Process_shape L (processAfter L ep pre) c.1 c.2
      (hasBuffers_of_shape ep _ hbuf i1 i2) (sameWindows_validWindows _ _ i1 hvalid)
    exact ⟨sameWindows_trans _ _ _ i1 p1, p2.trans i2⟩

/-- The window invariant after one `Process` call for a tuple with a known
input name, when the eviction loop ranges over all keys. -/
theorem Process_windowInvariant_step (L : Lib) (ep : groupbyExecutionPlan) (o : IterOrder)
    (t : Tuple) (hknown : ∃ rel ∈ ep.relations, t.InputName = relationKey rel)
    (hbuf : hasBuffers ep) (hvalid : validWindows ep.buffers)
    (hshort : shortTimeWindows ep.buffers) (hord : keyOrder o.evict ep.buffers) :
    windowInvariant (Process L ep o t).1 t.Timestamp := by
  obtain ⟨h1, _⟩ := Process_buffers L ep o t hknown hbuf hvalid
  obtain ⟨_, _, h3, _, _⟩ := addTupleToBuffer_known ep t hknown hbuf
  have hsw := sameWindows_of_grows _ _ h3
  have hv1 := sameWindows_validWindows _ _ hsw hvalid
  have hs1 := sameWindows_shortTimeWindows _ _ hsw hshort
  obtain ⟨_, e2⟩ := evictLoop_spec t.Timestamp o.evict _ hord.1 hv1
  intro k b hget
  rw [h1, e2 k] at hget
  have hk : k ∈ o.evict := by
    by_contra hnot
    simp only [hnot, if_false] at hget
    have hsome : (AMap.get ep.buffers k).isSome = true := by
      rw [← sameWindows_isSome _ _ hsw, hget]
      rfl
    exact hnot ((hord.2 k).2 hsome)
  simp only [hk, if_true] at hget
  cases hb1 : AMap.get (addTupleToBuffer ep t).1.1.buffers k with
  | none => simp [hb1] at hget
  | some b1 =>
    rw [hb1] at hget
    simp only [Option.some_bind] at hget
    rcases hv1 k b1 hb1 with ⟨ht, hsz⟩ | ht
    · rw [evictBuffer_tuples b1 t.Timestamp ht hsz] at hget
      simp only [Except.toOption, Option.some.injEq] at hget
      subst hget
      constructor
      · intro _
        simp only [List.length_drop]
        omega
      · intro hsec
        simp only at hsec
        rw [ht] at hsec
        cases hsec
    · rw [evictBuffer_seconds b1 t.Timestamp ht] at hget
      simp only [Except.toOption, Option.some.injEq] at hget
      subst hget
      obtain ⟨hw0, hw⟩ := hs1 k b1 hb1 ht
      constructor
      · intro htup
        simp only at htup
        rw [ht] at htup
        cases htup
      · intro _ x hx
        simp only [List.mem_filter] at hx
        exact (inTimeWindow_iff t.Timestamp x.Timestamp b1.windowSize hw0 hw).1 hx.2

theorem shortTimeWindows_of_forall (m : AMap inputBuffer)
    (h : ∀ kb ∈ m, kb.2.windowType = IntervalUnit.Seconds →
      0 ≤ kb.2.windowSize ∧ kb.2.windowSize < 2 ^ 24) :
    shortTimeWindows m := by
  intro k b hget
  induction m with
  | nil => simp [AMap.get] at hget
  | cons p rest ih =>
    obtain ⟨k1, b1⟩ := p
    simp only [AMap.get] at hget
    split at hget
    · injection hget with hget
      subst hget
      exact h (k1, b1) (List.mem_cons_self _ _)
    · exact ih (fun kb hkb => h kb (List.mem_cons_of_mem _ hkb)) hget

/-- C6 below `2^24` seconds, at a window of 5 seconds over tuples of the seconds 1, 3, 9
with the trigger at second 9. -/
theorem removeOutdatedTuplesFromBuffer_seconds_witness :
    ["x", "y"].Nodup ∧ validWindows (exMixedPlan exBufferY.tuples).buffers ∧ "y" ∈ ["x", "y"]
      ∧ AMap.get (exMixedPlan exBufferY.tuples).buffers "y" = some exBufferY
      ∧ exBufferY.windowType = IntervalUnit.Seconds
      ∧ 0 ≤ exBufferY.windowSize ∧ exBufferY.windowSize < 2 ^ 24
      ∧ ((removeOutdatedTuplesFromBuffer (exMixedPlan exBufferY.tuples) ["x", "y"]
            9000000000).2 = none
        ∧ AMap.get (removeOutdatedTuplesFromBuffer (exMixedPlan exBufferY.tuples) ["x", "y"]
            9000000000).1.buffers "y"
          = some { exBufferY with
              tuples := exBufferY.tuples.filter
                (fun t => decide (9000000000 - t.Timestamp ≤ exBufferY.windowSize * 1000000000)) }) :=
  ⟨by decide, validWindows_of_forall _ (by decide), by decide, rfl, rfl, by decide, by decide,
    removeOutdatedTuplesFromBuffer_seconds (exMixedPlan exBufferY.tuples) ["x", "y"] 9000000000
      (by decide) (validWindows_of_forall _ (by decide)) "y" exBufferY (by decide) rfl rfl
      (by decide) (by decide)⟩

/-- C7 fails for a window of `2^24` seconds: after the second `Process` call on
a new plan the buffer still holds the first tuple, which is one nanosecond more
than `2^24` seconds older than the second. -/
theorem Process_windowInvariant_counterexample :
    NewGroupbyExecutionPlan exSrcLib exLongWindowLp exReg = .ok exLongWindowPlan
    ∧ (AMap.get
          (Process exSrcLib (processAfter exSrcLib exLongWindowPlan [(exOrderSrc, exTupleAt 1 0)])
            exOrderSrc (exTupleAt 2 16777216000000001)).1.buffers "src").map
          (fun b => (b.windowSize, b.tuples.map (fun t => t.Timestamp)))
        = some (16777216, [0, 16777216000000001])
    ∧ ¬ ((exTupleAt 2 16777216000000001).Timestamp - 0 ≤ 16777216 * 1000000000) :=
  ⟨rfl, by decide!, by decide⟩

/-- C7 below `2^24` seconds: on a plan with a buffer for every relation, tuple windows of
non-negative size and time windows of `0 <= w < 2^24` seconds, after every
sequence of `Process` calls a further call, for a tuple with a known input
name and with the eviction ranging over all buffers, leaves the buffers in the
window invariant with respect to the timestamp of its tuple, whatever it
returns: a tuple window holds at most its size, a time window only tuples at
most its size in seconds older than the tuple. -/
theorem Process_windowInvariant (L : Lib) (ep : groupbyExecutionPlan)
    (hbuf : hasBuffers ep) (hvalid : validWindows ep.buffers)
    (hshort : shortTimeWindows ep.buffers) (pre : List (IterOrder × Tuple))
    (o : IterOrder) (t : Tuple)
    (hknown : ∃ rel ∈ ep.relations, t.InputName = relationKey rel)
    (hord : keyOrder o.evict ep.buffers) :
    windowInvariant (Process L (processAfter L ep pre) o t).1 t.Timestamp := by
  obtain ⟨i1, i2⟩ := processAfter_shape L ep pre hbuf hvalid
  apply Process_windowInvariant_step
  · rw [i2]
    exact hknown
  · exact hasBuffers_of_shape ep _ hbuf i1 i2
  · exact sameWindows_validWindows _ _ i1 hvalid
  · exact sameWindows_shortTimeWindows _ _ i1 hshort
  · refine ⟨hord.1, fun k => ?_⟩
    rw [sameWindows_isSome _ _ i1]
    exact hord.2 k

/-- C7 below `2^24` seconds, at the second call on the join plan with a window of one
tuple and a window of five seconds. -/
theorem Process_windowInvariant_witness :
    hasBuffers (exMixedPlan []) ∧ validWindows (exMixedPlan []).buffers
      ∧ shortTimeWindows (exMixedPlan []).buffers
      ∧ (∃ rel ∈ (exMixedPlan []).relations, (exJoinTuple 1).InputName = relationKey rel)
      ∧ keyOrder exOrderXY.evict (exMixedPlan []).buffers
      ∧ windowInvariant
          (Process exJoinLib (processAfter exJoinLib (exMixedPlan []) [(exOrderXY, exJoinTuple 0)])
            exOrderXY (exJoinTuple 1)).1 (exJoinTuple 1).Timestamp :=
  ⟨hasBuffers_of_isSome _ (by decide), validWindows_of_forall _ (by decide),
    shortTimeWindows_of_forall _ (by decide),
    ⟨⟨StreamType.ActualStream, "src2", 5, IntervalUnit.Seconds, "y"⟩, by decide, by decide⟩,
    keyOrder_keys (exMixedPlan []).buffers (by decide),
    Process_windowInvariant exJoinLib (exMixedPlan []) (hasBuffers_of_isSome _ (by decide))
      (validWindows_of_forall _ (by decide)) (shortTimeWindows_of_forall _ (by decide))
      [(exOrderXY, exJoinTuple 0)] exOrderXY (exJoinTuple 1)
      ⟨⟨StreamType.ActualStream, "src2", 5, IntervalUnit.Seconds, "y"⟩, by decide, by decide⟩
      (keyOrder_keys (exMixedPlan []).buffers (by decide))⟩

/-! ## The tables of the constructor -/

theorem AMap.set_set_self {β : Type} (m : AMap β) (k : String) (v w : β) :
    AMap.set (AMap.set m k v) k w = AMap.set m k w := by
  induction m with
  | nil => simp [AMap.set]
  | cons p rest ih =>
    obtain ⟨k1, v1⟩ := p
    by_cases h : k1 = k
    · simp [AMap.set, h]
    · simp [AMap.set, h, ih]

/-- What a successful call of the constructor has computed. -/
theorem NewGroupbyExecutionPlan_ok (L : Lib) (lp : LogicalPlan) (reg : FunctionRegistry)
    (ep : groupbyExecutionPlan) (hnew : NewGroupbyExecutionPlan L lp reg = .ok ep) :
    ∃ projs filter groupList buffers tables,
      L.prepareProjections lp.Projections reg = .ok projs
      ∧ L.prepareFilter lp.Filter reg = .ok filter
      ∧ L.prepareGroupList lp.GroupList reg = .ok groupList
      ∧ initBuffers L lp.Relations [] = .ok buffers
      ∧ initEmitRules lp.EmitIntervals
          (if lp.EmitIntervals.length = 0 then
            ([("*", ⟨1, IntervalUnit.Tuples⟩)], [("*", 0)])
          else ([], [])) = .ok tables
      ∧ ep = ⟨projs, groupList, filter, lp.GroupingStmt, lp.EmitterType, tables.1, tables.2,
          lp.Relations, buffers, [], []⟩ := by
  unfold NewGroupbyExecutionPlan at hnew
  split at hnew
  · simp at hnew
  rename_i projs hprojs
  split at hnew
  · simp at hnew
  rename_i filter hfilter
  split at hnew
  · simp at hnew
  rename_i groupList hgroup
  split at hnew
  · simp at hnew
  rename_i buffers hbuffers
  simp only at hnew
  split at hnew
  · simp at hnew
  rename_i emitterRules emitCounters hinit
  injection hnew with hnew
  subst hnew
  exact ⟨projs, filter, groupList, buffers, (emitterRules, emitCounters), hprojs, hfilter, hgroup,
    hbuffers, hinit, rfl⟩

/-- The tables after the emit rule loop: under every key the last declared
rule of that name, else what the table held before; the counter under `*` is
set to 0 as soon as there is one rule. -/
theorem initEmitRules_tables (rules : List StreamEmitIntervalAST)
    (tables res : AMap IntervalAST × AMap Int)
    (h : initEmitRules rules tables = .ok res) :
    (∀ key, AMap.get res.1 key
        = match rules.reverse.find? (fun r => decide (r.Name = key)) with
          | some r => some r.IntervalAST
          | none => AMap.get tables.1 key)
      ∧ (rules ≠ [] → res.2 = AMap.set tables.2 "*" 0)
      ∧ ∀ r ∈ rules, r.IntervalAST.Unit ≠ IntervalUnit.Seconds := by
  induction rules generalizing tables with
  | nil =>
    simp only [initEmitRules] at h
    injection h with h
    subst h
    simp
  | cons emitRule rest ih =>
    obtain ⟨emitterRules, emitCounters⟩ := tables
    simp only [initEmitRules] at h
    split at h
    · simp at h
    · rename_i hunit
      obtain ⟨i1, i2, i3⟩ := ih _ h
      refine ⟨fun key => ?_, fun _ => ?_, ?_⟩
      · rw [i1 key, List.reverse_cons, List.find?_append]
        cases hfind : rest.reverse.find? (fun r => decide (r.Name = key)) with
        | some r => simp
        | none =>
          by_cases hk : emitRule.Name = key
          · subst hk
            simp [AMap.get_set_self]
          · simp [hk, AMap.get_set_ne _ _ _ _ hk]
      · by_cases hrest : rest = []
        · subst hrest
          simp only [initEmitRules] at h
          injection h with h
          subst h
          rfl
        · rw [i2 hrest]
          exact AMap.set_set_self _ _ _ _
      · intro r hr
        rcases List.mem_cons.1 hr with hr | hr
        · subst hr
          exact hunit
        · exact i3 r hr

/-- C11 fails: for the statement with the rules
`EVERY 2 TUPLES IN src1, 3 TUPLES IN src2` the constructor returns a plan whose
rule table has no entry under `*`. -/
theorem NewGroupbyExecutionPlan_emit_rules_counterexample :
    NewGroupbyExecutionPlan exJoinLib (exJoinLp exRules23) exReg
        = .ok (exJoinPlan [("src1", exEvery2), ("src2", exEvery3)])
      ∧ AMap.get (exJoinPlan [("src1", exEvery2), ("src2", exEvery3)]).emitterRules "*" = none
      ∧ (exJoinPlan [("src1", exEvery2), ("src2", exEvery3)]).emitCounters = [("*", 0)] :=
  ⟨rfl, by decide, by decide⟩

/-- C11, amended: `NewGroupbyExecutionPlan` installs the default rule
`*: 1 TUPLES` exactly when the logical plan declares no emit rule. When rules
are declared, the table holds under every name the last rule declared for it
and nothing else, so it has an entry under `*` only if a rule is declared for
`*`; no declared rule is time-based. In both cases the counter table is
`*: 0`, the counter under `*` being set to 0 by every insertion of a rule. -/
theorem NewGroupbyExecutionPlan_emit_rules (L : Lib) (lp : LogicalPlan) (reg : FunctionRegistry)
    (ep : groupbyExecutionPlan) (hnew : NewGroupbyExecutionPlan L lp reg = .ok ep) :
    (lp.EmitIntervals = [] → ep.emitterRules = [("*", ⟨1, IntervalUnit.Tuples⟩)])
      ∧ (lp.EmitIntervals ≠ [] →
          (∀ key, AMap.get ep.emitterRules key
            = (lp.EmitIntervals.reverse.find? (fun r => decide (r.Name = key))).map
                (fun r => r.IntervalAST))
          ∧ ((∀ r ∈ lp.EmitIntervals, r.Name ≠ "*") → AMap.get ep.emitterRules "*" = none))
      ∧ (∀ r ∈ lp.EmitIntervals, r.IntervalAST.Unit ≠ IntervalUnit.Seconds)
      ∧ ep.emitCounters = [("*", 0)]
      ∧ ∀ (r : StreamEmitIntervalAST) (rest : List StreamEmitIntervalAST)
          (rules : AMap IntervalAST) (counters : AMap Int),
          r.IntervalAST.Unit ≠ IntervalUnit.Seconds →
          initEmitRules (r :: rest) (rules, counters)
            = initEmitRules rest (AMap.set rules r.Name r.IntervalAST, AMap.set counters "*" 0) := by
  obtain ⟨projs, filter, groupList, buffers, tables, -, -, -, -, hinit, hep⟩ :=
    NewGroupbyExecutionPlan_ok L lp reg ep hnew
  subst hep
  obtain ⟨i1, i2, i3⟩ := initEmitRules_tables _ _ _ hinit
  have hkeys : lp.EmitIntervals ≠ [] →
      ∀ key, AMap.get tables.1 key
        = (lp.EmitIntervals.reverse.find? (fun r => decide (r.Name = key))).map
            (fun r => r.IntervalAST) := by
    intro hne key
    have hlen : ¬ lp.EmitIntervals.length = 0 := fun h0 => hne (List.length_eq_zero.1 h0)
    rw [i1 key]
    cases lp.EmitIntervals.reverse.find? (fun r => decide (r.Name = key)) with
    | some r => rfl
    | none => simp [hlen, AMap.get]
  refine ⟨?_, fun hne => ⟨hkeys hne, fun hstar => ?_⟩, i3, ?_, ?_⟩
  · intro hempty
    rw [hempty] at hinit
    simp only [initEmitRules, List.length_nil, if_true] at hinit
    injection hinit with hinit
    rw [← hinit]
  · show AMap.get tables.1 "*" = none
    rw [hkeys hne "*"]
    have : lp.EmitIntervals.reverse.find? (fun r => decide (r.Name = "*")) = none := by
      rw [List.find?_eq_none]
      intro r hr
      simpa using hstar r (List.mem_reverse.1 hr)
    rw [this]
    rfl
  · show tables.2 = [("*", 0)]
    by_cases hne : lp.EmitIntervals = []
    · rw [hne] at hinit
      simp only [initEmitRules, List.length_nil, if_true] at hinit
      injection hinit with hinit
      rw [← hinit]
    · rw [i2 hne]
      have hlen : ¬ lp.EmitIntervals.length = 0 := fun h0 => hne (List.length_eq_zero.1 h0)
      simp [hlen, AMap.set]
  · intro r rest rules counters hunit
    simp only [initEmitRules, if_neg hunit]

/-- C11, amended, at the statement with the rules
`EVERY 2 TUPLES IN src1, 3 TUPLES IN src2`. -/
theorem NewGroupbyExecutionPlan_emit_rules_witness :
    NewGroupbyExecutionPlan exJoinLib (exJoinLp exRules23) exReg
        = .ok (exJoinPlan [("src1", exEvery2), ("src2", exEvery3)])
      ∧ (exJoinLp exRules23).EmitIntervals ≠ []
      ∧ (∀ r ∈ (exJoinLp exRules23).EmitIntervals, r.Name ≠ "*")
      ∧ AMap.get (exJoinPlan [("src1", exEvery2), ("src2", exEvery3)]).emitterRules "*" = none
      ∧ (exJoinPlan [("src1", exEvery2), ("src2", exEvery3)]).emitCounters = [("*", 0)] :=
  have h := NewGroupbyExecutionPlan_emit_rules exJoinLib (exJoinLp exRules23) exReg
    (exJoinPlan [("src1", exEvery2), ("src2", exEvery3)]) rfl
  ⟨rfl, by decide, by decide, (h.2.1 (by decide)).2 (by decide), h.2.2.2.1⟩

/-! ## The steps of `Process` -/

theorem appendLoop_tuple (n : Nat) (rels : List AliasedStreamWindowAST)
    (buffers : AMap inputBuffer) (u : Tuple) :
    (appendLoop n rels buffers u).1.2.Timestamp = u.Timestamp
      ∧ (appendLoop n rels buffers u).1.2.InputName = u.InputName := by
  induction rels generalizing buffers u with
  | nil => exact ⟨rfl, rfl⟩
  | cons rel rest ih =>
    simp only [appendLoop]
    split
    · split
      · split <;> exact ⟨rfl, rfl⟩
      · obtain ⟨i1, i2⟩ := ih (AMap.set buffers rel.Alias _)
          (if n > 1 then u else { u with Data := [(rel.Alias, Value.map u.Data)] })
        rw [i1, i2]
        split <;> exact ⟨rfl, rfl⟩
    · exact ih buffers u

/-- The insertion changes the buffers only and keeps the timestamp and the
input name of the tuple. -/
theorem addTupleToBuffer_frame (ep : groupbyExecutionPlan) (t : Tuple) :
    (addTupleToBuffer ep t).1.1 = { ep with buffers := (addTupleToBuffer ep t).1.1.buffers }
      ∧ (addTupleToBuffer ep t).1.2.Timestamp = t.Timestamp
      ∧ (addTupleToBuffer ep t).1.2.InputName = t.InputName := by
  unfold addTupleToBuffer
  simp only
  split
  · exact ⟨rfl, rfl, rfl⟩
  · obtain ⟨i1, i2⟩ := appendLoop_tuple
      (ep.relations.countP (fun rel => decide (t.InputName = relationKey rel)))
      ep.relations ep.buffers t
    exact ⟨rfl, i1, i2⟩

/-- The plan with which `Process` goes on to the gate is the plan of the call
with other buffers; the tuple has the timestamp and the input name of the
tuple of the call. -/
theorem streamToRelation_frame (ep : groupbyExecutionPlan) (o : IterOrder) (t : Tuple)
    (ep2 : groupbyExecutionPlan) (t1 : Tuple) (h : streamToRelation ep o t = .ok (ep2, t1)) :
    ep2 = { ep with buffers := ep2.buffers } ∧ t1.Timestamp = t.Timestamp
      ∧ t1.InputName = t.InputName := by
  obtain ⟨a1, a2, a3⟩ := addTupleToBuffer_frame ep t
  unfold streamToRelation at h
  rcases hadd : addTupleToBuffer ep t with ⟨⟨ep1, u⟩, r⟩
  rw [hadd] at h a1 a2 a3
  simp only at a1 a2 a3
  cases r with
  | some f => simp at h
  | none =>
    simp only at h
    unfold removeOutdatedTuplesFromBuffer at h
    rcases hev : evictLoop u.Timestamp o.evict ep1.buffers with ⟨bufs, r2⟩
    rw [hev] at h
    cases r2 with
    | some f => simp at h
    | none =>
      simp only at h
      injection h with h
      injection h with h1 h2
      subst h1 h2
      refine ⟨?_, a2, a3⟩
      rw [a1]

/-- When insertion and eviction go through, `Process` is the gate and what
follows it. -/
theorem Process_of_streamToRelation (L : Lib) (ep : groupbyExecutionPlan) (o : IterOrder)
    (t : Tuple) (ep2 : groupbyExecutionPlan) (t1 : Tuple)
    (h : streamToRelation ep o t = .ok (ep2, t1)) :
    Process L ep o t =
      match shouldEmitNow ep2 t1 with
      | (ep3, .error f) => (ep3, .error f)
      | (ep3, .ok false) => (ep3, .ok [])
      | (ep3, .ok true) =>
        match performQueryOnBuffer L ep3 o.eval with
        | (ep4, some f) => (ep4, .error f)
        | (ep4, none) => (ep4, computeResultTuples L ep4) := by
  unfold streamToRelation at h
  unfold Process
  rcases hadd : addTupleToBuffer ep t with ⟨⟨ep1, u⟩, r⟩
  rw [hadd] at h
  cases r with
  | some f => simp at h
  | none =>
    simp only at h ⊢
    rcases hrem : removeOutdatedTuplesFromBuffer ep1 o.evict u.Timestamp with ⟨ep2a, r2⟩
    rw [hrem] at h
    cases r2 with
    | some f => simp at h
    | none =>
      simp only at h ⊢
      injection h with h
      injection h with h1 h2
      subst h1 h2
      rfl

/-- With a known input name, a buffer for every relation and valid windows,
insertion and eviction go through. -/
theorem streamToRelation_known (ep : groupbyExecutionPlan) (o : IterOrder) (t : Tuple)
    (hknown : ∃ rel ∈ ep.relations, t.InputName = relationKey rel) (hbuf : hasBuffers ep)
    (hvalid : validWindows ep.buffers) :
    ∃ ep2 t1, streamToRelation ep o t = .ok (ep2, t1) := by
  obtain ⟨h1, h2, h3, h4, h5⟩ := addTupleToBuffer_known ep t hknown hbuf
  have hv1 := grows_validWindows _ _ h3 hvalid
  unfold streamToRelation
  rcases hadd : addTupleToBuffer ep t with ⟨⟨ep1, u⟩, r⟩
  rw [hadd] at h1 hv1
  simp only at h1 hv1
  subst h1
  simp only
  unfold removeOutdatedTuplesFromBuffer
  have hev := (evictLoop_valid u.Timestamp o.evict ep1.buffers hv1).1
  rcases hloop : evictLoop u.Timestamp o.evict ep1.buffers with ⟨bufs, r2⟩
  rw [hloop] at hev
  simp only at hev
  subst hev
  exact ⟨_, _, rfl⟩

/-! ## The default emit rule -/

/-- The buffers after the initialisation loop: one under the alias of every
relation, each with the window of a relation and no tuples. -/
theorem initBuffers_spec (L : Lib) (rels : List AliasedStreamWindowAST)
    (buffers res : AMap inputBuffer) (h : initBuffers L rels buffers = .ok res) :
    (∀ rel ∈ rels, ∃ b, AMap.get res rel.Alias = some b)
      ∧ (∀ k, (AMap.get buffers k).isSome = true → (AMap.get res k).isSome = true)
      ∧ ∀ k b, AMap.get res k = some b →
          AMap.get buffers k = some b
            ∨ ∃ rel ∈ rels, rel.Alias = k ∧ b = ⟨[], rel.Value, rel.Unit⟩ := by
  induction rels generalizing buffers with
  | nil =>
    simp only [initBuffers] at h
    injection h with h
    subst h
    exact ⟨fun _ hr => absurd hr (List.not_mem_nil _), fun _ hk => hk, fun _ _ hb => Or.inl hb⟩
  | cons rel rest ih =>
    simp only [initBuffers] at h
    split at h
    · simp at h
    · obtain ⟨i1, i2, i3⟩ := ih _ h
      refine ⟨?_, ?_, ?_⟩
      · intro r hr
        rcases List.mem_cons.1 hr with hr | hr
        · subst hr
          have := i2 r.Alias (by simp [AMap.get_set_self])
          exact Option.isSome_iff_exists.1 this
        · exact i1 r hr
      · intro k hk
        apply i2
        rw [AMap.get_set]
        split
        · rfl
        · exact hk
      · intro k b hb
        rcases i3 k b hb with h1 | ⟨r, hr, hk, hbr⟩
        · rw [AMap.get_set] at h1
          split at h1
          · rename_i hk
            injection h1 with h1
            exact Or.inr ⟨rel, List.mem_cons_self _ _, hk, h1.symm⟩
          · exact Or.inl h1
        · exact Or.inr ⟨r, List.mem_cons_of_mem _ hr, hk, hbr⟩

/-- A plan made by the constructor has the relations of the statement and a
buffer for each of them, and valid windows when the statement has. -/
theorem NewGroupbyExecutionPlan_buffers (L : Lib) (lp : LogicalPlan) (reg : FunctionRegistry)
    (ep : groupbyExecutionPlan) (hnew : NewGroupbyExecutionPlan L lp reg = .ok ep) :
    ep.relations = lp.Relations ∧ hasBuffers ep
      ∧ ((∀ rel ∈ lp.Relations, (rel.Unit = IntervalUnit.Tuples ∧ 0 ≤ rel.Value)
            ∨ rel.Unit = IntervalUnit.Seconds) → validWindows ep.buffers) := by
  obtain ⟨projs, filter, groupList, buffers, tables, -, -, -, hbufs, -, hep⟩ :=
    NewGroupbyExecutionPlan_ok L lp reg ep hnew
  subst hep
  obtain ⟨i1, -, i3⟩ := initBuffers_spec _ _ _ _ hbufs
  refine ⟨rfl, i1, ?_⟩
  intro hwin k b hb
  rcases i3 k b hb with h1 | ⟨r, hr, -, hbr⟩
  · simp [AMap.get] at h1
  · subst hbr
    exact hwin r hr

/-- With the default rule and the counter 0 the gate returns true and leaves the
plan as it is. -/
theorem shouldEmitNow_default (ep : groupbyExecutionPlan) (t : Tuple)
    (hr : ep.emitterRules = [("*", ⟨1, IntervalUnit.Tuples⟩)])
    (hc : ep.emitCounters = [("*", 0)]) :
    shouldEmitNow ep t = (ep, .ok true) := by
  obtain ⟨projections, groupList, filter, groupMode, emitterType, emitterRules, emitCounters,
    relations, buffers, curResults, prevResults⟩ := ep
  simp only at hr hc
  subst hr hc
  rfl

/-- A call of `Process` keeps the default rule and the counter 0. -/
theorem Process_default_tables (L : Lib) (ep : groupbyExecutionPlan) (o : IterOrder) (t : Tuple)
    (hr : ep.emitterRules = [("*", ⟨1, IntervalUnit.Tuples⟩)])
    (hc : ep.emitCounters = [("*", 0)]) :
    (Process L ep o t).1.emitterRules = [("*", ⟨1, IntervalUnit.Tuples⟩)]
      ∧ (Process L ep o t).1.emitCounters = [("*", 0)] := by
  obtain ⟨a1, -, -⟩ := addTupleToBuffer_frame ep t
  unfold Process
  rcases hadd : addTupleToBuffer ep t with ⟨⟨ep1, u⟩, r⟩
  rw [hadd] at a1
  simp only at a1
  have hr1 : ep1.emitterRules = [("*", ⟨1, IntervalUnit.Tuples⟩)] := by rw [a1]; exact hr
  have hc1 : ep1.emitCounters = [("*", 0)] := by rw [a1]; exact hc
  cases r with
  | some f => exact ⟨hr1, hc1⟩
  | none =>
    simp only
    unfold removeOutdatedTuplesFromBuffer
    rcases hev : evictLoop u.Timestamp o.evict ep1.buffers with ⟨bufs, r2⟩
    cases r2 with
    | some f => exact ⟨hr1, hc1⟩
    | none =>
      simp only
      rw [shouldEmitNow_default { ep1 with buffers := bufs } u hr1 hc1]
      simp only
      obtain ⟨cur, prev, hq⟩ := performQueryOnBuffer_frame L { ep1 with buffers := bufs } o.eval
      rcases hres : performQueryOnBuffer L { ep1 with buffers := bufs } o.eval with ⟨ep4, r4⟩
      rw [hres] at hq
      simp only at hq
      subst hq
      cases r4 <;> exact ⟨hr1, hc1⟩

theorem processAfter_default_tables (L : Lib) (ep : groupbyExecutionPlan)
    (pre : List (IterOrder × Tuple))
    (hr : ep.emitterRules = [("*", ⟨1, IntervalUnit.Tuples⟩)])
    (hc : ep.emitCounters = [("*", 0)]) :
    (processAfter L ep pre).emitterRules = [("*", ⟨1, IntervalUnit.Tuples⟩)]
      ∧ (processAfter L ep pre).emitCounters = [("*", 0)] := by
  induction pre generalizing ep with
  | nil => exact ⟨hr, hc⟩
  | cons c cs ih =>
    obtain ⟨i1, i2⟩ := Process_default_tables L ep c.1 c.2 hr hc
    exact ih _ i1 i2

/-- C12: a plan built from a statement without emit rules has exactly the rule
`*: 1 TUPLES` and the counter table `*: 0`, and keeps both through every
sequence of `Process` calls. In every state so reached the gate returns true
for every tuple and leaves the plan, the counter under `*` included, as it is;
and when the windows of the statement are valid, a `Process` call with a tuple
of a known input name passes insertion and eviction, has the gate return true,
and is the evaluation on the buffers followed by the emitter. -/
theorem Process_default_rule (L : Lib) (lp : LogicalPlan) (reg : FunctionRegistry)
    (ep0 : groupbyExecutionPlan) (hnew : NewGroupbyExecutionPlan L lp reg = .ok ep0)
    (hempty : lp.EmitIntervals = []) (pre : List (IterOrder × Tuple)) :
    ep0.emitterRules = [("*", ⟨1, IntervalUnit.Tuples⟩)] ∧ ep0.emitCounters = [("*", 0)]
      ∧ (processAfter L ep0 pre).emitterRules = [("*", ⟨1, IntervalUnit.Tuples⟩)]
      ∧ (processAfter L ep0 pre).emitCounters = [("*", 0)]
      ∧ ∀ (o : IterOrder) (t : Tuple),
          (∀ bufs, shouldEmitNow { processAfter L ep0 pre with buffers := bufs } t
              = ({ processAfter L ep0 pre with buffers := bufs }, .ok true))
          ∧ ((∀ rel ∈ lp.Relations, (rel.Unit = IntervalUnit.Tuples ∧ 0 ≤ rel.Value)
                ∨ rel.Unit = IntervalUnit.Seconds) →
              (∃ rel ∈ lp.Relations, t.InputName = relationKey rel) →
              ∃ ep2 t1, streamToRelation (processAfter L ep0 pre) o t = .ok (ep2, t1)
                ∧ shouldEmitNow ep2 t1 = (ep2, .ok true)
                ∧ Process L (processAfter L ep0 pre) o t
                    = match performQueryOnBuffer L ep2 o.eval with
                      | (ep4, some f) => (ep4, .error f)
                      | (ep4, none) => (ep4, computeResultTuples L ep4)) := by
  obtain ⟨projs, filter, groupList, buffers, tables, -, -, -, -, hinit, hep⟩ :=
    NewGroupbyExecutionPlan_ok L lp reg ep0 hnew
  obtain ⟨hrel, hbuf, hvalid⟩ := NewGroupbyExecutionPlan_buffers L lp reg ep0 hnew
  rw [hempty] at hinit
  simp only [initEmitRules, List.length_nil, if_true] at hinit
  injection hinit with hinit
  have hr0 : ep0.emitterRules = [("*", ⟨1, IntervalUnit.Tuples⟩)] := by rw [hep, ← hinit]
  have hc0 : ep0.emitCounters = [("*", 0)] := by rw [hep, ← hinit]
  obtain ⟨hr, hc⟩ := processAfter_default_tables L ep0 pre hr0 hc0
  refine ⟨hr0, hc0, hr, hc, fun o t => ⟨fun bufs => ?_, fun hwin hknown => ?_⟩⟩
  · exact shouldEmitNow_default _ t hr hc
  · obtain ⟨s1, s2⟩ := processAfter_shape L ep0 pre hbuf (hvalid hwin)
    have hbuf1 := hasBuffers_of_shape ep0 _ hbuf s1 s2
    have hvalid1 := sameWindows_validWindows _ _ s1 (hvalid hwin)
    have hknown1 : ∃ rel ∈ (processAfter L ep0 pre).relations, t.InputName = relationKey rel := by
      rw [s2, hrel]
      exact hknown
    obtain ⟨ep2, t1, hstr⟩ := streamToRelation_known _ o t hknown1 hbuf1 hvalid1
    obtain ⟨f1, -, -⟩ := streamToRelation_frame _ o t ep2 t1 hstr
    have hr2 : ep2.emitterRules = [("*", ⟨1, IntervalUnit.Tuples⟩)] := by rw [f1]; exact hr
    have hc2 : ep2.emitCounters = [("*", 0)] := by rw [f1]; exact hc
    have hgate := shouldEmitNow_default ep2 t1 hr2 hc2
    refine ⟨ep2, t1, hstr, hgate, ?_⟩
    rw [Process_of_streamToRelation L _ o t ep2 t1 hstr, hgate]

/-- C12 at the join statement without emit rules, for the second call. -/
theorem Process_default_rule_witness :
    NewGroupbyExecutionPlan exJoinLib (exJoinLp []) exReg
        = .ok (exJoinPlan [("*", ⟨1, IntervalUnit.Tuples⟩)])
      ∧ (exJoinLp []).EmitIntervals = []
      ∧ (∀ rel ∈ (exJoinLp []).Relations, (rel.Unit = IntervalUnit.Tuples ∧ 0 ≤ rel.Value)
          ∨ rel.Unit = IntervalUnit.Seconds)
      ∧ (∃ rel ∈ (exJoinLp []).Relations, (exJoinTuple 1).InputName = relationKey rel)
      ∧ (processAfter exJoinLib (exJoinPlan [("*", ⟨1, IntervalUnit.Tuples⟩)])
          [(exOrderXY, exJoinTuple 0)]).emitCounters = [("*", 0)]
      ∧ ∃ ep2 t1,
          streamToRelation (processAfter exJoinLib (exJoinPlan [("*", ⟨1, IntervalUnit.Tuples⟩)])
              [(exOrderXY, exJoinTuple 0)]) exOrderXY (exJoinTuple 1) = .ok (ep2, t1)
            ∧ shouldEmitNow ep2 t1 = (ep2, .ok true)
            ∧ Process exJoinLib (processAfter exJoinLib (exJoinPlan [("*", ⟨1, IntervalUnit.Tuples⟩)])
                [(exOrderXY, exJoinTuple 0)]) exOrderXY (exJoinTuple 1)
                = match performQueryOnBuffer exJoinLib ep2 exOrderXY.eval with
                  | (ep4, some f) => (ep4, .error f)
                  | (ep4, none) => (ep4, computeResultTuples exJoinLib ep4) :=
  have h := Process_default_rule exJoinLib (exJoinLp []) exReg
    (exJoinPlan [("*", ⟨1, IntervalUnit.Tuples⟩)]) rfl rfl [(exOrderXY, exJoinTuple 0)]
  ⟨rfl, rfl, by decide,
    ⟨⟨StreamType.ActualStream, "src2", 2, IntervalUnit.Tuples, "y"⟩, by decide, by decide⟩,
    h.2.2.2.1,
    (h.2.2.2.2 exOrderXY (exJoinTuple 1)).2 (by decide)
      ⟨⟨StreamType.ActualStream, "src2", 2, IntervalUnit.Tuples, "y"⟩, by decide, by decide⟩⟩

/-! ## The rule under `*` and the rules of the input names -/

/-- The gate looks at the rule table, the counters and the input name only. -/
theorem shouldEmitNow_congr (ep : groupbyExecutionPlan) (t t1 : Tuple)
    (bufs : AMap inputBuffer) (hname : t1.InputName = t.InputName) :
    (shouldEmitNow { ep with buffers := bufs } t1).2 = (shouldEmitNow ep t).2
      ∧ (shouldEmitNow { ep with buffers := bufs } t1).1
          = { (shouldEmitNow ep t).1 with buffers := bufs } := by
  unfold shouldEmitNow
  simp only [hname]
  split
  · unfold countAndCheck
    simp only
    split
    · exact ⟨rfl, rfl⟩
    · split <;> exact ⟨rfl, rfl⟩
  · split
    · unfold countAndCheck
      simp only
      split
      · exact ⟨rfl, rfl⟩
      · split <;> exact ⟨rfl, rfl⟩
    · exact ⟨rfl, rfl⟩

/-- The counting under a key leaves the rules and the counters of the other
keys as they are. -/
theorem countAndCheck_frame (ep : groupbyExecutionPlan) (key : String) (interval : IntervalAST) :
    (countAndCheck ep key interval).1.emitterRules = ep.emitterRules
      ∧ ∀ key2, key2 ≠ key →
          AMap.get (countAndCheck ep key interval).1.emitCounters key2
            = AMap.get ep.emitCounters key2 := by
  unfold countAndCheck
  simp only
  split
  · exact ⟨rfl, fun _ _ => rfl⟩
  · split
    · exact ⟨rfl, fun key2 hne => AMap.get_set_ne _ _ _ _ (Ne.symm hne)⟩
    · exact ⟨rfl, fun key2 hne => AMap.get_set_ne _ _ _ _ (Ne.symm hne)⟩

/-- The result of the counting under a key depends on the interval and on the
counter of the key only. -/
theorem countAndCheck_congr (ep ep1 : groupbyExecutionPlan) (key : String)
    (interval : IntervalAST)
    (hc : AMap.get ep1.emitCounters key = AMap.get ep.emitCounters key) :
    (countAndCheck ep1 key interval).2 = (countAndCheck ep key interval).2
      ∧ AMap.get (countAndCheck ep1 key interval).1.emitCounters key
          = AMap.get (countAndCheck ep key interval).1.emitCounters key := by
  unfold countAndCheck
  simp only [hc]
  split
  · exact ⟨rfl, hc⟩
  · split
    · exact ⟨rfl, by rw [AMap.get_set_self, AMap.get_set_self]⟩
    · exact ⟨rfl, by rw [AMap.get_set_self, AMap.get_set_self]⟩

/-- C13: when the rule table has a rule under `*`, `shouldEmitNow` is the
counting under `*` with that rule, for every tuple and whatever other rules
the table holds: the rule table and the counters of all keys other than `*`
are left as they are, and the result and the new counter under `*` are the same
for any two plans with that rule and the same counter under `*`, and for any
two tuples. -/
theorem shouldEmitNow_star_precedence (ep : groupbyExecutionPlan) (t : Tuple)
    (interval : IntervalAST) (hrule : AMap.get ep.emitterRules "*" = some interval) :
    shouldEmitNow ep t = countAndCheck ep "*" interval
      ∧ (shouldEmitNow ep t).1.emitterRules = ep.emitterRules
      ∧ (∀ key, key ≠ "*" →
          AMap.get (shouldEmitNow ep t).1.emitCounters key = AMap.get ep.emitCounters key)
      ∧ ∀ (ep1 : groupbyExecutionPlan) (t1 : Tuple),
          AMap.get ep1.emitterRules "*" = some interval →
          AMap.get ep1.emitCounters "*" = AMap.get ep.emitCounters "*" →
          (shouldEmitNow ep1 t1).2 = (shouldEmitNow ep t).2
            ∧ AMap.get (shouldEmitNow ep1 t1).1.emitCounters "*"
                = AMap.get (shouldEmitNow ep t).1.emitCounters "*" := by
  have h0 := shouldEmitNow_star ep t interval hrule
  obtain ⟨f1, f2⟩ := countAndCheck_frame ep "*" interval
  refine ⟨h0, ?_, ?_, ?_⟩
  · rw [h0]
    exact f1
  · rw [h0]
    exact f2
  · intro ep1 t1 hrule1 hc
    rw [h0, shouldEmitNow_star ep1 t1 interval hrule1]
    exact countAndCheck_congr ep ep1 "*" interval hc

/-- C13 at a table with the rules `*: 2 TUPLES` and `src1: 3 TUPLES`, for a
tuple of `src1`. -/
theorem shouldEmitNow_star_precedence_witness :
    AMap.get (exJoinPlan [("*", exEvery2), ("src1", exEvery3)]).emitterRules "*" = some exEvery2
      ∧ shouldEmitNow (exJoinPlan [("*", exEvery2), ("src1", exEvery3)]) (exJoinTuple 0)
          = countAndCheck (exJoinPlan [("*", exEvery2), ("src1", exEvery3)]) "*" exEvery2
      ∧ AMap.get (shouldEmitNow (exJoinPlan [("*", exEvery2), ("src1", exEvery3)])
            (exJoinTuple 0)).1.emitCounters "src1"
          = AMap.get (exJoinPlan [("*", exEvery2), ("src1", exEvery3)]).emitCounters "src1" :=
  have h := shouldEmitNow_star_precedence (exJoinPlan [("*", exEvery2), ("src1", exEvery3)])
    (exJoinTuple 0) exEvery2 (by decide)
  ⟨by decide, h.1, h.2.2.1 "src1" (by decide)⟩

/-! ## Calls of `Process` that do not evaluate -/

/-- C14: when a `Process` call has passed insertion and eviction and the gate
returns false, the call returns no rows and no error, and the plan after it is
the plan before it with the new buffers and the counters of the gate:
`curResults` and `prevResults` are as before. The gate decides as it would in
the state before the call. -/
theorem Process_gate_closed (L : Lib) (ep : groupbyExecutionPlan) (o : IterOrder) (t : Tuple)
    (ep2 : groupbyExecutionPlan) (t1 : Tuple)
    (hstr : streamToRelation ep o t = .ok (ep2, t1))
    (hgate : (shouldEmitNow ep2 t1).2 = .ok false) :
    (Process L ep o t).2 = .ok []
      ∧ (Process L ep o t).1.curResults = ep.curResults
      ∧ (Process L ep o t).1.prevResults = ep.prevResults
      ∧ (Process L ep o t).1
          = { ep with
              buffers := ep2.buffers
              emitCounters := (shouldEmitNow ep t).1.emitCounters }
      ∧ (shouldEmitNow ep t).2 = .ok false := by
  obtain ⟨f1, -, f3⟩ := streamToRelation_frame ep o t ep2 t1 hstr
  obtain ⟨c1, c2⟩ := shouldEmitNow_congr ep t t1 ep2.buffers f3
  rw [← f1] at c1 c2
  obtain ⟨counters, hfr⟩ := shouldEmitNow_frame ep t
  have hproc := Process_of_streamToRelation L ep o t ep2 t1 hstr
  rcases hres : shouldEmitNow ep2 t1 with ⟨ep3, r⟩
  rw [hres] at hgate hproc c1 c2
  simp only at hgate c1 c2
  subst hgate
  simp only at hproc
  rw [hproc, c2, hfr]
  exact ⟨rfl, rfl, rfl, rfl, c1.symm⟩

/-- C14 at the first call on the join plan with the rule `*: 2 TUPLES`. -/
theorem Process_gate_closed_witness :
    streamToRelation (exJoinPlan [("*", exEvery2)]) exOrderXY (exJoinTuple 0)
        = .ok ({ exJoinPlan [("*", exEvery2)] with
                  buffers := [("x", ⟨[nestUnder "x" (exJoinTuple 0)], 3, IntervalUnit.Tuples⟩),
                    ("y", ⟨[], 2, IntervalUnit.Tuples⟩)] },
                nestUnder "x" (exJoinTuple 0))
      ∧ (Process exJoinLib (exJoinPlan [("*", exEvery2)]) exOrderXY (exJoinTuple 0)).2 = .ok []
      ∧ (Process exJoinLib (exJoinPlan [("*", exEvery2)]) exOrderXY (exJoinTuple 0)).1.curResults
          = (exJoinPlan [("*", exEvery2)]).curResults
      ∧ (Process exJoinLib (exJoinPlan [("*", exEvery2)]) exOrderXY (exJoinTuple 0)).1.prevResults
          = (exJoinPlan [("*", exEvery2)]).prevResults :=
  have h := Process_gate_closed exJoinLib (exJoinPlan [("*", exEvery2)]) exOrderXY (exJoinTuple 0)
    { exJoinPlan [("*", exEvery2)] with
      buffers := [("x", ⟨[nestUnder "x" (exJoinTuple 0)], 3, IntervalUnit.Tuples⟩),
        ("y", ⟨[], 2, IntervalUnit.Tuples⟩)] }
    (nestUnder "x" (exJoinTuple 0)) rfl rfl
  ⟨rfl, h.1, h.2.1, h.2.2.1⟩

/-- C15: for a tuple whose input name is the key of no relation of the plan,
`addTupleToBuffer` returns the error that names the input name and the known
relations and leaves plan and tuple as they are, and `Process` returns that
error and leaves the plan as it is. -/
theorem Process_unknown_input (L : Lib) (ep : groupbyExecutionPlan) (o : IterOrder) (t : Tuple)
    (h : ∀ rel ∈ ep.relations, t.InputName ≠ relationKey rel) :
    addTupleToBuffer ep t
        = ((ep, t), some (Failure.error
            (Err.unknownInputName t.InputName (ep.relations.map (fun rel => rel.Name)))))
      ∧ Process L ep o t
        = (ep, .error (Failure.error
            (Err.unknownInputName t.InputName (ep.relations.map (fun rel => rel.Name))))) := by
  have hcount : ep.relations.countP (fun rel => decide (t.InputName = relationKey rel)) = 0 := by
    rw [List.countP_eq_zero]
    intro rel hrel
    simpa using h rel hrel
  have hadd : addTupleToBuffer ep t
      = ((ep, t), some (Failure.error
          (Err.unknownInputName t.InputName (ep.relations.map (fun rel => rel.Name))))) := by
    unfold addTupleToBuffer
    simp only [hcount, if_true]
  refine ⟨hadd, ?_⟩
  unfold Process
  rw [hadd]

/-- C15 at the join plan and a tuple of the input `other`. -/
theorem Process_unknown_input_witness :
    (∀ rel ∈ (exJoinPlan [("*", exEvery2)]).relations,
        (exTuple "other" 1 0).InputName ≠ relationKey rel)
      ∧ Process exJoinLib (exJoinPlan [("*", exEvery2)]) exOrderXY (exTuple "other" 1 0)
          = (exJoinPlan [("*", exEvery2)],
              .error (Failure.error (Err.unknownInputName "other" ["src1", "src2"]))) :=
  ⟨by decide,
    (Process_unknown_input exJoinLib (exJoinPlan [("*", exEvery2)]) exOrderXY
      (exTuple "other" 1 0) (by decide)).2⟩

/-! ## The insertion into the buffers -/

/-- The buffers after the second loop of `addTupleToBuffer`, for relations with
distinct aliases: the tuple nested under the alias is appended to the buffer of
every matching relation. -/
theorem appendLoop_get (n : Nat) (rels : List AliasedStreamWindowAST)
    (buffers : AMap inputBuffer) (t : Tuple)
    (hbuf : ∀ rel ∈ rels, ∃ b, AMap.get buffers rel.Alias = some b)
    (hnodup : (rels.map (fun rel => rel.Alias)).Nodup)
    (hn : 1 < n ∨ rels.countP (fun rel => decide (t.InputName = relationKey rel)) ≤ 1)
    (key : String) :
    AMap.get (appendLoop n rels buffers t).1.1 key
      = (AMap.get buffers key).map
          (fun b =>
            if rels.any (fun rel => decide (rel.Alias = key ∧ t.InputName = relationKey rel))
            then { b with tuples := b.tuples ++ [nestUnder key t] } else b) := by
  induction rels generalizing buffers t with
  | nil => simp [appendLoop]
  | cons rel rest ih =>
    simp only [List.map_cons, List.nodup_cons, List.mem_map, not_exists, not_and] at hnodup
    obtain ⟨hfresh, hnd⟩ := hnodup
    have htail : ∀ k, ¬ (rel.Alias = k ∧ t.InputName = relationKey rel) →
        (rel :: rest).any (fun r => decide (r.Alias = k ∧ t.InputName = relationKey r))
          = rest.any (fun r => decide (r.Alias = k ∧ t.InputName = relationKey r)) := by
      intro k hk
      rw [List.any_cons, decide_eq_false hk, Bool.false_or]
    simp only [appendLoop]
    by_cases hm : t.InputName = relationKey rel
    · obtain ⟨b, hb⟩ := hbuf rel (List.mem_cons_self _ _)
      simp only [if_pos hm, hb]
      have hhead : (rel :: rest).any
          (fun r => decide (r.Alias = rel.Alias ∧ t.InputName = relationKey r)) = true := by
        rw [List.any_cons, decide_eq_true (⟨rfl, hm⟩ : rel.Alias = rel.Alias ∧ _), Bool.true_or]
      have hnohead : rest.any
          (fun r => decide (r.Alias = rel.Alias ∧ t.InputName = relationKey r)) = false := by
        rw [List.any_eq_false]
        intro r hr
        have := hfresh r hr
        simp [this]
      have hbuf1 : ∀ r ∈ rest, ∃ b1, AMap.get
          (AMap.set buffers rel.Alias
            { b with tuples := b.tuples ++ [{ t with Data := [(rel.Alias, Value.map t.Data)] }] })
          r.Alias = some b1 := by
        intro r hr
        obtain ⟨b0, hb0⟩ := hbuf r (List.mem_cons_of_mem _ hr)
        rw [AMap.get_set_ne _ _ _ _ (Ne.symm (hfresh r hr))]
        exact ⟨b0, hb0⟩
      by_cases h1 : 1 < n
      · have hn1 : n > 1 := h1
        simp only [if_pos hn1]
        rw [ih _ t hbuf1 hnd (Or.inl h1)]
        by_cases hk : rel.Alias = key
        · subst hk
          rw [AMap.get_set_self, hb, hnohead, hhead]
          rfl
        · rw [AMap.get_set_ne _ _ _ _ hk, htail key (fun h => hk h.1)]
      · have hn1 : ¬ n > 1 := h1
        simp only [if_neg hn1]
        have hcount : rest.countP (fun r => decide (t.InputName = relationKey r)) = 0 := by
          rcases hn with hn | hn
          · exact absurd hn h1
          · rw [List.countP_cons_of_pos (p := fun r => decide (t.InputName = relationKey r))
              (a := rel) rest (decide_eq_true hm)] at hn
            omega
        have hnone : ∀ r ∈ rest, ¬ t.InputName = relationKey r := by
          intro r hr hmr
          have := (List.countP_pos_iff (p := fun r => decide (t.InputName = relationKey r))).2
            ⟨r, hr, decide_eq_true hmr⟩
          omega
        have hany : ∀ k, rest.any
            (fun r => decide (r.Alias = k ∧ t.InputName = relationKey r)) = false := by
          intro k
          rw [List.any_eq_false]
          intro r hr
          have := hnone r hr
          simp [this]
        have hih := ih (AMap.set buffers rel.Alias
            { b with tuples := b.tuples ++ [{ t with Data := [(rel.Alias, Value.map t.Data)] }] })
          { t with Data := [(rel.Alias, Value.map t.Data)] } hbuf1 hnd
          (Or.inr (by
            show rest.countP (fun r => decide (t.InputName = relationKey r)) ≤ 1
            omega))
        simp only [hany] at hih
        rw [hih]
        by_cases hk : rel.Alias = key
        · subst hk
          rw [AMap.get_set_self, hb, hhead]
          rfl
        · rw [AMap.get_set_ne _ _ _ _ hk, htail key (fun h => hk h.1), hany]
          simp
    · simp only [if_neg hm]
      rw [ih buffers t (fun r hr => hbuf r (List.mem_cons_of_mem _ hr)) hnd (by
        rcases hn with hn | hn
        · exact Or.inl hn
        · rw [List.countP_cons_of_neg (p := fun r => decide (t.InputName = relationKey r))
            (a := rel) rest (by simpa using hm)] at hn
          exact Or.inr hn), htail key (fun h => hm h.2)]

/-- For a tuple object that no buffer holds: on a plan with a buffer for every
relation and pairwise distinct aliases, `addTupleToBuffer` appends to the end
of the buffer of every relation whose key (`relationKey`) is the input name of
the tuple one entry, the tuple with its data nested under the alias and
nothing else changed; the buffers of the other relations, the buffers under
other keys, the windows, the earlier entries and the rest of the plan are as
before. It fails only if no relation matches. -/
theorem addTupleToBuffer_appends (ep : groupbyExecutionPlan) (t : Tuple)
    (hbuf : hasBuffers ep) (hnodup : (ep.relations.map (fun rel => rel.Alias)).Nodup) :
    (∀ rel ∈ ep.relations, t.InputName = relationKey rel →
        ∃ b, AMap.get ep.buffers rel.Alias = some b
          ∧ AMap.get (addTupleToBuffer ep t).1.1.buffers rel.Alias
              = some { b with
                  tuples := b.tuples ++ [{ t with Data := [(rel.Alias, Value.map t.Data)] }] })
      ∧ (∀ rel ∈ ep.relations, t.InputName ≠ relationKey rel →
          AMap.get (addTupleToBuffer ep t).1.1.buffers rel.Alias
            = AMap.get ep.buffers rel.Alias)
      ∧ (∀ key, (∀ rel ∈ ep.relations, rel.Alias ≠ key) →
          AMap.get (addTupleToBuffer ep t).1.1.buffers key = AMap.get ep.buffers key)
      ∧ (addTupleToBuffer ep t).1.1
          = { ep with buffers := (addTupleToBuffer ep t).1.1.buffers }
      ∧ ((∃ rel ∈ ep.relations, t.InputName = relationKey rel) →
          (addTupleToBuffer ep t).2 = none) := by
  have hget : ∀ key, AMap.get (addTupleToBuffer ep t).1.1.buffers key
      = (AMap.get ep.buffers key).map
          (fun b =>
            if ep.relations.any
              (fun rel => decide (rel.Alias = key ∧ t.InputName = relationKey rel))
            then { b with tuples := b.tuples ++ [nestUnder key t] } else b) := by
    intro key
    unfold addTupleToBuffer
    simp only
    split
    · rename_i hzero
      have hany : ep.relations.any
          (fun rel => decide (rel.Alias = key ∧ t.InputName = relationKey rel)) = false := by
        rw [List.any_eq_false]
        intro r hr
        have hm : ¬ t.InputName = relationKey r := by
          intro hm
          have := (List.countP_pos_iff (p := fun r => decide (t.InputName = relationKey r))).2
            ⟨r, hr, decide_eq_true hm⟩
          omega
        simp [hm]
      rw [hany]
      simp
    · exact appendLoop_get _ ep.relations ep.buffers t hbuf hnodup
        (by
          by_cases h1 : 1 < ep.relations.countP (fun rel => decide (t.InputName = relationKey rel))
          · exact Or.inl h1
          · exact Or.inr (by omega)) key
  have hfresh : ∀ rel ∈ ep.relations, ∀ r ∈ ep.relations, r.Alias = rel.Alias → r = rel := by
    intro rel hrel r hr heq
    exact List.inj_on_of_nodup_map hnodup hr hrel heq
  refine ⟨?_, ?_, ?_, (addTupleToBuffer_frame ep t).1, ?_⟩
  · intro rel hrel hm
    obtain ⟨b, hb⟩ := hbuf rel hrel
    refine ⟨b, hb, ?_⟩
    rw [hget rel.Alias, hb]
    have hany : ep.relations.any
        (fun r => decide (r.Alias = rel.Alias ∧ t.InputName = relationKey r)) = true := by
      rw [List.any_eq_true]
      exact ⟨rel, hrel, decide_eq_true ⟨rfl, hm⟩⟩
    rw [hany]
    rfl
  · intro rel hrel hm
    rw [hget rel.Alias]
    have hany : ep.relations.any
        (fun r => decide (r.Alias = rel.Alias ∧ t.InputName = relationKey r)) = false := by
      rw [List.any_eq_false]
      intro r hr
      have : ¬ (r.Alias = rel.Alias ∧ t.InputName = relationKey r) := by
        rintro ⟨h1, h2⟩
        rw [hfresh rel hrel r hr h1] at h2
        exact hm h2
      simp [this]
    rw [hany]
    simp
  · intro key hkey
    rw [hget key]
    have hany : ep.relations.any
        (fun r => decide (r.Alias = key ∧ t.InputName = relationKey r)) = false := by
      rw [List.any_eq_false]
      intro r hr
      have := hkey r hr
      simp [this]
    rw [hany]
    simp
  · intro hknown
    exact (addTupleToBuffer_known ep t hknown hbuf).1

/-! ## The copies of a tuple in a self-join -/

theorem appendLoop_tuple_of_gt (n : Nat) (hn : 1 < n) (rels : List AliasedStreamWindowAST)
    (buffers : AMap inputBuffer) (t : Tuple) :
    (appendLoop n rels buffers t).1.2 = t := by
  have hn1 : n > 1 := hn
  induction rels generalizing buffers with
  | nil => rfl
  | cons rel rest ih =>
    simp only [appendLoop, if_pos hn1]
    split
    · split
      · rfl
      · exact ih _
    · exact ih _

theorem appendLoop_tuple_of_none (n : Nat) (rels : List AliasedStreamWindowAST)
    (buffers : AMap inputBuffer) (t : Tuple)
    (hnone : rels.countP (fun rel => decide (t.InputName = relationKey rel)) = 0) :
    (appendLoop n rels buffers t).1.2 = t := by
  induction rels generalizing buffers with
  | nil => rfl
  | cons rel rest ih =>
    have hm : ¬ t.InputName = relationKey rel := by
      intro hm
      rw [List.countP_cons_of_pos (p := fun r => decide (t.InputName = relationKey r))
        (a := rel) rest (decide_eq_true hm)] at hnone
      omega
    rw [List.countP_cons_of_neg (p := fun r => decide (t.InputName = relationKey r))
      (a := rel) rest (by simpa using hm)] at hnone
    simp only [appendLoop, if_neg hm]
    exact ih _ hnone

/-- With one matching relation the tuple of the caller itself is edited. -/
theorem appendLoop_tuple_single (n : Nat) (hn : ¬ 1 < n) (rels : List AliasedStreamWindowAST)
    (buffers : AMap inputBuffer) (t : Tuple)
    (hbuf : ∀ rel ∈ rels, ∃ b, AMap.get buffers rel.Alias = some b)
    (hone : rels.countP (fun rel => decide (t.InputName = relationKey rel)) = 1) :
    ∃ rel ∈ rels, t.InputName = relationKey rel
      ∧ (appendLoop n rels buffers t).1.2 = nestUnder rel.Alias t := by
  have hn1 : ¬ n > 1 := hn
  induction rels generalizing buffers with
  | nil => simp at hone
  | cons rel rest ih =>
    by_cases hm : t.InputName = relationKey rel
    · rw [List.countP_cons_of_pos (p := fun r => decide (t.InputName = relationKey r))
        (a := rel) rest (decide_eq_true hm)] at hone
      obtain ⟨b, hb⟩ := hbuf rel (List.mem_cons_self _ _)
      refine ⟨rel, List.mem_cons_self _ _, hm, ?_⟩
      simp only [appendLoop, if_pos hm, if_neg hn1, hb]
      rw [appendLoop_tuple_of_none n rest _ _ (by
        show rest.countP (fun r => decide (t.InputName = relationKey r)) = 0
        omega)]
      rfl
    · rw [List.countP_cons_of_neg (p := fun r => decide (t.InputName = relationKey r))
        (a := rel) rest (by simpa using hm)] at hone
      obtain ⟨r, hr, hmr, hres⟩ := ih buffers (fun r hr => hbuf r (List.mem_cons_of_mem _ hr)) hone
      refine ⟨r, List.mem_cons_of_mem _ hr, hmr, ?_⟩
      simp only [appendLoop, if_neg hm]
      exact hres

theorem appendLoopCopies_eq (n : Nat) (rels : List AliasedStreamWindowAST) (t : Tuple) :
    appendLoopCopies n rels t
      = if n > 1 then rels.countP (fun rel => decide (t.InputName = relationKey rel)) else 0 := by
  induction rels with
  | nil => simp [appendLoopCopies]
  | cons rel rest ih =>
    simp only [appendLoopCopies, ih]
    by_cases hm : t.InputName = relationKey rel
    · rw [List.countP_cons_of_pos (p := fun r => decide (t.InputName = relationKey r))
        (a := rel) rest (decide_eq_true hm), if_pos hm]
      split <;> omega
    · rw [List.countP_cons_of_neg (p := fun r => decide (t.InputName = relationKey r))
        (a := rel) rest (by simpa using hm), if_neg hm]

/-- C17 fails: in the self-join of `src` with itself a tuple of `src` matches
two relations, `addTupleToBuffer` makes two copies, not one, and leaves the
data of the tuple of the caller as it was, not nested under the alias `x`. -/
theorem addTupleToBuffer_copies_counterexample :
    exSelfJoinPlan.relations.countP
        (fun rel => decide ((exTuple "src" 1 0).InputName = relationKey rel)) = 2
      ∧ copiesMade exSelfJoinPlan (exTuple "src" 1 0) = 2
      ∧ (addTupleToBuffer exSelfJoinPlan (exTuple "src" 1 0)).1.2.Data = [("int", Value.int 1)]
      ∧ (addTupleToBuffer exSelfJoinPlan (exTuple "src" 1 0)).1.2.Data
          ≠ [("x", Value.map [("int", Value.int 1)])] :=
  ⟨by decide, by decide, rfl, by
    intro h
    have h1 : (addTupleToBuffer exSelfJoinPlan (exTuple "src" 1 0)).1.2.Data
        = [("int", Value.int 1)] := rfl
    rw [h1] at h
    simp at h⟩

/-- C17, amended: on a plan with a buffer for every relation, when the tuple
matches `k > 1` relations `addTupleToBuffer` makes `k` copies, one for every
insertion: every matching buffer receives a copy with the data nested under
its alias, and the tuple of the caller is left as it was. The tuple of the
caller is used for the insertion, and so has its data nested under the
matching alias, only when it matches exactly one relation; then no copy is
made. -/
theorem addTupleToBuffer_copies (ep : groupbyExecutionPlan) (t : Tuple)
    (hbuf : hasBuffers ep) :
    (1 < ep.relations.countP (fun rel => decide (t.InputName = relationKey rel)) →
        copiesMade ep t
            = ep.relations.countP (fun rel => decide (t.InputName = relationKey rel))
          ∧ (addTupleToBuffer ep t).1.2 = t
          ∧ ∀ rel ∈ ep.relations, t.InputName = relationKey rel →
              ∃ b1, AMap.get (addTupleToBuffer ep t).1.1.buffers rel.Alias = some b1
                ∧ { t with Data := [(rel.Alias, Value.map t.Data)] } ∈ b1.tuples)
      ∧ (ep.relations.countP (fun rel => decide (t.InputName = relationKey rel)) = 1 →
          copiesMade ep t = 0
            ∧ ∃ rel ∈ ep.relations, t.InputName = relationKey rel
                ∧ (addTupleToBuffer ep t).1.2
                    = { t with Data := [(rel.Alias, Value.map t.Data)] }) := by
  constructor
  · intro hk
    refine ⟨?_, ?_, ?_⟩
    · unfold copiesMade
      simp only
      rw [if_neg (by omega), appendLoopCopies_eq, if_pos hk]
    · unfold addTupleToBuffer
      simp only
      rw [if_neg (by omega)]
      exact appendLoop_tuple_of_gt _ hk _ _ _
    · intro rel hrel hm
      exact addTupleToBuffer_mem ep t hbuf rel hrel hm
  · intro hk
    refine ⟨?_, ?_⟩
    · unfold copiesMade
      simp only
      rw [if_neg (by omega), appendLoopCopies_eq, if_neg (by omega)]
    · obtain ⟨rel, hrel, hm, hres⟩ := appendLoop_tuple_single
        (ep.relations.countP (fun rel => decide (t.InputName = relationKey rel))) (by omega)
        ep.relations ep.buffers t hbuf hk
      refine ⟨rel, hrel, hm, ?_⟩
      unfold addTupleToBuffer
      simp only
      rw [if_neg (by omega)]
      exact hres

/-- C17, amended, at the self-join of `src` with itself. -/
theorem addTupleToBuffer_copies_witness :
    hasBuffers exSelfJoinPlan
      ∧ 1 < exSelfJoinPlan.relations.countP
          (fun rel => decide ((exTuple "src" 1 0).InputName = relationKey rel))
      ∧ copiesMade exSelfJoinPlan (exTuple "src" 1 0)
          = exSelfJoinPlan.relations.countP
              (fun rel => decide ((exTuple "src" 1 0).InputName = relationKey rel))
      ∧ (addTupleToBuffer exSelfJoinPlan (exTuple "src" 1 0)).1.2 = exTuple "src" 1 0
      ∧ hasBuffers (exJoinPlan [("*", exEvery2)])
      ∧ (exJoinPlan [("*", exEvery2)]).relations.countP
          (fun rel => decide ((exJoinTuple 0).InputName = relationKey rel)) = 1
      ∧ copiesMade (exJoinPlan [("*", exEvery2)]) (exJoinTuple 0) = 0
      ∧ ∃ rel ∈ (exJoinPlan [("*", exEvery2)]).relations,
          (exJoinTuple 0).InputName = relationKey rel
            ∧ (addTupleToBuffer (exJoinPlan [("*", exEvery2)]) (exJoinTuple 0)).1.2
                = { exJoinTuple 0 with Data := [(rel.Alias, Value.map (exJoinTuple 0).Data)] } :=
  have h := (addTupleToBuffer_copies exSelfJoinPlan (exTuple "src" 1 0)
    (hasBuffers_of_isSome _ (by decide))).1 (by decide)
  have h1 := (addTupleToBuffer_copies (exJoinPlan [("*", exEvery2)]) (exJoinTuple 0)
    (hasBuffers_of_isSome _ (by decide))).2 (by decide)
  ⟨hasBuffers_of_isSome _ (by decide), by decide, h.1, h.2.1,
    hasBuffers_of_isSome _ (by decide), by decide, h1.1, h1.2⟩

/-! ## The results of an evaluation -/

theorem evalGroups_congr (L : Lib) (ep : groupbyExecutionPlan) (prev : List Map)
    (groups : List tmpGroupData) (output : List Map) :
    evalGroups L { ep with prevResults := prev } groups output = evalGroups L ep groups output := by
  induction groups generalizing output with
  | nil => rfl
  | cons g rest ih =>
    simp only [evalGroups]
    have hg : evalGroup L { ep with prevResults := prev } g = evalGroup L ep g := rfl
    rw [hg]
    split
    · rfl
    · exact ih _

/-- The rows that an evaluation computes do not depend on `prevResults`. -/
theorem queryOutput_congr (L : Lib) (ep : groupbyExecutionPlan) (prev : List Map)
    (allStreams : List String) :
    queryOutput L { ep with prevResults := prev } allStreams = queryOutput L ep allStreams := by
  unfold queryOutput
  have hitem : evalItem L { ep with prevResults := prev } = evalItem L ep := rfl
  rw [hitem]
  simp only [evalGroups_congr]

/-- The method `performQueryOnBuffer` in terms of its variable `output`: at a
failure `prevResults` is set to it, else `curResults` is set to it and
`prevResults` to the old `curResults`. -/
theorem performQueryOnBuffer_eq (L : Lib) (ep : groupbyExecutionPlan)
    (allStreams : List String) :
    performQueryOnBuffer L ep allStreams
      = match queryOutput L ep allStreams with
        | (output, some f) => ({ ep with prevResults := output }, some f)
        | (output, none) =>
          ({ ep with prevResults := ep.curResults, curResults := output }, none) := by
  rw [← queryOutput_congr L ep ep.curResults allStreams]
  unfold performQueryOnBuffer queryOutput
  simp only
  rcases hp : procCartProd L ep.buffers (evalItem L { ep with prevResults := ep.curResults })
    allStreams [] ⟨[], []⟩ with ⟨⟨holder, acc⟩, r⟩
  cases r with
  | some f => rfl
  | none =>
    simp only
    by_cases hmode : ep.groupMode = true
    · simp only [hmode, if_true]
    · simp only [hmode]
      rfl

/-- In non-grouping mode `evalItem` is the filter followed by the projections. -/
theorem evalItem_nongrouping (L : Lib) (ep : groupbyExecutionPlan)
    (hmode : ep.groupMode = false) (d : Map) (acc : evalAcc) :
    evalItem L ep d acc
      = match filterPasses L ep.filter d with
        | .error e => .error (Failure.error e)
        | .ok false => .ok acc
        | .ok true =>
          match projectRow L d ep.projections [] with
          | .error e => .error (Failure.error e)
          | .ok result => .ok { acc with output := acc.output ++ [result] } := by
  unfold evalItem
  cases filterPasses L ep.filter d with
  | error e => rfl
  | ok b =>
    cases b with
    | false => rfl
    | true =>
      simp only [hmode]
      cases projectRow L d ep.projections [] <;> rfl

/-- In non-grouping mode a run of `evalItem` that fails has appended the
projected rows of the items before the first item on which the filter or a
projection fails, and fails with the error of that item. -/
theorem runItems_evalItem_nongrouping_failure {α : Type} (L : Lib) (ep : groupbyExecutionPlan)
    (hmode : ep.groupMode = false) (g : α → Map) (xs : List α) (acc acc1 : evalAcc)
    (f : Failure) (h : runItems (evalItem L ep) (xs.map g) acc = (acc1, some f)) :
    ∃ pre c post e, xs = pre ++ c :: post ∧ f = Failure.error e
      ∧ acc1 = { acc with
          output := acc.output ++ pre.filterMap (fun x => projectedRow L ep (g x)) }
      ∧ (∀ x ∈ pre, ∃ b, filterPasses L ep.filter (g x) = .ok b
          ∧ (b = true → ∃ row, projectRow L (g x) ep.projections [] = .ok row))
      ∧ (filterPasses L ep.filter (g c) = .error e
          ∨ (filterPasses L ep.filter (g c) = .ok true
              ∧ projectRow L (g c) ep.projections [] = .error e)) := by
  induction xs generalizing acc with
  | nil => simp [runItems] at h
  | cons x rest ih =>
    simp only [List.map_cons, runItems, evalItem_nongrouping L ep hmode] at h
    cases hfil : filterPasses L ep.filter (g x) with
    | error e =>
      rw [hfil] at h
      simp only [Prod.mk.injEq, Option.some.injEq] at h
      obtain ⟨hacc, hf⟩ := h
      exact ⟨[], x, rest, e, rfl, hf.symm, by simp [← hacc], by simp, Or.inl hfil⟩
    | ok b =>
      rw [hfil] at h
      cases b with
      | false =>
        simp only at h
        obtain ⟨pre, c, post, e, hxs, hf, hacc, hpre, hc⟩ := ih acc h
        refine ⟨x :: pre, c, post, e, by rw [hxs]; rfl, hf, ?_, ?_, hc⟩
        · rw [hacc]
          simp [projectedRow, hfil]
        · intro y hy
          rcases List.mem_cons.1 hy with hy | hy
          · subst hy
            exact ⟨false, hfil, fun hb => by cases hb⟩
          · exact hpre y hy
      | true =>
        simp only at h
        cases hproj : projectRow L (g x) ep.projections [] with
        | error e =>
          rw [hproj] at h
          simp only [Prod.mk.injEq, Option.some.injEq] at h
          obtain ⟨hacc, hf⟩ := h
          exact ⟨[], x, rest, e, rfl, hf.symm, by simp [← hacc], by simp, Or.inr ⟨hfil, hproj⟩⟩
        | ok result =>
          rw [hproj] at h
          simp only at h
          obtain ⟨pre, c, post, e, hxs, hf, hacc, hpre, hc⟩ := ih _ h
          refine ⟨x :: pre, c, post, e, by rw [hxs]; rfl, hf, ?_, ?_, hc⟩
          · rw [hacc]
            simp [projectedRow, hfil, hproj, Except.toOption]
          · intro y hy
            rcases List.mem_cons.1 hy with hy | hy
            · subst hy
              exact ⟨true, hfil, fun _ => ⟨result, hproj⟩⟩
            · exact hpre y hy

/-- In non-grouping mode the output of a failed evaluation is the list of the
projected rows of the elements of the product before the first element on
which the filter or a projection fails, and the failure is the error of that
element. -/
theorem queryOutput_nongrouping_failure (L : Lib) (ep : groupbyExecutionPlan)
    (allStreams : List String)
    (hpres : ∀ k ∈ allStreams, (AMap.get ep.buffers k).isSome = true)
    (hmode : ep.groupMode = false) (f : Failure)
    (h : (queryOutput L ep allStreams).2 = some f) :
    ∃ pre c post e, cartProd ep.buffers allStreams = pre ++ c :: post ∧ f = Failure.error e
      ∧ (queryOutput L ep allStreams).1
          = pre.filterMap (fun combo => projectedRow L ep (compositeRow L allStreams combo))
      ∧ (∀ x ∈ pre, ∃ b, filterPasses L ep.filter (compositeRow L allStreams x) = .ok b
          ∧ (b = true →
              ∃ row, projectRow L (compositeRow L allStreams x) ep.projections [] = .ok row))
      ∧ (filterPasses L ep.filter (compositeRow L allStreams c) = .error e
          ∨ (filterPasses L ep.filter (compositeRow L allStreams c) = .ok true
              ∧ projectRow L (compositeRow L allStreams c) ep.projections [] = .error e)) := by
  unfold queryOutput at h ⊢
  by_cases hempty : cartProd ep.buffers allStreams = []
  · obtain ⟨h1, hh1⟩ := procCartProd_empty L ep.buffers (evalItem L ep) allStreams hpres hempty []
      (⟨[], []⟩ : evalAcc)
    rw [hh1] at h
    simp [hmode] at h
  · obtain ⟨hr1, -⟩ := procCartProd_rows L ep.buffers (evalItem L ep) allStreams hpres hempty []
      (⟨[], []⟩ : evalAcc) (by simp [AMap.keys])
    rcases hres : procCartProd L ep.buffers (evalItem L ep) allStreams []
      (⟨[], []⟩ : evalAcc) with ⟨⟨h2, acc2⟩, r⟩
    rw [hres] at hr1 h
    cases r with
    | none => simp [hmode] at h
    | some f1 =>
      simp only [Option.some.injEq] at h
      subst h
      simp only at hr1 ⊢
      obtain ⟨pre, c, post, e, hxs, hf, hacc, hpre, hc⟩ :=
        runItems_evalItem_nongrouping_failure L ep hmode (fun c => writes L allStreams c [])
          (cartProd ep.buffers allStreams) ⟨[], []⟩ acc2 f1 hr1.symm
      refine ⟨pre, c, post, e, hxs, hf, ?_, hpre, hc⟩
      rw [hacc]
      rfl

theorem projectedRow_congr (L : Lib) (ep ep1 : groupbyExecutionPlan)
    (hf : ep1.filter = ep.filter) (hp : ep1.projections = ep.projections) :
    projectedRow L ep1 = projectedRow L ep := by
  funext d
  unfold projectedRow
  rw [hf, hp]

/-- The plan with which `Process` evaluates differs from the plan of the call
in buffers and counters only. -/
theorem evaluation_state (ep : groupbyExecutionPlan) (o : IterOrder) (t : Tuple)
    (ep2 : groupbyExecutionPlan) (t1 : Tuple) (ep3 : groupbyExecutionPlan) (r : Except Failure Bool)
    (hstr : streamToRelation ep o t = .ok (ep2, t1))
    (hgate : shouldEmitNow ep2 t1 = (ep3, r)) :
    ep3 = { ep with buffers := ep2.buffers, emitCounters := ep3.emitCounters } := by
  obtain ⟨f1, -, -⟩ := streamToRelation_frame ep o t ep2 t1 hstr
  obtain ⟨counters, hfr⟩ := shouldEmitNow_frame ep2 t1
  rw [hgate] at hfr
  simp only at hfr
  rw [hfr, f1]

/-- C18: when a `Process` call passes insertion and eviction, the gate fires
and the evaluation succeeds, `performQueryOnBuffer` sets `prevResults` to the
`curResults` from before the call and `curResults` to the rows it has computed
(its variable `output`) and changes nothing else, as it does then in every
state; the emitter runs on that state. The call is then a comparison with the
result of the previous firing: for
`SELECT DSTREAM [EVERY 2 TUPLES] int AS a FROM src [RANGE 2 TUPLES]` and the
tuples `int = 1, ..., 8` the fourth call returns the two rows computed at the
second call, the sixth those of the fourth, the eighth those of the sixth. -/
theorem Process_evaluation_results (L : Lib) (ep : groupbyExecutionPlan) (o : IterOrder)
    (t : Tuple) (ep2 : groupbyExecutionPlan) (t1 : Tuple) (ep3 : groupbyExecutionPlan)
    (hstr : streamToRelation ep o t = .ok (ep2, t1))
    (hgate : shouldEmitNow ep2 t1 = (ep3, .ok true))
    (hok : (performQueryOnBuffer L ep3 o.eval).2 = none) :
    (∀ (e : groupbyExecutionPlan) (allStreams : List String),
        (performQueryOnBuffer L e allStreams).2 = none →
        performQueryOnBuffer L e allStreams
          = ({ e with prevResults := e.curResults, curResults := (queryOutput L e allStreams).1 },
              none))
      ∧ (Process L ep o t).1
          = { ep3 with prevResults := ep.curResults, curResults := (queryOutput L ep3 o.eval).1 }
      ∧ (Process L ep o t).1.prevResults = ep.curResults
      ∧ (Process L ep o t).1.curResults = (queryOutput L ep3 o.eval).1
      ∧ (Process L ep o t).2 = computeResultTuples L (Process L ep o t).1
      ∧ NewGroupbyExecutionPlan exALib exDstreamLp exReg = .ok exDstreamPlan
      ∧ (processAfter exALib exDstreamPlan (exEight.take 2)).curResults = [exRowA 1, exRowA 2]
      ∧ processResults exALib exDstreamPlan exEight
          = [.ok [], .ok [], .ok [], .ok [exRowA 1, exRowA 2], .ok [],
              .ok [exRowA 3, exRowA 4], .ok [], .ok [exRowA 5, exRowA 6]] := by
  have hgen : ∀ (e : groupbyExecutionPlan) (allStreams : List String),
      (performQueryOnBuffer L e allStreams).2 = none →
      performQueryOnBuffer L e allStreams
        = ({ e with prevResults := e.curResults, curResults := (queryOutput L e allStreams).1 },
            none) := by
    intro e allStreams h
    rw [performQueryOnBuffer_eq] at h ⊢
    rcases hq : queryOutput L e allStreams with ⟨output, r⟩
    rw [hq] at h
    cases r with
    | some f => simp at h
    | none => rfl
  have h3 := evaluation_state ep o t ep2 t1 ep3 _ hstr hgate
  have hcur : ep3.curResults = ep.curResults := by rw [h3]
  have hproc : Process L ep o t
      = ({ ep3 with prevResults := ep.curResults, curResults := (queryOutput L ep3 o.eval).1 },
          computeResultTuples L
            { ep3 with prevResults := ep.curResults, curResults := (queryOutput L ep3 o.eval).1 }) := by
    rw [Process_of_streamToRelation L ep o t ep2 t1 hstr, hgate]
    simp only
    rw [hgen ep3 o.eval hok, hcur]
  refine ⟨hgen, ?_, ?_, ?_, ?_, rfl, rfl, rfl⟩
  · rw [hproc]
  · rw [hproc]
  · rw [hproc]
  · rw [hproc]

/-- C18 at the fourth of the eight calls on the delete-stream plan: the
emitter compares with the rows computed at the second call. -/
theorem Process_evaluation_results_witness :
    streamToRelation exDstreamThird exOrderSrc (exTuple "src" 4 3)
        = .ok (exDstreamWindow, nestUnder "src" (exTuple "src" 4 3))
      ∧ shouldEmitNow exDstreamWindow (nestUnder "src" (exTuple "src" 4 3))
          = (exDstreamFourth, .ok true)
      ∧ (performQueryOnBuffer exALib exDstreamFourth exOrderSrc.eval).2 = none
      ∧ (Process exALib exDstreamThird exOrderSrc (exTuple "src" 4 3)).1.prevResults
          = exDstreamThird.curResults
      ∧ exDstreamThird.curResults = [exRowA 1, exRowA 2]
      ∧ (Process exALib exDstreamThird exOrderSrc (exTuple "src" 4 3)).1.curResults
          = (queryOutput exALib exDstreamFourth exOrderSrc.eval).1
      ∧ (queryOutput exALib exDstreamFourth exOrderSrc.eval).1 = [exRowA 3, exRowA 4] :=
  have h := Process_evaluation_results exALib exDstreamThird exOrderSrc (exTuple "src" 4 3)
    exDstreamWindow (nestUnder "src" (exTuple "src" 4 3)) exDstreamFourth rfl rfl rfl
  ⟨rfl, rfl, rfl, h.2.2.1, rfl, h.2.2.2.1, rfl⟩

/-! ## Failed evaluations -/

/-- C19: when a `Process` call passes insertion and eviction, the gate fires
and the evaluation fails, the call returns the failure of the evaluation and
`curResults` is after the call what it was before, as `performQueryOnBuffer`
leaves it at every failure. In non-grouping mode, with a buffer under every
key ranged over, the failure is the error that the filter or a projection
returns on the first element of the product on which one of them fails. -/
theorem Process_failed_evaluation (L : Lib) (ep : groupbyExecutionPlan) (o : IterOrder)
    (t : Tuple) (ep2 : groupbyExecutionPlan) (t1 : Tuple) (ep3 : groupbyExecutionPlan)
    (f : Failure)
    (hstr : streamToRelation ep o t = .ok (ep2, t1))
    (hgate : shouldEmitNow ep2 t1 = (ep3, .ok true))
    (hfail : (performQueryOnBuffer L ep3 o.eval).2 = some f) :
    (Process L ep o t).2 = .error f
      ∧ (Process L ep o t).1.curResults = ep.curResults
      ∧ (∀ (e : groupbyExecutionPlan) (allStreams : List String) (f1 : Failure),
          (performQueryOnBuffer L e allStreams).2 = some f1 →
          (performQueryOnBuffer L e allStreams).1.curResults = e.curResults)
      ∧ (ep.groupMode = false → (∀ k ∈ o.eval, (AMap.get ep2.buffers k).isSome = true) →
          ∃ pre c post e, cartProd ep2.buffers o.eval = pre ++ c :: post ∧ f = Failure.error e
            ∧ (∀ x ∈ pre, ∃ b, filterPasses L ep.filter (compositeRow L o.eval x) = .ok b
                ∧ (b = true →
                    ∃ row, projectRow L (compositeRow L o.eval x) ep.projections [] = .ok row))
            ∧ (filterPasses L ep.filter (compositeRow L o.eval c) = .error e
                ∨ (filterPasses L ep.filter (compositeRow L o.eval c) = .ok true
                    ∧ projectRow L (compositeRow L o.eval c) ep.projections [] = .error e))) := by
  have hgen : ∀ (e : groupbyExecutionPlan) (allStreams : List String) (f1 : Failure),
      (performQueryOnBuffer L e allStreams).2 = some f1 →
      (performQueryOnBuffer L e allStreams).1.curResults = e.curResults := by
    intro e allStreams f1 h
    rw [performQueryOnBuffer_eq] at h ⊢
    rcases hq : queryOutput L e allStreams with ⟨output, r⟩
    rw [hq] at h
    cases r with
    | some f2 => rfl
    | none => simp at h
  have h3 := evaluation_state ep o t ep2 t1 ep3 _ hstr hgate
  have hcur : ep3.curResults = ep.curResults := by rw [h3]
  have hproc := Process_of_streamToRelation L ep o t ep2 t1 hstr
  rw [hgate] at hproc
  simp only at hproc
  have hc := hgen ep3 o.eval f hfail
  rcases hres : performQueryOnBuffer L ep3 o.eval with ⟨ep4, r⟩
  rw [hres] at hproc hfail hc
  simp only at hfail hc
  subst hfail
  simp only at hproc
  refine ⟨by rw [hproc], by rw [hproc, ← hcur]; exact hc, hgen, ?_⟩
  intro hmode hpres
  have hq : (queryOutput L ep3 o.eval).2 = some f := by
    have := congrArg Prod.snd (performQueryOnBuffer_eq L ep3 o.eval)
    rw [hres] at this
    simp only at this
    rcases hq : queryOutput L ep3 o.eval with ⟨output, r⟩
    rw [hq] at this
    cases r with
    | some f2 =>
      simp only [Option.some.injEq] at this
      rw [this]
    | none => simp at this
  have hb3 : ep3.buffers = ep2.buffers := by rw [h3]
  have hm3 : ep3.groupMode = false := by rw [h3]; exact hmode
  have hf3 : ep3.filter = ep.filter := by rw [h3]
  have hp3 : ep3.projections = ep.projections := by rw [h3]
  obtain ⟨pre, c, post, e, hxs, hf, -, hpre, hcfail⟩ :=
    queryOutput_nongrouping_failure L ep3 o.eval (by rw [hb3]; exact hpres) hm3 f hq
  rw [hb3] at hxs
  rw [hf3, hp3] at hpre hcfail
  exact ⟨pre, c, post, e, hxs, hf, hpre, hcfail⟩

/-- C19 at a third call whose tuple lacks the projected column. -/
theorem Process_failed_evaluation_witness :
    streamToRelation exRstreamSecond exOrderSrc exBadTuple
        = .ok (exRstreamWindow, nestUnder "src" exBadTuple)
      ∧ shouldEmitNow exRstreamWindow (nestUnder "src" exBadTuple) = (exRstreamWindow, .ok true)
      ∧ (performQueryOnBuffer exSrcLib exRstreamWindow exOrderSrc.eval).2
          = some (Failure.error (Err.external "no such column"))
      ∧ (Process exSrcLib exRstreamSecond exOrderSrc exBadTuple).2
          = .error (Failure.error (Err.external "no such column"))
      ∧ (Process exSrcLib exRstreamSecond exOrderSrc exBadTuple).1.curResults
          = exRstreamSecond.curResults
      ∧ exRstreamSecond.curResults = [exRow 1, exRow 2]
      ∧ exRstreamSecond.groupMode = false
      ∧ (∀ k ∈ exOrderSrc.eval, (AMap.get exRstreamWindow.buffers k).isSome = true)
      ∧ ∃ pre c post e, cartProd exRstreamWindow.buffers exOrderSrc.eval = pre ++ c :: post
          ∧ Failure.error (Err.external "no such column") = Failure.error e
          ∧ (∀ x ∈ pre,
              ∃ b, filterPasses exSrcLib exRstreamSecond.filter
                    (compositeRow exSrcLib exOrderSrc.eval x) = .ok b
                ∧ (b = true →
                    ∃ row, projectRow exSrcLib (compositeRow exSrcLib exOrderSrc.eval x)
                      exRstreamSecond.projections [] = .ok row))
          ∧ (filterPasses exSrcLib exRstreamSecond.filter
                (compositeRow exSrcLib exOrderSrc.eval c) = .error e
              ∨ (filterPasses exSrcLib exRstreamSecond.filter
                    (compositeRow exSrcLib exOrderSrc.eval c) = .ok true
                  ∧ projectRow exSrcLib (compositeRow exSrcLib exOrderSrc.eval c)
                      exRstreamSecond.projections [] = .error e)) :=
  have h := Process_failed_evaluation exSrcLib exRstreamSecond exOrderSrc exBadTuple
    exRstreamWindow (nestUnder "src" exBadTuple) exRstreamWindow
    (Failure.error (Err.external "no such column")) rfl rfl rfl
  ⟨rfl, rfl, rfl, h.1, h.2.1, rfl, rfl, by decide, h.2.2.2 rfl (by decide)⟩

/-- C20 fails: on the plan of `SELECT RSTREAM int FROM src [RANGE 2 TUPLES]`
after the tuples 1 and 2 the previous results are the row 1 and the current
results the rows 1 and 2; a third call whose tuple lacks the column fails after
the row 2 has been computed, and leaves the row 2 as the previous results. -/
theorem Process_failed_evaluation_prevResults_counterexample :
    NewGroupbyExecutionPlan exSrcLib exRstreamLp exReg = .ok exRstreamPlan
      ∧ exRstreamSecond.prevResults = [exRow 1]
      ∧ (Process exSrcLib exRstreamSecond exOrderSrc exBadTuple).2
          = .error (Failure.error (Err.external "no such column"))
      ∧ (Process exSrcLib exRstreamSecond exOrderSrc exBadTuple).1.prevResults = [exRow 2]
      ∧ (Process exSrcLib exRstreamSecond exOrderSrc exBadTuple).1.prevResults
          ≠ exRstreamSecond.prevResults :=
  ⟨rfl, rfl, rfl, rfl, by
    have h1 : (Process exSrcLib exRstreamSecond exOrderSrc exBadTuple).1.prevResults
        = [exRow 2] := rfl
    have h2 : exRstreamSecond.prevResults = [exRow 1] := rfl
    rw [h1, h2]
    simp [exRow]⟩

/-- C20, amended: when a `Process` call passes insertion and eviction, the gate
fires and the evaluation fails, the rows computed before the failure are not
discarded: `prevResults` is after the call the output accumulated up to the
failure, and nothing else differs from the plan with which the evaluation
started. In non-grouping mode, with a buffer under every key ranged over,
these are the projected rows of the elements of the product before the first
element on which the filter or a projection fails. -/
theorem Process_failed_evaluation_prevResults (L : Lib) (ep : groupbyExecutionPlan)
    (o : IterOrder) (t : Tuple) (ep2 : groupbyExecutionPlan) (t1 : Tuple)
    (ep3 : groupbyExecutionPlan) (f : Failure)
    (hstr : streamToRelation ep o t = .ok (ep2, t1))
    (hgate : shouldEmitNow ep2 t1 = (ep3, .ok true))
    (hfail : (performQueryOnBuffer L ep3 o.eval).2 = some f) :
    (Process L ep o t).1 = { ep3 with prevResults := (queryOutput L ep3 o.eval).1 }
      ∧ (Process L ep o t).1.prevResults = (queryOutput L ep3 o.eval).1
      ∧ (ep.groupMode = false → (∀ k ∈ o.eval, (AMap.get ep2.buffers k).isSome = true) →
          ∃ pre c post, cartProd ep2.buffers o.eval = pre ++ c :: post
            ∧ (Process L ep o t).1.prevResults
                = pre.filterMap (fun combo => projectedRow L ep (compositeRow L o.eval combo))
            ∧ (∀ x ∈ pre, ∃ b, filterPasses L ep.filter (compositeRow L o.eval x) = .ok b
                ∧ (b = true →
                    ∃ row, projectRow L (compositeRow L o.eval x) ep.projections [] = .ok row))
            ∧ ∃ e, f = Failure.error e
                ∧ (filterPasses L ep.filter (compositeRow L o.eval c) = .error e
                  ∨ (filterPasses L ep.filter (compositeRow L o.eval c) = .ok true
                      ∧ projectRow L (compositeRow L o.eval c) ep.projections [] = .error e))) := by
  have h3 := evaluation_state ep o t ep2 t1 ep3 _ hstr hgate
  have hproc := Process_of_streamToRelation L ep o t ep2 t1 hstr
  rw [hgate] at hproc
  simp only at hproc
  have heq := performQueryOnBuffer_eq L ep3 o.eval
  rcases hq : queryOutput L ep3 o.eval with ⟨output, r⟩
  rw [hq] at heq
  cases r with
  | none =>
    rw [heq] at hfail
    simp at hfail
  | some f2 =>
    simp only at heq
    rw [heq] at hfail hproc
    simp only [Option.some.injEq] at hfail
    subst hfail
    simp only at hproc
    have hprev : (Process L ep o t).1.prevResults = output := by rw [hproc]
    refine ⟨by rw [hproc], hprev, ?_⟩
    intro hmode hpres
    have hb3 : ep3.buffers = ep2.buffers := by rw [h3]
    have hm3 : ep3.groupMode = false := by rw [h3]; exact hmode
    have hf3 : ep3.filter = ep.filter := by rw [h3]
    have hp3 : ep3.projections = ep.projections := by rw [h3]
    obtain ⟨pre, c, post, e, hxs, hf, hout, hpre, hcfail⟩ :=
      queryOutput_nongrouping_failure L ep3 o.eval (by rw [hb3]; exact hpres) hm3 f2
        (by rw [hq])
    rw [hb3] at hxs
    rw [hf3, hp3] at hpre hcfail
    rw [hq, projectedRow_congr L ep ep3 hf3 hp3] at hout
    exact ⟨pre, c, post, hxs, by rw [hprev]; exact hout, hpre, e, hf, hcfail⟩

/-- C20, amended, at a third call whose tuple lacks the projected column. -/
theorem Process_failed_evaluation_prevResults_witness :
    streamToRelation exRstreamSecond exOrderSrc exBadTuple
        = .ok (exRstreamWindow, nestUnder "src" exBadTuple)
      ∧ shouldEmitNow exRstreamWindow (nestUnder "src" exBadTuple) = (exRstreamWindow, .ok true)
      ∧ (performQueryOnBuffer exSrcLib exRstreamWindow exOrderSrc.eval).2
          = some (Failure.error (Err.external "no such column"))
      ∧ (Process exSrcLib exRstreamSecond exOrderSrc exBadTuple).1.prevResults
          = (queryOutput exSrcLib exRstreamWindow exOrderSrc.eval).1
      ∧ (queryOutput exSrcLib exRstreamWindow exOrderSrc.eval).1 = [exRow 2]
      ∧ exRstreamSecond.groupMode = false
      ∧ (∀ k ∈ exOrderSrc.eval, (AMap.get exRstreamWindow.buffers k).isSome = true)
      ∧ ∃ pre c post, cartProd exRstreamWindow.buffers exOrderSrc.eval = pre ++ c :: post
          ∧ (Process exSrcLib exRstreamSecond exOrderSrc exBadTuple).1.prevResults
              = pre.filterMap (fun combo =>
                  projectedRow exSrcLib exRstreamSecond (compositeRow exSrcLib exOrderSrc.eval combo))
          ∧ (∀ x ∈ pre,
              ∃ b, filterPasses exSrcLib exRstreamSecond.filter
                    (compositeRow exSrcLib exOrderSrc.eval x) = .ok b
                ∧ (b = true →
                    ∃ row, projectRow exSrcLib (compositeRow exSrcLib exOrderSrc.eval x)
                      exRstreamSecond.projections [] = .ok row))
          ∧ ∃ e, Failure.error (Err.external "no such column") = Failure.error e
              ∧ (filterPasses exSrcLib exRstreamSecond.filter
                    (compositeRow exSrcLib exOrderSrc.eval c) = .error e
                  ∨ (filterPasses exSrcLib exRstreamSecond.filter
                        (compositeRow exSrcLib exOrderSrc.eval c) = .ok true
                      ∧ projectRow exSrcLib (compositeRow exSrcLib exOrderSrc.eval c)
                          exRstreamSecond.projections [] = .error e)) :=
  have h := Process_failed_evaluation_prevResults exSrcLib exRstreamSecond exOrderSrc exBadTuple
    exRstreamWindow (nestUnder "src" exBadTuple) exRstreamWindow
    (Failure.error (Err.external "no such column")) rfl rfl rfl
  ⟨rfl, rfl, rfl, h.2.1, rfl, rfl, by decide, h.2.2 rfl (by decide)⟩

/-! ## Plans that differ in `prevResults` only -/

theorem addTupleToBuffer_prev_congr (ep : groupbyExecutionPlan) (p : List Map) (t : Tuple) :
    addTupleToBuffer { ep with prevResults := p } t
      = (({ (addTupleToBuffer ep t).1.1 with prevResults := p }, (addTupleToBuffer ep t).1.2),
          (addTupleToBuffer ep t).2) := by
  unfold addTupleToBuffer
  simp only
  split <;> rfl

theorem removeOutdatedTuplesFromBuffer_prev_congr (ep : groupbyExecutionPlan) (p : List Map)
    (order : List String) (curTupTime : Time) :
    removeOutdatedTuplesFromBuffer { ep with prevResults := p } order curTupTime
      = ({ (removeOutdatedTuplesFromBuffer ep order curTupTime).1 with prevResults := p },
          (removeOutdatedTuplesFromBuffer ep order curTupTime).2) := by
  unfold removeOutdatedTuplesFromBuffer
  rfl

theorem shouldEmitNow_prev_congr (ep : groupbyExecutionPlan) (p : List Map) (t : Tuple) :
    shouldEmitNow { ep with prevResults := p } t
      = ({ (shouldEmitNow ep t).1 with prevResults := p }, (shouldEmitNow ep t).2) := by
  unfold shouldEmitNow
  simp only
  split
  · unfold countAndCheck
    simp only
    split
    · rfl
    · split <;> rfl
  · split
    · unfold countAndCheck
      simp only
      split
      · rfl
      · split <;> rfl
    · rfl

/-- The evaluation does not read `prevResults`: it overwrites it. -/
theorem performQueryOnBuffer_prev_congr (L : Lib) (ep : groupbyExecutionPlan) (p : List Map)
    (allStreams : List String) :
    performQueryOnBuffer L { ep with prevResults := p } allStreams
      = performQueryOnBuffer L ep allStreams := by
  rw [performQueryOnBuffer_eq, performQueryOnBuffer_eq, queryOutput_congr]

/-- A call of `Process` on a plan with other `prevResults` returns the same and
leaves a plan that differs at most in `prevResults`. -/
theorem Process_prev_congr (L : Lib) (ep : groupbyExecutionPlan) (p : List Map) (o : IterOrder)
    (t : Tuple) :
    (Process L { ep with prevResults := p } o t).2 = (Process L ep o t).2
      ∧ ∃ p1, (Process L { ep with prevResults := p } o t).1
          = { (Process L ep o t).1 with prevResults := p1 } := by
  unfold Process
  rw [addTupleToBuffer_prev_congr]
  rcases addTupleToBuffer ep t with ⟨⟨ep1, u⟩, r⟩
  cases r with
  | some f => exact ⟨rfl, p, rfl⟩
  | none =>
    simp only
    rw [removeOutdatedTuplesFromBuffer_prev_congr]
    rcases removeOutdatedTuplesFromBuffer ep1 o.evict u.Timestamp with ⟨ep2, r2⟩
    cases r2 with
    | some f => exact ⟨rfl, p, rfl⟩
    | none =>
      simp only
      rw [shouldEmitNow_prev_congr]
      rcases shouldEmitNow ep2 u with ⟨ep3, r3⟩
      cases r3 with
      | error f => exact ⟨rfl, p, rfl⟩
      | ok b =>
        cases b with
        | false => exact ⟨rfl, p, rfl⟩
        | true =>
          simp only
          rw [performQueryOnBuffer_prev_congr]
          rcases performQueryOnBuffer L ep3 o.eval with ⟨ep4, r4⟩
          cases r4 with
          | some f => exact ⟨rfl, ep4.prevResults, rfl⟩
          | none => exact ⟨rfl, ep4.prevResults, rfl⟩

/-- The results of a run do not depend on the `prevResults` it starts with. -/
theorem processResults_prev_congr (L : Lib) (ep : groupbyExecutionPlan) (p : List Map)
    (calls : List (IterOrder × Tuple)) :
    processResults L { ep with prevResults := p } calls = processResults L ep calls := by
  induction calls generalizing ep p with
  | nil => rfl
  | cons c cs ih =>
    obtain ⟨h1, p1, h2⟩ := Process_prev_congr L ep p c.1 c.2
    simp only [processResults]
    rw [h1, h2, ih]

/-- The plan and the result of a `Process` call whose evaluation fails. -/
theorem Process_failed_state (L : Lib) (ep : groupbyExecutionPlan) (o : IterOrder) (t : Tuple)
    (ep2 : groupbyExecutionPlan) (t1 : Tuple) (ep3 : groupbyExecutionPlan) (f : Failure)
    (hstr : streamToRelation ep o t = .ok (ep2, t1))
    (hgate : shouldEmitNow ep2 t1 = (ep3, .ok true))
    (hfail : (performQueryOnBuffer L ep3 o.eval).2 = some f) :
    Process L ep o t = ({ ep3 with prevResults := (queryOutput L ep3 o.eval).1 }, .error f) := by
  have hproc := Process_of_streamToRelation L ep o t ep2 t1 hstr
  rw [hgate] at hproc
  simp only at hproc
  have heq := performQueryOnBuffer_eq L ep3 o.eval
  rcases hq : queryOutput L ep3 o.eval with ⟨output, r⟩
  rw [hq] at heq
  cases r with
  | none =>
    rw [heq] at hfail
    simp at hfail
  | some f2 =>
    simp only at heq
    rw [heq] at hfail hproc
    simp only [Option.some.injEq] at hfail
    subst hfail
    simp only at hproc
    exact hproc

/-- C21: when a `Process` call passes insertion and eviction, the gate fires
and the evaluation fails, the plan in which the tuple has been buffered and
counted and the evaluation skipped has the buffers and the counters of the plan
after the failed call and the `curResults` and `prevResults` from before it;
and every following sequence of `Process` calls returns from the plan after
the failed call the rows and failures it returns from that plan. So for
`SELECT DSTREAM int FROM src [RANGE 2 TUPLES]` and a second tuple without the
column the fourth call returns the row of the first tuple. -/
theorem Process_failed_evaluation_skipped (L : Lib) (ep : groupbyExecutionPlan) (o : IterOrder)
    (t : Tuple) (ep2 : groupbyExecutionPlan) (t1 : Tuple) (ep3 : groupbyExecutionPlan)
    (f : Failure)
    (hstr : streamToRelation ep o t = .ok (ep2, t1))
    (hgate : shouldEmitNow ep2 t1 = (ep3, .ok true))
    (hfail : (performQueryOnBuffer L ep3 o.eval).2 = some f) :
    skippedEvaluation ep o t
        = { (Process L ep o t).1 with curResults := ep.curResults, prevResults := ep.prevResults }
      ∧ (skippedEvaluation ep o t).buffers = (Process L ep o t).1.buffers
      ∧ (skippedEvaluation ep o t).emitCounters = (Process L ep o t).1.emitCounters
      ∧ (skippedEvaluation ep o t).curResults = ep.curResults
      ∧ (skippedEvaluation ep o t).prevResults = ep.prevResults
      ∧ (∀ calls : List (IterOrder × Tuple),
          processResults L (Process L ep o t).1 calls
            = processResults L (skippedEvaluation ep o t) calls)
      ∧ processResults exSrcLib exDstreamIntPlan exSixBroken
          = [.ok [], .error (Failure.error (Err.external "no such column")),
              .error (Failure.error (Err.external "no such column")),
              .ok [exRow 1], .ok [exRow 3], .ok [exRow 4]] := by
  have hproc := Process_failed_state L ep o t ep2 t1 ep3 f hstr hgate hfail
  have h3 := evaluation_state ep o t ep2 t1 ep3 _ hstr hgate
  have hskip : skippedEvaluation ep o t = ep3 := by
    unfold skippedEvaluation
    rw [hstr]
    simp only
    rw [hgate]
  have hcur : ep3.curResults = ep.curResults := by rw [h3]
  have hprev : ep3.prevResults = ep.prevResults := by rw [h3]
  rw [hskip, hproc]
  refine ⟨?_, rfl, rfl, hcur, hprev, fun calls => ?_, rfl⟩
  · simp only
    rw [← hcur, ← hprev]
  · exact processResults_prev_congr L ep3 _ calls

/-- C21 at a third call whose tuple lacks the projected column, followed by
two calls with tuples that have it. -/
theorem Process_failed_evaluation_skipped_witness :
    streamToRelation exRstreamSecond exOrderSrc exBadTuple
        = .ok (exRstreamWindow, nestUnder "src" exBadTuple)
      ∧ shouldEmitNow exRstreamWindow (nestUnder "src" exBadTuple) = (exRstreamWindow, .ok true)
      ∧ (performQueryOnBuffer exSrcLib exRstreamWindow exOrderSrc.eval).2
          = some (Failure.error (Err.external "no such column"))
      ∧ processResults exSrcLib (Process exSrcLib exRstreamSecond exOrderSrc exBadTuple).1
            [(exOrderSrc, exTuple "src" 4 3), (exOrderSrc, exTuple "src" 5 4)]
          = processResults exSrcLib (skippedEvaluation exRstreamSecond exOrderSrc exBadTuple)
            [(exOrderSrc, exTuple "src" 4 3), (exOrderSrc, exTuple "src" 5 4)]
      ∧ (skippedEvaluation exRstreamSecond exOrderSrc exBadTuple).prevResults
          = exRstreamSecond.prevResults :=
  have h := Process_failed_evaluation_skipped exSrcLib exRstreamSecond exOrderSrc exBadTuple
    exRstreamWindow (nestUnder "src" exBadTuple) exRstreamWindow
    (Failure.error (Err.external "no such column")) rfl rfl rfl
  ⟨rfl, rfl, rfl,
    h.2.2.2.2.2.1 [(exOrderSrc, exTuple "src" 4 3), (exOrderSrc, exTuple "src" 5 4)],
    h.2.2.2.2.1⟩

/-! ## Empty products and rows that the filter rejects -/

theorem prependEach_nil_right (ts : List Tuple) : prependEach ts [] = [] := by
  induction ts with
  | nil => rfl
  | cons t rest ih => simp [prependEach, ih]

/-- The product is empty when the buffer under one of the keys is. -/
theorem cartProd_eq_nil_of_empty (buffers : AMap inputBuffer) (keys : List String)
    (k : String) (b : inputBuffer) (hk : k ∈ keys) (hget : AMap.get buffers k = some b)
    (hempty : b.tuples = []) : cartProd buffers keys = [] := by
  induction keys with
  | nil => cases hk
  | cons k1 rest ih =>
    simp only [cartProd]
    rcases List.mem_cons.1 hk with hk | hk
    · subst hk
      rw [hget]
      simp [hempty, prependEach]
    · rw [ih hk]
      exact prependEach_nil_right _

/-- The closure `procCartProd` runs `processItem` on the rows of the product,
one after the other; with an empty product it runs it on nothing. -/
theorem procCartProd_run {σ : Type} (L : Lib) (buffers : AMap inputBuffer)
    (processItem : Map → σ → Except Failure σ) (keys : List String)
    (hpres : ∀ k ∈ keys, (AMap.get buffers k).isSome = true) (holder : Map) (s : σ)
    (hnodup : (AMap.keys holder).Nodup) :
    ((procCartProd L buffers processItem keys holder s).1.2,
        (procCartProd L buffers processItem keys holder s).2)
      = runItems processItem ((cartProd buffers keys).map (fun c => writes L keys c holder)) s := by
  by_cases hempty : cartProd buffers keys = []
  · obtain ⟨h1, hh1⟩ := procCartProd_empty L buffers processItem keys hpres hempty holder s
    rw [hh1, hempty]
    rfl
  · exact (procCartProd_rows L buffers processItem keys hpres hempty holder s hnodup).1

theorem runItems_skip {σ : Type} (processItem : Map → σ → Except Failure σ) (rows : List Map)
    (s : σ) (h : ∀ d ∈ rows, processItem d s = .ok s) :
    runItems processItem rows s = (s, none) := by
  induction rows with
  | nil => rfl
  | cons d ds ih =>
    simp only [runItems, h d (List.mem_cons_self _ _)]
    exact ih (fun x hx => h x (List.mem_cons_of_mem _ hx))

/-- An evaluation in which no item changes the accumulator and none fails
gives no rows: without items there are no groups either. -/
theorem queryOutput_of_skip (L : Lib) (ep : groupbyExecutionPlan) (allStreams : List String)
    (hpres : ∀ k ∈ allStreams, (AMap.get ep.buffers k).isSome = true)
    (h : ∀ c ∈ cartProd ep.buffers allStreams,
      evalItem L ep (compositeRow L allStreams c) ⟨[], []⟩ = .ok ⟨[], []⟩) :
    queryOutput L ep allStreams = ([], none) := by
  have hrun := procCartProd_run L ep.buffers (evalItem L ep) allStreams hpres []
    (⟨[], []⟩ : evalAcc) (by simp [AMap.keys])
  rw [runItems_skip (evalItem L ep) _ ⟨[], []⟩ (by
    intro d hd
    obtain ⟨c, hc, hcd⟩ := List.mem_map.1 hd
    subst hcd
    exact h c hc)] at hrun
  unfold queryOutput
  rcases hres : procCartProd L ep.buffers (evalItem L ep) allStreams []
    (⟨[], []⟩ : evalAcc) with ⟨⟨h2, acc2⟩, r⟩
  rw [hres] at hrun
  simp only [Prod.mk.injEq] at hrun
  obtain ⟨hacc, hr⟩ := hrun
  subst hacc hr
  simp only
  split
  · rfl
  · rfl

/-- C25: when the buffer under one of the keys is empty, `procCartProd` calls
`processItem` on nothing, whatever `processItem` is, and `performQueryOnBuffer`
ends without failure and sets `curResults` to the empty sequence (and
`prevResults` to the old `curResults`), in non-grouping and in grouping mode
and whatever the evaluators of the plan are. -/
theorem performQueryOnBuffer_empty_buffer (L : Lib) (ep : groupbyExecutionPlan)
    (allStreams : List String) (hkeys : keyOrder allStreams ep.buffers)
    (k : String) (b : inputBuffer) (hget : AMap.get ep.buffers k = some b)
    (hempty : b.tuples = []) :
    performQueryOnBuffer L ep allStreams
        = ({ ep with prevResults := ep.curResults, curResults := [] }, none)
      ∧ cartProd ep.buffers allStreams = []
      ∧ (∀ (processItem : Map → evalAcc → Except Failure evalAcc) (acc : evalAcc),
          ∃ holder, procCartProd L ep.buffers processItem allStreams [] acc
            = ((holder, acc), none))
      ∧ ∀ (projections : List aliasedEvaluator) (groupList : List Evaluator)
          (filter : Option Evaluator) (groupMode : Bool),
          performQueryOnBuffer L
              { ep with
                projections := projections, groupList := groupList, filter := filter,
                groupMode := groupMode } allStreams
            = ({ ep with
                  projections := projections, groupList := groupList, filter := filter,
                  groupMode := groupMode, prevResults := ep.curResults, curResults := [] },
                none) := by
  have hpres : ∀ k ∈ allStreams, (AMap.get ep.buffers k).isSome = true :=
    fun k hk => (hkeys.2 k).1 hk
  have hk : k ∈ allStreams := (hkeys.2 k).2 (by rw [hget]; rfl)
  have hprod := cartProd_eq_nil_of_empty ep.buffers allStreams k b hk hget hempty
  have hgen : ∀ e : groupbyExecutionPlan, e.buffers = ep.buffers →
      performQueryOnBuffer L e allStreams
        = ({ e with prevResults := e.curResults, curResults := [] }, none) := by
    intro e he
    rw [performQueryOnBuffer_eq, queryOutput_of_skip L e allStreams (by rw [he]; exact hpres)
      (by rw [he, hprod]; intro c hc; cases hc)]
  refine ⟨hgen ep rfl, hprod, ?_, ?_⟩
  · intro processItem acc
    exact procCartProd_empty L ep.buffers processItem allStreams hpres hprod [] acc
  · intro projections groupList filter groupMode
    exact hgen _ rfl

/-- C25 at the first call on the join plan, with evaluators that fail whenever
they are called. -/
theorem performQueryOnBuffer_empty_buffer_witness :
    keyOrder exOrderXY.eval exJoinFirst.buffers
      ∧ AMap.get exJoinFirst.buffers "y" = some ⟨[], 2, IntervalUnit.Tuples⟩
      ∧ performQueryOnBuffer exJoinLib
          { exJoinFirst with
            projections := [⟨"l", failingEval, false, []⟩], groupList := [failingEval],
            filter := some failingEval, groupMode := true } exOrderXY.eval
        = ({ exJoinFirst with
              projections := [⟨"l", failingEval, false, []⟩], groupList := [failingEval],
              filter := some failingEval, groupMode := true,
              prevResults := exJoinFirst.curResults, curResults := [] },
            none)
      ∧ (Process exJoinLib (exJoinPlan [("*", ⟨1, IntervalUnit.Tuples⟩)]) exOrderXY
          (exJoinTuple 0)).2 = .ok [] :=
  have h := performQueryOnBuffer_empty_buffer exJoinLib exJoinFirst exOrderXY.eval
    (keyOrder_keys exJoinFirst.buffers (by decide)) "y" ⟨[], 2, IntervalUnit.Tuples⟩ rfl rfl
  ⟨keyOrder_keys exJoinFirst.buffers (by decide), rfl,
    h.2.2.2 [⟨"l", failingEval, false, []⟩] [failingEval] (some failingEval) true, rfl⟩

/-- A row that the filter rejects leaves the accumulator of `evalItem` as it
is. -/
theorem evalItem_of_rejected (L : Lib) (ep : groupbyExecutionPlan) (d : Map) (acc : evalAcc)
    (h : filterPasses L ep.filter d = .ok false) : evalItem L ep d acc = .ok acc := by
  unfold evalItem
  rw [h]

/-- With empty current and previous results every emitter that exists returns
no rows. -/
theorem computeResultTuples_of_empty (L : Lib) (ep : groupbyExecutionPlan)
    (hcur : ep.curResults = []) (hprev : ep.prevResults = [])
    (hemit : ep.emitterType ≠ Emitter.UnspecifiedEmitter) :
    computeResultTuples L ep = .ok [] := by
  unfold computeResultTuples
  rw [hcur, hprev]
  cases hty : ep.emitterType with
  | UnspecifiedEmitter => exact absurd hty hemit
  | Istream => rfl
  | Dstream => rfl
  | Rstream => rfl

/-- C26: a row whose filter value converts to false, as the value `NULL` does
when `data.ToBool` maps it to false, leaves the accumulator of `evalItem`
unchanged and makes `evalItem` return without error, whatever the projections,
the GROUP BY expressions and the aggregate inputs are: no row is appended, no
group is created or extended. With a filter that rejects every row an
evaluation gives the empty result; and a `Process` call on a plan with empty
`curResults` that passes insertion and eviction, with a buffer under every key
ranged over, a gate that does not panic and an emitter that exists, returns no
rows and no error and leaves `curResults` empty. -/
theorem evalItem_filtered_out (L : Lib) (ep : groupbyExecutionPlan) :
    (∀ (d : Map) (acc : evalAcc), filterPasses L ep.filter d = .ok false →
        evalItem L ep d acc = .ok acc)
      ∧ (∀ (f : Evaluator) (d : Map) (acc : evalAcc), ep.filter = some f →
          f.Eval d = .ok Value.null → L.toBool Value.null = .ok false →
          evalItem L ep d acc = .ok acc
            ∧ ∀ (projections : List aliasedEvaluator) (groupList : List Evaluator)
                (groupMode : Bool),
                evalItem L
                  { ep with
                    projections := projections, groupList := groupList, groupMode := groupMode }
                  d acc = .ok acc)
      ∧ ((∀ d, filterPasses L ep.filter d = .ok false) →
          (∀ allStreams, (∀ k ∈ allStreams, (AMap.get ep.buffers k).isSome = true) →
            performQueryOnBuffer L ep allStreams
              = ({ ep with prevResults := ep.curResults, curResults := [] }, none))
          ∧ (ep.curResults = [] → ep.emitterType ≠ Emitter.UnspecifiedEmitter →
              ∀ (o : IterOrder) (t : Tuple) (ep2 : groupbyExecutionPlan) (t1 : Tuple),
                streamToRelation ep o t = .ok (ep2, t1) →
                (∀ k ∈ o.eval, (AMap.get ep2.buffers k).isSome = true) →
                (∃ fires, (shouldEmitNow ep2 t1).2 = .ok fires) →
                (Process L ep o t).2 = .ok [] ∧ (Process L ep o t).1.curResults = [])) := by
  have hrej : ∀ (e : groupbyExecutionPlan) (d : Map) (acc : evalAcc),
      filterPasses L e.filter d = .ok false → evalItem L e d acc = .ok acc :=
    fun e d acc h => evalItem_of_rejected L e d acc h
  have hquery : ∀ e : groupbyExecutionPlan, (∀ d, filterPasses L e.filter d = .ok false) →
      ∀ allStreams, (∀ k ∈ allStreams, (AMap.get e.buffers k).isSome = true) →
      performQueryOnBuffer L e allStreams
        = ({ e with prevResults := e.curResults, curResults := [] }, none) := by
    intro e hall allStreams hpres
    rw [performQueryOnBuffer_eq, queryOutput_of_skip L e allStreams hpres
      (fun c _ => hrej e _ _ (hall _))]
  refine ⟨hrej ep, ?_, ?_⟩
  · intro f d acc hf hnull hbool
    have hfp : ∀ e : groupbyExecutionPlan, e.filter = some f →
        filterPasses L e.filter d = .ok false := by
      intro e he
      rw [he]
      simp only [filterPasses, hnull]
      exact hbool
    exact ⟨hrej ep d acc (hfp ep hf), fun projections groupList groupMode =>
      hrej _ d acc (hfp _ hf)⟩
  · intro hall
    refine ⟨hquery ep hall, ?_⟩
    intro hcur hemit o t ep2 t1 hstr hpres hgate
    obtain ⟨fires, hfires⟩ := hgate
    have hproc := Process_of_streamToRelation L ep o t ep2 t1 hstr
    rcases hres : shouldEmitNow ep2 t1 with ⟨ep3, r⟩
    rw [hres] at hproc hfires
    simp only at hfires
    subst hfires
    have h3 := evaluation_state ep o t ep2 t1 ep3 _ hstr hres
    have hcur3 : ep3.curResults = [] := by rw [h3]; exact hcur
    cases fires with
    | false =>
      simp only at hproc
      rw [hproc]
      exact ⟨rfl, hcur3⟩
    | true =>
      simp only at hproc
      have hfil3 : ep3.filter = ep.filter := by rw [h3]
      have hb3 : ep3.buffers = ep2.buffers := by rw [h3]
      have hty3 : ep3.emitterType = ep.emitterType := by rw [h3]
      rw [hquery ep3 (by rw [hfil3]; exact hall) o.eval (by rw [hb3]; exact hpres)] at hproc
      simp only at hproc
      rw [hproc]
      exact ⟨computeResultTuples_of_empty L _ rfl hcur3 (by rw [← hty3] at hemit; exact hemit),
        rfl⟩

/-- C26 at the plan of `SELECT ISTREAM int FROM src [RANGE 2 SECONDS] WHERE
null`: every row is rejected, and each of four calls returns no rows and no
error. -/
theorem evalItem_filtered_out_witness :
    (∀ d, filterPasses exLib exNullFilterPlan.filter d = .ok false)
      ∧ exNullFilterPlan.filter = some nullEval
      ∧ exLib.toBool Value.null = .ok false
      ∧ (∀ (d : Map) (acc : evalAcc), evalItem exLib exNullFilterPlan d acc = .ok acc)
      ∧ (Process exLib exNullFilterPlan exOrderSrc (exTuple "src" 1 0)).2 = .ok []
      ∧ processResults exLib exNullFilterPlan exFour = [.ok [], .ok [], .ok [], .ok []] :=
  have hall : ∀ d, filterPasses exLib exNullFilterPlan.filter d = .ok false := fun _ => rfl
  have h := evalItem_filtered_out exLib exNullFilterPlan
  ⟨hall, rfl, rfl, fun d acc => h.1 d acc (hall d),
    ((h.2.2 hall).2 rfl (by decide) exOrderSrc (exTuple "src" 1 0)
      { exNullFilterPlan with
        buffers := [("src", ⟨[nestUnder "src" (exTuple "src" 1 0)], 2, IntervalUnit.Seconds⟩)] }
      (nestUnder "src" (exTuple "src" 1 0)) (by set_option maxRecDepth 8000 in rfl) (by decide)
      ⟨true, rfl⟩).1,
    rfl⟩

/-! ## One relation with a window of `n` tuples -/

theorem lastN_length {α : Type} (n : Nat) (xs : List α) :
    (lastN n xs).length = min xs.length n := by
  unfold lastN
  rw [List.length_drop]
  omega

theorem lastN_snoc {α : Type} (n : Nat) (xs : List α) (x : α) :
    lastN n (xs ++ [x]) = (lastN n xs ++ [x]).drop ((lastN n xs).length + 1 - n) := by
  have hlen := lastN_length n xs
  unfold lastN at hlen ⊢
  have hd : (xs ++ [x]).drop (xs.length - n) = xs.drop (xs.length - n) ++ [x] :=
    List.drop_append_of_le_length (Nat.sub_le _ _)
  rw [← hd, List.drop_drop, hlen, List.length_append, List.length_singleton]
  congr 1
  omega

theorem prependEach_singleton (ts : List Tuple) :
    prependEach ts [[]] = ts.map (fun t => [t]) := by
  induction ts with
  | nil => rfl
  | cons t rest ih => simp [prependEach, ih]

/-- Insertion and eviction on a plan with one relation and a window of `n`
tuples: the window moves on by the tuple. -/
theorem streamToRelation_window (ep0 : groupbyExecutionPlan) (rel : AliasedStreamWindowAST)
    (n : Nat) (hrel : ep0.relations = [rel]) (received : List Tuple) (cur prev : List Map)
    (evalOrder : List String) (t : Tuple) (ht : t.InputName = relationKey rel) :
    streamToRelation (windowState ep0 rel.Alias n received cur prev) ⟨[rel.Alias], evalOrder⟩ t
      = .ok (windowState ep0 rel.Alias n (received ++ [t]) cur prev, nestUnder rel.Alias t) := by
  have hadd : addTupleToBuffer (windowState ep0 rel.Alias n received cur prev) t
      = (({ ep0 with
            buffers := [(rel.Alias,
              ⟨(lastN n received).map (nestUnder rel.Alias) ++ [nestUnder rel.Alias t], n,
                IntervalUnit.Tuples⟩)]
            curResults := cur
            prevResults := prev }, nestUnder rel.Alias t), none) := by
    unfold addTupleToBuffer windowState
    simp only [hrel, List.countP_cons, List.countP_nil, decide_eq_true ht, if_pos ht, if_true,
      Nat.zero_add, Nat.one_ne_zero, if_false, appendLoop, AMap.get, AMap.set, gt_iff_lt,
      Nat.lt_irrefl]
    rfl
  have hev : evictBuffer
      ⟨(lastN n received).map (nestUnder rel.Alias) ++ [nestUnder rel.Alias t], n,
        IntervalUnit.Tuples⟩ (nestUnder rel.Alias t).Timestamp
      = .ok ⟨(lastN n (received ++ [t])).map (nestUnder rel.Alias), n, IntervalUnit.Tuples⟩ := by
    rw [evictBuffer_tuples _ _ rfl (Int.natCast_nonneg n)]
    simp only [Int.toNat_ofNat, List.length_append, List.length_map, List.length_singleton]
    rw [lastN_snoc, List.map_drop, List.map_append]
    rfl
  unfold streamToRelation
  rw [hadd]
  simp only
  unfold removeOutdatedTuplesFromBuffer
  simp only [evictLoop, AMap.get, if_true, hev, AMap.set]
  rfl

/-- The evaluation on a plan with one buffer runs `evalItem` on the rows of the
tuples of the window, in their order. -/
theorem queryOutput_window (L : Lib) (ep0 : groupbyExecutionPlan) (a : String) (n : Nat)
    (hmode : ep0.groupMode = false) (received : List Tuple) (cur prev : List Map) :
    queryOutput L (windowState ep0 a n received cur prev) [a]
      = ((runItems (evalItem L ep0) ((lastN n received).map (tupleRow L a)) ⟨[], []⟩).1.output,
          (runItems (evalItem L ep0) ((lastN n received).map (tupleRow L a)) ⟨[], []⟩).2) := by
  have hitem : evalItem L (windowState ep0 a n received cur prev) = evalItem L ep0 := rfl
  have hprod : cartProd (windowState ep0 a n received cur prev).buffers [a]
      = ((lastN n received).map (nestUnder a)).map (fun t => [t]) := by
    simp only [windowState, cartProd, AMap.get, if_true, Option.map_some', Option.getD_some]
    exact prependEach_singleton _
  have hrun := procCartProd_run L (windowState ep0 a n received cur prev).buffers
    (evalItem L (windowState ep0 a n received cur prev)) [a]
    (by
      intro k hk
      rw [List.mem_singleton.1 hk]
      simp [windowState, AMap.get])
    [] (⟨[], []⟩ : evalAcc) (by simp [AMap.keys])
  rw [hprod, hitem, List.map_map, List.map_map] at hrun
  have hrows : (((fun c => writes L [a] c []) ∘ fun t => [t]) ∘ nestUnder a) = tupleRow L a :=
    rfl
  rw [hrows] at hrun
  unfold queryOutput
  rw [hitem]
  have hm : (windowState ep0 a n received cur prev).groupMode = false := hmode
  rcases hres : procCartProd L (windowState ep0 a n received cur prev).buffers (evalItem L ep0) [a]
    [] (⟨[], []⟩ : evalAcc) with ⟨⟨h2, acc2⟩, r⟩
  rw [hres] at hrun
  simp only at hrun
  rw [← hrun]
  cases r with
  | some f => rfl
  | none => simp [hm]

/-- A call of `Process` on a plan with one relation, a window of `n` tuples and
the default rule, for a tuple of the relation: the window moves on, the gate
fires, and the rows of the window are evaluated. -/
theorem Process_window (L : Lib) (ep0 : groupbyExecutionPlan) (rel : AliasedStreamWindowAST)
    (n : Nat) (hrel : ep0.relations = [rel])
    (hrules : ep0.emitterRules = [("*", ⟨1, IntervalUnit.Tuples⟩)])
    (hcounters : ep0.emitCounters = [("*", 0)])
    (received : List Tuple) (cur prev : List Map) (t : Tuple)
    (ht : t.InputName = relationKey rel) :
    Process L (windowState ep0 rel.Alias n received cur prev) ⟨[rel.Alias], [rel.Alias]⟩ t
      = match queryOutput L (windowState ep0 rel.Alias n (received ++ [t]) cur prev)
            [rel.Alias] with
        | (output, some f) =>
          (windowState ep0 rel.Alias n (received ++ [t]) cur output, .error f)
        | (output, none) =>
          (windowState ep0 rel.Alias n (received ++ [t]) output cur,
            computeResultTuples L (windowState ep0 rel.Alias n (received ++ [t]) output cur)) := by
  have hstr := streamToRelation_window ep0 rel n hrel received cur prev [rel.Alias] t ht
  rw [Process_of_streamToRelation L _ _ t _ _ hstr,
    shouldEmitNow_default (windowState ep0 rel.Alias n (received ++ [t]) cur prev)
      (nestUnder rel.Alias t) hrules hcounters]
  simp only
  rw [performQueryOnBuffer_eq]
  rcases queryOutput L (windowState ep0 rel.Alias n (received ++ [t]) cur prev) [rel.Alias]
    with ⟨output, r⟩
  cases r <;> rfl

/-- A new plan over one relation is the window state without tuples. -/
theorem windowState_nil (ep0 : groupbyExecutionPlan) (rel : AliasedStreamWindowAST) (n : Nat)
    (h : singleTupleWindow ep0 rel n) : windowState ep0 rel.Alias n [] [] [] = ep0 := by
  obtain ⟨-, -, -, -, -, -, -, -, hb, hc, hp⟩ := h
  obtain ⟨projections, groupList, filter, groupMode, emitterType, emitterRules, emitCounters,
    relations, buffers, curResults, prevResults⟩ := ep0
  simp only at hb hc hp
  subst hb hc hp
  simp [windowState, lastN]

theorem singleCalls_append (a : String) (xs ys : List Tuple) :
    singleCalls a (xs ++ ys) = singleCalls a xs ++ singleCalls a ys := by
  simp [singleCalls]

/-- After every sequence of calls with tuples of the relation the buffer holds
the window over the tuples received, whether the calls have failed or not. -/
theorem processAfter_window (L : Lib) (ep0 : groupbyExecutionPlan) (rel : AliasedStreamWindowAST)
    (n : Nat) (hrel : ep0.relations = [rel])
    (hrules : ep0.emitterRules = [("*", ⟨1, IntervalUnit.Tuples⟩)])
    (hcounters : ep0.emitCounters = [("*", 0)])
    (pre : List Tuple) (hpre : ∀ x ∈ pre, x.InputName = relationKey rel) :
    ∃ cur prev, processAfter L (windowState ep0 rel.Alias n [] [] []) (singleCalls rel.Alias pre)
      = windowState ep0 rel.Alias n pre cur prev := by
  induction pre using List.reverseRecOn with
  | nil => exact ⟨[], [], rfl⟩
  | append_singleton xs x ih =>
    obtain ⟨cur, prev, hst⟩ := ih (fun y hy => hpre y (List.mem_append_left _ hy))
    have hx := hpre x (List.mem_append_right _ (List.mem_singleton_self x))
    rw [singleCalls_append]
    have hone : singleCalls rel.Alias [x] = [(⟨[rel.Alias], [rel.Alias]⟩, x)] := rfl
    rw [hone, processAfter_append, hst]
    simp only
    rw [Process_window L ep0 rel n hrel hrules hcounters xs cur prev x hx]
    rcases queryOutput L (windowState ep0 rel.Alias n (xs ++ [x]) cur prev) [rel.Alias]
      with ⟨output, r⟩
    cases r with
    | some f => exact ⟨cur, output, rfl⟩
    | none => exact ⟨output, cur, rfl⟩

theorem mem_lastN_iff {α : Type} (n : Nat) (xs : List α) (x : α) :
    x ∈ lastN n xs ↔ ∃ i, xs[i]? = some x ∧ xs.length ≤ i + n := by
  unfold lastN
  rw [List.mem_iff_getElem?]
  constructor
  · rintro ⟨j, hj⟩
    rw [List.getElem?_drop] at hj
    exact ⟨xs.length - n + j, hj, by omega⟩
  · rintro ⟨i, hi, hlen⟩
    refine ⟨i - (xs.length - n), ?_⟩
    rw [List.getElem?_drop]
    have : xs.length - n + (i - (xs.length - n)) = i := by omega
    rw [this]
    exact hi

/-- Without filter, in non-grouping mode, a run of `evalItem` on rows on which
the projections succeed appends their projected rows. -/
theorem runItems_nofilter_ok (L : Lib) (ep : groupbyExecutionPlan) (hfil : ep.filter = none)
    (hmode : ep.groupMode = false) (rows : List Map)
    (h : ∀ d ∈ rows, ∃ row, projectRow L d ep.projections [] = .ok row) (acc : evalAcc) :
    runItems (evalItem L ep) rows acc
      = ({ acc with output := acc.output ++ rows.filterMap (projectedRow L ep) }, none) := by
  apply runItems_evalItem_nongrouping L ep hmode rows
  intro d hd
  refine ⟨true, ?_, fun _ => h d hd⟩
  rw [hfil]
  rfl

/-- Without filter, in non-grouping mode, a run of `evalItem` fails when the
projections fail on one of the rows. -/
theorem runItems_nofilter_fails (L : Lib) (ep : groupbyExecutionPlan) (hfil : ep.filter = none)
    (hmode : ep.groupMode = false) (rows : List Map)
    (h : ∃ d ∈ rows, ∃ e, projectRow L d ep.projections [] = .error e) (acc : evalAcc) :
    ∃ acc1 e, runItems (evalItem L ep) rows acc = (acc1, some (Failure.error e)) := by
  induction rows generalizing acc with
  | nil =>
    obtain ⟨d, hd, -⟩ := h
    cases hd
  | cons d0 ds ih =>
    have hfp : filterPasses L ep.filter d0 = .ok true := by rw [hfil]; rfl
    simp only [runItems, evalItem_nongrouping L ep hmode, hfp]
    cases hproj : projectRow L d0 ep.projections [] with
    | error e0 => exact ⟨acc, e0, rfl⟩
    | ok result =>
      simp only
      apply ih
      obtain ⟨d, hd, e, he⟩ := h
      rcases List.mem_cons.1 hd with hd | hd
      · subst hd
        rw [hproj] at he
        cases he
      · exact ⟨d, hd, e, he⟩

/-- C22: on a new plan over one relation with a window of `n >= 1` tuples,
without filter and grouping, with the default emit rule and an emitter that
exists, the call with the tuple `t` after the calls with the tuples `pre`
(all of the relation) returns a failure exactly when the projections fail on
the row of one of the last `min(k, n)` tuples of `pre ++ [t]`, `k` being the
number of the call; these are the tuples at the indices `i` with `k <= i + n`.
So a tuple on which the projections fail makes the `n` calls fail during which
it is in the window, and alone no others: for `n = 2` and six tuples of which
the second lacks the projected column, the second and the third call fail and
the others succeed. -/
theorem Process_window_failure (L : Lib) (ep0 : groupbyExecutionPlan)
    (rel : AliasedStreamWindowAST) (n : Nat) (h : singleTupleWindow ep0 rel n)
    (hemit : ep0.emitterType ≠ Emitter.UnspecifiedEmitter)
    (pre : List Tuple) (t : Tuple)
    (hknown : ∀ x ∈ pre ++ [t], x.InputName = relationKey rel) :
    ((∃ f, (Process L (processAfter L ep0 (singleCalls rel.Alias pre))
          ⟨[rel.Alias], [rel.Alias]⟩ t).2 = .error f)
        ↔ ∃ x ∈ lastN n (pre ++ [t]),
            ∃ e, projectRow L (tupleRow L rel.Alias x) ep0.projections [] = .error e)
      ∧ ((∃ f, (Process L (processAfter L ep0 (singleCalls rel.Alias pre))
            ⟨[rel.Alias], [rel.Alias]⟩ t).2 = .error f)
          ↔ ∃ i x, (pre ++ [t])[i]? = some x ∧ pre.length + 1 ≤ i + n
              ∧ ∃ e, projectRow L (tupleRow L rel.Alias x) ep0.projections [] = .error e)
      ∧ (lastN n (pre ++ [t])).length = min (pre.length + 1) n
      ∧ AMap.get (Process L (processAfter L ep0 (singleCalls rel.Alias pre))
            ⟨[rel.Alias], [rel.Alias]⟩ t).1.buffers rel.Alias
          = some ⟨(lastN n (pre ++ [t])).map (nestUnder rel.Alias), n, IntervalUnit.Tuples⟩
      ∧ processResults exSrcLib exRstreamPlan exSixBroken
          = [.ok [exRow 1], .error (Failure.error (Err.external "no such column")),
              .error (Failure.error (Err.external "no such column")),
              .ok [exRow 3, exRow 4], .ok [exRow 4, exRow 5], .ok [exRow 5, exRow 6]] := by
  have h0 := windowState_nil ep0 rel n h
  obtain ⟨hrel, -, -, -, hfil, hmode, hrules, hcounters, -, -, -⟩ := h
  obtain ⟨cur, prev, hst⟩ := processAfter_window L ep0 rel n hrel hrules hcounters pre
    (fun x hx => hknown x (List.mem_append_left _ hx))
  rw [h0] at hst
  have ht := hknown t (List.mem_append_right _ (List.mem_singleton_self t))
  have hproc := Process_window L ep0 rel n hrel hrules hcounters pre cur prev t ht
  rw [← hst] at hproc
  rw [queryOutput_window L ep0 rel.Alias n hmode] at hproc
  have hmain : (∃ f, (Process L (processAfter L ep0 (singleCalls rel.Alias pre))
        ⟨[rel.Alias], [rel.Alias]⟩ t).2 = .error f)
      ↔ ∃ x ∈ lastN n (pre ++ [t]),
          ∃ e, projectRow L (tupleRow L rel.Alias x) ep0.projections [] = .error e := by
    by_cases hbad : ∃ d ∈ (lastN n (pre ++ [t])).map (tupleRow L rel.Alias),
        ∃ e, projectRow L d ep0.projections [] = .error e
    · obtain ⟨acc1, e, hrun⟩ := runItems_nofilter_fails L ep0 hfil hmode _ hbad ⟨[], []⟩
      rw [hrun] at hproc
      simp only at hproc
      rw [hproc]
      refine ⟨fun _ => ?_, fun _ => ⟨_, rfl⟩⟩
      obtain ⟨d, hd, e1, he1⟩ := hbad
      obtain ⟨x, hx, hxd⟩ := List.mem_map.1 hd
      subst hxd
      exact ⟨x, hx, e1, he1⟩
    · have hall : ∀ d ∈ (lastN n (pre ++ [t])).map (tupleRow L rel.Alias),
          ∃ row, projectRow L d ep0.projections [] = .ok row := by
        intro d hd
        cases hp : projectRow L d ep0.projections [] with
        | ok row => exact ⟨row, rfl⟩
        | error e => exact absurd ⟨d, hd, e, hp⟩ hbad
      rw [runItems_nofilter_ok L ep0 hfil hmode _ hall ⟨[], []⟩] at hproc
      simp only at hproc
      rw [hproc]
      constructor
      · rintro ⟨f, hf⟩
        simp only at hf
        unfold computeResultTuples at hf
        simp only [windowState] at hf
        cases hty : ep0.emitterType with
        | UnspecifiedEmitter => exact absurd hty hemit
        | Istream => rw [hty] at hf; simp at hf
        | Dstream => rw [hty] at hf; simp at hf
        | Rstream => rw [hty] at hf; simp at hf
      · rintro ⟨x, hx, e, he⟩
        exact absurd ⟨_, List.mem_map_of_mem _ hx, e, he⟩ hbad
  refine ⟨hmain, ?_, ?_, ?_, rfl⟩
  · rw [hmain]
    constructor
    · rintro ⟨x, hx, he⟩
      obtain ⟨i, hi, hlen⟩ := (mem_lastN_iff n _ x).1 hx
      refine ⟨i, x, hi, ?_, he⟩
      simpa using hlen
    · rintro ⟨i, x, hi, hlen, he⟩
      exact ⟨x, (mem_lastN_iff n _ x).2 ⟨i, hi, by simpa using hlen⟩, he⟩
  · rw [lastN_length]
    simp
  · rw [hproc]
    rcases runItems (evalItem L ep0) ((lastN n (pre ++ [t])).map (tupleRow L rel.Alias)) ⟨[], []⟩
      with ⟨acc, r⟩
    cases r <;> simp [windowState, AMap.get]

/-- C22 at the plan of `SELECT RSTREAM int FROM src [RANGE 2 TUPLES]` for the
third call, the second tuple lacking the column. -/
theorem Process_window_failure_witness :
    singleTupleWindow exRstreamPlan ⟨StreamType.ActualStream, "src", 2, IntervalUnit.Tuples, "src"⟩ 2
      ∧ exRstreamPlan.emitterType ≠ Emitter.UnspecifiedEmitter
      ∧ (∀ x ∈ [exTuple "src" 1 0, exBadTuple] ++ [exTuple "src" 3 2],
          x.InputName = relationKey ⟨StreamType.ActualStream, "src", 2, IntervalUnit.Tuples, "src"⟩)
      ∧ ((∃ f, (Process exSrcLib
            (processAfter exSrcLib exRstreamPlan
              (singleCalls "src" [exTuple "src" 1 0, exBadTuple]))
            ⟨["src"], ["src"]⟩ (exTuple "src" 3 2)).2 = .error f)
          ↔ ∃ x ∈ lastN 2 ([exTuple "src" 1 0, exBadTuple] ++ [exTuple "src" 3 2]),
              ∃ e, projectRow exSrcLib (tupleRow exSrcLib "src" x) exRstreamPlan.projections []
                = .error e) :=
  ⟨⟨rfl, rfl, rfl, by decide, rfl, rfl, rfl, rfl, rfl, rfl, rfl⟩, by decide, by decide,
    (Process_window_failure exSrcLib exRstreamPlan
      ⟨StreamType.ActualStream, "src", 2, IntervalUnit.Tuples, "src"⟩ 2
      ⟨rfl, rfl, rfl, by decide, rfl, rfl, rfl, rfl, rfl, rfl, rfl⟩ (by decide)
      [exTuple "src" 1 0, exBadTuple] (exTuple "src" 3 2) (by decide)).1⟩

/-- Without filter the projected rows of the rows of tuples on which the
projections succeed. -/
theorem filterMap_projectedRow (L : Lib) (ep : groupbyExecutionPlan) (hfil : ep.filter = none)
    (a : String) (row : Tuple → Map) (ys : List Tuple)
    (h : ∀ y ∈ ys, projectRow L (tupleRow L a y) ep.projections [] = .ok (row y)) :
    (ys.map (tupleRow L a)).filterMap (projectedRow L ep) = ys.map row := by
  induction ys with
  | nil => rfl
  | cons y rest ih =>
    have hy : projectedRow L ep (tupleRow L a y) = some (row y) := by
      unfold projectedRow
      rw [hfil, h y (List.mem_cons_self _ _)]
      rfl
    simp only [List.map_cons, List.filterMap_cons, hy]
    rw [ih (fun z hz => h z (List.mem_cons_of_mem _ hz))]

theorem lastN_sublist {α : Type} (n : Nat) (xs : List α) : List.Sublist (lastN n xs) xs :=
  List.drop_sublist _ _

theorem mem_of_mem_lastN {α : Type} (n : Nat) (xs : List α) (x : α) (h : x ∈ lastN n xs) :
    x ∈ xs :=
  (lastN_sublist n xs).subset h

/-- A call on a plan with one relation and a window of `n` tuples, when the
projections succeed on the tuples of the new window: the plan after the call
and its result. -/
theorem Process_window_ok (L : Lib) (ep0 : groupbyExecutionPlan) (rel : AliasedStreamWindowAST)
    (n : Nat) (hrel : ep0.relations = [rel])
    (hrules : ep0.emitterRules = [("*", ⟨1, IntervalUnit.Tuples⟩)])
    (hcounters : ep0.emitCounters = [("*", 0)])
    (hfil : ep0.filter = none) (hmode : ep0.groupMode = false) (row : Tuple → Map)
    (received : List Tuple) (cur prev : List Map) (t : Tuple)
    (ht : t.InputName = relationKey rel)
    (hproj : ∀ x ∈ received ++ [t],
      projectRow L (tupleRow L rel.Alias x) ep0.projections [] = .ok (row x)) :
    Process L (windowState ep0 rel.Alias n received cur prev) ⟨[rel.Alias], [rel.Alias]⟩ t
      = (windowState ep0 rel.Alias n (received ++ [t])
            ((lastN n (received ++ [t])).map row) cur,
          computeResultTuples L (windowState ep0 rel.Alias n (received ++ [t])
            ((lastN n (received ++ [t])).map row) cur)) := by
  rw [Process_window L ep0 rel n hrel hrules hcounters received cur prev t ht,
    queryOutput_window L ep0 rel.Alias n hmode,
    runItems_nofilter_ok L ep0 hfil hmode _ (by
      intro d hd
      obtain ⟨x, hx, hxd⟩ := List.mem_map.1 hd
      subst hxd
      exact ⟨row x, hproj x (mem_of_mem_lastN n _ x hx)⟩) ⟨[], []⟩]
  simp only [List.nil_append]
  rw [filterMap_projectedRow L ep0 hfil rel.Alias row _
    (fun y hy => hproj y (mem_of_mem_lastN n _ y hy))]

/-- After calls with tuples of the relation on which the projections succeed,
`curResults` holds the projected rows of the window and `prevResults` those of
the window before the last call. -/
theorem processAfter_window_ok (L : Lib) (ep0 : groupbyExecutionPlan)
    (rel : AliasedStreamWindowAST) (n : Nat) (hrel : ep0.relations = [rel])
    (hrules : ep0.emitterRules = [("*", ⟨1, IntervalUnit.Tuples⟩)])
    (hcounters : ep0.emitCounters = [("*", 0)])
    (hfil : ep0.filter = none) (hmode : ep0.groupMode = false) (row : Tuple → Map)
    (pre : List Tuple) (hpre : ∀ x ∈ pre, x.InputName = relationKey rel)
    (hproj : ∀ x ∈ pre, projectRow L (tupleRow L rel.Alias x) ep0.projections [] = .ok (row x)) :
    processAfter L (windowState ep0 rel.Alias n [] [] []) (singleCalls rel.Alias pre)
      = windowState ep0 rel.Alias n pre ((lastN n pre).map row)
          ((lastN n pre.dropLast).map row) := by
  induction pre using List.reverseRecOn with
  | nil => simp [processAfter, singleCalls, lastN]
  | append_singleton xs x ih =>
    have hst := ih (fun y hy => hpre y (List.mem_append_left _ hy))
      (fun y hy => hproj y (List.mem_append_left _ hy))
    have hx := hpre x (List.mem_append_right _ (List.mem_singleton_self x))
    rw [singleCalls_append]
    have hone : singleCalls rel.Alias [x] = [(⟨[rel.Alias], [rel.Alias]⟩, x)] := rfl
    rw [hone, processAfter_append, hst]
    simp only
    rw [Process_window_ok L ep0 rel n hrel hrules hcounters hfil hmode row xs _ _ x hx hproj,
      List.dropLast_concat]

/-- C27: on a new all-stream plan over one relation with a window of `n >= 1`
tuples, without filter and grouping, with the default emit rule, the call with
the tuple `t` after the calls with the tuples `pre`, all of the relation and
with projections that succeed, returns the projected rows of the last
`min(k, n)` tuples of `pre ++ [t]` in their order, `k` being the number of the
call: these are `min(k, n)` rows. For `n = 2` and the tuples `int = 1, ..., 4`
the calls return the rows 1; 1 and 2; 2 and 3; 3 and 4. -/
theorem Process_window_rstream (L : Lib) (ep0 : groupbyExecutionPlan)
    (rel : AliasedStreamWindowAST) (n : Nat) (h : singleTupleWindow ep0 rel n)
    (hemit : ep0.emitterType = Emitter.Rstream) (row : Tuple → Map)
    (pre : List Tuple) (t : Tuple)
    (hknown : ∀ x ∈ pre ++ [t], x.InputName = relationKey rel)
    (hproj : ∀ x ∈ pre ++ [t],
      projectRow L (tupleRow L rel.Alias x) ep0.projections [] = .ok (row x)) :
    (Process L (processAfter L ep0 (singleCalls rel.Alias pre)) ⟨[rel.Alias], [rel.Alias]⟩ t).2
        = .ok ((lastN n (pre ++ [t])).map row)
      ∧ ((lastN n (pre ++ [t])).map row).length = min (pre.length + 1) n
      ∧ lastN n (pre ++ [t]) = (pre ++ [t]).drop (pre.length + 1 - n)
      ∧ processResults exSrcLib exRstreamPlan exFour
          = [.ok [exRow 1], .ok [exRow 1, exRow 2], .ok [exRow 2, exRow 3],
              .ok [exRow 3, exRow 4]] := by
  have h0 := windowState_nil ep0 rel n h
  obtain ⟨hrel, -, -, -, hfil, hmode, hrules, hcounters, -, -, -⟩ := h
  have hst := processAfter_window_ok L ep0 rel n hrel hrules hcounters hfil hmode row pre
    (fun x hx => hknown x (List.mem_append_left _ hx))
    (fun x hx => hproj x (List.mem_append_left _ hx))
  rw [h0] at hst
  have ht := hknown t (List.mem_append_right _ (List.mem_singleton_self t))
  rw [hst, Process_window_ok L ep0 rel n hrel hrules hcounters hfil hmode row pre _ _ t ht hproj]
  refine ⟨?_, ?_, ?_, rfl⟩
  · simp only
    unfold computeResultTuples
    have hty : (windowState ep0 rel.Alias n (pre ++ [t]) ((lastN n (pre ++ [t])).map row)
        ((lastN n pre).map row)).emitterType = Emitter.Rstream := hemit
    rw [if_pos hty, emitLoop_eq]
    simp [windowState]
  · rw [List.length_map, lastN_length]
    simp
  · unfold lastN
    simp

/-- C27 at the plan of `SELECT RSTREAM int FROM src [RANGE 2 TUPLES]` for the
third call. -/
theorem Process_window_rstream_witness :
    singleTupleWindow exRstreamPlan exSrcRel 2
      ∧ exRstreamPlan.emitterType = Emitter.Rstream
      ∧ (∀ x ∈ [exTuple "src" 1 0, exTuple "src" 2 1] ++ [exTuple "src" 3 2],
          x.InputName = relationKey exSrcRel)
      ∧ (∀ x ∈ [exTuple "src" 1 0, exTuple "src" 2 1] ++ [exTuple "src" 3 2],
          projectRow exSrcLib (tupleRow exSrcLib exSrcRel.Alias x) exRstreamPlan.projections []
            = .ok (exIntRow x))
      ∧ (Process exSrcLib
          (processAfter exSrcLib exRstreamPlan
            (singleCalls exSrcRel.Alias [exTuple "src" 1 0, exTuple "src" 2 1]))
          ⟨[exSrcRel.Alias], [exSrcRel.Alias]⟩ (exTuple "src" 3 2)).2
        = .ok ((lastN 2 ([exTuple "src" 1 0, exTuple "src" 2 1] ++ [exTuple "src" 3 2])).map
            exIntRow) :=
  have hproj : ∀ x ∈ [exTuple "src" 1 0, exTuple "src" 2 1] ++ [exTuple "src" 3 2],
      projectRow exSrcLib (tupleRow exSrcLib exSrcRel.Alias x) exRstreamPlan.projections []
        = .ok (exIntRow x) := by
    intro x hx
    simp only [List.cons_append, List.nil_append, List.mem_cons, List.mem_singleton,
      List.not_mem_nil, or_false] at hx
    rcases hx with hx | hx | hx <;> subst hx <;> rfl
  ⟨⟨rfl, rfl, rfl, by decide, rfl, rfl, rfl, rfl, rfl, rfl, rfl⟩, rfl, by decide, hproj,
    (Process_window_rstream exSrcLib exRstreamPlan exSrcRel 2
      ⟨rfl, rfl, rfl, by decide, rfl, rfl, rfl, rfl, rfl, rfl, rfl⟩ rfl exIntRow
      [exTuple "src" 1 0, exTuple "src" 2 1] (exTuple "src" 3 2) (by decide) hproj).1⟩

/-- The delete-stream branch of `computeResultTuples`. -/
theorem computeResultTuples_of_dstream (L : Lib) (ep : groupbyExecutionPlan)
    (h : ep.emitterType = Emitter.Dstream) :
    computeResultTuples L ep
      = .ok (ep.prevResults.filter (fun prevRes => !foundInCur L prevRes ep.curResults)) := by
  unfold computeResultTuples
  rw [h]
  simp [emitLoop_eq]

theorem foundInCur_of_mem (L : Lib) (prevRes res : Map) (cur : List Map) (hres : res ∈ cur)
    (heq : L.deepEqual res prevRes = true) : foundInCur L prevRes cur = true := by
  cases hf : foundInCur L prevRes cur with
  | true => rfl
  | false =>
    have := (foundInCur_eq_false_iff L prevRes cur).1 hf res hres
    rw [heq] at this
    cases this

/-- C28: on a new delete-stream plan over one relation with a window of
`n >= 1` tuples, without filter and grouping, with the default emit rule, for
tuples of the relation on which the projections succeed and whose projected
rows are deep-equal to themselves and to no row of another tuple, the call
with the tuple `t` after the calls with the tuples `pre` returns no rows when
its number `k` is at most `n`, and for `k > n` exactly the projected row of the
tuple number `k - n`, which has just left the window. For `n = 2` and the
tuples `int = 1, ..., 4` the calls return nothing, nothing, the row 1 and the
row 2. -/
theorem Process_window_dstream (L : Lib) (ep0 : groupbyExecutionPlan)
    (rel : AliasedStreamWindowAST) (n : Nat) (h : singleTupleWindow ep0 rel n)
    (hemit : ep0.emitterType = Emitter.Dstream) (row : Tuple → Map)
    (pre : List Tuple) (t : Tuple)
    (hknown : ∀ x ∈ pre ++ [t], x.InputName = relationKey rel)
    (hproj : ∀ x ∈ pre ++ [t],
      projectRow L (tupleRow L rel.Alias x) ep0.projections [] = .ok (row x))
    (hrefl : ∀ x ∈ pre ++ [t], L.deepEqual (row x) (row x) = true)
    (hdist : List.Pairwise
      (fun x y => L.deepEqual (row x) (row y) = false ∧ L.deepEqual (row y) (row x) = false)
      (pre ++ [t])) :
    (pre.length + 1 ≤ n →
        (Process L (processAfter L ep0 (singleCalls rel.Alias pre))
          ⟨[rel.Alias], [rel.Alias]⟩ t).2 = .ok [])
      ∧ (n < pre.length + 1 →
          ∃ x, (pre ++ [t])[pre.length - n]? = some x
            ∧ (Process L (processAfter L ep0 (singleCalls rel.Alias pre))
                ⟨[rel.Alias], [rel.Alias]⟩ t).2 = .ok [row x])
      ∧ processResults exSrcLib exDstreamIntPlan exFour
          = [.ok [], .ok [], .ok [exRow 1], .ok [exRow 2]] := by
  have h0 := windowState_nil ep0 rel n h
  obtain ⟨hrel, -, -, hn, hfil, hmode, hrules, hcounters, -, -, -⟩ := h
  have hst := processAfter_window_ok L ep0 rel n hrel hrules hcounters hfil hmode row pre
    (fun x hx => hknown x (List.mem_append_left _ hx))
    (fun x hx => hproj x (List.mem_append_left _ hx))
  rw [h0] at hst
  have ht := hknown t (List.mem_append_right _ (List.mem_singleton_self t))
  rw [hst, Process_window_ok L ep0 rel n hrel hrules hcounters hfil hmode row pre _ _ t ht hproj]
  simp only
  have hty : ∀ (r : List Tuple) (c p : List Map),
      (windowState ep0 rel.Alias n r c p).emitterType = Emitter.Dstream := fun _ _ _ => hemit
  rw [computeResultTuples_of_dstream L _ (hty _ _ _)]
  simp only [windowState]
  have hfound : ∀ x ∈ lastN n (pre ++ [t]), x ∈ pre ++ [t] →
      foundInCur L (row x) ((lastN n (pre ++ [t])).map row) = true :=
    fun x hx hmem => foundInCur_of_mem L _ _ _ (List.mem_map_of_mem row hx) (hrefl x hmem)
  refine ⟨?_, ?_, rfl⟩
  · intro hk
    have h1 : lastN n pre = pre := by
      unfold lastN
      have : pre.length - n = 0 := by omega
      rw [this, List.drop_zero]
    have h2 : lastN n (pre ++ [t]) = pre ++ [t] := by
      unfold lastN
      have : (pre ++ [t]).length - n = 0 := by
        rw [List.length_append, List.length_singleton]
        omega
      rw [this, List.drop_zero]
    rw [h1, h2]
    congr 1
    rw [List.filter_eq_nil_iff]
    intro p hp
    obtain ⟨x, hx, hxp⟩ := List.mem_map.1 hp
    subst hxp
    have hxin : x ∈ pre ++ [t] := List.mem_append_left _ hx
    have := hfound x (by rw [h2]; exact hxin) hxin
    rw [h2] at this
    rw [this]
    simp
  · intro hk
    have hm : pre.length - n < pre.length := by omega
    have hm2 : pre.length - n < (pre ++ [t]).length := by
      rw [List.length_append]
      omega
    have hget : (pre ++ [t])[pre.length - n]? = some pre[pre.length - n] := by
      rw [List.getElem?_append_left hm, List.getElem?_eq_getElem hm]
    refine ⟨pre[pre.length - n], hget, ?_⟩
    have h1 : lastN n pre = pre[pre.length - n] :: pre.drop (pre.length - n + 1) := by
      unfold lastN
      exact List.drop_eq_getElem_cons hm
    have h2 : lastN n (pre ++ [t]) = pre.drop (pre.length - n + 1) ++ [t] := by
      unfold lastN
      have : (pre ++ [t]).length - n = pre.length - n + 1 := by
        rw [List.length_append, List.length_singleton]
        omega
      rw [this, List.drop_append_of_le_length (by omega)]
    have hsplit : pre ++ [t]
        = pre.take (pre.length - n)
          ++ (pre[pre.length - n] :: (pre.drop (pre.length - n + 1) ++ [t])) := by
      rw [← List.cons_append, ← h1]
      unfold lastN
      rw [← List.append_assoc, List.take_append_drop]
    have hpw : ∀ y ∈ pre.drop (pre.length - n + 1) ++ [t],
        L.deepEqual (row y) (row pre[pre.length - n]) = false := by
      rw [hsplit] at hdist
      have hd2 := (List.pairwise_append.1 hdist).2.1
      intro y hy
      exact ((List.pairwise_cons.1 hd2).1 y hy).2
    have hx0 : foundInCur L (row pre[pre.length - n])
        ((pre.drop (pre.length - n + 1) ++ [t]).map row) = false := by
      rw [foundInCur_eq_false_iff]
      intro res hres
      obtain ⟨y, hy, hyr⟩ := List.mem_map.1 hres
      subst hyr
      exact hpw y hy
    rw [h1, h2, List.map_cons, List.filter_cons, hx0]
    simp only [Bool.not_false, if_true]
    congr 2
    rw [List.filter_eq_nil_iff]
    intro p hp
    obtain ⟨x, hx, hxp⟩ := List.mem_map.1 hp
    subst hxp
    have hxin : x ∈ pre ++ [t] := List.mem_append_left _ (List.mem_of_mem_drop hx)
    have hxw : x ∈ lastN n (pre ++ [t]) := by
      rw [h2]
      exact List.mem_append_left _ hx
    have := hfound x hxw hxin
    rw [h2] at this
    rw [this]
    simp

/-- C28 at the plan of `SELECT DSTREAM int FROM src [RANGE 2 TUPLES]` for the
third call, which returns the row of the first tuple. -/
theorem Process_window_dstream_witness :
    singleTupleWindow exDstreamIntPlan exSrcRel 2
      ∧ exDstreamIntPlan.emitterType = Emitter.Dstream
      ∧ (2 : Nat) < [exTuple "src" 1 0, exTuple "src" 2 1].length + 1
      ∧ ∃ x, ([exTuple "src" 1 0, exTuple "src" 2 1] ++ [exTuple "src" 3 2])[
              [exTuple "src" 1 0, exTuple "src" 2 1].length - 2]? = some x
          ∧ (Process exSrcLib
              (processAfter exSrcLib exDstreamIntPlan
                (singleCalls exSrcRel.Alias [exTuple "src" 1 0, exTuple "src" 2 1]))
              ⟨[exSrcRel.Alias], [exSrcRel.Alias]⟩ (exTuple "src" 3 2)).2 = .ok [exIntRow x] :=
  have hproj : ∀ x ∈ [exTuple "src" 1 0, exTuple "src" 2 1] ++ [exTuple "src" 3 2],
      projectRow exSrcLib (tupleRow exSrcLib exSrcRel.Alias x) exDstreamIntPlan.projections []
        = .ok (exIntRow x) := by
    intro x hx
    simp only [List.cons_append, List.nil_append, List.mem_cons, List.mem_singleton,
      List.not_mem_nil, or_false] at hx
    rcases hx with hx | hx | hx <;> subst hx <;> rfl
  have hrefl : ∀ x ∈ [exTuple "src" 1 0, exTuple "src" 2 1] ++ [exTuple "src" 3 2],
      exSrcLib.deepEqual (exIntRow x) (exIntRow x) = true := by
    intro x hx
    simp only [List.cons_append, List.nil_append, List.mem_cons, List.mem_singleton,
      List.not_mem_nil, or_false] at hx
    rcases hx with hx | hx | hx <;> subst hx <;> rfl
  ⟨⟨rfl, rfl, rfl, by decide, rfl, rfl, rfl, rfl, rfl, rfl, rfl⟩, rfl, by decide,
    (Process_window_dstream exSrcLib exDstreamIntPlan exSrcRel 2
      ⟨rfl, rfl, rfl, by decide, rfl, rfl, rfl, rfl, rfl, rfl, rfl⟩ rfl exIntRow
      [exTuple "src" 1 0, exTuple "src" 2 1] (exTuple "src" 3 2) (by decide) hproj hrefl
      (by
        simp only [List.cons_append, List.nil_append, List.pairwise_cons, List.mem_cons,
          List.mem_singleton, List.not_mem_nil, or_false, forall_eq_or_imp, forall_eq,
          List.Pairwise.nil, and_true, false_implies, implies_true]
        decide)).2.1 (by decide)⟩

/-! ## Insert-stream plans with constant projections -/

theorem forTuples_invariant {σ : Type} (P : σ → Prop)
    (body : Tuple → Map → σ → (Map × σ) × Option Failure)
    (hbody : ∀ t h s, P s → P (body t h s).1.2) (tuples : List Tuple) (holder : Map) (s : σ)
    (hs : P s) : P (forTuples body tuples holder s).1.2 := by
  induction tuples generalizing holder s with
  | nil => exact hs
  | cons t rest ih =>
    simp only [forTuples]
    have hb := hbody t holder s hs
    rcases hres : body t holder s with ⟨⟨h1, s1⟩, r⟩
    rw [hres] at hb
    cases r with
    | none => exact ih h1 s1 hb
    | some f => exact hb

/-- What every successful call of `processItem` preserves holds of the state
that `procCartProd` leaves. -/
theorem procCartProd_invariant {σ : Type} (L : Lib) (buffers : AMap inputBuffer)
    (processItem : Map → σ → Except Failure σ) (P : σ → Prop)
    (hstep : ∀ d s s1, P s → processItem d s = .ok s1 → P s1)
    (keys : List String) (holder : Map) (s : σ) (hs : P s) :
    P (procCartProd L buffers processItem keys holder s).1.2 := by
  induction keys generalizing holder s with
  | nil =>
    simp only [procCartProd]
    cases hres : processItem holder s with
    | ok s1 => exact hstep holder s s1 hs hres
    | error f => exact hs
  | cons k rest ih =>
    simp only [procCartProd]
    cases hb : AMap.get buffers k with
    | none => exact hs
    | some b =>
      simp only
      exact forTuples_invariant P _ (fun t h s1 hs1 => ih _ s1 hs1) b.tuples holder s hs

/-- With projections that give the row `r` on every input, every row that a
non-grouping evaluation computes is `r`. -/
theorem queryOutput_const (L : Lib) (ep : groupbyExecutionPlan) (hmode : ep.groupMode = false)
    (r : Map) (hconst : ∀ d, projectRow L d ep.projections [] = .ok r)
    (allStreams : List String) : ∀ x ∈ (queryOutput L ep allStreams).1, x = r := by
  have hinv := procCartProd_invariant L ep.buffers (evalItem L ep)
    (fun acc : evalAcc => ∀ x ∈ acc.output, x = r)
    (by
      intro d s s1 hs hstep
      rw [evalItem_nongrouping L ep hmode] at hstep
      cases hfp : filterPasses L ep.filter d with
      | error e => rw [hfp] at hstep; cases hstep
      | ok b =>
        rw [hfp] at hstep
        cases b with
        | false =>
          simp only [Except.ok.injEq] at hstep
          rw [← hstep]
          exact hs
        | true =>
          simp only [hconst, Except.ok.injEq] at hstep
          rw [← hstep]
          intro x hx
          rcases List.mem_append.1 hx with hx | hx
          · exact hs x hx
          · exact List.mem_singleton.1 hx)
    allStreams [] ⟨[], []⟩ (by intro x hx; cases hx)
  unfold queryOutput
  rcases hres : procCartProd L ep.buffers (evalItem L ep) allStreams []
    (⟨[], []⟩ : evalAcc) with ⟨⟨h2, acc2⟩, f⟩
  rw [hres] at hinv
  cases f with
  | some f1 => exact hinv
  | none =>
    simp only [hmode]
    exact hinv

/-- The insert-stream branch of `computeResultTuples` when every row is the
row `r`, deep-equal to itself: all of `curResults` if `prevResults` is empty,
nothing otherwise. -/
theorem computeResultTuples_istream_const (L : Lib) (ep : groupbyExecutionPlan)
    (hemit : ep.emitterType = Emitter.Istream) (r : Map) (hrefl : L.deepEqual r r = true)
    (hcur : ∀ x ∈ ep.curResults, x = r) (hprev : ∀ x ∈ ep.prevResults, x = r) :
    computeResultTuples L ep
      = .ok (if ep.prevResults.isEmpty then ep.curResults else []) := by
  unfold computeResultTuples
  rw [hemit]
  simp only [reduceCtorEq, if_false, if_true, emitLoop_eq, List.nil_append]
  congr 1
  cases hp : ep.prevResults with
  | nil =>
    simp only [List.isEmpty_nil, if_true]
    rw [List.filter_eq_self]
    intro a _
    rfl
  | cons p rest =>
    simp only [List.isEmpty_cons, Bool.false_eq_true, if_false]
    rw [List.filter_eq_nil_iff]
    intro a ha
    have ha1 := hcur a ha
    have hp1 := hprev p (by rw [hp]; exact List.mem_cons_self _ _)
    subst ha1
    subst hp1
    simp [foundInPrev, hrefl]

theorem inTimeWindow_self (ts w : Int) (hw : 0 ≤ w) : inTimeWindow ts w ts = true := by
  unfold inTimeWindow
  rw [decide_eq_true_iff]
  have hsub : timeSub ts ts = 0 := by
    unfold timeSub maxDuration minDuration
    rw [sub_self]
    norm_num
  rw [hsub]
  have h1 : durationSeconds 0 ≤ 0 := durationSeconds_nonpos 0 (le_refl _)
  have h2 : (0 : Int) ≤ F64.ofInt w := by
    unfold F64.ofInt
    rw [round_of_nonneg _ _ (Int.mul_nonneg hw (Int.natCast_nonneg _))]
    exact Int.natCast_nonneg _
  exact le_trans h1 h2

/-- Eviction right after the insertion of a tuple keeps that tuple, in a window
of at least one tuple and in a window of a non-negative number of seconds. -/
theorem evictBuffer_keeps_newest (B : List Tuple) (u : Tuple) (w : Int) (ty : IntervalUnit)
    (hvalid : (ty = IntervalUnit.Tuples ∧ 1 ≤ w) ∨ (ty = IntervalUnit.Seconds ∧ 0 ≤ w)) :
    ∃ B1, evictBuffer ⟨B ++ [u], w, ty⟩ u.Timestamp = .ok ⟨B1, w, ty⟩ ∧ B1 ≠ []
      ∧ (B = [] → B1 = [u]) := by
  rcases hvalid with ⟨hty, hw⟩ | ⟨hty, hw⟩
  · subst hty
    rw [evictBuffer_tuples _ _ rfl (by show (0 : Int) ≤ w; omega)]
    refine ⟨_, rfl, ?_, ?_⟩
    · simp only [List.length_append, List.length_singleton]
      intro hnil
      have hlen := congrArg List.length hnil
      rw [List.length_drop, List.length_append, List.length_singleton, List.length_nil] at hlen
      omega
    · intro hB
      subst hB
      simp only [List.nil_append, List.length_singleton]
      have : 1 - w.toNat = 0 := by omega
      rw [this, List.drop_zero]
  · subst hty
    rw [evictBuffer_seconds _ _ rfl]
    have hu : inTimeWindow u.Timestamp w u.Timestamp = true := inTimeWindow_self _ _ hw
    refine ⟨_, rfl, ?_, ?_⟩
    · simp only [List.filter_append]
      intro hnil
      have := (List.append_eq_nil.1 hnil).2
      simp [List.filter, hu] at this
    · intro hB
      subst hB
      simp [List.filter, hu]

/-- Insertion and eviction on a plan with one relation and one buffer. -/
theorem streamToRelation_single (ep0 : groupbyExecutionPlan) (rel : AliasedStreamWindowAST)
    (hrel : ep0.relations = [rel]) (b b1 : inputBuffer) (cur prev : List Map)
    (evalOrder : List String) (t : Tuple) (ht : t.InputName = relationKey rel)
    (hev : evictBuffer { b with tuples := b.tuples ++ [nestUnder rel.Alias t] } t.Timestamp
      = .ok b1) :
    streamToRelation (bufferState ep0 rel.Alias b cur prev) ⟨[rel.Alias], evalOrder⟩ t
      = .ok (bufferState ep0 rel.Alias b1 cur prev, nestUnder rel.Alias t) := by
  have hadd : addTupleToBuffer (bufferState ep0 rel.Alias b cur prev) t
      = (({ ep0 with
            buffers := [(rel.Alias, { b with tuples := b.tuples ++ [nestUnder rel.Alias t] })]
            curResults := cur
            prevResults := prev }, nestUnder rel.Alias t), none) := by
    unfold addTupleToBuffer bufferState
    simp only [hrel, List.countP_cons, List.countP_nil, decide_eq_true ht, if_pos ht, if_true,
      Nat.zero_add, Nat.one_ne_zero, if_false, appendLoop, AMap.get, AMap.set, gt_iff_lt,
      Nat.lt_irrefl]
    rfl
  have hev1 : evictBuffer { b with tuples := b.tuples ++ [nestUnder rel.Alias t] }
      (nestUnder rel.Alias t).Timestamp = .ok b1 := hev
  unfold streamToRelation
  rw [hadd]
  simp only
  unfold removeOutdatedTuplesFromBuffer
  simp only [evictLoop, AMap.get, if_true, hev1, AMap.set]
  rfl

/-- Without filter and grouping, with projections that give the row `r` on
every input, the evaluation over one buffer gives one `r` for every tuple. -/
theorem queryOutput_single_const (L : Lib) (ep0 : groupbyExecutionPlan) (a : String)
    (hfil : ep0.filter = none) (hmode : ep0.groupMode = false) (r : Map)
    (hconst : ∀ d, projectRow L d ep0.projections [] = .ok r)
    (b : inputBuffer) (cur prev : List Map) :
    queryOutput L (bufferState ep0 a b cur prev) [a] = (b.tuples.map (fun _ => r), none) := by
  have hitem : evalItem L (bufferState ep0 a b cur prev) = evalItem L ep0 := rfl
  have hprod : cartProd (bufferState ep0 a b cur prev).buffers [a]
      = b.tuples.map (fun t => [t]) := by
    simp only [bufferState, cartProd, AMap.get, if_true, Option.map_some', Option.getD_some]
    exact prependEach_singleton _
  have hrun := procCartProd_run L (bufferState ep0 a b cur prev).buffers
    (evalItem L (bufferState ep0 a b cur prev)) [a]
    (by
      intro k hk
      rw [List.mem_singleton.1 hk]
      simp [bufferState, AMap.get])
    [] (⟨[], []⟩ : evalAcc) (by simp [AMap.keys])
  rw [hprod, hitem, List.map_map,
    runItems_nofilter_ok L ep0 hfil hmode _ (fun d _ => ⟨r, hconst d⟩) ⟨[], []⟩] at hrun
  have hrows : (b.tuples.map ((fun c => writes L [a] c []) ∘ fun t => [t])).filterMap
      (projectedRow L ep0) = b.tuples.map (fun _ => r) := by
    have hp : ∀ d, projectedRow L ep0 d = some r := by
      intro d
      unfold projectedRow
      rw [hfil, hconst d]
      rfl
    induction b.tuples with
    | nil => rfl
    | cons t rest ih => simp only [List.map_cons, List.filterMap_cons, hp, ih]
  rw [hrows] at hrun
  unfold queryOutput
  rw [hitem]
  have hm : (bufferState ep0 a b cur prev).groupMode = false := hmode
  rcases hres : procCartProd L (bufferState ep0 a b cur prev).buffers (evalItem L ep0) [a]
    [] (⟨[], []⟩ : evalAcc) with ⟨⟨h2, acc2⟩, f⟩
  rw [hres] at hrun
  simp only [List.nil_append, Prod.mk.injEq] at hrun
  obtain ⟨hacc, hf⟩ := hrun
  subst hacc hf
  simp [hm]

/-- The calls on a new insert-stream plan over one relation with projections
that give the row `r` on every input: the state after the calls. -/
theorem processAfter_single_const (L : Lib) (ep0 : groupbyExecutionPlan)
    (rel : AliasedStreamWindowAST) (h : singleWindowPlan ep0 rel) (r : Map)
    (hconst : ∀ d, projectRow L d ep0.projections [] = .ok r)
    (pre : List Tuple) (hpre : ∀ x ∈ pre, x.InputName = relationKey rel) :
    ∃ B prev, processAfter L ep0 (singleCalls rel.Alias pre)
        = bufferState ep0 rel.Alias ⟨B, rel.Value, rel.Unit⟩ (B.map (fun _ => r)) prev
      ∧ (pre = [] → B = []) ∧ (pre ≠ [] → B ≠ []) := by
  obtain ⟨hrel, hvalid, hfil, hmode, hrules, hcounters, hb, hc, hp⟩ := h
  induction pre using List.reverseRecOn with
  | nil =>
    refine ⟨[], [], ?_, fun _ => rfl, fun hne => absurd rfl hne⟩
    obtain ⟨projections, groupList, filter, groupMode, emitterType, emitterRules, emitCounters,
      relations, buffers, curResults, prevResults⟩ := ep0
    simp only at hb hc hp
    subst hb hc hp
    rfl
  | append_singleton xs x ih =>
    obtain ⟨B, prev, hst, -, -⟩ := ih (fun y hy => hpre y (List.mem_append_left _ hy))
    have hx := hpre x (List.mem_append_right _ (List.mem_singleton_self x))
    obtain ⟨B1, hev, hne, -⟩ := evictBuffer_keeps_newest B (nestUnder rel.Alias x) rel.Value
      rel.Unit hvalid
    have hstr := streamToRelation_single ep0 rel hrel ⟨B, rel.Value, rel.Unit⟩
      ⟨B1, rel.Value, rel.Unit⟩ (B.map (fun _ => r)) prev [rel.Alias] x hx hev
    rw [singleCalls_append]
    have hone : singleCalls rel.Alias [x] = [(⟨[rel.Alias], [rel.Alias]⟩, x)] := rfl
    rw [hone, processAfter_append, hst]
    simp only
    rw [Process_of_streamToRelation L _ _ x _ _ hstr,
      shouldEmitNow_default (bufferState ep0 rel.Alias ⟨B1, rel.Value, rel.Unit⟩
        (B.map (fun _ => r)) prev) (nestUnder rel.Alias x) hrules hcounters]
    simp only
    rw [performQueryOnBuffer_eq, queryOutput_single_const L ep0 rel.Alias hfil hmode r hconst]
    exact ⟨B1, B.map (fun _ => r), rfl, fun hnil => absurd hnil (by simp), fun _ => hne⟩

/-- A firing, successful call on an insert-stream plan without grouping whose
projections give the row `r` on every input and whose last results are rows
`r`: all new rows are `r`, and they are emitted if there were no last results. -/
theorem Process_istream_const_step (L : Lib) (r : Map) (hrefl : L.deepEqual r r = true)
    (ep : groupbyExecutionPlan) (o : IterOrder) (t : Tuple)
    (ep2 : groupbyExecutionPlan) (t1 : Tuple) (ep3 : groupbyExecutionPlan)
    (hemit : ep.emitterType = Emitter.Istream) (hmode : ep.groupMode = false)
    (hconst : ∀ d, projectRow L d ep.projections [] = .ok r)
    (hcur : ∀ x ∈ ep.curResults, x = r)
    (hstr : streamToRelation ep o t = .ok (ep2, t1))
    (hgate : shouldEmitNow ep2 t1 = (ep3, .ok true))
    (hq : (performQueryOnBuffer L ep3 o.eval).2 = none) :
    (Process L ep o t).2
        = .ok (if ep.curResults.isEmpty then (Process L ep o t).1.curResults else [])
      ∧ (Process L ep o t).1.prevResults = ep.curResults
      ∧ ∀ x ∈ (Process L ep o t).1.curResults, x = r := by
  have hst := evaluation_state ep o t ep2 t1 ep3 (.ok true) hstr hgate
  have h3cur : ep3.curResults = ep.curResults := by rw [hst]
  have h3emit : ep3.emitterType = Emitter.Istream := by rw [hst]; exact hemit
  have h3mode : ep3.groupMode = false := by rw [hst]; exact hmode
  have h3const : ∀ d, projectRow L d ep3.projections [] = .ok r := by
    rw [hst]; exact hconst
  have hout := queryOutput_const L ep3 h3mode r h3const o.eval
  rw [Process_of_streamToRelation L ep o t ep2 t1 hstr, hgate]
  simp only
  rw [performQueryOnBuffer_eq] at hq ⊢
  rcases hres : queryOutput L ep3 o.eval with ⟨out, f⟩
  rw [hres] at hq hout
  cases f with
  | some f1 => simp at hq
  | none =>
    simp only at hout ⊢
    have hc := computeResultTuples_istream_const L
      { ep3 with prevResults := ep3.curResults, curResults := out } h3emit r hrefl hout
      (by
        intro x hx
        have hx1 : x ∈ ep3.curResults := hx
        rw [h3cur] at hx1
        exact hcur x hx1)
    rw [hc]
    simp only [h3cur]
    exact ⟨trivial, trivial, hout⟩

/-- A call on an insert-stream plan over one relation with the default rule
whose projections give the row `r` on every input: the first call returns the
row `r`, every later call returns no row. -/
theorem Process_single_istream_const (L : Lib) (r : Map) (hrefl : L.deepEqual r r = true)
    (ep0 : groupbyExecutionPlan) (rel : AliasedStreamWindowAST)
    (h : singleWindowPlan ep0 rel) (hemit : ep0.emitterType = Emitter.Istream)
    (hconst : ∀ d, projectRow L d ep0.projections [] = .ok r)
    (pre : List Tuple) (t : Tuple)
    (hpre : ∀ x ∈ pre, x.InputName = relationKey rel) (ht : t.InputName = relationKey rel) :
    (Process L (processAfter L ep0 (singleCalls rel.Alias pre))
        ⟨[rel.Alias], [rel.Alias]⟩ t).2 = .ok (if pre.isEmpty then [r] else []) := by
  obtain ⟨B, prev, hst, hnil, hne⟩ := processAfter_single_const L ep0 rel h r hconst pre hpre
  obtain ⟨hrel, hvalid, hfil, hmode, hrules, hcounters, hb, hc, hp⟩ := h
  obtain ⟨B1, hev, hne1, hone⟩ := evictBuffer_keeps_newest B (nestUnder rel.Alias t) rel.Value
    rel.Unit hvalid
  have hstr := streamToRelation_single ep0 rel hrel ⟨B, rel.Value, rel.Unit⟩
    ⟨B1, rel.Value, rel.Unit⟩ (B.map (fun _ => r)) prev [rel.Alias] t ht hev
  rw [hst, Process_of_streamToRelation L _ _ t _ _ hstr,
    shouldEmitNow_default (bufferState ep0 rel.Alias ⟨B1, rel.Value, rel.Unit⟩
      (B.map (fun _ => r)) prev) (nestUnder rel.Alias t) hrules hcounters]
  simp only
  rw [performQueryOnBuffer_eq, queryOutput_single_const L ep0 rel.Alias hfil hmode r hconst]
  simp only
  refine (computeResultTuples_istream_const L _ (by exact hemit) r hrefl
    (by
      intro x hx
      have hx1 : x ∈ B1.map (fun _ => r) := hx
      obtain ⟨_, -, hy⟩ := List.mem_map.1 hx1
      exact hy.symm)
    (by
      intro x hx
      have hx1 : x ∈ B.map (fun _ => r) := hx
      obtain ⟨_, -, hy⟩ := List.mem_map.1 hx1
      exact hy.symm)).trans ?_
  congr 1
  cases pre with
  | nil =>
    have hB := hnil rfl
    subst hB
    rw [hone rfl]
    rfl
  | cons x xs =>
    have hB := hne (List.cons_ne_nil x xs)
    cases B with
    | nil => exact absurd rfl hB
    | cons b bs => rfl

/-! ## C30 -/

/-- C30, not as stated: the number of rows that an insert-stream plan with
constant projections emits is not one in general. The plan that
`NewGroupbyExecutionPlan` builds for
`SELECT ISTREAM [EVERY 2 TUPLES] 2, null FROM src [RANGE 2 TUPLES]` emits the
row of the constants twice at the second of four calls, its first evaluation. -/
theorem Process_istream_constant_counterexample :
    NewGroupbyExecutionPlan exConstLib exConstLp exReg = .ok exConstEvery2Plan
      ∧ processResults exConstLib exConstEvery2Plan exFour
        = [.ok [], .ok [exConstRow, exConstRow], .ok [], .ok []] :=
  ⟨rfl, rfl⟩

/-- C30, as the code has it: on an insert-stream plan without grouping whose
projections give the same row `r` on every input, `r` deep-equal to itself,
with last results that are rows `r`, a firing and successful call emits all
rows of its evaluation, each one `r`, if the last results are empty, and none
otherwise. For a new plan over one relation with the default emit rule and a
window of at least one tuple or of a non-negative number of seconds, the first
call of a run emits exactly the one row `r` and every later call emits nothing,
as for `SELECT ISTREAM 2, null FROM src [RANGE 2 SECONDS]` and four tuples. -/
theorem Process_istream_constant (L : Lib) (r : Map) (hrefl : L.deepEqual r r = true) :
    (∀ (ep : groupbyExecutionPlan) (o : IterOrder) (t : Tuple)
        (ep2 : groupbyExecutionPlan) (t1 : Tuple) (ep3 : groupbyExecutionPlan),
        ep.emitterType = Emitter.Istream → ep.groupMode = false →
        (∀ d, projectRow L d ep.projections [] = .ok r) →
        (∀ x ∈ ep.curResults, x = r) →
        streamToRelation ep o t = .ok (ep2, t1) →
        shouldEmitNow ep2 t1 = (ep3, .ok true) →
        (performQueryOnBuffer L ep3 o.eval).2 = none →
        (Process L ep o t).2
            = .ok (if ep.curResults.isEmpty then (Process L ep o t).1.curResults else [])
          ∧ (Process L ep o t).1.prevResults = ep.curResults
          ∧ ∀ x ∈ (Process L ep o t).1.curResults, x = r)
      ∧ (∀ (ep0 : groupbyExecutionPlan) (rel : AliasedStreamWindowAST),
        singleWindowPlan ep0 rel → ep0.emitterType = Emitter.Istream →
        (∀ d, projectRow L d ep0.projections [] = .ok r) →
        ∀ (pre : List Tuple) (t : Tuple),
          (∀ x ∈ pre, x.InputName = relationKey rel) → t.InputName = relationKey rel →
          (Process L (processAfter L ep0 (singleCalls rel.Alias pre))
              ⟨[rel.Alias], [rel.Alias]⟩ t).2 = .ok (if pre.isEmpty then [r] else []))
      ∧ processResults exConstLib exConstSecondsPlan exFour
        = [.ok [exConstRow], .ok [], .ok [], .ok []] := by
  refine ⟨?_, ?_, by set_option maxRecDepth 8000 in rfl⟩
  · intro ep o t ep2 t1 ep3 hemit hmode hconst hcur hstr hgate hq
    exact Process_istream_const_step L r hrefl ep o t ep2 t1 ep3 hemit hmode hconst hcur hstr
      hgate hq
  · intro ep0 rel h hemit hconst pre t hpre ht
    exact Process_single_istream_const L r hrefl ep0 rel h hemit hconst pre t hpre ht

theorem Process_istream_constant_witness :
    exConstLib.deepEqual exConstRow exConstRow = true
      ∧ singleWindowPlan exConstSecondsPlan exSrcSecondsRel
      ∧ (Process exConstLib exConstSecondsPlan ⟨["src"], ["src"]⟩ (exTuple "src" 1 0)).2
        = .ok [exConstRow]
      ∧ (Process exConstLib
          (processAfter exConstLib exConstSecondsPlan
            (singleCalls "src" [exTuple "src" 1 0, exTuple "src" 2 1]))
          ⟨["src"], ["src"]⟩ (exTuple "src" 3 2)).2 = .ok [] :=
  have hw : singleWindowPlan exConstSecondsPlan exSrcSecondsRel :=
    ⟨rfl, Or.inr ⟨rfl, by decide⟩, rfl, rfl, rfl, rfl, rfl, rfl, rfl⟩
  ⟨rfl, hw,
    (Process_istream_constant exConstLib exConstRow rfl).2.1 exConstSecondsPlan exSrcSecondsRel
      hw rfl (fun _ => rfl) [] (exTuple "src" 1 0) (by intro x hx; cases hx) rfl,
    (Process_istream_constant exConstLib exConstRow rfl).2.1 exConstSecondsPlan exSrcSecondsRel
      hw rfl (fun _ => rfl) [exTuple "src" 1 0, exTuple "src" 2 1] (exTuple "src" 3 2)
      (by
        intro x hx
        simp only [List.mem_cons, List.mem_singleton, List.not_mem_nil, or_false] at hx
        rcases hx with hx | hx <;> subst hx <;> rfl)
      rfl⟩

/-! ## Self-joins -/

/-- The plan after a call of `Process` has the relations of the plan before,
and the buffers as insertion and eviction leave them. -/
theorem Process_state_buffers (L : Lib) (ep : groupbyExecutionPlan) (o : IterOrder)
    (t : Tuple) :
    (Process L ep o t).1.relations = ep.relations
      ∧ (Process L ep o t).1.buffers
        = match addTupleToBuffer ep t with
          | ((ep1, _), some _) => ep1.buffers
          | ((ep1, t1), none) => (evictLoop t1.Timestamp o.evict ep1.buffers).1 := by
  obtain ⟨a1, -, -⟩ := addTupleToBuffer_frame ep t
  unfold Process
  rcases hadd : addTupleToBuffer ep t with ⟨⟨ep1, u⟩, r⟩
  rw [hadd] at a1
  simp only at a1
  have hrel1 : ep1.relations = ep.relations := by rw [a1]
  cases r with
  | some f => exact ⟨hrel1, rfl⟩
  | none =>
    simp only
    unfold removeOutdatedTuplesFromBuffer
    rcases hev : evictLoop u.Timestamp o.evict ep1.buffers with ⟨bufs, r2⟩
    cases r2 with
    | some f => exact ⟨hrel1, rfl⟩
    | none =>
      simp only
      obtain ⟨counters, hfr⟩ := shouldEmitNow_frame { ep1 with buffers := bufs } u
      rcases hgate : shouldEmitNow { ep1 with buffers := bufs } u with ⟨ep3, g⟩
      rw [hgate] at hfr
      simp only at hfr
      cases g with
      | error f => simp only; rw [hfr]; exact ⟨hrel1, rfl⟩
      | ok b =>
        cases b with
        | false => simp only; rw [hfr]; exact ⟨hrel1, rfl⟩
        | true =>
          simp only
          rw [performQueryOnBuffer_eq]
          rcases hq : queryOutput L ep3 o.eval with ⟨out, f⟩
          cases f with
          | some f1 => simp only; rw [hfr]; exact ⟨hrel1, rfl⟩
          | none => simp only; rw [hfr]; exact ⟨hrel1, rfl⟩

/-- Eviction looks at the number of tuples and at their timestamps only: on
the images of tuples under maps that keep the timestamp it fails in the same
way, or keeps the images of the same tuples. -/
theorem evictBuffer_cases (xs : List Tuple) (w : Int) (u : IntervalUnit) (ts : Time) :
    (∃ f, ∀ g : Tuple → Tuple, (∀ x, (g x).Timestamp = x.Timestamp) →
        evictBuffer ⟨xs.map g, w, u⟩ ts = .error f)
      ∨ ∃ ys, List.Sublist ys xs ∧ ∀ g : Tuple → Tuple, (∀ x, (g x).Timestamp = x.Timestamp) →
        evictBuffer ⟨xs.map g, w, u⟩ ts = .ok ⟨ys.map g, w, u⟩ := by
  by_cases hu : u = IntervalUnit.Tuples
  · subst hu
    by_cases hgt : (xs.length : Int) > w
    · by_cases hlow : 0 ≤ (xs.length : Int) - w ∧ (xs.length : Int) - w ≤ xs.length
      · refine Or.inr ⟨xs.drop ((xs.length : Int) - w).toNat, List.drop_sublist _ _, ?_⟩
        intro g _
        unfold evictBuffer
        simp only [List.length_map, if_true, hgt, hlow, and_self, List.map_drop]
      · refine Or.inl ⟨Failure.panic Panic.sliceBounds, ?_⟩
        intro g _
        unfold evictBuffer
        simp only [List.length_map, if_true, hgt, hlow, if_false]
    · refine Or.inr ⟨xs, List.Sublist.refl _, ?_⟩
      intro g _
      unfold evictBuffer
      simp only [List.length_map, if_true, hgt, if_false]
  · by_cases hs : u = IntervalUnit.Seconds
    · subst hs
      refine Or.inr ⟨xs.filter (fun tup => inTimeWindow ts w tup.Timestamp),
        List.filter_sublist _, ?_⟩
      intro g hg
      unfold evictBuffer
      have hcomp : ((fun tup : Tuple => inTimeWindow ts w tup.Timestamp) ∘ g)
          = fun tup => inTimeWindow ts w tup.Timestamp := by
        funext x
        simp only [Function.comp, hg]
      simp only [reduceCtorEq, if_false, if_true, List.filter_map, hcomp]
    · refine Or.inl ⟨Failure.error Err.unknownWindowType, ?_⟩
      intro g _
      unfold evictBuffer
      simp only [hu, hs, if_false]

theorem keyOrder_pair {β : Type} (order : List String) (a1 a2 : String) (b1 b2 : β)
    (hne : a1 ≠ a2) (h : keyOrder order [(a1, b1), (a2, b2)]) :
    order = [a1, a2] ∨ order = [a2, a1] := by
  obtain ⟨hnd, hmem⟩ := h
  have hm : ∀ k, k ∈ order ↔ k = a1 ∨ k = a2 := by
    intro k
    rw [hmem k]
    by_cases h1 : a1 = k
    · subst h1
      simp [AMap.get]
    · by_cases h2 : a2 = k
      · subst h2
        simp [AMap.get, h1]
      · have h1a : ¬ k = a1 := fun e => h1 e.symm
        have h2a : ¬ k = a2 := fun e => h2 e.symm
        simp [AMap.get, h1, h2, h1a, h2a]
  have hperm : List.Perm order [a1, a2] := by
    rw [List.perm_ext_iff_of_nodup hnd (by simp [hne])]
    intro k
    rw [hm k]
    simp
  have hlen := hperm.length_eq
  match order, hlen, hm with
  | [x, y], _, hm =>
    have hx := (hm x).1 (by simp)
    have hy := (hm y).1 (by simp)
    have h1 := (hm a1).2 (Or.inl rfl)
    have h2 := (hm a2).2 (Or.inr rfl)
    simp only [List.mem_cons, List.mem_singleton, List.not_mem_nil, or_false] at h1 h2
    rcases hx with hx | hx <;> rcases hy with hy | hy
    · subst hx hy
      rcases h2 with h2 | h2 <;> exact absurd h2.symm hne
    · subst hx hy
      exact Or.inl rfl
    · subst hx hy
      exact Or.inr rfl
    · subst hx hy
      rcases h1 with h1 | h1 <;> exact absurd h1 hne

/-- The eviction loop on the buffers of a self-join, in either order of the two
keys: it leaves in both buffers the same tuples. -/
theorem evictLoop_selfjoin (ts : Time) (order : List String) (a1 a2 : String) (hne : a1 ≠ a2)
    (w : Int) (u : IntervalUnit) (xs : List Tuple)
    (hord : order = [a1, a2] ∨ order = [a2, a1]) :
    ∃ ys, List.Sublist ys xs
      ∧ (evictLoop ts order (selfJoinBuffers a1 a2 w u xs)).1 = selfJoinBuffers a1 a2 w u ys := by
  have hne2 : a2 ≠ a1 := fun e => hne e.symm
  have hts : ∀ a x, (nestUnder a x).Timestamp = x.Timestamp := fun _ _ => rfl
  rcases evictBuffer_cases xs w u ts with ⟨f, hf⟩ | ⟨ys, hsub, hys⟩
  · refine ⟨xs, List.Sublist.refl _, ?_⟩
    rcases hord with h | h <;> subst h
    · simp only [evictLoop, selfJoinBuffers, AMap.get, if_true, hf _ (hts a1)]
    · simp only [evictLoop, selfJoinBuffers, AMap.get, if_true, hne, if_false,
        hf _ (hts a2)]
  · refine ⟨ys, hsub, ?_⟩
    rcases hord with h | h <;> subst h
    · simp only [evictLoop, selfJoinBuffers, AMap.get, AMap.set, if_true, hne, hne2, if_false,
        hys _ (hts a1), hys _ (hts a2)]
    · simp only [evictLoop, selfJoinBuffers, AMap.get, AMap.set, if_true, hne, hne2, if_false,
        hys _ (hts a1), hys _ (hts a2)]

/-- Insertion into the buffers of a self-join: the tuple goes into both
buffers, nested under the alias of each. -/
theorem addTupleToBuffer_selfjoin (ep : groupbyExecutionPlan) (r1 r2 : AliasedStreamWindowAST)
    (hrel : ep.relations = [r1, r2]) (hkey : relationKey r1 = relationKey r2)
    (hne : r1.Alias ≠ r2.Alias) (w : Int) (u : IntervalUnit) (xs : List Tuple)
    (hbuf : ep.buffers = selfJoinBuffers r1.Alias r2.Alias w u xs) (t : Tuple)
    (ht : t.InputName = relationKey r1) :
    addTupleToBuffer ep t
      = (({ ep with buffers := selfJoinBuffers r1.Alias r2.Alias w u (xs ++ [t]) }, t), none) := by
  have hne2 : r2.Alias ≠ r1.Alias := fun e => hne e.symm
  have ht2 : t.InputName = relationKey r2 := ht.trans hkey
  have h2 : (1 + 1 > 1) = True := by simp
  have h0 : (1 + 1 = 0) = False := by simp
  unfold addTupleToBuffer
  simp only [hrel, hbuf, List.countP_cons, List.countP_nil, decide_eq_true ht,
    decide_eq_true ht2, if_pos ht, if_true, Nat.zero_add, appendLoop, AMap.get,
    AMap.set, selfJoinBuffers, hne, hne2, if_false, List.map_append, List.map_cons, List.map_nil,
    h2, h0, if_pos ht2]
  rfl

/-- One call of `Process` on a self-join: the two buffers hold the same
tuples afterwards, tuples held before or the tuple of the call. -/
theorem Process_selfjoin_step (L : Lib) (ep : groupbyExecutionPlan)
    (r1 r2 : AliasedStreamWindowAST)
    (hrel : ep.relations = [r1, r2]) (hkey : relationKey r1 = relationKey r2)
    (hne : r1.Alias ≠ r2.Alias) (w : Int) (u : IntervalUnit) (xs : List Tuple)
    (hbuf : ep.buffers = selfJoinBuffers r1.Alias r2.Alias w u xs) (o : IterOrder) (t : Tuple)
    (ho : keyOrder o.evict ep.buffers) :
    (Process L ep o t).1.relations = [r1, r2]
      ∧ ∃ ys, List.Sublist ys (xs ++ [t])
        ∧ (Process L ep o t).1.buffers = selfJoinBuffers r1.Alias r2.Alias w u ys := by
  obtain ⟨p1, p2⟩ := Process_state_buffers L ep o t
  refine ⟨p1.trans hrel, ?_⟩
  rw [p2]
  by_cases ht : t.InputName = relationKey r1
  · rw [addTupleToBuffer_selfjoin ep r1 r2 hrel hkey hne w u xs hbuf t ht]
    simp only
    rw [hbuf] at ho
    exact evictLoop_selfjoin t.Timestamp o.evict r1.Alias r2.Alias hne w u (xs ++ [t])
      (keyOrder_pair o.evict _ _ _ _ hne ho)
  · have ht2 : ¬ t.InputName = relationKey r2 := fun e => ht (e.trans hkey.symm)
    have hadd : addTupleToBuffer ep t
        = ((ep, t), some (Failure.error
            (Err.unknownInputName t.InputName (ep.relations.map (fun rel => rel.Name))))) := by
      unfold addTupleToBuffer
      simp [hrel, ht, ht2]
    rw [hadd]
    exact ⟨xs, List.sublist_append_left _ _, hbuf⟩

theorem keyOrder_selfJoinBuffers (order : List String) (a1 a2 : String) (w : Int)
    (u : IntervalUnit) (xs ys : List Tuple)
    (h : keyOrder order (selfJoinBuffers a1 a2 w u xs)) :
    keyOrder order (selfJoinBuffers a1 a2 w u ys) := by
  obtain ⟨hnd, hm⟩ := h
  refine ⟨hnd, fun k => ?_⟩
  rw [hm k]
  by_cases h1 : a1 = k <;> by_cases h2 : a2 = k <;> simp [selfJoinBuffers, AMap.get, h1, h2]

/-- The buffers of a new plan over two relations with different aliases and the
same window. -/
theorem NewGroupbyExecutionPlan_selfjoin (L : Lib) (lp : LogicalPlan) (reg : FunctionRegistry)
    (ep0 : groupbyExecutionPlan) (r1 r2 : AliasedStreamWindowAST)
    (hnew : NewGroupbyExecutionPlan L lp reg = .ok ep0) (hrel : lp.Relations = [r1, r2])
    (hne : r1.Alias ≠ r2.Alias) (hv : r2.Value = r1.Value) (hu : r2.Unit = r1.Unit) :
    ep0.relations = [r1, r2]
      ∧ ep0.buffers = selfJoinBuffers r1.Alias r2.Alias r1.Value r1.Unit [] := by
  obtain ⟨projs, filter, groupList, buffers, tables, -, -, -, hbufs, -, hep⟩ :=
    NewGroupbyExecutionPlan_ok L lp reg ep0 hnew
  subst hep
  refine ⟨hrel, ?_⟩
  rw [hrel] at hbufs
  simp only [initBuffers] at hbufs
  split at hbufs
  · cases hbufs
  · split at hbufs
    · cases hbufs
    · simp only [Except.ok.injEq] at hbufs
      rw [← hbufs, hv, hu]
      simp [AMap.set, selfJoinBuffers, hne]

/-- The calls on a new self-join plan: the two buffers hold the same tuples
after every one of them. -/
theorem processAfter_selfjoin (L : Lib) (ep0 : groupbyExecutionPlan)
    (r1 r2 : AliasedStreamWindowAST) (hrel : ep0.relations = [r1, r2])
    (hkey : relationKey r1 = relationKey r2) (hne : r1.Alias ≠ r2.Alias)
    (w : Int) (u : IntervalUnit)
    (hbuf : ep0.buffers = selfJoinBuffers r1.Alias r2.Alias w u [])
    (calls : List (IterOrder × Tuple))
    (horder : ∀ c ∈ calls, keyOrder c.1.evict ep0.buffers) :
    (processAfter L ep0 calls).relations = [r1, r2]
      ∧ ∃ originals, List.Sublist originals (calls.map Prod.snd)
        ∧ (processAfter L ep0 calls).buffers
          = selfJoinBuffers r1.Alias r2.Alias w u originals := by
  induction calls using List.reverseRecOn with
  | nil => exact ⟨hrel, [], List.Sublist.refl _, hbuf⟩
  | append_singleton cs c ih =>
    obtain ⟨i1, xs, isub, i2⟩ := ih (fun d hd => horder d (List.mem_append_left _ hd))
    have hc := horder c (List.mem_append_right _ (List.mem_singleton_self c))
    rw [hbuf] at hc
    have hc1 : keyOrder c.1.evict (processAfter L ep0 cs).buffers := by
      rw [i2]
      exact keyOrder_selfJoinBuffers _ _ _ _ _ _ _ hc
    obtain ⟨s1, ys, ysub, s2⟩ := Process_selfjoin_step L (processAfter L ep0 cs) r1 r2 i1 hkey
      hne w u xs i2 c.1 c.2 hc1
    rw [processAfter_append]
    refine ⟨s1, ys, ?_, s2⟩
    rw [List.map_append]
    exact ysub.trans (List.Sublist.append isub (List.Sublist.refl _))

/-! ## C29 -/

/-- C29: on a plan that `NewGroupbyExecutionPlan` has built for two relations
over the same stream (the same `relationKey`) with different aliases and the
same window, after every sequence of `Process` calls, each ranging over both
buffer keys in one of the two orders in its eviction loop, the two buffers hold
the same original tuples in the same order (tuples of the calls, in the
order of the calls), those of each buffer with the data nested under the alias
of that buffer. For
`SELECT ISTREAM src1:x AS l, src2:x AS r FROM src [RANGE 2 TUPLES] AS src1,
src [RANGE 2 TUPLES] AS src2 WHERE src1:int + 1 = src2:int` and eight tuples
with `int = 1, ..., 8` and `x = x0, ..., x7` the first call returns no row and
call `i >= 1` the one row `l = x(i-1), r = xi`, in every order of the loops. -/
theorem Process_selfjoin (L : Lib) (lp : LogicalPlan) (reg : FunctionRegistry)
    (ep0 : groupbyExecutionPlan) (r1 r2 : AliasedStreamWindowAST)
    (hnew : NewGroupbyExecutionPlan L lp reg = .ok ep0) (hrel : lp.Relations = [r1, r2])
    (hkey : relationKey r1 = relationKey r2) (hne : r1.Alias ≠ r2.Alias)
    (hv : r2.Value = r1.Value) (hu : r2.Unit = r1.Unit)
    (calls : List (IterOrder × Tuple))
    (horder : ∀ c ∈ calls, keyOrder c.1.evict ep0.buffers) :
    (∃ originals, List.Sublist originals (calls.map Prod.snd)
        ∧ (processAfter L ep0 calls).buffers
          = [(r1.Alias, ⟨originals.map (nestUnder r1.Alias), r1.Value, r1.Unit⟩),
              (r2.Alias, ⟨originals.map (nestUnder r2.Alias), r2.Value, r2.Unit⟩)])
      ∧ NewGroupbyExecutionPlan exSelfCondLib exSelfCondLp exReg = .ok exSelfCondPlan
      ∧ processResults exSelfCondLib exSelfCondPlan
          (exSelfCalls ⟨["src1", "src2"], ["src1", "src2"]⟩) = exSelfResults
      ∧ processResults exSelfCondLib exSelfCondPlan
          (exSelfCalls ⟨["src2", "src1"], ["src1", "src2"]⟩) = exSelfResults
      ∧ processResults exSelfCondLib exSelfCondPlan
          (exSelfCalls ⟨["src1", "src2"], ["src2", "src1"]⟩) = exSelfResults
      ∧ processResults exSelfCondLib exSelfCondPlan
          (exSelfCalls ⟨["src2", "src1"], ["src2", "src1"]⟩) = exSelfResults := by
  obtain ⟨n1, n2⟩ := NewGroupbyExecutionPlan_selfjoin L lp reg ep0 r1 r2 hnew hrel hne hv hu
  obtain ⟨-, xs, hsub, hb⟩ := processAfter_selfjoin L ep0 r1 r2 n1 hkey hne r1.Value r1.Unit n2
    calls horder
  refine ⟨⟨xs, hsub, ?_⟩, rfl, by set_option maxRecDepth 8000 in rfl,
    by set_option maxRecDepth 8000 in rfl, by set_option maxRecDepth 8000 in rfl,
    by set_option maxRecDepth 8000 in rfl⟩
  rw [hb, hv, hu]
  rfl

theorem Process_selfjoin_witness :
    NewGroupbyExecutionPlan exSelfCondLib exSelfCondLp exReg = .ok exSelfCondPlan
      ∧ ∃ originals,
        List.Sublist originals
            ((exSelfCalls ⟨["src2", "src1"], ["src1", "src2"]⟩).map Prod.snd)
          ∧ (processAfter exSelfCondLib exSelfCondPlan
                (exSelfCalls ⟨["src2", "src1"], ["src1", "src2"]⟩)).buffers
            = [("src1", ⟨originals.map (nestUnder "src1"), 2, IntervalUnit.Tuples⟩),
                ("src2", ⟨originals.map (nestUnder "src2"), 2, IntervalUnit.Tuples⟩)] :=
  ⟨rfl,
    (Process_selfjoin exSelfCondLib exSelfCondLp exReg exSelfCondPlan
      ⟨StreamType.ActualStream, "src", 2, IntervalUnit.Tuples, "src1"⟩
      ⟨StreamType.ActualStream, "src", 2, IntervalUnit.Tuples, "src2"⟩
      rfl rfl rfl (by decide) rfl rfl
      (exSelfCalls ⟨["src2", "src1"], ["src1", "src2"]⟩)
      (by
        intro c hc
        have h1 : c.1.evict = ["src2", "src1"] := by
          simp only [exSelfCalls, List.mem_map] at hc
          obtain ⟨i, -, hi⟩ := hc
          rw [← hi]
        rw [h1]
        refine ⟨by decide, fun k => ?_⟩
        by_cases k1 : "src1" = k
        · subst k1
          simp [exSelfCondPlan, AMap.get]
        · by_cases k2 : "src2" = k
          · subst k2
            simp [exSelfCondPlan, AMap.get]
          · have k1a : ¬ k = "src1" := fun e => k1 e.symm
            have k2a : ¬ k = "src2" := fun e => k2 e.symm
            simp [exSelfCondPlan, AMap.get, k1, k2, k1a, k2a])).1⟩

/-! ## Grouping mode -/

mutual
theorem Value.beq_iff : ∀ a b : Value, Value.beq a b = true ↔ a = b
  | .nil, b => by cases b <;> simp [Value.beq]
  | .null, b => by cases b <;> simp [Value.beq]
  | .bool x, b => by cases b <;> simp [Value.beq]
  | .int x, b => by cases b <;> simp [Value.beq]
  | .float x, b => by cases b <;> simp [Value.beq]
  | .string x, b => by cases b <;> simp [Value.beq]
  | .blob x, b => by cases b <;> simp [Value.beq]
  | .timestamp x, b => by cases b <;> simp [Value.beq]
  | .array xs, b => by
    cases b <;> simp [Value.beq]
    exact Value.beqList_iff xs _
  | .map xs, b => by
    cases b <;> simp [Value.beq]
    exact Value.beqKvs_iff xs _
theorem Value.beqList_iff : ∀ xs ys : List Value, Value.beqList xs ys = true ↔ xs = ys
  | [], ys => by cases ys <;> simp [Value.beqList]
  | x :: xs, ys => by
    cases ys with
    | nil => simp [Value.beqList]
    | cons y ys =>
      simp [Value.beqList, Value.beq_iff x y, Value.beqList_iff xs ys]
theorem Value.beqKvs_iff : ∀ xs ys : List (String × Value), Value.beqKvs xs ys = true ↔ xs = ys
  | [], ys => by cases ys <;> simp [Value.beqKvs]
  | (k, x) :: xs, ys => by
    cases ys with
    | nil => simp [Value.beqKvs]
    | cons y ys =>
      obtain ⟨l, y⟩ := y
      simp [Value.beqKvs, Value.beq_iff x y, Value.beqKvs_iff xs ys, and_assoc]
end

/-- With the structural comparison of the examples, keys are reported equal
exactly when they are equal. -/
theorem sameKey_exLib (L : Lib) (h : L.cmpEq = exLib.cmpEq) (a b : List Value) :
    sameKey L a b = true ↔ a = b := by
  unfold sameKey
  rw [h]
  have hb := Value.beqList_iff a b
  simp only [exLib, Value.beq]
  cases hv : Value.beqList a b with
  | true => simp only [true_iff]; exact hb.1 hv
  | false =>
    simp only [Bool.false_eq_true, false_iff]
    intro e
    rw [hb.2 e] at hv
    cases hv

theorem modifyAt_length_append {α : Type} (f : α → α) (A : List α) (g : α) (B : List α) :
    modifyAt f A.length (A ++ g :: B) = A ++ f g :: B := by
  induction A with
  | nil => rfl
  | cons a A ih =>
    show a :: modifyAt f A.length (A ++ g :: B) = a :: (A ++ f g :: B)
    rw [ih]

/-- The search loop of `findOrCreateGroup`: it finds the first group whose
key is reported equal, or none is. -/
theorem findGroup_spec (L : Lib) (k : List Value) (groups : List tmpGroupData) (i0 : Nat)
    (r : Option Nat) (h : findGroup L k groups i0 = .ok r) :
    (∃ A g B, r = some (i0 + A.length) ∧ groups = A ++ g :: B
        ∧ (∀ a ∈ A, sameKey L a.group k = false) ∧ sameKey L g.group k = true)
      ∨ (r = none ∧ ∀ a ∈ groups, sameKey L a.group k = false) := by
  induction groups generalizing i0 with
  | nil =>
    simp only [findGroup, Except.ok.injEq] at h
    exact Or.inr ⟨h.symm, fun a ha => by cases ha⟩
  | cons g rest ih =>
    simp only [findGroup] at h
    cases hc : L.cmpEq (Value.array g.group) (Value.array k) with
    | error e => rw [hc] at h; cases h
    | ok b =>
      rw [hc] at h
      cases b with
      | true =>
        simp only [Except.ok.injEq] at h
        have hr : r = some (i0 + ([] : List tmpGroupData).length) := by
          rw [← h]
          rfl
        refine Or.inl ⟨[], g, rest, hr, rfl, fun a ha => absurd ha (List.not_mem_nil a), ?_⟩
        simp [sameKey, hc]
      | false =>
        simp only at h
        have hg : sameKey L g.group k = false := by simp [sameKey, hc]
        rcases ih (i0 + 1) h with ⟨A, g1, B, h1, h2, h3, h4⟩ | ⟨h1, h2⟩
        · refine Or.inl ⟨g :: A, g1, B, ?_, by rw [h2]; rfl, ?_, h4⟩
          · rw [h1, List.length_cons]
            congr 1
            omega
          · intro a ha
            rcases List.mem_cons.1 ha with ha | ha
            · rw [ha]; exact hg
            · exact h3 a ha
        · refine Or.inr ⟨h1, ?_⟩
          intro a ha
          rcases List.mem_cons.1 ha with ha | ha
          · rw [ha]; exact hg
          · exact h2 a ha

/-- One successful call of `evalItem` in grouping mode: a row that the filter
rejects changes nothing; a row that passes adds its aggregate inputs to the
first group whose key is reported equal to its key, or to a new group at the
end of the list, with the row as its representative. -/
theorem evalItem_grouping_step (L : Lib) (ep : groupbyExecutionPlan) (hmode : ep.groupMode = true)
    (d : Map) (acc acc1 : evalAcc) (h : evalItem L ep d acc = .ok acc1) :
    (filterPasses L ep.filter d = .ok false ∧ acc1 = acc)
      ∨ (filterPasses L ep.filter d = .ok true ∧ acc1.output = acc.output
        ∧ ∃ k, evalGroupValues d ep.groupList = .ok k
          ∧ ((∃ A g B aggData1, acc.groups = A ++ g :: B
                ∧ (∀ a ∈ A, sameKey L a.group k = false) ∧ sameKey L g.group k = true
                ∧ collectAggData d ep.projections g.aggData = .ok aggData1
                ∧ acc1.groups = A ++ { g with aggData := aggData1 } :: B)
            ∨ ((∀ a ∈ acc.groups, sameKey L a.group k = false)
                ∧ ∃ aggData1,
                  collectAggData d ep.projections (initAggData ep.projections) = .ok aggData1
                  ∧ acc1.groups = acc.groups ++ [⟨k, aggData1, d⟩]))) := by
  unfold evalItem at h
  cases hf : filterPasses L ep.filter d with
  | error e => rw [hf] at h; cases h
  | ok b =>
    rw [hf] at h
    cases b with
    | false =>
      simp only [Except.ok.injEq] at h
      exact Or.inl ⟨rfl, h.symm⟩
    | true =>
      simp only [hmode, if_true] at h
      cases hg : evalItemGrouping L ep d acc with
      | error e => rw [hg] at h; cases h
      | ok acc2 =>
        rw [hg] at h
        simp only [Except.ok.injEq] at h
        subst h
        unfold evalItemGrouping at hg
        cases hk : evalGroupValues d ep.groupList with
        | error e => rw [hk] at hg; cases hg
        | ok k =>
          rw [hk] at hg
          simp only at hg
          refine Or.inr ⟨rfl, ?_, k, rfl, ?_⟩
          · unfold findOrCreateGroup at hg
            cases hfind : findGroup L k acc.groups 0 with
            | error e => rw [hfind] at hg; cases hg
            | ok r =>
              rw [hfind] at hg
              cases r with
              | some i =>
                simp only at hg
                split at hg
                · simp only [Except.ok.injEq] at hg; rw [← hg]
                · split at hg
                  · cases hg
                  · simp only [Except.ok.injEq] at hg; rw [← hg]
              | none =>
                simp only at hg
                split at hg
                · simp only [Except.ok.injEq] at hg; rw [← hg]
                · split at hg
                  · cases hg
                  · simp only [Except.ok.injEq] at hg; rw [← hg]
          · unfold findOrCreateGroup at hg
            cases hfind : findGroup L k acc.groups 0 with
            | error e => rw [hfind] at hg; cases hg
            | ok r =>
              rw [hfind] at hg
              rcases findGroup_spec L k acc.groups 0 r hfind with
                ⟨A, g, B, h1, h2, h3, h4⟩ | ⟨h1, h2⟩
              · subst h1
                simp only [Nat.zero_add] at hg
                have hget : acc.groups[A.length]? = some g := by
                  rw [h2, List.getElem?_append_right (le_refl _), Nat.sub_self]
                  exact List.getElem?_cons_zero
                rw [hget] at hg
                simp only at hg
                cases hc : collectAggData d ep.projections g.aggData with
                | error e => rw [hc] at hg; cases hg
                | ok aggData1 =>
                  rw [hc] at hg
                  simp only [Except.ok.injEq] at hg
                  refine Or.inl ⟨A, g, B, aggData1, h2, h3, h4, hc, ?_⟩
                  rw [← hg]
                  simp only
                  rw [h2, modifyAt_length_append]
              · subst h1
                simp only at hg
                have hget : (acc.groups ++ [(⟨k, initAggData ep.projections, d⟩ : tmpGroupData)])[
                    acc.groups.length]? = some ⟨k, initAggData ep.projections, d⟩ := by
                  rw [List.getElem?_append_right (le_refl _), Nat.sub_self]
                  exact List.getElem?_cons_zero
                rw [hget] at hg
                simp only at hg
                cases hc : collectAggData d ep.projections (initAggData ep.projections) with
                | error e => rw [hc] at hg; cases hg
                | ok aggData1 =>
                  rw [hc] at hg
                  simp only [Except.ok.injEq] at hg
                  refine Or.inr ⟨h2, aggData1, rfl, ?_⟩
                  rw [← hg]
                  simp only
                  rw [modifyAt_length_append]

theorem runItems_ok_cons {σ : Type} (processItem : Map → σ → Except Failure σ) (d : Map)
    (ds : List Map) (s s2 : σ) (h : runItems processItem (d :: ds) s = (s2, none)) :
    ∃ s1, processItem d s = .ok s1 ∧ runItems processItem ds s1 = (s2, none) := by
  simp only [runItems] at h
  cases hp : processItem d s with
  | error f => rw [hp] at h; simp at h
  | ok s1 => rw [hp] at h; exact ⟨s1, rfl, h⟩

/-- The keys of the groups after the rows of an evaluation: the keys of the
rows that pass the filter, in the order of their first appearance. The output
is not written to. -/
theorem runItems_grouping_keys (L : Lib) (ep : groupbyExecutionPlan)
    (hmode : ep.groupMode = true) (rows : List Map) (acc acc1 : evalAcc)
    (h : runItems (evalItem L ep) rows acc = (acc1, none)) :
    acc1.groups.map (fun g => g.group)
        = firstAppearances L (acc.groups.map (fun g => g.group))
            (rows.filterMap (passingKey L ep))
      ∧ acc1.output = acc.output := by
  induction rows generalizing acc with
  | nil =>
    simp only [runItems, Prod.mk.injEq, and_true] at h
    subst h
    exact ⟨rfl, rfl⟩
  | cons d ds ih =>
    obtain ⟨s1, hstep, hrest⟩ := runItems_ok_cons _ d ds acc acc1 h
    obtain ⟨i1, i2⟩ := ih s1 hrest
    rcases evalItem_grouping_step L ep hmode d acc s1 hstep with
      ⟨hf, hs⟩ | ⟨hf, hout, k, hk, hcase⟩
    · subst hs
      have hp : passingKey L ep d = none := by simp [passingKey, hf]
      rw [List.filterMap_cons, hp]
      exact ⟨i1, i2⟩
    · have hp : passingKey L ep d = some k := by simp [passingKey, hf, hk, Except.toOption]
      rw [List.filterMap_cons, hp]
      simp only [firstAppearances]
      refine ⟨?_, i2.trans hout⟩
      rcases hcase with ⟨A, g, B, aggData1, h1, h2, h3, h4, h5⟩ | ⟨h1, aggData1, h2, h3⟩
      · have hany : (acc.groups.map (fun g => g.group)).any (fun s => sameKey L s k) = true := by
          rw [List.any_eq_true]
          refine ⟨g.group, ?_, h3⟩
          rw [h1]
          simp
        have hkeys : s1.groups.map (fun g => g.group) = acc.groups.map (fun g => g.group) := by
          rw [h5, h1]
          simp
        rw [hany, if_pos rfl, ← hkeys]
        exact i1
      · have hany : (acc.groups.map (fun g => g.group)).any (fun s => sameKey L s k) = false := by
          rw [List.any_eq_false]
          intro x hx
          obtain ⟨a, ha, hax⟩ := List.mem_map.1 hx
          rw [← hax, h1 a ha]
          simp
        have hkeys : s1.groups.map (fun g => g.group)
            = acc.groups.map (fun g => g.group) ++ [k] := by
          rw [h3]
          simp
        rw [hany, ← hkeys]
        simp only [Bool.false_eq_true, if_false]
        exact i1

/-- No key of the list of first appearances is reported equal to a later one. -/
theorem firstAppearances_pairwise (L : Lib) (seen ks : List (List Value))
    (h : List.Pairwise (fun a b => sameKey L a b = false) seen) :
    List.Pairwise (fun a b => sameKey L a b = false) (firstAppearances L seen ks) := by
  induction ks generalizing seen with
  | nil => exact h
  | cons k ks ih =>
    simp only [firstAppearances]
    split
    · exact ih seen h
    · rename_i hany
      apply ih
      rw [List.pairwise_append]
      refine ⟨h, List.pairwise_singleton _ _, ?_⟩
      intro a ha b hb
      rw [List.mem_singleton.1 hb]
      have := List.any_eq_false.1 (Bool.eq_false_iff.2 hany) a ha
      simpa using this

/-- A key is in the list of first appearances iff it is seen or a first
appearance; every key of the list is reported equal to by a key in it. -/
theorem firstAppearances_covers (L : Lib) (seen ks : List (List Value))
    (hrefl : ∀ a, sameKey L a a = true) :
    ∀ k ∈ ks, ∃ s ∈ firstAppearances L seen ks, sameKey L s k = true := by
  induction ks generalizing seen with
  | nil => intro k hk; cases hk
  | cons k0 ks ih =>
    have hmono : ∀ (ks1 : List (List Value)) (seen1 : List (List Value)),
        ∀ s ∈ seen1, s ∈ firstAppearances L seen1 ks1 := by
      intro ks1
      induction ks1 with
      | nil => intro seen1 s hs; exact hs
      | cons k1 ks1 ih1 =>
        intro seen1 s hs
        simp only [firstAppearances]
        split
        · exact ih1 seen1 s hs
        · exact ih1 _ s (List.mem_append_left _ hs)
    intro k hk
    simp only [firstAppearances]
    rcases List.mem_cons.1 hk with hk | hk
    · subst hk
      split
      · rename_i hany
        obtain ⟨s, hs, hsk⟩ := List.any_eq_true.1 hany
        exact ⟨s, hmono ks seen s hs, hsk⟩
      · exact ⟨k, hmono ks _ k (List.mem_append_right _ (List.mem_singleton_self k)), hrefl k⟩
    · split
      · exact ih seen k hk
      · exact ih _ k hk

/-- The loop over the groups when it ends without error: one row for every
group, in the order of the groups, appended to the output. -/
theorem evalGroups_ok (L : Lib) (ep : groupbyExecutionPlan) (groups : List tmpGroupData)
    (output output1 : List Map) (h : evalGroups L ep groups output = (output1, none)) :
    ∃ rows, output1 = output ++ rows
      ∧ List.Forall₂ (fun g row => evalGroup L ep g = .ok row) groups rows := by
  induction groups generalizing output with
  | nil =>
    simp only [evalGroups, Prod.mk.injEq, and_true] at h
    exact ⟨[], by simp [h], List.Forall₂.nil⟩
  | cons g rest ih =>
    simp only [evalGroups] at h
    cases hg : evalGroup L ep g with
    | error e => rw [hg] at h; simp at h
    | ok row =>
      rw [hg] at h
      obtain ⟨rows, h1, h2⟩ := ih (output ++ [row]) h
      exact ⟨row :: rows, by rw [h1]; simp, List.Forall₂.cons hg h2⟩

/-- The evaluation in grouping mode, when it succeeds: the staging of the rows
of the product has succeeded, and the results are the rows of the staged
groups. -/
theorem performQueryOnBuffer_grouping_ok (L : Lib) (ep : groupbyExecutionPlan)
    (allStreams : List String) (hmode : ep.groupMode = true)
    (hstreams : ∀ k ∈ allStreams, (AMap.get ep.buffers k).isSome = true)
    (hok : (performQueryOnBuffer L ep allStreams).2 = none) :
    (∃ acc, runItems (evalItem L ep) (productRows L ep allStreams) ⟨[], []⟩ = (acc, none)
        ∧ acc.groups = stagedGroups L ep allStreams)
      ∧ List.Forall₂ (fun g row => evalGroup L ep g = .ok row) (stagedGroups L ep allStreams)
          (performQueryOnBuffer L ep allStreams).1.curResults := by
  have hrun := procCartProd_run L ep.buffers (evalItem L ep) allStreams hstreams []
    (⟨[], []⟩ : evalAcc) (by simp [AMap.keys])
  rw [performQueryOnBuffer_eq] at hok ⊢
  unfold queryOutput at hok ⊢
  unfold stagedGroups
  have hrows : (cartProd ep.buffers allStreams).map (fun c => writes L allStreams c [])
      = productRows L ep allStreams := rfl
  rw [hrows] at hrun
  rcases hres : procCartProd L ep.buffers (evalItem L ep) allStreams []
    (⟨[], []⟩ : evalAcc) with ⟨⟨h2, acc2⟩, f⟩
  rw [hres] at hrun hok
  cases f with
  | some f1 => simp at hok
  | none =>
    simp only [hmode, if_true] at hok ⊢
    simp only at hrun
    obtain ⟨-, hout⟩ := runItems_grouping_keys L ep hmode _ _ _ hrun.symm
    rcases hev : evalGroups L ep acc2.groups acc2.output with ⟨out, f2⟩
    rw [hev] at hok
    cases f2 with
    | some f3 => simp at hok
    | none =>
      simp only
      obtain ⟨rows, h1, h3⟩ := evalGroups_ok L ep _ _ _ hev
      rw [hout] at h1
      simp only [List.nil_append] at h1
      rw [h1]
      exact ⟨⟨acc2, hrun.symm, rfl⟩, h3⟩

theorem AMap.get_erase_ne {β : Type} (m : AMap β) (k k2 : String) (hne : k ≠ k2) :
    AMap.get (AMap.erase m k) k2 = AMap.get m k2 := by
  induction m with
  | nil => rfl
  | cons p rest ih =>
    obtain ⟨k1, v1⟩ := p
    by_cases h : k1 = k
    · subst h
      simp [AMap.erase, AMap.get, hne, ih]
    · simp [AMap.erase, AMap.get, h, ih]

theorem appendAggInputs_length (d : Map) (evs : AMap aggrInfo) (m m1 : AMap (List Value))
    (h : appendAggInputs d evs m = .ok m1) (k : String) :
    ((AMap.get m1 k).getD []).length
      = ((AMap.get m k).getD []).length + (AMap.keys evs).count k := by
  induction evs generalizing m with
  | nil =>
    simp only [appendAggInputs, Except.ok.injEq] at h
    subst h
    simp [AMap.keys]
  | cons p rest ih =>
    obtain ⟨key, agg⟩ := p
    simp only [appendAggInputs] at h
    cases hv : agg.aggrEval.Eval d with
    | error e => rw [hv] at h; cases h
    | ok value =>
      rw [hv] at h
      rw [ih _ h, AMap.get_set]
      have hkeys : AMap.keys ((key, agg) :: rest) = key :: AMap.keys rest := rfl
      rw [hkeys, List.count_cons]
      by_cases hk : key = k
      · subst hk
        simp
        omega
      · simp [hk]

theorem collectAggData_length (d : Map) (projs : List aliasedEvaluator)
    (m m1 : AMap (List Value)) (h : collectAggData d projs m = .ok m1) (k : String) :
    ((AMap.get m1 k).getD []).length
      = ((AMap.get m k).getD []).length + (aggregateKeys projs).count k := by
  induction projs generalizing m with
  | nil =>
    simp only [collectAggData, Except.ok.injEq] at h
    subst h
    simp [aggregateKeys]
  | cons p rest ih =>
    simp only [collectAggData] at h
    by_cases hagg : p.hasAggregate = true
    · simp only [hagg, if_true] at h
      cases ha : appendAggInputs d p.aggrEvals m with
      | error e => rw [ha] at h; cases h
      | ok m2 =>
        rw [ha] at h
        rw [ih _ h, appendAggInputs_length d _ _ _ ha k]
        simp only [aggregateKeys, hagg, if_true, List.count_append]
        omega
    · simp only [hagg, if_false] at h
      rw [ih _ h]
      simp [aggregateKeys, hagg]

theorem initAggData_get (projs : List aliasedEvaluator) (k : String) :
    (AMap.get (initAggData projs) k).getD [] = [] := by
  have hinner : ∀ (evs : AMap aggrInfo) (m : AMap (List Value)),
      (AMap.get m k).getD [] = [] →
      (AMap.get (evs.foldl (fun m kv => AMap.set m kv.1 []) m) k).getD [] = [] := by
    intro evs
    induction evs with
    | nil => intro m hm; exact hm
    | cons kv rest ih =>
      intro m hm
      simp only [List.foldl_cons]
      apply ih
      rw [AMap.get_set]
      split
      · rfl
      · exact hm
  have houter : ∀ (ps : List aliasedEvaluator) (m : AMap (List Value)),
      (AMap.get m k).getD [] = [] →
      (AMap.get (ps.foldl
        (fun aggData proj => proj.aggrEvals.foldl (fun m kv => AMap.set m kv.1 []) aggData)
        m) k).getD [] = [] := by
    intro ps
    induction ps with
    | nil => intro m hm; exact hm
    | cons p rest ih =>
      intro m hm
      simp only [List.foldl_cons]
      exact ih _ (hinner _ _ hm)
  exact houter projs [] rfl

/-- The aggregate loop of `evalGroup` for one projection with distinct keys:
under each of the keys the count of the inputs held under it is written, and
nothing changes under other keys. -/
theorem countAggregates_spec (evs : AMap aggrInfo) (g : tmpGroupData)
    (hnd : (AMap.keys evs).Nodup) :
    (∀ k ∈ AMap.keys evs, AMap.get (countAggregates evs g).nonAggData k
        = some (Value.int (((AMap.get g.aggData k).getD []).length : Nat)))
      ∧ ∀ k, k ∉ AMap.keys evs →
        AMap.get (countAggregates evs g).nonAggData k = AMap.get g.nonAggData k
          ∧ AMap.get (countAggregates evs g).aggData k = AMap.get g.aggData k := by
  induction evs generalizing g with
  | nil =>
    refine ⟨fun k hk => ?_, fun k _ => ⟨rfl, rfl⟩⟩
    cases hk
  | cons p rest ih =>
    obtain ⟨key, agg⟩ := p
    have hkeys : AMap.keys ((key, agg) :: rest) = key :: AMap.keys rest := rfl
    rw [hkeys] at hnd ⊢
    obtain ⟨hnot, hnd1⟩ := List.nodup_cons.1 hnd
    simp only [countAggregates]
    obtain ⟨i1, i2⟩ := ih
      { g with
        nonAggData := AMap.set g.nonAggData key
          (Value.int (((AMap.get g.aggData key).getD []).length : Nat))
        aggData := AMap.erase g.aggData key } hnd1
    constructor
    · intro k hk
      rcases List.mem_cons.1 hk with hk | hk
      · subst hk
        rw [(i2 k hnot).1]
        exact AMap.get_set_self _ _ _
      · have hne : key ≠ k := fun e => hnot (e ▸ hk)
        rw [i1 k hk]
        simp only
        rw [AMap.get_erase_ne _ _ _ hne]
    · intro k hk
      have hne : key ≠ k := fun e => hk (e ▸ List.mem_cons_self _ _)
      have hk1 : k ∉ AMap.keys rest := fun e => hk (List.mem_cons_of_mem _ e)
      obtain ⟨j1, j2⟩ := i2 k hk1
      rw [j1, j2]
      simp only
      exact ⟨AMap.get_set_ne _ _ _ _ hne, AMap.get_erase_ne _ _ _ hne⟩

theorem mem_aggregateKeys (projs : List aliasedEvaluator) (i : Nat) (p : aliasedEvaluator)
    (hp : projs[i]? = some p) (hagg : p.hasAggregate = true) (k : String)
    (hk : k ∈ AMap.keys p.aggrEvals) : k ∈ aggregateKeys projs := by
  induction projs generalizing i with
  | nil => simp at hp
  | cons q rest ih =>
    simp only [aggregateKeys, List.mem_append]
    cases i with
    | zero =>
      simp only [List.getElem?_cons_zero, Option.some.injEq] at hp
      subst hp
      left
      simp only [hagg, if_true]
      exact hk
    | succ i =>
      simp only [List.getElem?_cons_succ] at hp
      exact Or.inr (ih i hp)

/-- The row with which `evalGroup` calls the evaluator of a projection with
aggregates holds, under each synthetic key of the projection, the count of the
inputs that the group holds under the key. -/
theorem evalGroupInputs_get (projs : List aliasedEvaluator) (g : tmpGroupData)
    (hnd : (aggregateKeys projs).Nodup) (i : Nat) (p : aliasedEvaluator)
    (hp : projs[i]? = some p) (hagg : p.hasAggregate = true) (k : String)
    (hk : k ∈ AMap.keys p.aggrEvals) :
    ∃ input, (evalGroupInputs projs g)[i]? = some input
      ∧ AMap.get input k = some (Value.int (((AMap.get g.aggData k).getD []).length : Nat)) := by
  induction projs generalizing g i with
  | nil => simp at hp
  | cons q rest ih =>
    simp only [aggregateKeys] at hnd
    obtain ⟨hn1, hn2, hdis⟩ := List.nodup_append.1 hnd
    cases i with
    | zero =>
      simp only [List.getElem?_cons_zero, Option.some.injEq] at hp
      subst hp
      simp only [hagg, if_true] at hn1
      refine ⟨(countAggregates q.aggrEvals g).nonAggData, ?_, ?_⟩
      · simp [evalGroupInputs, hagg]
      · exact (countAggregates_spec q.aggrEvals g hn1).1 k hk
    | succ i =>
      simp only [List.getElem?_cons_succ] at hp
      have hkrest := mem_aggregateKeys rest i p hp hagg k hk
      simp only [evalGroupInputs, List.getElem?_cons_succ]
      by_cases hq : q.hasAggregate = true
      · simp only [hq, if_true] at hn1 hdis ⊢
        have hknot : k ∉ AMap.keys q.aggrEvals := fun e => hdis e hkrest
        obtain ⟨input, h1, h2⟩ := ih (countAggregates q.aggrEvals g) hn2 i hp
        refine ⟨input, h1, ?_⟩
        rw [h2, ((countAggregates_spec q.aggrEvals g hn1).2 k hknot).2]
      · simp only [hq, if_false]
        exact ih g hn2 i hp

theorem inGroup_eq (L : Lib) (ep : groupbyExecutionPlan) (key : List Value) (d : Map) :
    inGroup L ep key d
      = match passingKey L ep d with
        | some k => sameKey L key k
        | none => false := by
  unfold inGroup passingKey
  cases filterPasses L ep.filter d with
  | error e => rfl
  | ok b =>
    cases b with
    | false => rfl
    | true =>
      cases evalGroupValues d ep.groupList with
      | error e => rfl
      | ok k => rfl

/-- One successful call of `evalItem` in grouping mode keeps the state of the
groups, when the comparator is an equivalence on keys. -/
theorem evalItem_groupInv (L : Lib) (ep : groupbyExecutionPlan) (hmode : ep.groupMode = true)
    (hrefl : ∀ a, sameKey L a a = true)
    (hsymm : ∀ a b, sameKey L a b = true → sameKey L b a = true)
    (htrans : ∀ a b c, sameKey L a b = true → sameKey L b c = true → sameKey L a c = true)
    (done : List Map) (d : Map) (acc acc1 : evalAcc)
    (hinv : groupInv L ep done acc.groups) (h : evalItem L ep d acc = .ok acc1) :
    groupInv L ep (done ++ [d]) acc1.groups := by
  obtain ⟨hP, hA, hC⟩ := hinv
  have hcount : ∀ key, (done ++ [d]).countP (inGroup L ep key)
      = done.countP (inGroup L ep key) + if inGroup L ep key d = true then 1 else 0 := by
    intro key
    rw [List.countP_append]
    simp [List.countP_cons]
  rcases evalItem_grouping_step L ep hmode d acc acc1 h with
    ⟨hf, hs⟩ | ⟨hf, hout, k, hk, hcase⟩
  · subst hs
    have hp : passingKey L ep d = none := by simp [passingKey, hf]
    have hin : ∀ key, inGroup L ep key d = false := by
      intro key
      rw [inGroup_eq, hp]
    refine ⟨hP, ?_, ?_⟩
    · intro d1 hd1 k1 hk1
      rcases List.mem_append.1 hd1 with hd1 | hd1
      · exact hA d1 hd1 k1 hk1
      · rw [List.mem_singleton.1 hd1, hp] at hk1
        cases hk1
    · intro g hg k1
      rw [hcount, hin]
      simpa using hC g hg k1
  · have hp : passingKey L ep d = some k := by simp [passingKey, hf, hk, Except.toOption]
    have hin : ∀ key, inGroup L ep key d = sameKey L key k := by
      intro key
      rw [inGroup_eq, hp]
    rcases hcase with ⟨A, g, B, aggData1, h1, h2, h3, h4, h5⟩ | ⟨h1, aggData1, h2, h3⟩
    · have hkeys : acc1.groups.map (fun g => g.group) = acc.groups.map (fun g => g.group) := by
        rw [h5, h1]
        simp
      have hB : ∀ b ∈ B, sameKey L b.group k = false := by
        intro b hb
        rw [h1] at hP
        simp only [List.map_append, List.map_cons, List.pairwise_append, List.pairwise_cons,
          List.mem_map, forall_exists_index, and_imp, forall_apply_eq_imp_iff₂] at hP
        have hgb := hP.2.1.1 b hb
        cases hbk : sameKey L b.group k with
        | false => rfl
        | true =>
          rw [htrans _ _ _ h3 (hsymm _ _ hbk)] at hgb
          cases hgb
      refine ⟨by rw [hkeys]; exact hP, ?_, ?_⟩
      · intro d1 hd1 k1 hk1
        rw [hkeys]
        rcases List.mem_append.1 hd1 with hd1 | hd1
        · exact hA d1 hd1 k1 hk1
        · rw [List.mem_singleton.1 hd1, hp] at hk1
          simp only [Option.some.injEq] at hk1
          subst hk1
          refine ⟨g.group, ?_, h3⟩
          rw [h1]
          simp
      · intro x hx k1
        rw [h5] at hx
        rw [hcount, hin]
        rcases List.mem_append.1 hx with hx | hx
        · rw [h2 x hx]
          have := hC x (by rw [h1]; exact List.mem_append_left _ hx) k1
          simpa using this
        · rcases List.mem_cons.1 hx with hx | hx
          · subst hx
            simp only
            rw [collectAggData_length d _ _ _ h4 k1,
              hC g (by rw [h1]; simp) k1, h3]
            simp only [if_true]
            rw [Nat.mul_add, Nat.mul_one]
          · rw [hB x hx]
            have := hC x (by rw [h1]; simp [hx]) k1
            simpa using this
    · have hkeys : acc1.groups.map (fun g => g.group)
          = acc.groups.map (fun g => g.group) ++ [k] := by
        rw [h3]
        simp
      have hnew : ∀ d1 ∈ done, inGroup L ep k d1 = false := by
        intro d1 hd1
        rw [inGroup_eq]
        cases hp1 : passingKey L ep d1 with
        | none => rfl
        | some k1 =>
          simp only
          obtain ⟨s, hs, hsk⟩ := hA d1 hd1 k1 hp1
          obtain ⟨a, ha, has⟩ := List.mem_map.1 hs
          cases hkk : sameKey L k k1 with
          | false => rfl
          | true =>
            have hak : sameKey L a.group k = true := by
              rw [has]
              exact htrans _ _ _ hsk (hsymm _ _ hkk)
            rw [h1 a ha] at hak
            cases hak
      refine ⟨?_, ?_, ?_⟩
      · rw [hkeys, List.pairwise_append]
        refine ⟨hP, List.pairwise_singleton _ _, ?_⟩
        intro s hs b hb
        rw [List.mem_singleton.1 hb]
        obtain ⟨a, ha, has⟩ := List.mem_map.1 hs
        rw [← has]
        exact h1 a ha
      · intro d1 hd1 k1 hk1
        rw [hkeys]
        rcases List.mem_append.1 hd1 with hd1 | hd1
        · obtain ⟨s, hs, hsk⟩ := hA d1 hd1 k1 hk1
          exact ⟨s, List.mem_append_left _ hs, hsk⟩
        · rw [List.mem_singleton.1 hd1, hp] at hk1
          simp only [Option.some.injEq] at hk1
          subst hk1
          exact ⟨k, List.mem_append_right _ (List.mem_singleton_self k), hrefl k⟩
      · intro x hx k1
        rw [h3] at hx
        rw [hcount, hin]
        rcases List.mem_append.1 hx with hx | hx
        · rw [h1 x hx]
          have := hC x hx k1
          simpa using this
        · rw [List.mem_singleton.1 hx]
          simp only
          rw [collectAggData_length d _ _ _ h2 k1, initAggData_get, hrefl k,
            List.countP_eq_zero.2 (fun d1 hd1 => by rw [hnew d1 hd1]; simp)]
          simp

/-- The state of the groups after the rows of a successful evaluation. -/
theorem runItems_groupInv (L : Lib) (ep : groupbyExecutionPlan) (hmode : ep.groupMode = true)
    (hrefl : ∀ a, sameKey L a a = true)
    (hsymm : ∀ a b, sameKey L a b = true → sameKey L b a = true)
    (htrans : ∀ a b c, sameKey L a b = true → sameKey L b c = true → sameKey L a c = true)
    (rows done : List Map) (acc acc1 : evalAcc)
    (hinv : groupInv L ep done acc.groups)
    (h : runItems (evalItem L ep) rows acc = (acc1, none)) :
    groupInv L ep (done ++ rows) acc1.groups := by
  induction rows generalizing done acc with
  | nil =>
    simp only [runItems, Prod.mk.injEq, and_true] at h
    subst h
    rw [List.append_nil]
    exact hinv
  | cons d ds ih =>
    obtain ⟨s1, hstep, hrest⟩ := runItems_ok_cons _ d ds acc acc1 h
    have h1 := evalItem_groupInv L ep hmode hrefl hsymm htrans done d acc s1 hinv hstep
    have h2 := ih (done ++ [d]) s1 h1 hrest
    rw [List.append_assoc] at h2
    exact h2

/-- The loop of `evalGroup` calls the evaluators on the rows of
`evalGroupInputs`. -/
theorem evalGroupLoop_inputs (L : Lib) (projs : List aliasedEvaluator) (g : tmpGroupData)
    (result : Map) :
    evalGroupLoop L projs g result = evalWith L projs (evalGroupInputs projs g) result := by
  induction projs generalizing g result with
  | nil => rfl
  | cons p rest ih =>
    simp only [evalGroupLoop, evalGroupInputs, evalWith]
    cases p.evaluator.Eval
        (if p.hasAggregate = true then countAggregates p.aggrEvals g else g).nonAggData with
    | error e => rfl
    | ok value =>
      simp only
      cases L.assignOutputValue result p.outAlias value with
      | error e => rfl
      | ok result1 => exact ih _ _

theorem groupInv_nil (L : Lib) (ep : groupbyExecutionPlan) : groupInv L ep [] [] :=
  ⟨List.Pairwise.nil, fun d hd => absurd hd (List.not_mem_nil d),
    fun g hg => absurd hg (List.not_mem_nil g)⟩

/-- The four calls of the grouping example over `foo` with an aggregate
function named `count`. -/
theorem exGroupFoo_calls_count :
    Process exGroupFooLib (exGroupFooState "count" [] [] []) exOrderSrc (exFooTuple 0 1)
        = (exGroupFooState "count" [exFooTuple 0 1] [exFooRow 1 3] [], .ok [exFooRow 1 3])
      ∧ Process exGroupFooLib (exGroupFooState "count" [exFooTuple 0 1] [exFooRow 1 3] [])
          exOrderSrc (exFooTuple 1 1)
        = (exGroupFooState "count" [exFooTuple 0 1, exFooTuple 1 1] [exFooRow 1 4] [exFooRow 1 3],
            .ok [exFooRow 1 4])
      ∧ Process exGroupFooLib
          (exGroupFooState "count" [exFooTuple 0 1, exFooTuple 1 1] [exFooRow 1 4] [exFooRow 1 3])
          exOrderSrc (exFooTuple 2 2)
        = (exGroupFooState "count" [exFooTuple 0 1, exFooTuple 1 1, exFooTuple 2 2]
            [exFooRow 1 4, exFooRow 2 3] [exFooRow 1 4], .ok [exFooRow 1 4, exFooRow 2 3])
      ∧ Process exGroupFooLib
          (exGroupFooState "count" [exFooTuple 0 1, exFooTuple 1 1, exFooTuple 2 2]
            [exFooRow 1 4, exFooRow 2 3] [exFooRow 1 4])
          exOrderSrc (exFooTuple 3 2)
        = (exGroupFooState "count" [exFooTuple 1 1, exFooTuple 2 2, exFooTuple 3 2]
            [exFooRow 1 3, exFooRow 2 4] [exFooRow 1 4, exFooRow 2 3],
            .ok [exFooRow 1 3, exFooRow 2 4]) :=
  ⟨by set_option maxRecDepth 8000 in rfl, by set_option maxRecDepth 8000 in rfl,
    by set_option maxRecDepth 8000 in rfl,
    by
      have hstr : streamToRelation
          (exGroupFooState "count" [exFooTuple 0 1, exFooTuple 1 1, exFooTuple 2 2]
            [exFooRow 1 4, exFooRow 2 3] [exFooRow 1 4]) exOrderSrc (exFooTuple 3 2)
          = .ok (exGroupFooState "count" [exFooTuple 1 1, exFooTuple 2 2, exFooTuple 3 2]
              [exFooRow 1 4, exFooRow 2 3] [exFooRow 1 4], nestUnder "src" (exFooTuple 3 2)) := by
        set_option maxRecDepth 8000 in rfl
      rw [Process_of_streamToRelation _ _ _ _ _ _ hstr, shouldEmitNow_default _ _ rfl rfl]
      set_option maxRecDepth 8000 in rfl⟩

theorem exGroupFoo_results_count :
    processResults exGroupFooLib (exGroupFooPlan "count") exFooCalls
      = [.ok [exFooRow 1 3], .ok [exFooRow 1 4], .ok [exFooRow 1 4, exFooRow 2 3],
          .ok [exFooRow 1 3, exFooRow 2 4]] := by
  obtain ⟨h0, h1, h2, h3⟩ := exGroupFoo_calls_count
  have e : exGroupFooPlan "count" = exGroupFooState "count" [] [] [] := rfl
  rw [e]
  simp only [exFooCalls, processResults, h0, h1, h2, h3]

/-- The four calls of the grouping example over `foo` with an aggregate
function named `max`. -/
theorem exGroupFoo_calls_max :
    Process exGroupFooLib (exGroupFooState "max" [] [] []) exOrderSrc (exFooTuple 0 1)
        = (exGroupFooState "max" [exFooTuple 0 1] [exFooRow 1 3] [], .ok [exFooRow 1 3])
      ∧ Process exGroupFooLib (exGroupFooState "max" [exFooTuple 0 1] [exFooRow 1 3] [])
          exOrderSrc (exFooTuple 1 1)
        = (exGroupFooState "max" [exFooTuple 0 1, exFooTuple 1 1] [exFooRow 1 4] [exFooRow 1 3],
            .ok [exFooRow 1 4])
      ∧ Process exGroupFooLib
          (exGroupFooState "max" [exFooTuple 0 1, exFooTuple 1 1] [exFooRow 1 4] [exFooRow 1 3])
          exOrderSrc (exFooTuple 2 2)
        = (exGroupFooState "max" [exFooTuple 0 1, exFooTuple 1 1, exFooTuple 2 2]
            [exFooRow 1 4, exFooRow 2 3] [exFooRow 1 4], .ok [exFooRow 1 4, exFooRow 2 3])
      ∧ Process exGroupFooLib
          (exGroupFooState "max" [exFooTuple 0 1, exFooTuple 1 1, exFooTuple 2 2]
            [exFooRow 1 4, exFooRow 2 3] [exFooRow 1 4])
          exOrderSrc (exFooTuple 3 2)
        = (exGroupFooState "max" [exFooTuple 1 1, exFooTuple 2 2, exFooTuple 3 2]
            [exFooRow 1 3, exFooRow 2 4] [exFooRow 1 4, exFooRow 2 3],
            .ok [exFooRow 1 3, exFooRow 2 4]) :=
  ⟨by set_option maxRecDepth 8000 in rfl, by set_option maxRecDepth 8000 in rfl,
    by set_option maxRecDepth 8000 in rfl,
    by
      have hstr : streamToRelation
          (exGroupFooState "max" [exFooTuple 0 1, exFooTuple 1 1, exFooTuple 2 2]
            [exFooRow 1 4, exFooRow 2 3] [exFooRow 1 4]) exOrderSrc (exFooTuple 3 2)
          = .ok (exGroupFooState "max" [exFooTuple 1 1, exFooTuple 2 2, exFooTuple 3 2]
              [exFooRow 1 4, exFooRow 2 3] [exFooRow 1 4], nestUnder "src" (exFooTuple 3 2)) := by
        set_option maxRecDepth 8000 in rfl
      rw [Process_of_streamToRelation _ _ _ _ _ _ hstr, shouldEmitNow_default _ _ rfl rfl]
      set_option maxRecDepth 8000 in rfl⟩

theorem exGroupFoo_results_max :
    processResults exGroupFooLib (exGroupFooPlan "max") exFooCalls
      = [.ok [exFooRow 1 3], .ok [exFooRow 1 4], .ok [exFooRow 1 4, exFooRow 2 3],
          .ok [exFooRow 1 3, exFooRow 2 4]] := by
  obtain ⟨h0, h1, h2, h3⟩ := exGroupFoo_calls_max
  have e : exGroupFooPlan "max" = exGroupFooState "max" [] [] [] := rfl
  rw [e]
  simp only [exFooCalls, processResults, h0, h1, h2, h3]

/-- The four calls of the grouping example over `foo, bar`. -/
theorem exGroupFooBar_calls :
    Process exLib (exGroupFooBarState [] [] []) exOrderSrc (exFooBarTuple 0 1 1)
        = (exGroupFooBarState [exFooBarTuple 0 1 1] [exXRow 1 3] [], .ok [exXRow 1 3])
      ∧ Process exLib (exGroupFooBarState [exFooBarTuple 0 1 1] [exXRow 1 3] [])
          exOrderSrc (exFooBarTuple 1 1 1)
        = (exGroupFooBarState [exFooBarTuple 0 1 1, exFooBarTuple 1 1 1] [exXRow 1 4]
            [exXRow 1 3], .ok [exXRow 1 4])
      ∧ Process exLib
          (exGroupFooBarState [exFooBarTuple 0 1 1, exFooBarTuple 1 1 1] [exXRow 1 4]
            [exXRow 1 3])
          exOrderSrc (exFooBarTuple 2 2 1)
        = (exGroupFooBarState [exFooBarTuple 0 1 1, exFooBarTuple 1 1 1, exFooBarTuple 2 2 1]
            [exXRow 1 4, exXRow 2 3] [exXRow 1 4], .ok [exXRow 1 4, exXRow 2 3])
      ∧ Process exLib
          (exGroupFooBarState [exFooBarTuple 0 1 1, exFooBarTuple 1 1 1, exFooBarTuple 2 2 1]
            [exXRow 1 4, exXRow 2 3] [exXRow 1 4])
          exOrderSrc (exFooBarTuple 3 2 2)
        = (exGroupFooBarState [exFooBarTuple 1 1 1, exFooBarTuple 2 2 1, exFooBarTuple 3 2 2]
            [exXRow 1 3, exXRow 2 3, exXRow 2 3] [exXRow 1 4, exXRow 2 3],
            .ok [exXRow 1 3, exXRow 2 3, exXRow 2 3]) :=
  ⟨by set_option maxRecDepth 8000 in rfl, by set_option maxRecDepth 8000 in rfl,
    by set_option maxRecDepth 8000 in rfl,
    by
      have hstr : streamToRelation
          (exGroupFooBarState
            [exFooBarTuple 0 1 1, exFooBarTuple 1 1 1, exFooBarTuple 2 2 1]
            [exXRow 1 4, exXRow 2 3] [exXRow 1 4]) exOrderSrc (exFooBarTuple 3 2 2)
          = .ok (exGroupFooBarState
              [exFooBarTuple 1 1 1, exFooBarTuple 2 2 1, exFooBarTuple 3 2 2]
              [exXRow 1 4, exXRow 2 3] [exXRow 1 4], nestUnder "src" (exFooBarTuple 3 2 2)) := by
        set_option maxRecDepth 8000 in rfl
      rw [Process_of_streamToRelation _ _ _ _ _ _ hstr, shouldEmitNow_default _ _ rfl rfl]
      set_option maxRecDepth 8000 in rfl⟩

theorem exGroupFooBar_results :
    processResults exLib exGroupFooBarPlan exFooBarCalls
      = [.ok [exXRow 1 3], .ok [exXRow 1 4], .ok [exXRow 1 4, exXRow 2 3],
          .ok [exXRow 1 3, exXRow 2 3, exXRow 2 3]] := by
  obtain ⟨h0, h1, h2, h3⟩ := exGroupFooBar_calls
  have e : exGroupFooBarPlan = exGroupFooBarState [] [] [] := rfl
  rw [e]
  simp only [exFooBarCalls, processResults, h0, h1, h2, h3]

/-! ## C23 -/

/-- C23: in grouping mode, when the comparator of group keys is an equivalence
on keys and the synthetic aggregate keys of the projections with aggregates
are distinct, a successful evaluation calls the evaluator of every projection
with aggregates, for every group, on the representative row of the group in
which every synthetic key of the projection holds the number of rows of the
product that pass the filter and have a group key reported equal to the key of
the group; the declared aggregate function is not looked at. For
`SELECT RSTREAM foo, count(int + 1) + 2 FROM src [RANGE 3 TUPLES] GROUP BY foo`
and four tuples with `foo = 1, 1, 2, 2` the calls return the counts plus two:
3; 4; 4 and 3; 3 and 4, and the same with `max` in place of `count`. -/
theorem performQueryOnBuffer_group_counts (L : Lib) (ep : groupbyExecutionPlan)
    (allStreams : List String) (hmode : ep.groupMode = true)
    (hrefl : ∀ a, sameKey L a a = true)
    (hsymm : ∀ a b, sameKey L a b = true → sameKey L b a = true)
    (htrans : ∀ a b c, sameKey L a b = true → sameKey L b c = true → sameKey L a c = true)
    (hkeys : (aggregateKeys ep.projections).Nodup)
    (hstreams : ∀ k ∈ allStreams, (AMap.get ep.buffers k).isSome = true)
    (hok : (performQueryOnBuffer L ep allStreams).2 = none) :
    (∀ g ∈ stagedGroups L ep allStreams,
        evalGroup L ep g
            = evalWith L ep.projections (evalGroupInputs ep.projections g) []
          ∧ ∀ (i : Nat) (p : aliasedEvaluator), ep.projections[i]? = some p →
            p.hasAggregate = true → ∀ k ∈ AMap.keys p.aggrEvals,
              ∃ input, (evalGroupInputs ep.projections g)[i]? = some input
                ∧ AMap.get input k = some (Value.int
                    (((productRows L ep allStreams).countP (inGroup L ep g.group) : Nat))))
      ∧ NewGroupbyExecutionPlan exGroupFooLib exGroupFooLp exReg = .ok (exGroupFooPlan "count")
      ∧ processResults exGroupFooLib (exGroupFooPlan "count") exFooCalls
        = [.ok [exFooRow 1 3], .ok [exFooRow 1 4], .ok [exFooRow 1 4, exFooRow 2 3],
            .ok [exFooRow 1 3, exFooRow 2 4]]
      ∧ processResults exGroupFooLib (exGroupFooPlan "max") exFooCalls
        = [.ok [exFooRow 1 3], .ok [exFooRow 1 4], .ok [exFooRow 1 4, exFooRow 2 3],
            .ok [exFooRow 1 3, exFooRow 2 4]] := by
  refine ⟨?_, rfl, exGroupFoo_results_count, exGroupFoo_results_max⟩
  obtain ⟨⟨acc, hrun, hgroups⟩, -⟩ :=
    performQueryOnBuffer_grouping_ok L ep allStreams hmode hstreams hok
  have hinv := runItems_groupInv L ep hmode hrefl hsymm htrans _ [] ⟨[], []⟩ acc
    (groupInv_nil L ep) hrun
  rw [List.nil_append, hgroups] at hinv
  obtain ⟨-, -, hC⟩ := hinv
  intro g hg
  refine ⟨evalGroupLoop_inputs L ep.projections g [], ?_⟩
  intro i p hp hagg k hk
  obtain ⟨input, h1, h2⟩ := evalGroupInputs_get ep.projections g hkeys i p hp hagg k hk
  refine ⟨input, h1, ?_⟩
  rw [h2, hC g hg k,
    List.count_eq_one_of_mem hkeys (mem_aggregateKeys ep.projections i p hp hagg k hk),
    Nat.one_mul]

theorem performQueryOnBuffer_group_counts_witness :
    (aggregateKeys (exGroupFooFilled "max").projections).Nodup
      ∧ (performQueryOnBuffer exLib (exGroupFooFilled "max") ["src"]).2 = none
      ∧ ∀ g ∈ stagedGroups exLib (exGroupFooFilled "max") ["src"],
        evalGroup exLib (exGroupFooFilled "max") g
            = evalWith exLib (exGroupFooFilled "max").projections
                (evalGroupInputs (exGroupFooFilled "max").projections g) []
          ∧ ∀ (i : Nat) (p : aliasedEvaluator),
            (exGroupFooFilled "max").projections[i]? = some p →
            p.hasAggregate = true → ∀ k ∈ AMap.keys p.aggrEvals,
              ∃ input, (evalGroupInputs (exGroupFooFilled "max").projections g)[i]? = some input
                ∧ AMap.get input k = some (Value.int
                    (((productRows exLib (exGroupFooFilled "max") ["src"]).countP
                      (inGroup exLib (exGroupFooFilled "max") g.group) : Nat))) :=
  ⟨by decide, rfl,
    (performQueryOnBuffer_group_counts exLib (exGroupFooFilled "max") ["src"] rfl
      (fun a => (sameKey_exLib exLib rfl a a).2 rfl)
      (fun a b h => (sameKey_exLib exLib rfl b a).2 ((sameKey_exLib exLib rfl a b).1 h).symm)
      (fun a b c h1 h2 => (sameKey_exLib exLib rfl a c).2
        (((sameKey_exLib exLib rfl a b).1 h1).trans ((sameKey_exLib exLib rfl b c).1 h2)))
      (by decide)
      (by
        intro k hk
        rw [List.mem_singleton.1 hk]
        rfl)
      rfl).1⟩

/-! ## C24 -/

/-- C24: in grouping mode a successful evaluation has one group for every key
of a row of the product that passes the filter, in the order of the first
appearance of the keys, a key counting as appeared when the comparator reports
an earlier key equal to it; no key of a group is reported equal to the key of
a later group (nor of an earlier one when the comparator is symmetric), and
when the comparator is reflexive the key of every such row is reported equal
to by the key of a group. The results are the rows of `evalGroup` for the
groups, one for every group in the order of the groups, equal rows included:
for `SELECT RSTREAM foo, count(int) + 2 AS x FROM src [RANGE 3 TUPLES]
GROUP BY foo, bar` the fourth call returns three rows, two of them equal. -/
theorem performQueryOnBuffer_groups (L : Lib) (ep : groupbyExecutionPlan)
    (allStreams : List String) (hmode : ep.groupMode = true)
    (hstreams : ∀ k ∈ allStreams, (AMap.get ep.buffers k).isSome = true)
    (hok : (performQueryOnBuffer L ep allStreams).2 = none) :
    (stagedGroups L ep allStreams).map (fun g => g.group)
        = firstAppearances L [] ((productRows L ep allStreams).filterMap (passingKey L ep))
      ∧ List.Pairwise (fun a b => sameKey L a b = false)
          ((stagedGroups L ep allStreams).map (fun g => g.group))
      ∧ ((∀ a b, sameKey L a b = true → sameKey L b a = true) →
          List.Pairwise (fun a b => sameKey L a b = false ∧ sameKey L b a = false)
            ((stagedGroups L ep allStreams).map (fun g => g.group)))
      ∧ ((∀ a, sameKey L a a = true) →
          ∀ k ∈ (productRows L ep allStreams).filterMap (passingKey L ep),
            ∃ s ∈ (stagedGroups L ep allStreams).map (fun g => g.group), sameKey L s k = true)
      ∧ List.Forall₂ (fun g row => evalGroup L ep g = .ok row) (stagedGroups L ep allStreams)
          (performQueryOnBuffer L ep allStreams).1.curResults
      ∧ (performQueryOnBuffer L ep allStreams).1.curResults.length
          = (firstAppearances L []
              ((productRows L ep allStreams).filterMap (passingKey L ep))).length
      ∧ processResults exLib exGroupFooBarPlan exFooBarCalls
        = [.ok [exXRow 1 3], .ok [exXRow 1 4], .ok [exXRow 1 4, exXRow 2 3],
            .ok [exXRow 1 3, exXRow 2 3, exXRow 2 3]] := by
  obtain ⟨⟨acc, hrun, hgroups⟩, hrows⟩ :=
    performQueryOnBuffer_grouping_ok L ep allStreams hmode hstreams hok
  obtain ⟨hk, -⟩ := runItems_grouping_keys L ep hmode _ _ _ hrun
  rw [hgroups] at hk
  simp only [List.map_nil] at hk
  have hpair : List.Pairwise (fun a b => sameKey L a b = false)
      ((stagedGroups L ep allStreams).map (fun g => g.group)) := by
    rw [hk]
    exact firstAppearances_pairwise L [] _ List.Pairwise.nil
  refine ⟨hk, hpair, ?_, ?_, hrows, ?_, exGroupFooBar_results⟩
  · intro hsymm
    refine hpair.imp ?_
    intro a b hab
    refine ⟨hab, ?_⟩
    cases hba : sameKey L b a with
    | false => rfl
    | true =>
      rw [hsymm _ _ hba] at hab
      cases hab
  · intro hrefl k hkmem
    rw [hk]
    exact firstAppearances_covers L [] _ hrefl k hkmem
  · rw [← hrows.length_eq, ← hk, List.length_map]

theorem performQueryOnBuffer_groups_witness :
    (performQueryOnBuffer exLib exGroupFooBarFilled ["src"]).2 = none
      ∧ (stagedGroups exLib exGroupFooBarFilled ["src"]).map (fun g => g.group)
        = [[.int 1, .int 1], [.int 2, .int 1], [.int 2, .int 2]]
      ∧ (performQueryOnBuffer exLib exGroupFooBarFilled ["src"]).1.curResults
        = [exXRow 1 3, exXRow 2 3, exXRow 2 3]
      ∧ (stagedGroups exLib exGroupFooBarFilled ["src"]).map (fun g => g.group)
        = firstAppearances exLib []
            ((productRows exLib exGroupFooBarFilled ["src"]).filterMap
              (passingKey exLib exGroupFooBarFilled)) :=
  ⟨rfl, by set_option maxRecDepth 8000 in rfl, by set_option maxRecDepth 8000 in rfl,
    (performQueryOnBuffer_groups exLib exGroupFooBarFilled ["src"] rfl
      (by
        intro k hk
        rw [List.mem_singleton.1 hk]
        rfl)
      rfl).1⟩

/-! ## C35 -/

/-- C35: `CanBuildGroupbyExecutionPlan` returns false for every analyzed
statement with a HAVING clause and true for every one without, whatever the
function registry. -/
theorem CanBuildGroupbyExecutionPlan_having (lp : LogicalPlan) (reg : FunctionRegistry) :
    (∀ e, lp.Having = some e → CanBuildGroupbyExecutionPlan lp reg = false)
      ∧ (lp.Having = none → CanBuildGroupbyExecutionPlan lp reg = true)
      ∧ ∀ reg2, CanBuildGroupbyExecutionPlan lp reg2 = CanBuildGroupbyExecutionPlan lp reg := by
  refine ⟨?_, ?_, fun _ => rfl⟩
  · intro e he
    unfold CanBuildGroupbyExecutionPlan
    rw [he]
    rfl
  · intro he
    unfold CanBuildGroupbyExecutionPlan
    rw [he]
    rfl

theorem CanBuildGroupbyExecutionPlan_having_witness :
    CanBuildGroupbyExecutionPlan exHavingLp exReg = false
      ∧ CanBuildGroupbyExecutionPlan exConstLp exReg = true :=
  ⟨(CanBuildGroupbyExecutionPlan_having exHavingLp exReg).1 ⟨"count(int) > 1"⟩ rfl,
    (CanBuildGroupbyExecutionPlan_having exConstLp exReg).2.1 rfl⟩

/-! ## Two tuples of the same contents -/

/-- On a new plan over one relation with a window of two tuples, without
filter and grouping, with the default emit rule and the RSTREAM emitter, two
calls with two tuple objects of the same contents, on which the projections
give the row `r`: the first call returns `r` once, the second returns `r`
twice. So it is for `SELECT RSTREAM int FROM src [RANGE 2 TUPLES]` and two
tuples `int = 1`; `SELECT RSTREAM 2 AS a FROM src [RANGE 2 TUPLES]` returns
its row once at the first of four calls and twice at every later one. -/
theorem Process_equal_tuples_twice (L : Lib) (ep0 : groupbyExecutionPlan)
    (rel : AliasedStreamWindowAST) (h : singleTupleWindow ep0 rel 2)
    (hemit : ep0.emitterType = Emitter.Rstream) (t : Tuple)
    (ht : t.InputName = relationKey rel) (r : Map)
    (hproj : projectRow L (tupleRow L rel.Alias t) ep0.projections [] = .ok r) :
    (Process L ep0 ⟨[rel.Alias], [rel.Alias]⟩ t).2 = .ok [r]
      ∧ (Process L (Process L ep0 ⟨[rel.Alias], [rel.Alias]⟩ t).1
          ⟨[rel.Alias], [rel.Alias]⟩ t).2 = .ok [r, r]
      ∧ processResults exSrcLib exRstreamPlan
          [(exOrderSrc, exTuple "src" 1 0), (exOrderSrc, exTuple "src" 1 0)]
        = [.ok [exRow 1], .ok [exRow 1, exRow 1]]
      ∧ processResults exLib exConstAPlan exFour
        = [.ok [[("a", .int 2)]], .ok [[("a", .int 2)], [("a", .int 2)]],
            .ok [[("a", .int 2)], [("a", .int 2)]], .ok [[("a", .int 2)], [("a", .int 2)]]] := by
  have h0 := windowState_nil ep0 rel 2 h
  obtain ⟨hrel, -, -, -, hfil, hmode, hrules, hcounters, -, -, -⟩ := h
  have hrs : ∀ (rec : List Tuple) (c p : List Map),
      computeResultTuples L (windowState ep0 rel.Alias 2 rec c p) = .ok c := by
    intro rec c p
    unfold computeResultTuples
    have hty : (windowState ep0 rel.Alias 2 rec c p).emitterType = Emitter.Rstream := hemit
    rw [if_pos hty, emitLoop_eq]
    simp [windowState]
  have h1 := Process_window_ok L ep0 rel 2 hrel hrules hcounters hfil hmode (fun _ => r) []
    [] [] t ht (by
      intro x hx
      simp only [List.nil_append, List.mem_singleton] at hx
      subst hx
      exact hproj)
  have h2 := Process_window_ok L ep0 rel 2 hrel hrules hcounters hfil hmode (fun _ => r) [t]
    ((lastN 2 ([] ++ [t])).map (fun _ => r)) [] t ht (by
      intro x hx
      simp only [List.cons_append, List.nil_append, List.mem_cons, List.mem_singleton,
        List.not_mem_nil, or_false, or_self] at hx
      subst hx
      exact hproj)
  rw [h0] at h1
  have e1 : ([] : List Tuple) ++ [t] = [t] := rfl
  rw [e1] at h1 h2
  refine ⟨?_, ?_, by set_option maxRecDepth 8000 in rfl, by set_option maxRecDepth 8000 in rfl⟩
  · rw [h1]
    simp only
    rw [hrs]
    simp [lastN]
  · rw [h1]
    simp only
    rw [h2]
    simp only
    rw [hrs]
    simp [lastN]

/-! ## C33 -/

/-- The time-window test keeps every tuple that is not earlier than the
triggering tuple, whatever the window of non-negative size. -/
theorem inTimeWindow_of_le (cur ts w : Int) (hw : 0 ≤ w) (h : cur ≤ ts) :
    inTimeWindow cur w ts = true := by
  unfold inTimeWindow
  rw [decide_eq_true_iff]
  have hsub : timeSub cur ts ≤ 0 := by
    unfold timeSub maxDuration minDuration
    split
    · omega
    · split <;> omega
  have h1 : durationSeconds (timeSub cur ts) ≤ 0 := durationSeconds_nonpos _ hsub
  have h2 : (0 : Int) ≤ F64.ofInt w := by
    unfold F64.ofInt
    rw [round_of_nonneg _ _ (Int.mul_nonneg hw (Int.natCast_nonneg _))]
    exact Int.natCast_nonneg _
  exact le_trans h1 h2

/-- C33, not as stated: eviction from a time window keeps entries that are
later than the triggering tuple by more than the window. A buffer with a
window of 2 seconds keeps an entry that is 100 seconds later than the
triggering tuple; fed a tuple of second 100 and then one of second 0,
`SELECT RSTREAM int FROM src [RANGE 2 SECONDS]` returns both rows at the
second call. -/
theorem evictBuffer_seconds_two_sided_counterexample :
    evictBuffer ⟨[exTupleAt 1 100000000000], 2, IntervalUnit.Seconds⟩ 0
        = .ok ⟨[exTupleAt 1 100000000000], 2, IntervalUnit.Seconds⟩
      ∧ ¬ ((exTupleAt 1 100000000000).Timestamp - 0 ≤ 2 * 1000000000)
      ∧ processResults exSrcLib exSecondsRstreamPlan
          [(exOrderSrc, exTuple "src" 1 100), (exOrderSrc, exTuple "src" 2 0)]
        = [.ok [exRow 1], .ok [exRow 1, exRow 2]] :=
  ⟨by set_option maxRecDepth 8000 in rfl, by decide, by set_option maxRecDepth 8000 in rfl⟩

/-- C33, as the code has it: eviction from a time window of `w >= 0` seconds
does not fail and keeps a part of the buffer in its order; every entry that
is not earlier than the triggering tuple is kept, however much later it is,
and if `w < 2^24`, an entry is kept exactly when the triggering tuple is at
most `w` seconds later than it. -/
theorem evictBuffer_seconds_one_sided (b : inputBuffer) (cur : Time)
    (htype : b.windowType = IntervalUnit.Seconds) (hw0 : 0 ≤ b.windowSize) :
    ∃ b1, evictBuffer b cur = .ok b1 ∧ List.Sublist b1.tuples b.tuples
      ∧ (∀ x ∈ b.tuples, cur ≤ x.Timestamp → x ∈ b1.tuples)
      ∧ (b.windowSize < 2 ^ 24 →
          ∀ x ∈ b.tuples, (x ∈ b1.tuples ↔ cur - x.Timestamp ≤ b.windowSize * 1000000000)) := by
  refine ⟨_, evictBuffer_seconds b cur htype, List.filter_sublist _, ?_, ?_⟩
  · intro x hx hle
    simp only [List.mem_filter]
    exact ⟨hx, inTimeWindow_of_le cur x.Timestamp b.windowSize hw0 hle⟩
  · intro hw x hx
    simp only [List.mem_filter, hx, true_and]
    exact inTimeWindow_iff cur x.Timestamp b.windowSize hw0 hw

theorem evictBuffer_seconds_one_sided_witness :
    ∃ b1, evictBuffer ⟨[exTupleAt 1 0, exTupleAt 2 100000000000], 2, IntervalUnit.Seconds⟩
          3000000000 = .ok b1
      ∧ exTupleAt 2 100000000000 ∈ b1.tuples
      ∧ (exTupleAt 1 0 ∈ b1.tuples ↔ (3000000000 : Int) - 0 ≤ 2 * 1000000000) :=
  match evictBuffer_seconds_one_sided
    ⟨[exTupleAt 1 0, exTupleAt 2 100000000000], 2, IntervalUnit.Seconds⟩ 3000000000 rfl
    (by decide) with
  | ⟨b1, h1, _, h3, h4⟩ =>
    ⟨b1, h1, h3 _ (List.mem_cons_of_mem _ (List.mem_singleton_self _)) (by decide),
      h4 (by decide) _ (List.mem_cons_self _ _)⟩

/-! ## C34 -/

theorem initBuffers_ok (L : Lib) (rels : List AliasedStreamWindowAST)
    (buffers : AMap inputBuffer)
    (h : ∀ rel ∈ rels, rel.Unit = IntervalUnit.Tuples →
      -1 ≤ rel.Value ∧ rel.Value < 2 ^ 63 - 1 ∧ rel.Value + 1 ≤ L.maxCap) :
    ∃ res, initBuffers L rels buffers = .ok res := by
  induction rels generalizing buffers with
  | nil => exact ⟨buffers, rfl⟩
  | cons rel rest ih =>
    simp only [initBuffers]
    have hcond : ¬ (rel.Unit = IntervalUnit.Tuples
        ∧ (wrapInt64 (rel.Value + 1) < 0 ∨ L.maxCap < wrapInt64 (rel.Value + 1))) := by
      rintro ⟨hu, hneg⟩
      obtain ⟨h1, h2, h3⟩ := h rel (List.mem_cons_self _ _) hu
      rw [wrapInt64_of_inRange _ (by omega) (by omega)] at hneg
      omega
    rw [if_neg hcond]
    exact ih _ (fun r hr => h r (List.mem_cons_of_mem _ hr))

/-- The loop fails at a tuple window whose size plus one is negative or above
the limit of the runtime. -/
theorem initBuffers_fails (L : Lib) (rels : List AliasedStreamWindowAST)
    (buffers : AMap inputBuffer)
    (h : ∃ rel ∈ rels, rel.Unit = IntervalUnit.Tuples
      ∧ (wrapInt64 (rel.Value + 1) < 0 ∨ L.maxCap < wrapInt64 (rel.Value + 1))) :
    initBuffers L rels buffers = .error (Failure.panic Panic.makeslice) := by
  induction rels generalizing buffers with
  | nil =>
    obtain ⟨r, hr, -⟩ := h
    cases hr
  | cons rel rest ih =>
    simp only [initBuffers]
    by_cases hc : rel.Unit = IntervalUnit.Tuples
        ∧ (wrapInt64 (rel.Value + 1) < 0 ∨ L.maxCap < wrapInt64 (rel.Value + 1))
    · rw [if_pos hc]
    · rw [if_neg hc]
      apply ih
      obtain ⟨r, hr, hbad⟩ := h
      rcases List.mem_cons.1 hr with hr | hr
      · subst hr
        exact absurd hbad hc
      · exact ⟨r, hr, hbad⟩

theorem initEmitRules_seconds (rules : List StreamEmitIntervalAST)
    (tables : AMap IntervalAST × AMap Int)
    (h : ∃ r ∈ rules, r.IntervalAST.Unit = IntervalUnit.Seconds) :
    initEmitRules rules tables = .error (Failure.error Err.timeBasedEmitter) := by
  induction rules generalizing tables with
  | nil =>
    obtain ⟨r, hr, -⟩ := h
    cases hr
  | cons emitRule rest ih =>
    obtain ⟨emitterRules, emitCounters⟩ := tables
    simp only [initEmitRules]
    by_cases hu : emitRule.IntervalAST.Unit = IntervalUnit.Seconds
    · rw [if_pos hu]
    · rw [if_neg hu]
      apply ih
      obtain ⟨r, hr, hs⟩ := h
      rcases List.mem_cons.1 hr with hr | hr
      · subst hr
        exact absurd hs hu
      · exact ⟨r, hr, hs⟩

theorem initEmitRules_ok (rules : List StreamEmitIntervalAST)
    (tables : AMap IntervalAST × AMap Int)
    (h : ∀ r ∈ rules, r.IntervalAST.Unit ≠ IntervalUnit.Seconds) :
    ∃ res, initEmitRules rules tables = .ok res := by
  induction rules generalizing tables with
  | nil => exact ⟨tables, rfl⟩
  | cons emitRule rest ih =>
    obtain ⟨emitterRules, emitCounters⟩ := tables
    simp only [initEmitRules]
    rw [if_neg (h emitRule (List.mem_cons_self _ _))]
    exact ih _ (fun r hr => h r (List.mem_cons_of_mem _ hr))

/-- C34, not as stated: the constructor also fails, by a panic of `make`, for
a tuple window whose size plus one is negative or above the limit of the
runtime, without any emit rule in seconds: with `RANGE -2 TUPLES`, and with
`RANGE 2^62 TUPLES` on a platform that allocates at most `2^45` pointers. -/
theorem NewGroupbyExecutionPlan_result_counterexample :
    NewGroupbyExecutionPlan exConstLib exNegRangeLp exReg
        = .error (Failure.panic Panic.makeslice)
      ∧ NewGroupbyExecutionPlan exConstLib exHugeRangeLp exReg
        = .error (Failure.panic Panic.makeslice)
      ∧ (∃ projs, exConstLib.prepareProjections exNegRangeLp.Projections exReg = .ok projs)
      ∧ (∃ filter, exConstLib.prepareFilter exNegRangeLp.Filter exReg = .ok filter)
      ∧ (∃ groupList, exConstLib.prepareGroupList exNegRangeLp.GroupList exReg = .ok groupList)
      ∧ ∀ r ∈ exNegRangeLp.EmitIntervals, r.IntervalAST.Unit ≠ IntervalUnit.Seconds :=
  ⟨rfl, rfl, ⟨_, rfl⟩, ⟨_, rfl⟩, ⟨_, rfl⟩, fun r hr => absurd hr (List.not_mem_nil r)⟩

/-- C34, as the code has it: when projections, filter and group list are
prepared without error, the constructor panics in `make` if a tuple window has
a size plus one, computed in `int64`, that is negative or above the limit of
the runtime. When every tuple window has a size from -1 on whose successor is
within that limit (and below `2^63`), the constructor returns the error of the
time-based emitter if an emit rule of the statement is in seconds, and a plan
otherwise. The plan has the relations of the statement, empty `curResults` and
`prevResults`, an empty buffer under the alias of every relation, and every
buffer has the size and the unit of a relation with its alias, of the relation
itself if the aliases are distinct. -/
theorem NewGroupbyExecutionPlan_result (L : Lib) (lp : LogicalPlan) (reg : FunctionRegistry)
    (projs : List aliasedEvaluator) (filter : Option Evaluator) (groupList : List Evaluator)
    (hp : L.prepareProjections lp.Projections reg = .ok projs)
    (hf : L.prepareFilter lp.Filter reg = .ok filter)
    (hg : L.prepareGroupList lp.GroupList reg = .ok groupList) :
    ((∃ rel ∈ lp.Relations, rel.Unit = IntervalUnit.Tuples
          ∧ (wrapInt64 (rel.Value + 1) < 0 ∨ L.maxCap < wrapInt64 (rel.Value + 1))) →
        NewGroupbyExecutionPlan L lp reg = .error (Failure.panic Panic.makeslice))
      ∧ ((∀ rel ∈ lp.Relations, rel.Unit = IntervalUnit.Tuples →
            -1 ≤ rel.Value ∧ rel.Value < 2 ^ 63 - 1 ∧ rel.Value + 1 ≤ L.maxCap) →
          (∃ r ∈ lp.EmitIntervals, r.IntervalAST.Unit = IntervalUnit.Seconds) →
        NewGroupbyExecutionPlan L lp reg = .error (Failure.error Err.timeBasedEmitter))
      ∧ ((∀ rel ∈ lp.Relations, rel.Unit = IntervalUnit.Tuples →
            -1 ≤ rel.Value ∧ rel.Value < 2 ^ 63 - 1 ∧ rel.Value + 1 ≤ L.maxCap) →
          (∀ r ∈ lp.EmitIntervals, r.IntervalAST.Unit ≠ IntervalUnit.Seconds) →
        ∃ ep, NewGroupbyExecutionPlan L lp reg = .ok ep
          ∧ ep.curResults = [] ∧ ep.prevResults = [] ∧ ep.relations = lp.Relations
          ∧ (∀ rel ∈ lp.Relations, ∃ b, AMap.get ep.buffers rel.Alias = some b ∧ b.tuples = [])
          ∧ (∀ k b, AMap.get ep.buffers k = some b →
              ∃ rel ∈ lp.Relations, rel.Alias = k ∧ b = ⟨[], rel.Value, rel.Unit⟩)
          ∧ ((lp.Relations.map (fun rel => rel.Alias)).Nodup →
              ∀ rel ∈ lp.Relations,
                AMap.get ep.buffers rel.Alias = some ⟨[], rel.Value, rel.Unit⟩)) := by
  refine ⟨?_, ?_, ?_⟩
  · intro hbad
    unfold NewGroupbyExecutionPlan
    simp only [hp, hf, hg, initBuffers_fails L lp.Relations [] hbad]
  · intro hrange hsec
    obtain ⟨buffers, hb⟩ := initBuffers_ok L lp.Relations [] hrange
    unfold NewGroupbyExecutionPlan
    simp only [hp, hf, hg, hb]
    rw [initEmitRules_seconds lp.EmitIntervals _ hsec]
  · intro hrange hnosec
    obtain ⟨buffers, hb⟩ := initBuffers_ok L lp.Relations [] hrange
    obtain ⟨tables, ht⟩ := initEmitRules_ok lp.EmitIntervals
      (if lp.EmitIntervals.length = 0 then
        ([("*", ⟨1, IntervalUnit.Tuples⟩)], [("*", 0)])
      else ([], [])) hnosec
    obtain ⟨i1, -, i3⟩ := initBuffers_spec _ _ _ _ hb
    have hfrom : ∀ k b, AMap.get buffers k = some b →
        ∃ rel ∈ lp.Relations, rel.Alias = k ∧ b = ⟨[], rel.Value, rel.Unit⟩ := by
      intro k b hkb
      rcases i3 k b hkb with h1 | h1
      · simp [AMap.get] at h1
      · exact h1
    refine ⟨⟨projs, groupList, filter, lp.GroupingStmt, lp.EmitterType, tables.1, tables.2,
      lp.Relations, buffers, [], []⟩, ?_, rfl, rfl, rfl, ?_, hfrom, ?_⟩
    · unfold NewGroupbyExecutionPlan
      simp only [hp, hf, hg, hb]
      rw [ht]
    · intro rel hrel
      obtain ⟨b, hbget⟩ := i1 rel hrel
      obtain ⟨rel1, -, -, hb1⟩ := hfrom _ _ hbget
      exact ⟨b, hbget, by rw [hb1]⟩
    · intro hnd rel hrel
      obtain ⟨b, hbget⟩ := i1 rel hrel
      obtain ⟨rel1, hrel1, ha, hb1⟩ := hfrom _ _ hbget
      have heq : rel1 = rel := List.inj_on_of_nodup_map hnd hrel1 hrel ha
      rw [hbget, hb1, heq]

theorem NewGroupbyExecutionPlan_result_witness :
    NewGroupbyExecutionPlan exConstLib exSecondsRuleLp exReg
        = .error (Failure.error Err.timeBasedEmitter)
      ∧ ∃ ep, NewGroupbyExecutionPlan exSelfCondLib exSelfCondLp exReg = .ok ep
        ∧ ep.curResults = [] ∧ ep.prevResults = []
        ∧ AMap.get ep.buffers "src1" = some ⟨[], 2, IntervalUnit.Tuples⟩
        ∧ AMap.get ep.buffers "src2" = some ⟨[], 2, IntervalUnit.Tuples⟩ :=
  ⟨(NewGroupbyExecutionPlan_result exConstLib exSecondsRuleLp exReg _ _ _ rfl rfl rfl).2.1
      (by
        intro rel hrel _
        rw [List.mem_singleton.1 hrel]
        decide) ⟨_, List.mem_singleton_self _, rfl⟩,
    match (NewGroupbyExecutionPlan_result exSelfCondLib exSelfCondLp exReg _ _ _ rfl rfl
        rfl).2.2
      (by
        intro rel hrel _
        simp only [exSelfCondLp, List.mem_cons, List.mem_singleton, List.not_mem_nil,
          or_false] at hrel
        rcases hrel with hrel | hrel <;> subst hrel <;> decide)
      (fun r hr => absurd hr (List.not_mem_nil r)) with
    | ⟨ep, h1, h2, h3, _, _, _, h7⟩ =>
      ⟨ep, h1, h2, h3,
        h7 (by decide) ⟨StreamType.ActualStream, "src", 2, IntervalUnit.Tuples, "src1"⟩
          (List.mem_cons_self _ _),
        h7 (by decide) ⟨StreamType.ActualStream, "src", 2, IntervalUnit.Tuples, "src2"⟩
          (List.mem_cons_of_mem _ (List.mem_singleton_self _))⟩⟩

/-! ## C37 -/

theorem countAndCheck_counterInv (ep : groupbyExecutionPlan) (key : String)
    (interval : IntervalAST) (hrule : AMap.get ep.emitterRules key = some interval)
    (hint : interval.Value < 2 ^ 63) (hinv : counterInv ep) :
    counterInv (countAndCheck ep key interval).1
      ∧ ∃ b, (countAndCheck ep key interval).2 = .ok b := by
  obtain ⟨hc0, hc1⟩ := hinv key interval hrule
  rw [countAndCheck_of_lt ep key interval hint hc0 hc1]
  refine ⟨?_, _, rfl⟩
  intro key2 interval2 hrule2
  have hrule2a : AMap.get ep.emitterRules key2 = some interval2 := hrule2
  by_cases hk : key = key2
  · subst hk
    rw [hrule] at hrule2a
    simp only [Option.some.injEq] at hrule2a
    subst hrule2a
    rw [counterOf_set_self]
    split <;> constructor <;> omega
  · rw [counterOf_set_ne ep key key2 _ hk]
    exact hinv key2 interval2 hrule2a

/-- A call of `shouldEmitNow` on a plan with counters in range and intervals in
`int64` returns without panic and leaves the counters in range. -/
theorem shouldEmitNow_counterInv (ep : groupbyExecutionPlan) (t : Tuple)
    (hint : ∀ key interval, AMap.get ep.emitterRules key = some interval →
      interval.Value < 2 ^ 63)
    (hinv : counterInv ep) :
    counterInv (shouldEmitNow ep t).1 ∧ ∃ b, (shouldEmitNow ep t).2 = .ok b := by
  cases hstar : AMap.get ep.emitterRules "*" with
  | some interval =>
    rw [shouldEmitNow_star ep t interval hstar]
    exact countAndCheck_counterInv ep "*" interval hstar (hint _ _ hstar) hinv
  | none =>
    cases hrule : AMap.get ep.emitterRules t.InputName with
    | some interval =>
      rw [shouldEmitNow_source ep t interval hstar hrule]
      exact countAndCheck_counterInv ep t.InputName interval hrule (hint _ _ hrule) hinv
    | none =>
      rw [shouldEmitNow_no_rule ep t hstar hrule]
      exact ⟨hinv, _, rfl⟩

/-- The rules of a new plan are rules of the statement, or the default rule. -/
theorem NewGroupbyExecutionPlan_rule_mem (L : Lib) (lp : LogicalPlan) (reg : FunctionRegistry)
    (ep : groupbyExecutionPlan) (hnew : NewGroupbyExecutionPlan L lp reg = .ok ep)
    (key : String) (interval : IntervalAST)
    (h : AMap.get ep.emitterRules key = some interval) :
    (∃ r ∈ lp.EmitIntervals, r.IntervalAST = interval) ∨ interval = ⟨1, IntervalUnit.Tuples⟩ := by
  obtain ⟨projs, filter, groupList, buffers, tables, -, -, -, -, hinit, hep⟩ :=
    NewGroupbyExecutionPlan_ok L lp reg ep hnew
  subst hep
  obtain ⟨i1, -, -⟩ := initEmitRules_tables _ _ _ hinit
  simp only at h
  rw [i1 key] at h
  cases hfind : lp.EmitIntervals.reverse.find? (fun r => decide (r.Name = key)) with
  | some r =>
    rw [hfind] at h
    simp only [Option.some.injEq] at h
    have hmem := List.mem_of_find?_eq_some hfind
    exact Or.inl ⟨r, List.mem_reverse.1 hmem, h⟩
  | none =>
    rw [hfind] at h
    simp only at h
    right
    split at h
    · simp only [AMap.get] at h
      split at h
      · simp only [Option.some.injEq] at h
        exact h.symm
      · cases h
    · simp [AMap.get] at h

/-- C37: on a plan built by `NewGroupbyExecutionPlan` from a statement whose
emit rules all have an interval of at least 1 (an `int64`), after every
sequence of calls of `shouldEmitNow` the counter of every key with a rule is
at least 0 and below the interval of the rule, a missing counter counting as
0 as it does in the code; none of the calls panics. -/
theorem gateAfter_counters (L : Lib) (lp : LogicalPlan) (reg : FunctionRegistry)
    (ep0 : groupbyExecutionPlan) (hnew : NewGroupbyExecutionPlan L lp reg = .ok ep0)
    (hpos : ∀ r ∈ lp.EmitIntervals, 1 ≤ r.IntervalAST.Value ∧ r.IntervalAST.Value < 2 ^ 63)
    (ts : List Tuple) :
    (∀ key interval, AMap.get (gateAfter ep0 ts).emitterRules key = some interval →
        1 ≤ interval.Value
          ∧ 0 ≤ counterOf (gateAfter ep0 ts) key
          ∧ counterOf (gateAfter ep0 ts) key < interval.Value
          ∧ ∀ c, AMap.get (gateAfter ep0 ts).emitCounters key = some c →
              0 ≤ c ∧ c < interval.Value)
      ∧ ∀ t, ∃ b, (shouldEmitNow (gateAfter ep0 ts) t).2 = .ok b := by
  have hrules : ∀ key interval, AMap.get ep0.emitterRules key = some interval →
      1 ≤ interval.Value ∧ interval.Value < 2 ^ 63 := by
    intro key interval h
    rcases NewGroupbyExecutionPlan_rule_mem L lp reg ep0 hnew key interval h with
      ⟨r, hr, hri⟩ | hd
    · rw [← hri]
      exact hpos r hr
    · rw [hd]
      decide
  have hinv : counterInv (gateAfter ep0 ts) := by
    induction ts using List.reverseRecOn with
    | nil =>
      intro key interval h
      have h0 := NewGroupbyExecutionPlan_counters L lp reg ep0 hnew key
      have := hrules key interval h
      show 0 ≤ counterOf ep0 key ∧ counterOf ep0 key < interval.Value
      rw [h0]
      omega
    | append_singleton pre t ih =>
      rw [gateAfter_append]
      refine (shouldEmitNow_counterInv (gateAfter ep0 pre) t ?_ ih).1
      intro key interval h
      rw [gateAfter_emitterRules] at h
      exact (hrules key interval h).2
  have hint : ∀ key interval, AMap.get (gateAfter ep0 ts).emitterRules key = some interval →
      interval.Value < 2 ^ 63 := by
    intro key interval h
    rw [gateAfter_emitterRules] at h
    exact (hrules key interval h).2
  refine ⟨?_, fun t => (shouldEmitNow_counterInv (gateAfter ep0 ts) t hint hinv).2⟩
  intro key interval h
  obtain ⟨h1, h2⟩ := hinv key interval h
  have h3 : AMap.get ep0.emitterRules key = some interval := by
    rw [gateAfter_emitterRules] at h
    exact h
  refine ⟨(hrules key interval h3).1, h1, h2, ?_⟩
  intro c hc
  have : counterOf (gateAfter ep0 ts) key = c := by
    unfold counterOf
    rw [hc]
    rfl
  rw [← this]
  exact ⟨h1, h2⟩

theorem gateAfter_counters_witness :
    NewGroupbyExecutionPlan exConstLib exConstLp exReg = .ok exConstEvery2Plan
      ∧ AMap.get (gateAfter exConstEvery2Plan
          [exTuple "src" 1 0, exTuple "src" 2 1, exTuple "src" 3 2]).emitterRules "*"
        = some ⟨2, IntervalUnit.Tuples⟩
      ∧ 0 ≤ counterOf (gateAfter exConstEvery2Plan
          [exTuple "src" 1 0, exTuple "src" 2 1, exTuple "src" 3 2]) "*"
      ∧ counterOf (gateAfter exConstEvery2Plan
          [exTuple "src" 1 0, exTuple "src" 2 1, exTuple "src" 3 2]) "*" < 2 :=
  have h := (gateAfter_counters exConstLib exConstLp exReg exConstEvery2Plan rfl
    (by
      intro r hr
      rw [List.mem_singleton.1 hr]
      decide)
    [exTuple "src" 1 0, exTuple "src" 2 1, exTuple "src" 3 2]).1 "*" ⟨2, IntervalUnit.Tuples⟩ rfl
  ⟨rfl, rfl, h.2.1, h.2.2.1⟩

/-! ## C38 -/

theorem foundInCur_eq_foundInPrev (L : Lib) (hsymm : ∀ a b, L.deepEqual a b = L.deepEqual b a)
    (x : Map) (rows : List Map) : foundInCur L x rows = foundInPrev L x rows := by
  induction rows with
  | nil => rfl
  | cons r rest ih => simp only [foundInCur, foundInPrev, hsymm r x, ih]

/-- C38: when `reflect.DeepEqual` is symmetric on rows, the delete-stream
emitter on current results `A` and previous results `B` returns what the
insert-stream emitter returns on current results `B` and previous results
`A`; and when every row of `A` is deep-equal to a row of `B` and every row of
`B` to a row of `A`, both emitters return no row. -/
theorem computeResultTuples_dual (L : Lib) (ep : groupbyExecutionPlan) (A B : List Map)
    (hsymm : ∀ a b, L.deepEqual a b = L.deepEqual b a) :
    computeResultTuples L
        { ep with emitterType := Emitter.Dstream, curResults := A, prevResults := B }
      = computeResultTuples L
        { ep with emitterType := Emitter.Istream, curResults := B, prevResults := A }
    ∧ ((∀ a ∈ A, ∃ b ∈ B, L.deepEqual a b = true) →
        (∀ b ∈ B, ∃ a ∈ A, L.deepEqual b a = true) →
        computeResultTuples L
            { ep with emitterType := Emitter.Dstream, curResults := A, prevResults := B }
          = .ok []
        ∧ computeResultTuples L
            { ep with emitterType := Emitter.Istream, curResults := A, prevResults := B }
          = .ok []) := by
  have hD : ∀ A1 B1 : List Map, computeResultTuples L
      { ep with emitterType := Emitter.Dstream, curResults := A1, prevResults := B1 }
      = .ok (B1.filter (fun prevRes => !foundInCur L prevRes A1)) := by
    intro A1 B1
    unfold computeResultTuples
    simp [emitLoop_eq]
  have hI : ∀ A1 B1 : List Map, computeResultTuples L
      { ep with emitterType := Emitter.Istream, curResults := A1, prevResults := B1 }
      = .ok (A1.filter (fun res => !foundInPrev L res B1)) := by
    intro A1 B1
    unfold computeResultTuples
    simp [emitLoop_eq]
  constructor
  · rw [hD, hI]
    congr 2
    funext x
    rw [foundInCur_eq_foundInPrev L hsymm]
  · intro hAB hBA
    rw [hD, hI]
    constructor
    · congr 1
      rw [List.filter_eq_nil_iff]
      intro b hb
      obtain ⟨a, ha, hab⟩ := hBA b hb
      have : foundInCur L b A = true := by
        cases hf : foundInCur L b A with
        | true => rfl
        | false =>
          have := (foundInCur_eq_false_iff L b A).1 hf a ha
          rw [hsymm a b, hab] at this
          cases this
      simp [this]
    · congr 1
      rw [List.filter_eq_nil_iff]
      intro a ha
      obtain ⟨b, hb, hab⟩ := hAB a ha
      have : foundInPrev L a B = true := by
        cases hf : foundInPrev L a B with
        | true => rfl
        | false =>
          have := (foundInPrev_eq_false_iff L a B).1 hf b hb
          rw [hab] at this
          cases this
      simp [this]

theorem computeResultTuples_dual_witness :
    computeResultTuples exLib
        { exRstreamPlan with
          emitterType := Emitter.Dstream
          curResults := [exRow 2, exRow 3]
          prevResults := [exRow 1, exRow 2] }
      = computeResultTuples exLib
        { exRstreamPlan with
          emitterType := Emitter.Istream
          curResults := [exRow 1, exRow 2]
          prevResults := [exRow 2, exRow 3] }
    ∧ computeResultTuples exLib
        { exRstreamPlan with
          emitterType := Emitter.Dstream
          curResults := [exRow 1, exRow 2]
          prevResults := [exRow 2, exRow 1, exRow 1] } = .ok []
    ∧ computeResultTuples exLib
        { exRstreamPlan with
          emitterType := Emitter.Istream
          curResults := [exRow 1, exRow 2]
          prevResults := [exRow 2, exRow 1, exRow 1] } = .ok [] :=
  have hsymm : ∀ a b, exLib.deepEqual a b = exLib.deepEqual b a := by
    intro a b
    show Value.beq (.map a) (.map b) = Value.beq (.map b) (.map a)
    cases h1 : Value.beq (.map a) (.map b) with
    | true =>
      have := (Value.beq_iff _ _).1 h1
      rw [this]
      exact ((Value.beq_iff _ _).2 rfl).symm
    | false =>
      cases h2 : Value.beq (.map b) (.map a) with
      | false => rfl
      | true =>
        have := (Value.beq_iff _ _).1 h2
        rw [this, (Value.beq_iff _ _).2 rfl] at h1
        cases h1
  have hmem : (∀ a ∈ [exRow 1, exRow 2], ∃ b ∈ [exRow 2, exRow 1, exRow 1],
      exLib.deepEqual a b = true) := by
    intro a ha
    simp only [List.mem_cons, List.mem_singleton, List.not_mem_nil, or_false] at ha
    rcases ha with ha | ha <;> subst ha
    · exact ⟨exRow 1, by simp, rfl⟩
    · exact ⟨exRow 2, by simp, rfl⟩
  have hmem2 : (∀ b ∈ [exRow 2, exRow 1, exRow 1], ∃ a ∈ [exRow 1, exRow 2],
      exLib.deepEqual b a = true) := by
    intro b hb
    simp only [List.mem_cons, List.mem_singleton, List.not_mem_nil, or_false] at hb
    rcases hb with hb | hb | hb <;> subst hb
    · exact ⟨exRow 2, by simp, rfl⟩
    · exact ⟨exRow 1, by simp, rfl⟩
    · exact ⟨exRow 1, by simp, rfl⟩
  ⟨(computeResultTuples_dual exLib exRstreamPlan [exRow 2, exRow 3] [exRow 1, exRow 2] hsymm).1,
    ((computeResultTuples_dual exLib exRstreamPlan [exRow 1, exRow 2]
      [exRow 2, exRow 1, exRow 1] hsymm).2 hmem hmem2).1,
    ((computeResultTuples_dual exLib exRstreamPlan [exRow 1, exRow 2]
      [exRow 2, exRow 1, exRow 1] hsymm).2 hmem hmem2).2⟩

/-! ## C40 -/

theorem evictBuffer_nonneg (b : inputBuffer) (cur : Time) (h : 0 ≤ b.windowSize) :
    (∃ b1, evictBuffer b cur = .ok b1 ∧ b1.windowSize = b.windowSize)
      ∨ evictBuffer b cur = .error (Failure.error Err.unknownWindowType) := by
  unfold evictBuffer
  simp only
  split
  · split
    · rename_i hgt
      have hlow : 0 ≤ (b.tuples.length : Int) - b.windowSize
          ∧ (b.tuples.length : Int) - b.windowSize ≤ b.tuples.length := by
        constructor <;> omega
      rw [if_pos hlow]
      exact Or.inl ⟨_, rfl, rfl⟩
    · exact Or.inl ⟨_, rfl, rfl⟩
  · split
    · exact Or.inl ⟨_, rfl, rfl⟩
    · exact Or.inr rfl

theorem nonnegWindows_set (buffers : AMap inputBuffer) (k : String) (b : inputBuffer)
    (h : nonnegWindows buffers) (hb : 0 ≤ b.windowSize) :
    nonnegWindows (AMap.set buffers k b) := by
  intro k2 b2 hget
  rw [AMap.get_set] at hget
  split at hget
  · simp only [Option.some.injEq] at hget
    rw [← hget]
    exact hb
  · exact h k2 b2 hget

theorem evictLoop_nonneg (cur : Time) (order : List String) (buffers : AMap inputBuffer)
    (h : nonnegWindows buffers) :
    nonnegWindows (evictLoop cur order buffers).1
      ∧ ∀ f, (evictLoop cur order buffers).2 = some f
          → f = Failure.error Err.unknownWindowType := by
  induction order generalizing buffers with
  | nil => exact ⟨h, fun f hf => by simp [evictLoop] at hf⟩
  | cons key rest ih =>
    simp only [evictLoop]
    cases hget : AMap.get buffers key with
    | none => exact ih buffers h
    | some b =>
      simp only
      rcases evictBuffer_nonneg b cur (h key b hget) with ⟨b1, h1, h2⟩ | h1
      · rw [h1]
        simp only
        exact ih _ (nonnegWindows_set buffers key b1 h (by rw [h2]; exact h key b hget))
      · rw [h1]
        simp only
        exact ⟨h, fun f hf => by
          simp only [Option.some.injEq] at hf
          exact hf.symm⟩

theorem appendLoop_nonneg (n : Nat) (rels : List AliasedStreamWindowAST)
    (buffers : AMap inputBuffer) (t : Tuple) (h : nonnegWindows buffers) :
    nonnegWindows (appendLoop n rels buffers t).1.1
      ∧ ∀ f, (appendLoop n rels buffers t).2 = some f
          → f = Failure.panic Panic.nilDereference := by
  induction rels generalizing buffers t with
  | nil => exact ⟨h, fun f hf => by simp [appendLoop] at hf⟩
  | cons rel rest ih =>
    simp only [appendLoop]
    split
    · cases hget : AMap.get buffers rel.Alias with
      | none =>
        simp only
        exact ⟨h, fun f hf => by
          simp only [Option.some.injEq] at hf
          exact hf.symm⟩
      | some b =>
        simp only
        exact ih _ _ (nonnegWindows_set buffers rel.Alias _ h (h rel.Alias b hget))
    · exact ih _ _ h

theorem addTupleToBuffer_nonneg (ep : groupbyExecutionPlan) (t : Tuple)
    (h : nonnegWindows ep.buffers) :
    nonnegWindows (addTupleToBuffer ep t).1.1.buffers
      ∧ ∀ f, (addTupleToBuffer ep t).2 = some f → noPrimitivePanic f := by
  unfold addTupleToBuffer
  simp only
  split
  · refine ⟨h, fun f hf => ?_⟩
    simp only [Option.some.injEq] at hf
    rw [← hf]
    exact ⟨by simp, by simp⟩
  · obtain ⟨h1, h2⟩ := appendLoop_nonneg
      (ep.relations.countP (fun rel => decide (t.InputName = relationKey rel)))
      ep.relations ep.buffers t h
    rcases happ : appendLoop
      (ep.relations.countP (fun rel => decide (t.InputName = relationKey rel)))
      ep.relations ep.buffers t with ⟨⟨bufs, t1⟩, r⟩
    rw [happ] at h1 h2
    refine ⟨h1, fun f hf => ?_⟩
    rw [h2 f hf]
    exact ⟨by simp, by simp⟩

theorem countAndCheck_nonzero (ep : groupbyExecutionPlan) (key : String)
    (interval : IntervalAST) (h : interval.Value ≠ 0) :
    ∃ b, (countAndCheck ep key interval).2 = .ok b := by
  unfold countAndCheck
  simp only [h, if_false]
  split
  · exact ⟨_, rfl⟩
  · exact ⟨_, rfl⟩

/-- The gate does not divide by zero when no rule has the interval 0. -/
theorem shouldEmitNow_nonzero (ep : groupbyExecutionPlan) (t : Tuple)
    (h : nonzeroRules ep.emitterRules) : ∃ b, (shouldEmitNow ep t).2 = .ok b := by
  unfold shouldEmitNow
  cases hstar : AMap.get ep.emitterRules "*" with
  | some interval => exact countAndCheck_nonzero ep "*" interval (h _ _ hstar)
  | none =>
    simp only
    cases hrule : AMap.get ep.emitterRules t.InputName with
    | some interval => exact countAndCheck_nonzero ep _ interval (h _ _ hrule)
    | none => exact ⟨_, rfl⟩

theorem forTuples_failure {σ : Type} (P : Failure → Prop)
    (body : Tuple → Map → σ → (Map × σ) × Option Failure)
    (hbody : ∀ t h s f, (body t h s).2 = some f → P f)
    (ts : List Tuple) (holder : Map) (s : σ) (f : Failure)
    (hf : (forTuples body ts holder s).2 = some f) : P f := by
  induction ts generalizing holder s with
  | nil => simp [forTuples] at hf
  | cons t rest ih =>
    simp only [forTuples] at hf
    rcases hb : body t holder s with ⟨⟨h1, s1⟩, r⟩
    rw [hb] at hf
    cases r with
    | none => exact ih h1 s1 hf
    | some f1 =>
      simp only [Option.some.injEq] at hf
      rw [← hf]
      exact hbody t holder s f1 (by rw [hb])

/-- The failures of `procCartProd` are those of the item function and the
dereference of a missing buffer. -/
theorem procCartProd_failure {σ : Type} (L : Lib) (buffers : AMap inputBuffer)
    (processItem : Map → σ → Except Failure σ) (P : Failure → Prop)
    (hnil : P (Failure.panic Panic.nilDereference))
    (hitem : ∀ d s f, processItem d s = .error f → P f)
    (keys : List String) (holder : Map) (s : σ) (f : Failure)
    (hf : (procCartProd L buffers processItem keys holder s).2 = some f) : P f := by
  induction keys generalizing holder s f with
  | nil =>
    simp only [procCartProd] at hf
    cases hp : processItem holder s with
    | ok s1 => rw [hp] at hf; simp at hf
    | error f1 =>
      rw [hp] at hf
      simp only [Option.some.injEq] at hf
      rw [← hf]
      exact hitem _ _ _ hp
  | cons k rest ih =>
    simp only [procCartProd] at hf
    cases hget : AMap.get buffers k with
    | none =>
      rw [hget] at hf
      simp only [Option.some.injEq] at hf
      rw [← hf]
      exact hnil
    | some b =>
      rw [hget] at hf
      simp only at hf
      exact forTuples_failure P _ (fun t h s1 f1 h1 => ih _ _ _ h1) _ _ _ f hf

theorem evalItem_failure (L : Lib) (ep : groupbyExecutionPlan) (d : Map) (acc : evalAcc)
    (f : Failure) (h : evalItem L ep d acc = .error f) : ∃ e, f = Failure.error e := by
  unfold evalItem at h
  split at h
  · simp only [Except.error.injEq] at h
    exact ⟨_, h.symm⟩
  · cases h
  · split at h
    · split at h
      · simp only [Except.error.injEq] at h
        exact ⟨_, h.symm⟩
      · cases h
    · split at h
      · simp only [Except.error.injEq] at h
        exact ⟨_, h.symm⟩
      · cases h

theorem evalGroups_failure (L : Lib) (ep : groupbyExecutionPlan) (groups : List tmpGroupData)
    (output : List Map) (f : Failure) (h : (evalGroups L ep groups output).2 = some f) :
    ∃ e, f = Failure.error e := by
  induction groups generalizing output with
  | nil => simp [evalGroups] at h
  | cons g rest ih =>
    simp only [evalGroups] at h
    cases hg : evalGroup L ep g with
    | error e =>
      rw [hg] at h
      simp only [Option.some.injEq] at h
      exact ⟨e, h.symm⟩
    | ok row =>
      rw [hg] at h
      exact ih _ h

/-- An evaluation fails with an error of an evaluator or of a helper, or with
the dereference of a missing buffer. -/
theorem performQueryOnBuffer_failure (L : Lib) (ep : groupbyExecutionPlan)
    (allStreams : List String) (f : Failure)
    (h : (performQueryOnBuffer L ep allStreams).2 = some f) : noPrimitivePanic f := by
  rw [performQueryOnBuffer_eq] at h
  have hq : (queryOutput L ep allStreams).2 = some f := by
    rcases hres : queryOutput L ep allStreams with ⟨out, r⟩
    rw [hres] at h
    cases r with
    | none => simp at h
    | some f1 => exact h
  unfold queryOutput at hq
  rcases hres : procCartProd L ep.buffers (evalItem L ep) allStreams []
    (⟨[], []⟩ : evalAcc) with ⟨⟨h2, acc2⟩, r⟩
  rw [hres] at hq
  cases r with
  | some f1 =>
    simp only [Option.some.injEq] at hq
    subst hq
    refine procCartProd_failure L ep.buffers (evalItem L ep) noPrimitivePanic
      ⟨by simp, by simp⟩ ?_ allStreams [] ⟨[], []⟩ f1 (by rw [hres])
    intro d s f2 h2
    obtain ⟨e, he⟩ := evalItem_failure L ep d s f2 h2
    rw [he]
    exact ⟨by simp, by simp⟩
  | none =>
    simp only at hq
    split at hq
    · obtain ⟨e, he⟩ := evalGroups_failure L ep _ _ f hq
      rw [he]
      exact ⟨by simp, by simp⟩
    · simp at hq

theorem computeResultTuples_failure (L : Lib) (ep : groupbyExecutionPlan) (f : Failure)
    (h : computeResultTuples L ep = .error f) : noPrimitivePanic f := by
  unfold computeResultTuples at h
  split at h
  · cases h
  · split at h
    · cases h
    · split at h
      · cases h
      · simp only [Except.error.injEq] at h
        rw [← h]
        exact ⟨by simp, by simp⟩

theorem Process_emitterRules (L : Lib) (ep : groupbyExecutionPlan) (o : IterOrder)
    (t : Tuple) : (Process L ep o t).1.emitterRules = ep.emitterRules := by
  obtain ⟨a1, -, -⟩ := addTupleToBuffer_frame ep t
  unfold Process
  rcases hadd : addTupleToBuffer ep t with ⟨⟨ep1, u⟩, r⟩
  rw [hadd] at a1
  simp only at a1
  have hrel1 : ep1.emitterRules = ep.emitterRules := by rw [a1]
  cases r with
  | some f => exact hrel1
  | none =>
    simp only
    unfold removeOutdatedTuplesFromBuffer
    rcases hev : evictLoop u.Timestamp o.evict ep1.buffers with ⟨bufs, r2⟩
    cases r2 with
    | some f => exact hrel1
    | none =>
      simp only
      obtain ⟨counters, hfr⟩ := shouldEmitNow_frame { ep1 with buffers := bufs } u
      rcases hgate : shouldEmitNow { ep1 with buffers := bufs } u with ⟨ep3, g⟩
      rw [hgate] at hfr
      simp only at hfr
      cases g with
      | error f => simp only; rw [hfr]; exact hrel1
      | ok b =>
        cases b with
        | false => simp only; rw [hfr]; exact hrel1
        | true =>
          simp only
          rw [performQueryOnBuffer_eq]
          rcases hq : queryOutput L ep3 o.eval with ⟨out, f⟩
          cases f with
          | some f1 => simp only; rw [hfr]; exact hrel1
          | none => simp only; rw [hfr]; exact hrel1

/-- A call of `Process` on a plan with windows of non-negative size and
without a rule of interval 0: the windows stay as they are, and the call does
not fail by a slice out of bounds or a division by zero. -/
theorem Process_no_primitive_panic (L : Lib) (ep : groupbyExecutionPlan) (o : IterOrder)
    (t : Tuple) (hwin : nonnegWindows ep.buffers) (hrules : nonzeroRules ep.emitterRules) :
    nonnegWindows (Process L ep o t).1.buffers
      ∧ ∀ f, (Process L ep o t).2 = .error f → noPrimitivePanic f := by
  obtain ⟨-, pb⟩ := Process_state_buffers L ep o t
  obtain ⟨a1, a2⟩ := addTupleToBuffer_nonneg ep t hwin
  obtain ⟨fr, -, -⟩ := addTupleToBuffer_frame ep t
  constructor
  · rw [pb]
    rcases hadd : addTupleToBuffer ep t with ⟨⟨ep1, u⟩, r⟩
    rw [hadd] at a1
    cases r with
    | some f => exact a1
    | none => exact (evictLoop_nonneg u.Timestamp o.evict ep1.buffers a1).1
  · intro f hf
    unfold Process at hf
    rcases hadd : addTupleToBuffer ep t with ⟨⟨ep1, u⟩, r⟩
    rw [hadd] at hf a1 a2 fr
    simp only at a1 a2 fr
    have hr1 : ep1.emitterRules = ep.emitterRules := by rw [fr]
    cases r with
    | some f1 =>
      simp only [Except.error.injEq] at hf
      rw [← hf]
      exact a2 f1 rfl
    | none =>
      simp only at hf
      unfold removeOutdatedTuplesFromBuffer at hf
      obtain ⟨e1, e2⟩ := evictLoop_nonneg u.Timestamp o.evict ep1.buffers a1
      rcases hev : evictLoop u.Timestamp o.evict ep1.buffers with ⟨bufs, r2⟩
      rw [hev] at hf e1 e2
      cases r2 with
      | some f2 =>
        simp only [Except.error.injEq] at hf
        rw [← hf, e2 f2 rfl]
        exact ⟨by simp, by simp⟩
      | none =>
        simp only at hf
        obtain ⟨b, hb⟩ := shouldEmitNow_nonzero { ep1 with buffers := bufs } u
          (by
            show nonzeroRules ep1.emitterRules
            rw [hr1]
            exact hrules)
        rcases hgate : shouldEmitNow { ep1 with buffers := bufs } u with ⟨ep3, g⟩
        rw [hgate] at hf hb
        simp only at hb
        subst hb
        cases b with
        | false => simp at hf
        | true =>
          simp only at hf
          rcases hq : performQueryOnBuffer L ep3 o.eval with ⟨ep4, r4⟩
          rw [hq] at hf
          cases r4 with
          | some f4 =>
            simp only [Except.error.injEq] at hf
            rw [← hf]
            exact performQueryOnBuffer_failure L ep3 o.eval f4 (by rw [hq])
          | none =>
            simp only at hf
            exact computeResultTuples_failure L ep4 f hf

theorem processAfter_no_primitive_panic (L : Lib) (ep0 : groupbyExecutionPlan)
    (hwin : nonnegWindows ep0.buffers) (hrules : nonzeroRules ep0.emitterRules)
    (calls : List (IterOrder × Tuple)) :
    nonnegWindows (processAfter L ep0 calls).buffers
      ∧ nonzeroRules (processAfter L ep0 calls).emitterRules := by
  induction calls using List.reverseRecOn with
  | nil => exact ⟨hwin, hrules⟩
  | append_singleton cs c ih =>
    obtain ⟨i1, i2⟩ := ih
    rw [processAfter_append]
    refine ⟨(Process_no_primitive_panic L _ c.1 c.2 i1 i2).1, ?_⟩
    rw [Process_emitterRules]
    exact i2

/-- C40: on a plan built by `NewGroupbyExecutionPlan` from a statement whose
relations all have a range of at least 0 and whose emit rules all have an
interval of at least 1, after every sequence of `Process` calls a further
call does not fail by a slice out of bounds or by a division by zero: the
eviction of every buffer, as the insertion of the tuple leaves it, is not the
panic of the slice expression, and the gate of a call that gets there returns
true or false. -/
theorem Process_no_failing_primitive (L : Lib) (lp : LogicalPlan) (reg : FunctionRegistry)
    (ep0 : groupbyExecutionPlan) (hnew : NewGroupbyExecutionPlan L lp reg = .ok ep0)
    (hrange : ∀ rel ∈ lp.Relations, 0 ≤ rel.Value)
    (hpos : ∀ r ∈ lp.EmitIntervals, 1 ≤ r.IntervalAST.Value)
    (calls : List (IterOrder × Tuple)) (o : IterOrder) (t : Tuple) :
    (∀ f, (Process L (processAfter L ep0 calls) o t).2 = .error f →
        f ≠ Failure.panic Panic.sliceBounds ∧ f ≠ Failure.panic Panic.divideByZero)
      ∧ (∀ k b, AMap.get (addTupleToBuffer (processAfter L ep0 calls) t).1.1.buffers k = some b →
          evictBuffer b t.Timestamp ≠ .error (Failure.panic Panic.sliceBounds))
      ∧ (∀ ep2 t1, streamToRelation (processAfter L ep0 calls) o t = .ok (ep2, t1) →
          ∃ b, (shouldEmitNow ep2 t1).2 = .ok b) := by
  have hwin : nonnegWindows ep0.buffers := by
    obtain ⟨projs, filter, groupList, buffers, tables, -, -, -, hbufs, -, hep⟩ :=
      NewGroupbyExecutionPlan_ok L lp reg ep0 hnew
    subst hep
    obtain ⟨-, -, i3⟩ := initBuffers_spec _ _ _ _ hbufs
    intro k b hb
    rcases i3 k b hb with h1 | ⟨rel, hrel, -, hbr⟩
    · simp [AMap.get] at h1
    · rw [hbr]
      exact hrange rel hrel
  have hrules : nonzeroRules ep0.emitterRules := by
    intro k interval h
    rcases NewGroupbyExecutionPlan_rule_mem L lp reg ep0 hnew k interval h with
      ⟨r, hr, hri⟩ | hd
    · have := hpos r hr
      rw [hri] at this
      omega
    · rw [hd]
      decide
  obtain ⟨i1, i2⟩ := processAfter_no_primitive_panic L ep0 hwin hrules calls
  refine ⟨(Process_no_primitive_panic L _ o t i1 i2).2, ?_, ?_⟩
  · intro k b hb
    have h0 := (addTupleToBuffer_nonneg (processAfter L ep0 calls) t i1).1 k b hb
    rcases evictBuffer_nonneg b t.Timestamp h0 with ⟨b1, h1, -⟩ | h1
    · rw [h1]
      simp
    · rw [h1]
      simp
  · intro ep2 t1 hstr
    obtain ⟨f1, -, -⟩ := streamToRelation_frame _ o t ep2 t1 hstr
    apply shouldEmitNow_nonzero
    rw [f1]
    exact i2

theorem Process_no_failing_primitive_witness :
    NewGroupbyExecutionPlan exConstLib exConstLp exReg = .ok exConstEvery2Plan
      ∧ (∀ f, (Process exConstLib (processAfter exConstLib exConstEvery2Plan exFour) exOrderSrc
            (exTuple "src" 5 4)).2 = .error f →
          f ≠ Failure.panic Panic.sliceBounds ∧ f ≠ Failure.panic Panic.divideByZero)
      ∧ (Process exConstLib (processAfter exConstLib exConstEvery2Plan exFour) exOrderSrc
            (exTuple "src" 5 4)).2 = .ok [] :=
  ⟨rfl,
    (Process_no_failing_primitive exConstLib exConstLp exReg exConstEvery2Plan rfl
      (by
        intro rel hrel
        rw [List.mem_singleton.1 hrel]
        decide)
      (by
        intro r hr
        rw [List.mem_singleton.1 hr]
        decide)
      exFour exOrderSrc (exTuple "src" 5 4)).1,
    by set_option maxRecDepth 8000 in rfl⟩

/-! ## C39 -/

theorem sum_map_replace {α : Type} (f : α → Nat) (A B : List α) (g g1 : α) (c : Nat)
    (h : f g1 = f g + c) :
    ((A ++ g1 :: B).map f).sum = ((A ++ g :: B).map f).sum + c := by
  simp only [List.map_append, List.map_cons, List.sum_append, List.sum_cons, h]
  omega

/-- The aggregate inputs staged under a key by the rows of an evaluation: one
for every row that passes the filter and every occurrence of the key in the
projections, over all groups together. -/
theorem runItems_staged_sum (L : Lib) (ep : groupbyExecutionPlan) (hmode : ep.groupMode = true)
    (key : String) (rows : List Map) (acc acc1 : evalAcc)
    (h : runItems (evalItem L ep) rows acc = (acc1, none)) :
    (acc1.groups.map (fun g => stagedInputs g key)).sum
      = (acc.groups.map (fun g => stagedInputs g key)).sum
        + (aggregateKeys ep.projections).count key * rows.countP (passesFilter L ep) := by
  induction rows generalizing acc with
  | nil =>
    simp only [runItems, Prod.mk.injEq, and_true] at h
    subst h
    simp
  | cons d ds ih =>
    obtain ⟨s1, hstep, hrest⟩ := runItems_ok_cons _ d ds acc acc1 h
    rw [ih s1 hrest, List.countP_cons]
    rcases evalItem_grouping_step L ep hmode d acc s1 hstep with
      ⟨hf, hs⟩ | ⟨hf, -, k, -, hcase⟩
    · subst hs
      have hp : passesFilter L ep d = false := by simp [passesFilter, hf]
      simp [hp]
    · have hp : passesFilter L ep d = true := by simp [passesFilter, hf]
      simp only [hp, if_true]
      rcases hcase with ⟨A, g, B, aggData1, h1, -, -, h4, h5⟩ | ⟨-, aggData1, h2, h3⟩
      · rw [h5, h1, sum_map_replace (fun g => stagedInputs g key) A B g
          { g with aggData := aggData1 } ((aggregateKeys ep.projections).count key)
          (by
            unfold stagedInputs
            exact collectAggData_length d _ _ _ h4 key)]
        rw [Nat.mul_add, Nat.mul_one]
        omega
      · rw [h3]
        have hnew : stagedInputs (⟨k, aggData1, d⟩ : tmpGroupData) key
            = (aggregateKeys ep.projections).count key := by
          unfold stagedInputs
          simp only
          rw [collectAggData_length d _ _ _ h2 key, initAggData_get]
          simp
        simp only [List.map_append, List.map_cons, List.map_nil, List.sum_append, List.sum_cons,
          List.sum_nil, hnew]
        rw [Nat.mul_add, Nat.mul_one]
        omega

/-- C39: in grouping mode, when the projections with aggregates have exactly
one synthetic aggregate key, a successful evaluation stores under the key, in
the row on which the evaluator of the projection with the key is called, the
number of aggregate inputs staged for the group, and over all groups these
numbers add up to the number of rows of the product that pass the filter.
With the tuples `foo = 1, 1, 2` in the window of
`SELECT RSTREAM foo, max(int + 1) + 2 FROM src [RANGE 3 TUPLES] GROUP BY foo`
the two groups have the counts 2 and 1, three rows pass. -/
theorem performQueryOnBuffer_count_sum (L : Lib) (ep : groupbyExecutionPlan)
    (allStreams : List String) (hmode : ep.groupMode = true) (key : String)
    (hone : aggregateKeys ep.projections = [key])
    (hstreams : ∀ k ∈ allStreams, (AMap.get ep.buffers k).isSome = true)
    (hok : (performQueryOnBuffer L ep allStreams).2 = none) :
    ((stagedGroups L ep allStreams).map (fun g => stagedInputs g key)).sum
        = (productRows L ep allStreams).countP (passesFilter L ep)
      ∧ (∀ g ∈ stagedGroups L ep allStreams,
          ∀ (i : Nat) (p : aliasedEvaluator), ep.projections[i]? = some p →
            p.hasAggregate = true → key ∈ AMap.keys p.aggrEvals →
            ∃ input, (evalGroupInputs ep.projections g)[i]? = some input
              ∧ AMap.get input key = some (Value.int ((stagedInputs g key : Nat))))
      ∧ (stagedGroups exLib (exGroupFooFilled "max") ["src"]).map
          (fun g => stagedInputs g "agg_1") = [2, 1]
      ∧ (productRows exLib (exGroupFooFilled "max") ["src"]).countP
          (passesFilter exLib (exGroupFooFilled "max")) = 3 := by
  obtain ⟨⟨acc, hrun, hgroups⟩, -⟩ :=
    performQueryOnBuffer_grouping_ok L ep allStreams hmode hstreams hok
  refine ⟨?_, ?_, by set_option maxRecDepth 8000 in rfl, by set_option maxRecDepth 8000 in rfl⟩
  · have hsum := runItems_staged_sum L ep hmode key _ _ _ hrun
    rw [hgroups, hone] at hsum
    simpa using hsum
  · intro g _ i p hp hagg hk
    have hnd : (aggregateKeys ep.projections).Nodup := by
      rw [hone]
      simp
    exact evalGroupInputs_get ep.projections g hnd i p hp hagg key hk

theorem performQueryOnBuffer_count_sum_witness :
    aggregateKeys (exGroupFooFilled "max").projections = ["agg_1"]
      ∧ (performQueryOnBuffer exLib (exGroupFooFilled "max") ["src"]).2 = none
      ∧ ((stagedGroups exLib (exGroupFooFilled "max") ["src"]).map
          (fun g => stagedInputs g "agg_1")).sum
        = (productRows exLib (exGroupFooFilled "max") ["src"]).countP
            (passesFilter exLib (exGroupFooFilled "max")) :=
  ⟨rfl, rfl,
    (performQueryOnBuffer_count_sum exLib (exGroupFooFilled "max") ["src"] rfl "agg_1" rfl
      (by
        intro k hk
        rw [List.mem_singleton.1 hk]
        rfl)
      rfl).1⟩

/-! ## C36 -/

theorem foldl_congr_mem {α β : Type} (f f1 : β → α → β) (l : List α) (b : β)
    (h : ∀ a ∈ l, ∀ m, f m a = f1 m a) : l.foldl f b = l.foldl f1 b := by
  induction l generalizing b with
  | nil => rfl
  | cons a rest ih =>
    simp only [List.foldl_cons]
    rw [h a (List.mem_cons_self _ _) b]
    exact ih _ (fun x hx => h x (List.mem_cons_of_mem _ hx))

/-- The aggregate loop of `evalGroup` for one projection with distinct keys
writes the counts of the inputs under the keys, one after the other. -/
theorem countAggregates_nonAggData (evs : AMap aggrInfo) (g : tmpGroupData)
    (hnd : (AMap.keys evs).Nodup) :
    (countAggregates evs g).nonAggData
      = (AMap.keys evs).foldl
          (fun m key => AMap.set m key (Value.int (stagedInputs g key))) g.nonAggData := by
  induction evs generalizing g with
  | nil => rfl
  | cons p rest ih =>
    obtain ⟨key, agg⟩ := p
    have hkeys : AMap.keys ((key, agg) :: rest) = key :: AMap.keys rest := rfl
    rw [hkeys] at hnd ⊢
    obtain ⟨hnot, hnd1⟩ := List.nodup_cons.1 hnd
    simp only [countAggregates, List.foldl_cons]
    rw [ih _ hnd1]
    apply foldl_congr_mem
    intro k hk m
    have hne : key ≠ k := fun e => hnot (e ▸ hk)
    unfold stagedInputs
    simp only
    rw [AMap.get_erase_ne _ _ _ hne]

theorem aggregateKeys_take_subset (projs : List aliasedEvaluator) (n : Nat) (k : String)
    (h : k ∈ aggregateKeys (projs.take n)) : k ∈ aggregateKeys projs := by
  induction projs generalizing n with
  | nil => simp [aggregateKeys] at h
  | cons p rest ih =>
    cases n with
    | zero => simp [aggregateKeys] at h
    | succ n =>
      simp only [List.take_succ_cons, aggregateKeys, List.mem_append] at h ⊢
      rcases h with h | h
      · exact Or.inl h
      · exact Or.inr (ih n h)

/-- The rows on which `evalGroup` calls the evaluators of the projections,
when the synthetic keys are distinct: the representative row with the counts
written so far. -/
theorem evalGroupInputs_eq (projs : List aliasedEvaluator) (g : tmpGroupData)
    (hnd : (aggregateKeys projs).Nodup) (i : Nat) (hi : i < projs.length) :
    (evalGroupInputs projs g)[i]? = some (countsUpTo projs g i) := by
  induction projs generalizing g i with
  | nil => simp at hi
  | cons q rest ih =>
    simp only [aggregateKeys] at hnd
    obtain ⟨hn1, hn2, hdis⟩ := List.nodup_append.1 hnd
    cases i with
    | zero =>
      simp only [evalGroupInputs, List.getElem?_cons_zero, Option.some.injEq, countsUpTo,
        Nat.zero_add, List.take_succ_cons, List.take_zero, aggregateKeys, List.append_nil]
      by_cases hq : q.hasAggregate = true
      · simp only [hq, if_true] at hn1 ⊢
        exact countAggregates_nonAggData q.aggrEvals g hn1
      · simp only [hq, if_false, List.foldl_nil]
        rfl
    | succ i =>
      simp only [List.length_cons, Nat.add_lt_add_iff_right] at hi
      simp only [evalGroupInputs, List.getElem?_cons_succ]
      rw [ih _ hn2 i hi]
      simp only [Option.some.injEq, countsUpTo, List.take_succ_cons, aggregateKeys,
        List.foldl_append]
      by_cases hq : q.hasAggregate = true
      · simp only [hq, if_true] at hn1 hdis ⊢
        rw [countAggregates_nonAggData q.aggrEvals g hn1]
        apply foldl_congr_mem
        intro k hk m
        have hkrest := aggregateKeys_take_subset rest (i + 1) k hk
        have hknot : k ∉ AMap.keys q.aggrEvals := fun e => hdis e hkrest
        unfold stagedInputs
        rw [((countAggregates_spec q.aggrEvals g hn1).2 k hknot).2]
      · simp only [hq, if_false, List.foldl_nil]
        rfl

/-- One successful call of `evalItem` in grouping mode keeps the
representative rows of the groups and gives a new group the row of the call. -/
theorem evalItem_repInv (L : Lib) (ep : groupbyExecutionPlan) (hmode : ep.groupMode = true)
    (hsymm : ∀ a b, sameKey L a b = true → sameKey L b a = true)
    (htrans : ∀ a b c, sameKey L a b = true → sameKey L b c = true → sameKey L a c = true)
    (done : List Map) (d : Map) (acc acc1 : evalAcc)
    (hinv : groupInv L ep done acc.groups) (hrep : repInv L ep done acc.groups)
    (h : evalItem L ep d acc = .ok acc1) :
    repInv L ep (done ++ [d]) acc1.groups := by
  obtain ⟨-, hA, -⟩ := hinv
  have hold : ∀ g ∈ acc.groups, ∃ pre d0 post, done ++ [d] = pre ++ d0 :: post
      ∧ passingKey L ep d0 = some g.group ∧ g.nonAggData = d0
      ∧ ∀ d1 ∈ pre, inGroup L ep g.group d1 = false := by
    intro g hg
    obtain ⟨pre, d0, post, h1, h2, h3, h4⟩ := hrep g hg
    exact ⟨pre, d0, post ++ [d], by rw [h1]; simp, h2, h3, h4⟩
  rcases evalItem_grouping_step L ep hmode d acc acc1 h with
    ⟨-, hs⟩ | ⟨hf, -, k, hk, hcase⟩
  · subst hs
    exact hold
  · rcases hcase with ⟨A, g, B, aggData1, h1, -, -, -, h5⟩ | ⟨h1, aggData1, -, h3⟩
    · intro x hx
      rw [h5] at hx
      rcases List.mem_append.1 hx with hx | hx
      · exact hold x (by rw [h1]; exact List.mem_append_left _ hx)
      · rcases List.mem_cons.1 hx with hx | hx
        · subst hx
          exact hold g (by rw [h1]; simp)
        · exact hold x (by rw [h1]; simp [hx])
    · intro x hx
      rw [h3] at hx
      rcases List.mem_append.1 hx with hx | hx
      · exact hold x hx
      · rw [List.mem_singleton.1 hx]
        have hp : passingKey L ep d = some k := by
          simp [passingKey, hf, hk, Except.toOption]
        refine ⟨done, d, [], rfl, hp, rfl, ?_⟩
        intro d1 hd1
        rw [inGroup_eq]
        cases hp1 : passingKey L ep d1 with
        | none => rfl
        | some k1 =>
          simp only
          obtain ⟨s, hs, hsk⟩ := hA d1 hd1 k1 hp1
          obtain ⟨a, ha, has⟩ := List.mem_map.1 hs
          cases hkk : sameKey L k k1 with
          | false => rfl
          | true =>
            have hak : sameKey L a.group k = true := by
              rw [has]
              exact htrans _ _ _ hsk (hsymm _ _ hkk)
            rw [h1 a ha] at hak
            cases hak

/-- The groups after the rows of a successful evaluation: their state and
their representative rows. -/
theorem runItems_repInv (L : Lib) (ep : groupbyExecutionPlan) (hmode : ep.groupMode = true)
    (hrefl : ∀ a, sameKey L a a = true)
    (hsymm : ∀ a b, sameKey L a b = true → sameKey L b a = true)
    (htrans : ∀ a b c, sameKey L a b = true → sameKey L b c = true → sameKey L a c = true)
    (rows done : List Map) (acc acc1 : evalAcc)
    (hinv : groupInv L ep done acc.groups) (hrep : repInv L ep done acc.groups)
    (h : runItems (evalItem L ep) rows acc = (acc1, none)) :
    groupInv L ep (done ++ rows) acc1.groups ∧ repInv L ep (done ++ rows) acc1.groups := by
  induction rows generalizing done acc with
  | nil =>
    simp only [runItems, Prod.mk.injEq, and_true] at h
    subst h
    rw [List.append_nil]
    exact ⟨hinv, hrep⟩
  | cons d ds ih =>
    obtain ⟨s1, hstep, hrest⟩ := runItems_ok_cons _ d ds acc acc1 h
    have h1 := evalItem_groupInv L ep hmode hrefl hsymm htrans done d acc s1 hinv hstep
    have h2 := evalItem_repInv L ep hmode hsymm htrans done d acc s1 hinv hrep hstep
    have h3 := ih (done ++ [d]) s1 h1 h2 hrest
    rw [List.append_assoc] at h3
    exact h3

/-- The four calls of the grouping example with a reference to the grouping
column. -/
theorem exGroupBackref_calls :
    Process exLib (exGroupBackrefState [] [] []) exOrderSrc (exFooTuple 0 1)
        = (exGroupBackrefState [exFooTuple 0 1] [exYRow 1 2] [], .ok [exYRow 1 2])
      ∧ Process exLib (exGroupBackrefState [exFooTuple 0 1] [exYRow 1 2] [])
          exOrderSrc (exFooTuple 1 1)
        = (exGroupBackrefState [exFooTuple 0 1, exFooTuple 1 1] [exYRow 1 3] [exYRow 1 2],
            .ok [exYRow 1 3])
      ∧ Process exLib
          (exGroupBackrefState [exFooTuple 0 1, exFooTuple 1 1] [exYRow 1 3] [exYRow 1 2])
          exOrderSrc (exFooTuple 2 2)
        = (exGroupBackrefState [exFooTuple 0 1, exFooTuple 1 1, exFooTuple 2 2]
            [exYRow 1 3, exYRow 2 3] [exYRow 1 3], .ok [exYRow 1 3, exYRow 2 3])
      ∧ Process exLib
          (exGroupBackrefState [exFooTuple 0 1, exFooTuple 1 1, exFooTuple 2 2]
            [exYRow 1 3, exYRow 2 3] [exYRow 1 3])
          exOrderSrc (exFooTuple 3 2)
        = (exGroupBackrefState [exFooTuple 1 1, exFooTuple 2 2, exFooTuple 3 2]
            [exYRow 1 2, exYRow 2 4] [exYRow 1 3, exYRow 2 3],
            .ok [exYRow 1 2, exYRow 2 4]) :=
  ⟨by set_option maxRecDepth 8000 in rfl, by set_option maxRecDepth 8000 in rfl,
    by set_option maxRecDepth 8000 in rfl,
    by
      have hstr : streamToRelation
          (exGroupBackrefState [exFooTuple 0 1, exFooTuple 1 1, exFooTuple 2 2]
            [exYRow 1 3, exYRow 2 3] [exYRow 1 3]) exOrderSrc (exFooTuple 3 2)
          = .ok (exGroupBackrefState [exFooTuple 1 1, exFooTuple 2 2, exFooTuple 3 2]
              [exYRow 1 3, exYRow 2 3] [exYRow 1 3], nestUnder "src" (exFooTuple 3 2)) := by
        set_option maxRecDepth 8000 in rfl
      rw [Process_of_streamToRelation _ _ _ _ _ _ hstr, shouldEmitNow_default _ _ rfl rfl]
      set_option maxRecDepth 8000 in rfl⟩

theorem exGroupBackref_results :
    processResults exLib (exGroupBackrefState [] [] [])
        [(exOrderSrc, exFooTuple 0 1), (exOrderSrc, exFooTuple 1 1),
          (exOrderSrc, exFooTuple 2 2), (exOrderSrc, exFooTuple 3 2)]
      = [.ok [exYRow 1 2], .ok [exYRow 1 3], .ok [exYRow 1 3, exYRow 2 3],
          .ok [exYRow 1 2, exYRow 2 4]] := by
  obtain ⟨h0, h1, h2, h3⟩ := exGroupBackref_calls
  simp only [processResults, h0, h1, h2, h3]

/-- C36: in grouping mode, when the comparator of group keys is an
equivalence on keys, after the rows of a successful evaluation the
representative row of every group is the first row of the product, in the
order of the evaluation, that has passed the filter with a key reported equal
to the key of the group, as the row was when `evalItem` saw it, and the key
of the group is the key of that row. With distinct synthetic aggregate keys
the evaluator of projection number `i` is called on that row with the counts
of the aggregate inputs written under the synthetic keys of the projections
up to `i`. For
`SELECT RSTREAM foo AS y, count(int + 1) + foo FROM src [RANGE 3 TUPLES]
GROUP BY foo` and four tuples with `foo = 1, 1, 2, 2` the calls return the
counts plus `foo`: 2; 3; 3 and 3; 2 and 4. -/
theorem performQueryOnBuffer_representatives (L : Lib) (ep : groupbyExecutionPlan)
    (allStreams : List String) (hmode : ep.groupMode = true)
    (hrefl : ∀ a, sameKey L a a = true)
    (hsymm : ∀ a b, sameKey L a b = true → sameKey L b a = true)
    (htrans : ∀ a b c, sameKey L a b = true → sameKey L b c = true → sameKey L a c = true)
    (hkeys : (aggregateKeys ep.projections).Nodup)
    (hstreams : ∀ k ∈ allStreams, (AMap.get ep.buffers k).isSome = true)
    (hok : (performQueryOnBuffer L ep allStreams).2 = none) :
    (∀ g ∈ stagedGroups L ep allStreams,
        (∃ pre d post, productRows L ep allStreams = pre ++ d :: post
          ∧ passingKey L ep d = some g.group ∧ g.nonAggData = d
          ∧ ∀ d1 ∈ pre, inGroup L ep g.group d1 = false)
        ∧ evalGroup L ep g
            = evalWith L ep.projections (evalGroupInputs ep.projections g) []
        ∧ ∀ i, i < ep.projections.length →
            (evalGroupInputs ep.projections g)[i]? = some (countsUpTo ep.projections g i))
      ∧ processResults exLib (exGroupBackrefState [] [] [])
          [(exOrderSrc, exFooTuple 0 1), (exOrderSrc, exFooTuple 1 1),
            (exOrderSrc, exFooTuple 2 2), (exOrderSrc, exFooTuple 3 2)]
        = [.ok [exYRow 1 2], .ok [exYRow 1 3], .ok [exYRow 1 3, exYRow 2 3],
            .ok [exYRow 1 2, exYRow 2 4]] := by
  refine ⟨?_, exGroupBackref_results⟩
  obtain ⟨⟨acc, hrun, hgroups⟩, -⟩ :=
    performQueryOnBuffer_grouping_ok L ep allStreams hmode hstreams hok
  obtain ⟨-, hrep⟩ := runItems_repInv L ep hmode hrefl hsymm htrans _ [] ⟨[], []⟩ acc
    (groupInv_nil L ep) (fun g hg => absurd hg (List.not_mem_nil g)) hrun
  rw [List.nil_append, hgroups] at hrep
  intro g hg
  exact ⟨hrep g hg, evalGroupLoop_inputs L ep.projections g [],
    fun i hi => evalGroupInputs_eq ep.projections g hkeys i hi⟩

theorem performQueryOnBuffer_representatives_witness :
    (performQueryOnBuffer exLib
        (exGroupBackrefState [exFooTuple 0 1, exFooTuple 1 1, exFooTuple 2 2] [] [])
        ["src"]).2 = none
      ∧ ∀ g ∈ stagedGroups exLib
          (exGroupBackrefState [exFooTuple 0 1, exFooTuple 1 1, exFooTuple 2 2] [] []) ["src"],
        ∃ pre d post,
          productRows exLib
              (exGroupBackrefState [exFooTuple 0 1, exFooTuple 1 1, exFooTuple 2 2] [] [])
              ["src"] = pre ++ d :: post
            ∧ g.nonAggData = d :=
  ⟨rfl, fun g hg =>
    match ((performQueryOnBuffer_representatives exLib
      (exGroupBackrefState [exFooTuple 0 1, exFooTuple 1 1, exFooTuple 2 2] [] []) ["src"] rfl
      (fun a => (sameKey_exLib exLib rfl a a).2 rfl)
      (fun a b h => (sameKey_exLib exLib rfl b a).2 ((sameKey_exLib exLib rfl a b).1 h).symm)
      (fun a b c h1 h2 => (sameKey_exLib exLib rfl a c).2
        (((sameKey_exLib exLib rfl a b).1 h1).trans ((sameKey_exLib exLib rfl b c).1 h2)))
      (by decide)
      (by
        intro k hk
        rw [List.mem_singleton.1 hk]
        rfl)
      rfl).1 g hg).1 with
    | ⟨pre, d, post, h1, _, h3, _⟩ => ⟨pre, d, post, h1, h3⟩⟩

/-! ## The tuple of the caller as an object: C16 and C31 -/

theorem appendLoopAt_nil (n : Nat) (rels : List AliasedStreamWindowAST)
    (buffers : AMap inputBuffer) (t : Tuple) :
    appendLoopAt n [] rels buffers t = appendLoop n rels buffers t := by
  induction rels generalizing buffers t with
  | nil => rfl
  | cons rel rest ih =>
    unfold appendLoopAt appendLoop
    split
    · have hb : (if n > 1 then buffers
          else overwriteAt [] { t with Data := [(rel.Alias, Value.map t.Data)] } buffers)
          = buffers := by
        split <;> rfl
      simp only [hb]
      cases AMap.get buffers rel.Alias with
      | none => rfl
      | some b => exact ih _ _
    · exact ih _ _

/-- With several appends copies are stored, whatever the buffers hold. -/
theorem appendLoopAt_copies (n : Nat) (hn : 1 < n) (same : List (String × Nat))
    (rels : List AliasedStreamWindowAST) (buffers : AMap inputBuffer) (t : Tuple) :
    appendLoopAt n same rels buffers t = appendLoop n rels buffers t := by
  have hn1 : n > 1 := hn
  induction rels generalizing buffers t with
  | nil => rfl
  | cons rel rest ih =>
    unfold appendLoopAt appendLoop
    split
    · simp only [if_pos hn1]
      cases AMap.get buffers rel.Alias with
      | none => rfl
      | some b => exact ih _ _
    · exact ih _ _

theorem appendLoopAt_no_match (n : Nat) (same : List (String × Nat))
    (rels : List AliasedStreamWindowAST) (buffers : AMap inputBuffer) (t : Tuple)
    (h : ∀ r ∈ rels, t.InputName ≠ relationKey r) :
    appendLoopAt n same rels buffers t = ((buffers, t), none)
      ∧ appendLoop n rels buffers t = ((buffers, t), none) := by
  induction rels with
  | nil => exact ⟨rfl, rfl⟩
  | cons rel rest ih =>
    unfold appendLoopAt appendLoop
    rw [if_neg (h rel (List.mem_cons_self _ _)), if_neg (h rel (List.mem_cons_self _ _))]
    exact ih (fun r hr => h r (List.mem_cons_of_mem _ hr))

/-- With one matching relation the loop for a tuple object in the buffers is
the loop on the buffers in which the entries that are this object have the
data nested under the alias. -/
theorem appendLoopAt_one (same : List (String × Nat)) (a : String)
    (rels : List AliasedStreamWindowAST) (buffers : AMap inputBuffer) (t : Tuple)
    (hcount : rels.countP (fun rel => decide (t.InputName = relationKey rel)) = 1)
    (halias : ∀ r ∈ rels, t.InputName = relationKey r → r.Alias = a) :
    appendLoopAt 1 same rels buffers t
      = appendLoop 1 rels (overwriteAt same (nestUnder a t) buffers) t := by
  induction rels with
  | nil => simp at hcount
  | cons rel rest ih =>
    unfold appendLoopAt appendLoop
    by_cases hm : t.InputName = relationKey rel
    · have ha : rel.Alias = a := halias rel (List.mem_cons_self _ _) hm
      have hrest : ∀ r ∈ rest, t.InputName ≠ relationKey r := by
        intro r hr hmr
        have hpos : 0 < rest.countP (fun rel => decide (t.InputName = relationKey rel)) :=
          (List.countP_pos_iff (p := fun rel => decide (t.InputName = relationKey rel))).2
            ⟨r, hr, decide_eq_true hmr⟩
        rw [List.countP_cons_of_pos (p := fun rel => decide (t.InputName = relationKey rel))
          (a := rel) rest (decide_eq_true hm)] at hcount
        omega
      simp only [if_pos hm, Nat.lt_irrefl, gt_iff_lt, if_false, ha]
      have he : ({ t with Data := [(a, Value.map t.Data)] } : Tuple) = nestUnder a t := rfl
      rw [he]
      cases AMap.get (overwriteAt same (nestUnder a t) buffers) a with
      | none => rfl
      | some b =>
        simp only
        have hrest1 : ∀ r ∈ rest, (nestUnder a t).InputName ≠ relationKey r := hrest
        rw [(appendLoopAt_no_match 1 same rest _ _ hrest1).1,
          (appendLoopAt_no_match 1 same rest _ _ hrest1).2]
    · simp only [if_neg hm]
      apply ih
      · rw [List.countP_cons_of_neg (p := fun rel => decide (t.InputName = relationKey rel))
          (a := rel) rest (by simpa using hm)] at hcount
        exact hcount
      · exact fun r hr => halias r (List.mem_cons_of_mem _ hr)

theorem addTupleToBufferAt_nil (ep : groupbyExecutionPlan) (t : Tuple) :
    addTupleToBufferAt ep t [] = addTupleToBuffer ep t := by
  unfold addTupleToBufferAt addTupleToBuffer
  simp only [appendLoopAt_nil]

theorem addTupleToBufferAt_copies (ep : groupbyExecutionPlan) (t : Tuple)
    (same : List (String × Nat))
    (h : 1 < ep.relations.countP (fun rel => decide (t.InputName = relationKey rel))) :
    addTupleToBufferAt ep t same = addTupleToBuffer ep t := by
  unfold addTupleToBufferAt addTupleToBuffer
  simp only [appendLoopAt_copies _ h]

theorem addTupleToBufferAt_one (ep : groupbyExecutionPlan) (t : Tuple)
    (same : List (String × Nat)) (a : String)
    (hcount : ep.relations.countP (fun rel => decide (t.InputName = relationKey rel)) = 1)
    (halias : ∀ r ∈ ep.relations, t.InputName = relationKey r → r.Alias = a) :
    addTupleToBufferAt ep t same
      = addTupleToBuffer { ep with buffers := overwriteAt same (nestUnder a t) ep.buffers } t := by
  unfold addTupleToBufferAt addTupleToBuffer
  simp only [hcount, appendLoopAt_one same a ep.relations ep.buffers t hcount halias]
  rfl

theorem ProcessAt_of_add (L : Lib) (ep ep1 : groupbyExecutionPlan) (o : IterOrder) (t : Tuple)
    (same : List (String × Nat)) (h : addTupleToBufferAt ep t same = addTupleToBuffer ep1 t) :
    ProcessAt L ep o t same = Process L ep1 o t := by
  unfold ProcessAt Process
  rw [h]

theorem ProcessAt_nil (L : Lib) (ep : groupbyExecutionPlan) (o : IterOrder) (t : Tuple) :
    ProcessAt L ep o t [] = Process L ep o t :=
  ProcessAt_of_add L ep ep o t [] (addTupleToBufferAt_nil ep t)

theorem countP_one_unique {α : Type} (p : α → Bool) (l : List α) (h : l.countP p = 1)
    (a b : α) (ha : a ∈ l) (hb : b ∈ l) (hpa : p a = true) (hpb : p b = true) : a = b := by
  induction l with
  | nil => cases ha
  | cons x rest ih =>
    by_cases hx : p x = true
    · rw [List.countP_cons_of_pos (p := p) (a := x) rest hx] at h
      have hzero : rest.countP p = 0 := by omega
      have hnone : ∀ y ∈ rest, ¬ p y = true := List.countP_eq_zero.1 hzero
      rcases List.mem_cons.1 ha with ha | ha
      · rcases List.mem_cons.1 hb with hb | hb
        · rw [ha, hb]
        · exact absurd hpb (hnone b hb)
      · exact absurd hpa (hnone a ha)
    · rw [List.countP_cons_of_neg (p := p) (a := x) rest hx] at h
      rcases List.mem_cons.1 ha with ha | ha
      · subst ha
        exact absurd hpa hx
      · rcases List.mem_cons.1 hb with hb | hb
        · subst hb
          exact absurd hpb hx
        · exact ih h ha hb

theorem overwriteAt_isSome (same : List (String × Nat)) (u : Tuple) (buffers : AMap inputBuffer)
    (k : String) :
    (AMap.get (overwriteAt same u buffers) k).isSome = (AMap.get buffers k).isSome := by
  unfold overwriteAt
  induction same generalizing buffers with
  | nil => rfl
  | cons pos rest ih =>
    simp only [List.foldl_cons]
    rw [ih]
    cases hget : AMap.get buffers pos.1 with
    | none => rfl
    | some b =>
      simp only
      rw [AMap.get_set]
      split
      · rename_i hk
        rw [← hk, hget]
        rfl
      · rfl

/-- C16, as the code has it: on a plan with a buffer for every relation and
pairwise distinct aliases, for a tuple object that no buffer holds, or that
more than one relation matches (copies are stored then), `addTupleToBuffer`
appends to the end of the buffer of every relation whose key (`relationKey`)
is the input name of the tuple one entry, the tuple with its data nested under
the alias and nothing else changed; the buffers of the other relations, the
buffers under other keys, the windows, the earlier entries and the rest of the
plan are as before, and the call fails only if no relation matches. When
exactly one relation matches and the buffers hold the tuple object already, at
the positions `same`, the object is edited in place: the call is the call on
the buffers in which these entries have the data nested under the alias as
well, and the entry is appended to them. -/
theorem addTupleToBufferAt_appends (ep : groupbyExecutionPlan) (t : Tuple)
    (same : List (String × Nat)) (hbuf : hasBuffers ep)
    (hnodup : (ep.relations.map (fun rel => rel.Alias)).Nodup) :
    ((same = [] ∨ 1 < ep.relations.countP (fun rel => decide (t.InputName = relationKey rel))) →
        (∀ rel ∈ ep.relations, t.InputName = relationKey rel →
          ∃ b, AMap.get ep.buffers rel.Alias = some b
            ∧ AMap.get (addTupleToBufferAt ep t same).1.1.buffers rel.Alias
                = some { b with
                    tuples := b.tuples ++ [{ t with Data := [(rel.Alias, Value.map t.Data)] }] })
        ∧ (∀ rel ∈ ep.relations, t.InputName ≠ relationKey rel →
            AMap.get (addTupleToBufferAt ep t same).1.1.buffers rel.Alias
              = AMap.get ep.buffers rel.Alias)
        ∧ (∀ key, (∀ rel ∈ ep.relations, rel.Alias ≠ key) →
            AMap.get (addTupleToBufferAt ep t same).1.1.buffers key = AMap.get ep.buffers key)
        ∧ (addTupleToBufferAt ep t same).1.1
            = { ep with buffers := (addTupleToBufferAt ep t same).1.1.buffers }
        ∧ ((∃ rel ∈ ep.relations, t.InputName = relationKey rel) →
            (addTupleToBufferAt ep t same).2 = none))
      ∧ ∀ rel ∈ ep.relations, t.InputName = relationKey rel →
          ep.relations.countP (fun rel => decide (t.InputName = relationKey rel)) = 1 →
          addTupleToBufferAt ep t same
              = addTupleToBuffer
                  { ep with buffers := overwriteAt same (nestUnder rel.Alias t) ep.buffers } t
            ∧ (∃ b, AMap.get (overwriteAt same (nestUnder rel.Alias t) ep.buffers) rel.Alias
                  = some b
                ∧ AMap.get (addTupleToBufferAt ep t same).1.1.buffers rel.Alias
                    = some { b with tuples := b.tuples ++ [nestUnder rel.Alias t] })
            ∧ ∀ r ∈ ep.relations, t.InputName ≠ relationKey r →
                AMap.get (addTupleToBufferAt ep t same).1.1.buffers r.Alias
                  = AMap.get (overwriteAt same (nestUnder rel.Alias t) ep.buffers) r.Alias := by
  constructor
  · intro hfresh
    have e : addTupleToBufferAt ep t same = addTupleToBuffer ep t := by
      rcases hfresh with h | h
      · rw [h]
        exact addTupleToBufferAt_nil ep t
      · exact addTupleToBufferAt_copies ep t same h
    rw [e]
    exact addTupleToBuffer_appends ep t hbuf hnodup
  · intro rel hrel hm hcount
    have halias : ∀ r ∈ ep.relations, t.InputName = relationKey r → r.Alias = rel.Alias := by
      intro r hr hmr
      rw [countP_one_unique _ _ hcount r rel hr hrel (decide_eq_true hmr) (decide_eq_true hm)]
    have e := addTupleToBufferAt_one ep t same rel.Alias hcount halias
    have hbuf1 : hasBuffers
        { ep with buffers := overwriteAt same (nestUnder rel.Alias t) ep.buffers } := by
      intro r hr
      obtain ⟨b, hb⟩ := hbuf r hr
      apply Option.isSome_iff_exists.1
      show (AMap.get (overwriteAt same (nestUnder rel.Alias t) ep.buffers) r.Alias).isSome = true
      rw [overwriteAt_isSome, hb]
      rfl
    obtain ⟨a1, a2, -, -, -⟩ := addTupleToBuffer_appends
      { ep with buffers := overwriteAt same (nestUnder rel.Alias t) ep.buffers } t hbuf1 hnodup
    rw [e]
    exact ⟨rfl, a1 rel hrel hm, fun r hr hne => a2 r hr hne⟩

/-- C16, not as stated: the earlier entries of a buffer do not stay as they
are when the tuple is an object that the buffer holds. In the join plan with
the tuples 0 and 2 of `src1` in the buffer `x`, a call with the tuple object at
position 0 of `x` nests the data of that object once more, in the entry at
position 0 as in the new entry. -/
theorem addTupleToBufferAt_earlier_entries_counterexample :
    hasBuffers exFilledJoinPlan
      ∧ (exFilledJoinPlan.relations.map (fun rel => rel.Alias)).Nodup
      ∧ AMap.get exFilledJoinPlan.buffers "x"
        = some ⟨[nestUnder "x" (exJoinTuple 0), nestUnder "x" (exJoinTuple 2)], 3,
            IntervalUnit.Tuples⟩
      ∧ AMap.get (addTupleToBufferAt exFilledJoinPlan (nestUnder "x" (exJoinTuple 0))
            [("x", 0)]).1.1.buffers "x"
        = some ⟨[nestUnder "x" (nestUnder "x" (exJoinTuple 0)), nestUnder "x" (exJoinTuple 2),
            nestUnder "x" (nestUnder "x" (exJoinTuple 0))], 3, IntervalUnit.Tuples⟩
      ∧ (nestUnder "x" (nestUnder "x" (exJoinTuple 0))).Data
        ≠ (nestUnder "x" (exJoinTuple 0)).Data :=
  ⟨hasBuffers_of_isSome _ (by decide), by decide, rfl, by set_option maxRecDepth 8000 in rfl,
    by
      intro h
      simp [nestUnder, exJoinTuple] at h⟩

theorem addTupleToBufferAt_appends_witness :
    hasBuffers exFilledJoinPlan
      ∧ (exFilledJoinPlan.relations.map (fun rel => rel.Alias)).Nodup
      ∧ (∃ b, AMap.get exFilledJoinPlan.buffers "x" = some b
          ∧ AMap.get (addTupleToBufferAt exFilledJoinPlan (exJoinTuple 4) []).1.1.buffers "x"
              = some { b with tuples := b.tuples ++ [nestUnder "x" (exJoinTuple 4)] })
      ∧ addTupleToBufferAt exFilledJoinPlan (nestUnder "x" (exJoinTuple 0)) [("x", 0)]
        = addTupleToBuffer
            { exFilledJoinPlan with
              buffers := overwriteAt [("x", 0)] (nestUnder "x" (nestUnder "x" (exJoinTuple 0)))
                exFilledJoinPlan.buffers }
            (nestUnder "x" (exJoinTuple 0)) :=
  have hb : hasBuffers exFilledJoinPlan := hasBuffers_of_isSome _ (by decide)
  have hn : (exFilledJoinPlan.relations.map (fun rel => rel.Alias)).Nodup := by decide
  ⟨hb, hn,
    (addTupleToBufferAt_appends exFilledJoinPlan (exJoinTuple 4) [] hb hn).1 (Or.inl rfl)
      |>.1 ⟨StreamType.ActualStream, "src1", 3, IntervalUnit.Tuples, "x"⟩ (by decide)
        (by decide),
    ((addTupleToBufferAt_appends exFilledJoinPlan (nestUnder "x" (exJoinTuple 0)) [("x", 0)]
      hb hn).2 ⟨StreamType.ActualStream, "src1", 3, IntervalUnit.Tuples, "x"⟩ (by decide)
        (by decide) (by decide)).1⟩

/-- C31, not as stated: fed the same tuple object twice,
`SELECT RSTREAM int FROM src [RANGE 2 TUPLES]` returns the row of the tuple at
the first call and fails at the second. The first call has nested the data of
the object under the alias and stored the object; the second call nests them
once more, in the buffered entry as in the new one, and the column `int` is
not found in either. -/
theorem ProcessAt_same_tuple_twice_counterexample :
    (Process exSrcLib exRstreamPlan exOrderSrc (exTuple "src" 1 0)).2 = .ok [exRow 1]
      ∧ (addTupleToBuffer exRstreamPlan (exTuple "src" 1 0)).1.2
        = nestUnder "src" (exTuple "src" 1 0)
      ∧ AMap.get (Process exSrcLib exRstreamPlan exOrderSrc (exTuple "src" 1 0)).1.buffers "src"
        = some ⟨[nestUnder "src" (exTuple "src" 1 0)], 2, IntervalUnit.Tuples⟩
      ∧ (ProcessAt exSrcLib
          (Process exSrcLib exRstreamPlan exOrderSrc (exTuple "src" 1 0)).1 exOrderSrc
          (nestUnder "src" (exTuple "src" 1 0)) [("src", 0)]).2
        = .error (Failure.error (Err.external "no such column"))
      ∧ AMap.get (ProcessAt exSrcLib
          (Process exSrcLib exRstreamPlan exOrderSrc (exTuple "src" 1 0)).1 exOrderSrc
          (nestUnder "src" (exTuple "src" 1 0)) [("src", 0)]).1.buffers "src"
        = some ⟨[nestUnder "src" (nestUnder "src" (exTuple "src" 1 0)),
            nestUnder "src" (nestUnder "src" (exTuple "src" 1 0))], 2, IntervalUnit.Tuples⟩ :=
  ⟨by set_option maxRecDepth 8000 in rfl, by set_option maxRecDepth 8000 in rfl,
    by set_option maxRecDepth 8000 in rfl, by set_option maxRecDepth 8000 in rfl,
    by set_option maxRecDepth 8000 in rfl⟩

/-- C31, as the code has it: on a new plan over one relation with a window of
two tuples, without filter and grouping, with the default emit rule and the
RSTREAM emitter, for a tuple on which the projections give the row `r`: the
first call returns `r` once, and a second call with another tuple object of
the same contents returns `r` twice. The first call leaves the tuple object of
the caller with its data nested under the alias, and in the buffer. A second
call with this same object nests the data once more in the buffered entry as
well: it is the call for the nested tuple on the plan whose buffer holds the
tuple nested twice; it returns twice the row that the projections give on the
tuple nested twice, and fails if they fail on it. So
`SELECT RSTREAM int FROM src [RANGE 2 TUPLES]` fails at the second call with
the same object, and `SELECT RSTREAM 2 AS a FROM src [RANGE 2 TUPLES]` returns
its row twice. -/
theorem ProcessAt_same_tuple_twice (L : Lib) (ep0 : groupbyExecutionPlan)
    (rel : AliasedStreamWindowAST) (h : singleTupleWindow ep0 rel 2)
    (hemit : ep0.emitterType = Emitter.Rstream) (t : Tuple)
    (ht : t.InputName = relationKey rel) (r : Map)
    (hproj : projectRow L (tupleRow L rel.Alias t) ep0.projections [] = .ok r) :
    Process L ep0 ⟨[rel.Alias], [rel.Alias]⟩ t
        = (windowState ep0 rel.Alias 2 [t] [r] [], .ok [r])
      ∧ (ProcessAt L (Process L ep0 ⟨[rel.Alias], [rel.Alias]⟩ t).1
          ⟨[rel.Alias], [rel.Alias]⟩ t []).2 = .ok [r, r]
      ∧ (addTupleToBuffer ep0 t).1.2 = nestUnder rel.Alias t
      ∧ ProcessAt L (Process L ep0 ⟨[rel.Alias], [rel.Alias]⟩ t).1
            ⟨[rel.Alias], [rel.Alias]⟩ (nestUnder rel.Alias t) [(rel.Alias, 0)]
          = Process L (windowState ep0 rel.Alias 2 [nestUnder rel.Alias t] [r] [])
              ⟨[rel.Alias], [rel.Alias]⟩ (nestUnder rel.Alias t)
      ∧ (∀ r2, projectRow L (tupleRow L rel.Alias (nestUnder rel.Alias t)) ep0.projections []
            = .ok r2 →
          (ProcessAt L (Process L ep0 ⟨[rel.Alias], [rel.Alias]⟩ t).1
            ⟨[rel.Alias], [rel.Alias]⟩ (nestUnder rel.Alias t) [(rel.Alias, 0)]).2
            = .ok [r2, r2])
      ∧ (∀ e, projectRow L (tupleRow L rel.Alias (nestUnder rel.Alias t)) ep0.projections []
            = .error e →
          (ProcessAt L (Process L ep0 ⟨[rel.Alias], [rel.Alias]⟩ t).1
            ⟨[rel.Alias], [rel.Alias]⟩ (nestUnder rel.Alias t) [(rel.Alias, 0)]).2
            = .error (Failure.error e))
      ∧ (ProcessAt exLib (Process exLib exConstAPlan exOrderSrc (exTuple "src" 1 0)).1
          exOrderSrc (nestUnder "src" (exTuple "src" 1 0)) [("src", 0)]).2
        = .ok [[("a", .int 2)], [("a", .int 2)]] := by
  have hold := Process_equal_tuples_twice L ep0 rel h hemit t ht r hproj
  have h0 := windowState_nil ep0 rel 2 h
  obtain ⟨hrel, -, -, -, hfil, hmode, hrules, hcounters, hbufs, -, -⟩ := h
  have hrs : ∀ (rec : List Tuple) (c p : List Map),
      computeResultTuples L (windowState ep0 rel.Alias 2 rec c p) = .ok c := by
    intro rec c p
    unfold computeResultTuples
    have hty : (windowState ep0 rel.Alias 2 rec c p).emitterType = Emitter.Rstream := hemit
    rw [if_pos hty, emitLoop_eq]
    simp [windowState]
  have h1 := Process_window_ok L ep0 rel 2 hrel hrules hcounters hfil hmode (fun _ => r) []
    [] [] t ht (by
      intro x hx
      simp only [List.nil_append, List.mem_singleton] at hx
      subst hx
      exact hproj)
  rw [h0] at h1
  have e1 : ([] : List Tuple) ++ [t] = [t] := rfl
  rw [e1, hrs] at h1
  have hl1 : (lastN 2 [t]).map (fun _ => r) = [r] := by simp [lastN]
  rw [hl1] at h1
  have hu : (nestUnder rel.Alias t).InputName = relationKey rel := ht
  have hsame : ProcessAt L (windowState ep0 rel.Alias 2 [t] [r] [])
        ⟨[rel.Alias], [rel.Alias]⟩ (nestUnder rel.Alias t) [(rel.Alias, 0)]
      = Process L (windowState ep0 rel.Alias 2 [nestUnder rel.Alias t] [r] [])
          ⟨[rel.Alias], [rel.Alias]⟩ (nestUnder rel.Alias t) := by
    apply ProcessAt_of_add
    have hcount : (windowState ep0 rel.Alias 2 [t] [r] []).relations.countP
        (fun x => decide ((nestUnder rel.Alias t).InputName = relationKey x)) = 1 := by
      show ep0.relations.countP _ = 1
      rw [hrel]
      simp [hu]
    rw [addTupleToBufferAt_one _ _ _ rel.Alias hcount (by
      intro x hx _
      have hx1 : x ∈ ep0.relations := hx
      rw [hrel] at hx1
      rw [List.mem_singleton.1 hx1])]
    congr 1
    simp [windowState, overwriteAt, AMap.get, AMap.set, lastN]
  have hadd : (addTupleToBuffer ep0 t).1.2 = nestUnder rel.Alias t := by
    unfold addTupleToBuffer
    rw [hrel, hbufs]
    simp [ht, appendLoop, AMap.get, nestUnder]
  refine ⟨h1, ?_, hadd, ?_, ?_, ?_, by set_option maxRecDepth 8000 in rfl⟩
  · rw [ProcessAt_nil]
    exact hold.2.1
  · rw [h1]
    exact hsame
  · intro r2 hr2
    rw [h1]
    simp only
    rw [hsame]
    have h2 := Process_window_ok L ep0 rel 2 hrel hrules hcounters hfil hmode (fun _ => r2)
      [nestUnder rel.Alias t] [r] [] (nestUnder rel.Alias t) hu (by
        intro x hx
        simp only [List.cons_append, List.nil_append, List.mem_cons, List.mem_singleton,
          List.not_mem_nil, or_false, or_self] at hx
        subst hx
        exact hr2)
    rw [h2]
    simp only
    rw [hrs]
    simp [lastN]
  · intro e he
    rw [h1]
    simp only
    rw [hsame, Process_window L ep0 rel 2 hrel hrules hcounters [nestUnder rel.Alias t] [r] []
      (nestUnder rel.Alias t) hu, queryOutput_window L ep0 rel.Alias 2 hmode]
    have hfp : filterPasses L ep0.filter (tupleRow L rel.Alias (nestUnder rel.Alias t))
        = .ok true := by rw [hfil]; rfl
    simp [lastN, runItems, evalItem_nongrouping L ep0 hmode, hfp, he]

theorem ProcessAt_same_tuple_twice_witness :
    singleTupleWindow exRstreamPlan exSrcRel 2
      ∧ Process exSrcLib exRstreamPlan ⟨["src"], ["src"]⟩ (exTuple "src" 1 0)
        = (windowState exRstreamPlan "src" 2 [exTuple "src" 1 0] [exRow 1] [], .ok [exRow 1])
      ∧ (ProcessAt exSrcLib
          (Process exSrcLib exRstreamPlan ⟨["src"], ["src"]⟩ (exTuple "src" 1 0)).1
          ⟨["src"], ["src"]⟩ (exTuple "src" 1 0) []).2 = .ok [exRow 1, exRow 1]
      ∧ (ProcessAt exSrcLib
          (Process exSrcLib exRstreamPlan ⟨["src"], ["src"]⟩ (exTuple "src" 1 0)).1
          ⟨["src"], ["src"]⟩ (nestUnder "src" (exTuple "src" 1 0)) [("src", 0)]).2
        = .error (Failure.error (Err.external "no such column")) :=
  have hw : singleTupleWindow exRstreamPlan exSrcRel 2 :=
    ⟨rfl, rfl, rfl, by decide, rfl, rfl, rfl, rfl, rfl, rfl, rfl⟩
  ⟨hw,
    (ProcessAt_same_tuple_twice exSrcLib exRstreamPlan exSrcRel hw rfl (exTuple "src" 1 0) rfl
      (exRow 1) rfl).1,
    (ProcessAt_same_tuple_twice exSrcLib exRstreamPlan exSrcRel hw rfl (exTuple "src" 1 0) rfl
      (exRow 1) rfl).2.1,
    (ProcessAt_same_tuple_twice exSrcLib exRstreamPlan exSrcRel hw rfl (exTuple "src" 1 0) rfl
      (exRow 1) rfl).2.2.2.2.2.1 (Err.external "no such column") rfl⟩

/-! ## C32 -/

theorem rowEq_symm (d d1 : Map) (h : rowEq d d1) : rowEq d1 d := fun k => (h k).symm

theorem rowEq_trans (d d1 d2 : Map) (h : rowEq d d1) (h1 : rowEq d1 d2) : rowEq d d2 :=
  fun k => (h k).trans (h1 k)

end GroupbyPlan
